import Mathlib

/-!
# odahu-flow: model-training repository over PostgreSQL

Shallow embedding of `packages/operator/pkg/repository/training/postgres/model_training.go`
(type `TrainingRepo`) together with the relational table it talks to.

* The table `odahu_operator_training` is a list of rows; the storage engine is a
  function from a table and a statement to a result and a new table.
* Every repository method is a function of the table seen through its `Querier`
  (the pool, or the transaction handle when one is supplied) and returns the Go
  result values together with the table after the call.
* Failures of the storage layer are inputs (`Faults`): each call site that can
  return an error in the Go code reads its own field.
-/

namespace Odahuflow

/-! ## Values, errors, entities -/

/-- Serialized payload of a JSONB column, as handed to `Scan` and produced by `Value`. -/
abbrev Blob := String

/-- Timestamp values of the `created`, `updated` and `datetime` columns: a value stands for
a point in time at the precision that the store keeps (microseconds, without zone), which
is what `TestRaiseEvent` rounds a `time.Time` to before it stores and compares it
(publisher_test.go 71 and 113). -/
abbrev Time := Int

/-- Go `error` values that can flow through the repository layer. -/
inductive GoError where
  /-- The value `odahuErrors.NotFoundError{Entity}`. -/
  | NotFoundError (Entity : String)
  /-- The value `odahuErrors.AlreadyExistError{Entity}`. -/
  | AlreadyExistError (Entity : String)
  /-- The value `odahuErrors.ForbiddenError`. -/
  | ForbiddenError (Message : String)
  /-- The value `odahuErrors.SerializationError`. -/
  | SerializationError (Message : String)
  /-- The value `sql.ErrNoRows`. -/
  | ErrNoRows
  /-- A `*pq.Error` carrying an SQLSTATE code. -/
  | pqError (Code : String)
  /-- Any other error value (connection failure, cancelled context, `errors.New`, JSON errors) -/
  | other (msg : String)
  /-- The error that `Rows.Scan` of `database/sql` returns when the `Scan` method of a
  destination fails: `sql: Scan error on column index <index>, name "<name>": <cause>`. -/
  | scanError (index : Nat) (name : String) (cause : GoError)
  /-- The error that `ExecContext` of `database/sql` returns when the `Value` method of an
  argument fails: `sql: converting argument $<ordinal> type: <cause>`. -/
  | argumentError (ordinal : Nat) (cause : GoError)
  deriving DecidableEq, Repr

/-- Entity `training.ModelTraining`; `σ` and `τ` stand for `v1alpha1.ModelTrainingSpec` and
`v1alpha1.ModelTrainingStatus`. -/
structure ModelTraining (σ τ : Type) where
  ID : String
  DeletionMark : Bool
  CreatedAt : Time
  UpdatedAt : Time
  Spec : σ
  Status : τ
  deriving DecidableEq, Repr

/-- One row of `odahu_operator_training`
(columns `id, spec, status, deletionmark, created, updated`). -/
structure Row where
  id : String
  spec : Blob
  status : Blob
  deletionmark : Bool
  created : Time
  updated : Time
  deriving DecidableEq, Repr

/-- Contents of the table as seen through a `Querier`. -/
abbrev Table := List Row

/-- The primary-key constraint on column `id`. -/
def PrimaryKey (t : Table) : Prop := (t.map Row.id).Nodup

instance (t : Table) : Decidable (PrimaryKey t) := by
  unfold PrimaryKey; infer_instance

/-- The `driver.Valuer` / `sql.Scanner` pair of a payload type: `Value` is the method
`Value()`, `Scan` is the method `Scan` applied to a freshly allocated receiver. -/
structure Codec (α : Type) where
  Value : α → Except GoError Blob
  Scan : Blob → Except GoError α

/-- Errors injected at the call sites of the storage layer; `none` means the call succeeds. -/
structure Faults where
  /-- Error returned by the statement builder's `ToSql`. -/
  toSql : Option GoError
  /-- Error returned by `ExecContext`, `QueryContext` or `QueryRowContext`. -/
  query : Option GoError
  /-- Error returned by `result.RowsAffected`. -/
  rowsAffected : Option GoError
  /-- Error reported by `rows.Err` once iteration stops. -/
  rowsErr : Option GoError
  /-- Error returned by `rows.Close` on a row set that is still open. -/
  rowsClose : Option GoError
  deriving DecidableEq, Repr

/-- The storage layer never fails. -/
def Faults.none : Faults :=
  { toSql := Option.none, query := Option.none, rowsAffected := Option.none,
    rowsErr := Option.none, rowsClose := Option.none }

/-! ## Machine integers -/

/-- Wrap-around of Go `int` (signed 64-bit) arithmetic. -/
def int64 (x : Int) : Int := (x + 2 ^ 63) % 2 ^ 64 - 2 ^ 63

/-- Conversion `uint64(x)` of a Go `int`. -/
def uint64 (x : Int) : Nat := (x % 2 ^ 64).toNat

/-! ## Ordering of the `id` column -/

/-- Lexicographic comparison of code-point sequences. -/
def lexLE : List Char → List Char → Bool
  | [], _ => true
  | _ :: _, [] => false
  | x :: xs, y :: ys =>
    if x.toNat < y.toNat then true
    else if y.toNat < x.toNat then false
    else lexLE xs ys

/-- Order used by `ORDER BY id`: `a` sorts no later than `b`. -/
def idLE (a b : String) : Bool := lexLE a.toList b.toList

/-- Row order induced by `ORDER BY id`. -/
def rowLE (a b : Row) : Prop := idLE a.id b.id = true

instance : DecidableRel rowLE := fun a b => by
  unfold rowLE; infer_instance

/-! ## Statements and the storage engine -/

/-- The `SET` clauses of an `UPDATE`; `none` leaves the column out of the statement. -/
structure SetClauses where
  spec : Option Blob
  status : Option Blob
  updated : Option Time
  deletionmark : Option Bool
  deriving DecidableEq, Repr

/-- Statements run through `ExecContext` on `odahu_operator_training`. -/
inductive Statement where
  /-- Statement `INSERT INTO t (id,spec,status,created,updated) VALUES (...)`. -/
  | insert (id : String) (spec status : Blob) (created updated : Time)
  /-- Statement `UPDATE t SET ... WHERE id = $n`. -/
  | update (set : SetClauses) (id : String)
  /-- Statement `DELETE FROM t WHERE id = $1`. -/
  | delete (id : String)
  deriving DecidableEq, Repr

/-- A `SELECT id, spec, status, deletionmark, created, updated FROM t` under construction:
the `WHERE` conjuncts, whether `ORDER BY id` is present, and `OFFSET` / `LIMIT`. -/
structure SelectBuilder where
  wheres : List (Row → Bool)
  orderById : Bool
  offset : Option Nat
  limit : Option Nat

/-- Modelled from the spec: the package constant `uniqueViolationPostgresCode`, declared
outside the sources at hand. `Save` "fails with `AlreadyExist` if the primary key already
exists", so the constant is the SQLSTATE of `unique_violation`. -/
def uniqueViolationPostgresCode : String := "23505"

/-- Effect of the `SET` clauses on one row. -/
def SetClauses.apply (s : SetClauses) (r : Row) : Row :=
  { id := r.id
    spec := s.spec.getD r.spec
    status := s.status.getD r.status
    deletionmark := s.deletionmark.getD r.deletionmark
    created := r.created
    updated := s.updated.getD r.updated }

/-- The engine runs a statement: the number of affected rows and the new table, or the
error of the statement, in which case nothing is written. `dflt` is the column default
of `deletionmark`, used by `INSERT`, which does not list that column. -/
def Engine.exec (dflt : Bool) (t : Table) : Statement → Except GoError (Nat × Table)
  | .insert id spec status created updated =>
    if t.any (fun r => r.id = id) then .error (.pqError "23505")
    else .ok (1, t ++ [{ id := id, spec := spec, status := status, deletionmark := dflt,
                         created := created, updated := updated }])
  | .update set id =>
    .ok ((t.filter (fun r => r.id = id)).length,
         t.map (fun r => if r.id = id then set.apply r else r))
  | .delete id =>
    .ok ((t.filter (fun r => r.id = id)).length, t.filter (fun r => ¬ r.id = id))

/-- The engine evaluates a select: `WHERE`, then `ORDER BY id`, then `OFFSET`, then `LIMIT`. -/
def Engine.select (t : Table) (sb : SelectBuilder) : List Row :=
  let matching := t.filter (fun r => sb.wheres.all (fun p => p r))
  let ordered := if sb.orderById then matching.insertionSort rowLE else matching
  let skipped := match sb.offset with
    | some n => ordered.drop n
    | Option.none => ordered
  match sb.limit with
  | some n => skipped.take n
  | Option.none => skipped

/-- Method `ExecContext`: fails with the injected error without touching the table, otherwise
hands the statement to the engine. -/
def ExecContext (dflt : Bool) (fl : Faults) (qrr : Table) (stmt : Statement) :
    Except GoError (Nat × Table) :=
  match fl.query with
  | some err => .error err
  | Option.none => Engine.exec dflt qrr stmt

/-- Method `result.RowsAffected()`. -/
def RowsAffected (fl : Faults) (rows : Nat) : Except GoError Nat :=
  match fl.rowsAffected with
  | some err => .error err
  | Option.none => .ok rows

/-! ## Repository environment -/

/-- What the repository is linked against: the `Value`/`Scan` methods of the spec and
status types, the column default of `deletionmark`, the filter compiler behind
`utils.TransformFilter`, and the package variables `FirstPage` and `MaxSize`. -/
structure Env (σ τ φ : Type) where
  spec : Codec σ
  status : Codec τ
  deletionMarkDefault : Bool
  compileFilter : φ → List (Row → Bool)
  FirstPage : Int
  MaxSize : Int

variable {σ τ φ : Type}

/-- The call `rows.Scan(&mt.ID, &mt.Spec, &mt.Status, &mt.DeletionMark, &mt.CreatedAt, &mt.UpdatedAt)`
into a fresh `ModelTraining`. The destinations `&mt.Spec` and `&mt.Status` are scanners:
`database/sql` calls their `Scan` method and, when it fails, returns its own error around
the cause, naming the column by index and name. -/
def scanRow (env : Env σ τ φ) (r : Row) : Except GoError (ModelTraining σ τ) :=
  match env.spec.Scan r.spec with
  | .error err => .error (.scanError 1 "spec" err)
  | .ok spec =>
    match env.status.Scan r.status with
    | .error err => .error (.scanError 2 "status" err)
    | .ok status =>
      .ok { ID := r.id, Spec := spec, Status := status, DeletionMark := r.deletionmark,
            CreatedAt := r.created, UpdatedAt := r.updated }

/-- The call `QueryRowContext(...).Scan(...)`: the query error, `sql.ErrNoRows` when the result set
is empty, the scan error, the error of closing the row set, or the scanned entity. -/
def QueryRowScan (env : Env σ τ φ) (fl : Faults) (qrr : Table) (sb : SelectBuilder) :
    Except GoError (ModelTraining σ τ) :=
  match fl.query with
  | some err => .error err
  | Option.none =>
    match Engine.select qrr sb with
    | [] =>
      match fl.rowsErr with
      | some err => .error err
      | Option.none => .error .ErrNoRows
    | r :: _ =>
      match scanRow env r with
      | .error err => .error err
      | .ok mt =>
        match fl.rowsClose with
        | some err => .error err
        | Option.none => .ok mt

/-! ## TrainingRepo -/

/-- Method `TrainingRepo.GetModelTraining` (lines 32-69): the returned entity (`none` for
`nil`) and error. -/
def GetModelTraining (env : Env σ τ φ) (fl : Faults) (qrr : Table) (id : String) :
    Option (ModelTraining σ τ) × Option GoError :=
  let sb : SelectBuilder :=
    { wheres := [fun r => r.id = id], orderById := false,
      offset := Option.none, limit := Option.none }
  match fl.toSql with
  | some err => (Option.none, some err)
  | Option.none =>
    match QueryRowScan env fl qrr sb with
    | .error .ErrNoRows => (Option.none, some (.NotFoundError id))
    | .error err => (Option.none, some err)
    | .ok mt => (some mt, Option.none)

/-- Method `TrainingRepo.SaveModelTraining` (lines 249-282): the returned error and the
table afterwards. The arguments `mt.Spec` and `mt.Status` are valuers: `ExecContext` calls
their `Value` method before the statement is sent and, when it fails, returns its own
error around the cause, naming the argument by its ordinal. -/
def SaveModelTraining (env : Env σ τ φ) (fl : Faults) (qrr : Table) (mt : ModelTraining σ τ) :
    Option GoError × Table :=
  match fl.toSql with
  | some err => (some err, qrr)
  | Option.none =>
    match env.spec.Value mt.Spec with
    | .error err => (some (.argumentError 2 err), qrr)
    | .ok spec =>
      match env.status.Value mt.Status with
      | .error err => (some (.argumentError 3 err), qrr)
      | .ok status =>
        match ExecContext env.deletionMarkDefault fl qrr
            (.insert mt.ID spec status mt.CreatedAt mt.UpdatedAt) with
        | .error err =>
          match err with
          | .pqError code =>
            if code = uniqueViolationPostgresCode then (some (.AlreadyExistError mt.ID), qrr)
            else (some err, qrr)
          | _ => (some err, qrr)
        | .ok (_, qrr') => (Option.none, qrr')

/-- Method `TrainingRepo.DeleteModelTraining` (lines 133-163). -/
def DeleteModelTraining (env : Env σ τ φ) (fl : Faults) (qrr : Table) (id : String) :
    Option GoError × Table :=
  match fl.toSql with
  | some err => (some err, qrr)
  | Option.none =>
    match ExecContext env.deletionMarkDefault fl qrr (.delete id) with
    | .error err => (some err, qrr)
    | .ok (affected, qrr') =>
      match RowsAffected fl affected with
      | .error err => (some err, qrr')
      | .ok rows =>
        if rows = 0 then (some (.NotFoundError id), qrr')
        else (Option.none, qrr')

/-- Modelled from the spec: `utils.SetDeletionMark` of `repository/util/postgres`, which is
not part of the sources at hand. "Same not-found semantics as Update, scoped to the single
boolean column": one `UPDATE table SET deletionmark = value WHERE id = id`, and
`NotFoundError` when no row was affected. -/
def utils.SetDeletionMark (dflt : Bool) (fl : Faults) (qrr : Table) (id : String)
    (value : Bool) : Option GoError × Table :=
  match fl.toSql with
  | some err => (some err, qrr)
  | Option.none =>
    match ExecContext dflt fl qrr
        (.update { spec := Option.none, status := Option.none, updated := Option.none,
                   deletionmark := some value } id) with
    | .error err => (some err, qrr)
    | .ok (affected, qrr') =>
      match RowsAffected fl affected with
      | .error err => (some err, qrr')
      | .ok rows =>
        if rows = 0 then (some (.NotFoundError id), qrr')
        else (Option.none, qrr')

/-- Method `TrainingRepo.SetDeletionMark` (lines 165-174). -/
def SetDeletionMark (env : Env σ τ φ) (fl : Faults) (qrr : Table) (id : String)
    (value : Bool) : Option GoError × Table :=
  utils.SetDeletionMark env.deletionMarkDefault fl qrr id value

/-- Method `TrainingRepo.UpdateModelTraining` (lines 176-211). A failing `Value` of an
argument is reported by `ExecContext` as for `SaveModelTraining`. -/
def UpdateModelTraining (env : Env σ τ φ) (fl : Faults) (qrr : Table)
    (mt : ModelTraining σ τ) : Option GoError × Table :=
  match fl.toSql with
  | some err => (some err, qrr)
  | Option.none =>
    match env.spec.Value mt.Spec with
    | .error err => (some (.argumentError 1 err), qrr)
    | .ok spec =>
      match env.status.Value mt.Status with
      | .error err => (some (.argumentError 2 err), qrr)
      | .ok status =>
        match ExecContext env.deletionMarkDefault fl qrr
            (.update { spec := some spec, status := some status, updated := some mt.UpdatedAt,
                       deletionmark := Option.none } mt.ID) with
        | .error err => (some err, qrr)
        | .ok (affected, qrr') =>
          match RowsAffected fl affected with
          | .error err => (some err, qrr')
          | .ok rows =>
            if rows = 0 then (some (.NotFoundError mt.ID), qrr')
            else (Option.none, qrr')

/-- Method `TrainingRepo.UpdateModelTrainingStatus` (lines 213-247). A failing `Value` of
the argument is reported by `ExecContext` as for `SaveModelTraining`. -/
def UpdateModelTrainingStatus (env : Env σ τ φ) (fl : Faults) (qrr : Table) (id : String)
    (s : τ) : Option GoError × Table :=
  match fl.toSql with
  | some err => (some err, qrr)
  | Option.none =>
    match env.status.Value s with
    | .error err => (some (.argumentError 1 err), qrr)
    | .ok status =>
      match ExecContext env.deletionMarkDefault fl qrr
          (.update { spec := Option.none, status := some status, updated := Option.none,
                     deletionmark := Option.none } id) with
      | .error err => (some err, qrr)
      | .ok (affected, qrr') =>
        match RowsAffected fl affected with
        | .error err => (some err, qrr')
        | .ok rows =>
          if rows = 0 then (some (.NotFoundError id), qrr')
          else (Option.none, qrr')

/-! ### Listing -/

/-- Modelled from the spec: `filter.ListOptions` of `pkg/utils/filter`, which is not part of
the sources at hand: the filter object (`nil` when absent), the page and the size that
`List(filter, page, size)` works with. -/
structure ListOptions (φ : Type) where
  Filter : Option φ
  Page : Int
  Size : Int

/-- Modelled from the spec: `filter.ListOption` of `pkg/utils/filter`, a function that edits
the options in place (`option(listOptions)`). -/
abbrev ListOption (φ : Type) := ListOptions φ → ListOptions φ

/-- Modelled from the spec: `filter.ListFilter(f)` of `pkg/utils/filter`, the option that
supplies the filter object. -/
def ListFilter (f : φ) : ListOption φ := fun args => { args with Filter := some f }

/-- Modelled from the spec: `filter.Page(page)` of `pkg/utils/filter`, the option that
supplies the page. -/
def Page (page : Int) : ListOption φ := fun args => { args with Page := page }

/-- Modelled from the spec: `filter.Size(size)` of `pkg/utils/filter`, the option that
supplies the size. -/
def Size (size : Int) : ListOption φ := fun args => { args with Size := size }

/-- Modelled from the spec: `utils.TransformFilter` of `repository/util/postgres`, which is
not part of the sources at hand. The populated, allow-listed attributes of the filter
object contribute predicates that are combined with logical AND; a `nil` filter
contributes nothing. -/
def utils.TransformFilter (compile : φ → List (Row → Bool)) (sb : SelectBuilder)
    (filter : Option φ) : SelectBuilder :=
  match filter with
  | Option.none => sb
  | some f => { sb with wheres := sb.wheres ++ compile f }

/-- The loop `for rows.Next() { ...Scan...; mts = append(mts, *mt) }`: the first scan
error stops it. -/
def scanRows (env : Env σ τ φ) :
    List Row → List (ModelTraining σ τ) → Except GoError (List (ModelTraining σ τ))
  | [], mts => .ok mts
  | r :: rows, mts =>
    match scanRow env r with
    | .error err => .error err
    | .ok mt => scanRows env rows (mts ++ [mt])

/-- The options of a call (lines 80-87): the defaults `Filter: nil`, `Page: &FirstPage`,
`Size: &MaxSize`, edited by each supplied option in turn. -/
def applyOptions (env : Env σ τ φ) (options : List (ListOption φ)) : ListOptions φ :=
  options.foldl (fun args option => option args)
    { Filter := Option.none, Page := env.FirstPage, Size := env.MaxSize }

/-- Method `TrainingRepo.GetModelTrainingList` (lines 71-131). The slice is `none` for Go
`nil`. The deferred `rows.Close()` / `rows.Err()` only log; what the deferred
`rows.Close()` reports is `deferredClose`. -/
def GetModelTrainingList (env : Env σ τ φ) (fl : Faults) (qrr : Table)
    (options : List (ListOption φ)) : Option (List (ModelTraining σ τ)) × Option GoError :=
  let listOptions := applyOptions env options
  let offset := int64 (listOptions.Size * listOptions.Page)
  let sb : SelectBuilder :=
    { wheres := [], orderById := true,
      offset := some (uint64 offset), limit := some (uint64 listOptions.Size) }
  let sb := utils.TransformFilter env.compileFilter sb listOptions.Filter
  match fl.toSql with
  | some err => (Option.none, some err)
  | Option.none =>
    match fl.query with
    | some err => (Option.none, some err)
    | Option.none =>
      let rows := Engine.select qrr sb
      match scanRows env rows [] with
      | .error err => (Option.none, some err)
      | .ok mts =>
        match fl.rowsErr with
        | some err => (Option.none, some err)
        | Option.none => (some mts, Option.none)

/-! ## Notions used in the statements: rows that satisfy a filter, the pages `0..k` -/

/-- A row satisfies a filter object when every predicate compiled from it holds; every
row satisfies the absent filter. -/
def satisfies (env : Env σ τ φ) (filter : Option φ) (r : Row) : Bool :=
  match filter with
  | Option.none => true
  | some f => (env.compileFilter f).all (fun p => p r)

/-- The results of the pages `0, 1, ..., k` of a listing, one after the other; the page
option is appended to the given options, so it overrides a page they may carry. `none`
when one of the calls does not return a slice. -/
def pagesUpTo (env : Env σ τ φ) (fl : Faults) (qrr : Table) (options : List (ListOption φ)) :
    Nat → Option (List (ModelTraining σ τ))
  | 0 => (GetModelTrainingList env fl qrr (options ++ [Page (0 : Int)])).1
  | k + 1 =>
    match pagesUpTo env fl qrr options k,
        (GetModelTrainingList env fl qrr (options ++ [Page ((k + 1 : Nat) : Int)])).1 with
    | some before, some last => some (before ++ last)
    | _, _ => Option.none

/-- The rows the engine returns for the statement built by a listing call. -/
def issuedRows (env : Env σ τ φ) (qrr : Table) (options : List (ListOption φ)) : List Row :=
  (((qrr.filter (satisfies env (applyOptions env options).Filter)).insertionSort rowLE).drop
    (uint64 (int64 ((applyOptions env options).Size * (applyOptions env options).Page)))).take
    (uint64 (applyOptions env options).Size)

/-! ## A concrete environment for evaluation -/

/-- Codec of a payload that is its own serialized form. -/
def Codec.plain : Codec String :=
  { Value := fun s => .ok s, Scan := fun b => .ok b }

/-- Environment with plain payloads, `deletionmark` defaulting to `false`, and a filter
object that lists the admissible `spec` values. -/
def Env.plain : Env String String (List String) :=
  { spec := Codec.plain, status := Codec.plain, deletionMarkDefault := false,
    compileFilter := fun specs => [fun r => r.spec ∈ specs],
    FirstPage := 0, MaxSize := 500 }

/-- Sample table with three rows, stored out of `id` order. -/
def sampleTable : Table :=
  [ { id := "m2", spec := "xgboost", status := "running", deletionmark := false,
      created := 10, updated := 11 },
    { id := "m1", spec := "mlflow", status := "succeeded", deletionmark := true,
      created := 5, updated := 7 },
    { id := "m3", spec := "mlflow", status := "failed", deletionmark := false,
      created := 20, updated := 20 } ]

/-- Sample entity whose `ID` is not in `sampleTable`. -/
def sampleNew : ModelTraining String String :=
  { ID := "m4", DeletionMark := false, CreatedAt := 30, UpdatedAt := 31,
    Spec := "mlflow", Status := "scheduling" }


/-- Sample entity with a fresh `ID` and the deletion mark set. -/
def sampleMarked : ModelTraining String String :=
  { ID := "m4", DeletionMark := true, CreatedAt := 30, UpdatedAt := 31,
    Spec := "mlflow", Status := "scheduling" }

/-- The plain environment over a table whose `deletionmark` column defaults to `true`. -/
def Env.plainMarked : Env String String (List String) :=
  { spec := Codec.plain, status := Codec.plain, deletionMarkDefault := true,
    compileFilter := fun specs => [fun r => r.spec ∈ specs],
    FirstPage := 0, MaxSize := 500 }

/-! ## The statement of a listing call -/

/-- The select that a listing call builds (lines 80-96): the options are resolved, the
offset is the Go `int` product `Size * Page`, offset and size go through `uint64(...)`
into `OFFSET` and `LIMIT`, and the filter is compiled into the `WHERE` clause. -/
def listStatement (env : Env σ τ φ) (options : List (ListOption φ)) : SelectBuilder :=
  utils.TransformFilter env.compileFilter
    { wheres := [], orderById := true,
      offset := some (uint64 (int64 ((applyOptions env options).Size *
        (applyOptions env options).Page))),
      limit := some (uint64 (applyOptions env options).Size) }
    (applyOptions env options).Filter

/-- The rest of a listing call once the statement is built (lines 97-130): `ToSql`,
`QueryContext`, the scan loop and the final `rows.Err()`. -/
def runListStatement (env : Env σ τ φ) (fl : Faults) (qrr : Table) (sb : SelectBuilder) :
    Option (List (ModelTraining σ τ)) × Option GoError :=
  match fl.toSql with
  | some err => (Option.none, some err)
  | Option.none =>
    match fl.query with
    | some err => (Option.none, some err)
    | Option.none =>
      match scanRows env (Engine.select qrr sb) [] with
      | .error err => (Option.none, some err)
      | .ok mts =>
        match fl.rowsErr with
        | some err => (Option.none, some err)
        | Option.none => (some mts, Option.none)

/-- The statement that a listing call hands to `QueryContext`, if it gets that far. -/
def issuedStatement (env : Env σ τ φ) (fl : Faults) (options : List (ListOption φ)) :
    Option SelectBuilder :=
  match fl.toSql with
  | some _ => Option.none
  | Option.none => some (listStatement env options)

/-! ## Outbox rows and events -/

/-- Modelled from the spec: the event kinds of `pkg/apis/event`, which is not part of the
sources at hand: "`EventType` (Create | Update | Delete)". -/
inductive EventType where
  | Create
  | Update
  | Delete
  deriving DecidableEq, Repr

/-- Modelled from the spec: `event.Event` of `pkg/apis/event`, which is not part of the
sources at hand, with the fields that `TestRaiseEvent` fills in: `EntityID`, `EventType`,
`EventGroup`, `Datetime` and a `Payload` of type `π`. -/
structure Event (π : Type) where
  EntityID : String
  EventType : EventType
  EventGroup : String
  Datetime : Time
  Payload : π
  deriving DecidableEq, Repr

/-- Modelled from the spec: one row of the outbox table, "columns: `id` (monotonic
primary key), `entity_id`, `event_type`, `event_group`, `datetime`, `payload`
(serialized blob)". -/
structure OutboxRow where
  id : Nat
  entity_id : String
  event_type : EventType
  event_group : String
  datetime : Time
  payload : Blob
  deriving DecidableEq, Repr

/-! ## Connections and transactions -/

/-- The isolation levels of `database/sql`. -/
inductive IsolationLevel where
  | LevelDefault
  | LevelReadUncommitted
  | LevelReadCommitted
  | LevelWriteCommitted
  | LevelRepeatableRead
  | LevelSnapshot
  | LevelSerializable
  | LevelLinearizable
  deriving DecidableEq, Repr

/-- The options `sql.TxOptions` of a transaction. -/
structure TxOptions where
  Isolation : IsolationLevel
  ReadOnly : Bool
  deriving DecidableEq, Repr

/-- The package variable `txOptions` (lines 22-25). -/
def txOptions : TxOptions :=
  { Isolation := IsolationLevel.LevelRepeatableRead, ReadOnly := false }

/-- A `context.Context`, as far as the storage layer looks at it: the error `ctx.Err()`
of a context that is done, or none. -/
structure Context where
  Err : Option GoError
  deriving DecidableEq, Repr

/-- What is behind `repo.DB`: the committed entity table, the committed outbox table,
and the last value handed out by the identity sequence of the outbox `id` column. The
sequence is not transactional: a value handed out is never handed out again. -/
structure Database where
  training : Table
  outbox : List OutboxRow
  outboxSeq : Nat
  deriving DecidableEq, Repr

/-- An open transaction `*sql.Tx`: the options it was opened with, the two tables as the
transaction sees them (its snapshot with its own writes), and whether one of its
statements was rejected by the server, after which the server refuses every further
statement of the transaction. -/
structure Tx where
  opts : TxOptions
  training : Table
  outbox : List OutboxRow
  failed : Bool
  deriving DecidableEq, Repr

/-- The call `repo.DB.BeginTx(ctx, opts)`: fails with the error of a context that is done
or with the error of the engine, and otherwise opens a transaction on the committed
state with the given options. -/
def DB.BeginTx (fault : Option GoError) (db : Database) (ctx : Context) (opts : TxOptions) :
    Option Tx × Option GoError :=
  match ctx.Err with
  | some err => (Option.none, some err)
  | Option.none =>
    match fault with
    | some err => (Option.none, some err)
    | Option.none =>
      (some { opts := opts, training := db.training, outbox := db.outbox, failed := false },
       Option.none)

/-- Method `TrainingRepo.BeginTransaction` (lines 284-286). -/
def BeginTransaction (fault : Option GoError) (db : Database) (ctx : Context) :
    Option Tx × Option GoError :=
  DB.BeginTx fault db ctx txOptions

/-- The error `pq.ErrInFailedTransaction` of a commit in a failed transaction. -/
def ErrInFailedTransaction : GoError :=
  GoError.other "pq: Could not complete operation in a failed transaction"

/-- The call `tx.Commit()`: in a failed transaction the driver rolls back and reports
`ErrInFailedTransaction`; an engine error leaves the committed state as it was;
otherwise the tables of the transaction become the committed tables. -/
def Tx.Commit (fault : Option GoError) (db : Database) (tx : Tx) :
    Option GoError × Database :=
  if tx.failed then (some ErrInFailedTransaction, db)
  else
    match fault with
    | some err => (some err, db)
    | Option.none => (Option.none, { db with training := tx.training, outbox := tx.outbox })

/-- The call `tx.Rollback()`: the committed state stays as it is. -/
def Tx.Rollback (fault : Option GoError) (db : Database) (_tx : Tx) :
    Option GoError × Database :=
  (fault, db)

/-- An error that came from the server for a statement: a `*pq.Error`, or the
`AlreadyExistError` into which `Save` turns the unique violation. -/
def serverError : Option GoError → Bool
  | some (GoError.pqError _) => true
  | some (GoError.AlreadyExistError _) => true
  | _ => false

/-- The faults seen by a statement sent through a transaction: once the transaction has
failed the server answers every statement with SQLSTATE `25P02`
(`in_failed_sql_transaction`). -/
def Tx.faults (tx : Tx) (fl : Faults) : Faults :=
  if tx.failed then { fl with query := some (GoError.pqError "25P02") } else fl

/-- The values a repository method leaves behind: its error, the committed state, and the
transaction handle it was given, if any. -/
structure CallResult where
  err : Option GoError
  db : Database
  tx : Option Tx
  deriving DecidableEq, Repr

/-- The head of every method of `TrainingRepo`: `qrr = repo.DB; if tx != nil { qrr = tx }`,
followed by the body of the method on the entity table seen through `qrr`. Without a
handle the body works on the committed table and its writes are committed at once; with
a handle it works on the table of the transaction. -/
def withQuerier (db : Database) (tx : Option Tx) (fl : Faults)
    (body : Faults → Table → Option GoError × Table) : CallResult :=
  match tx with
  | Option.none =>
    { err := (body fl db.training).1
      db := { db with training := (body fl db.training).2 }
      tx := Option.none }
  | some tx =>
    { err := (body (tx.faults fl) tx.training).1
      db := db
      tx := some { tx with
        training := (body (tx.faults fl) tx.training).2
        failed := tx.failed || serverError (body (tx.faults fl) tx.training).1 } }

/-- Method `TrainingRepo.SaveModelTraining` with its `tx` argument. -/
def TrainingRepo.SaveModelTraining (env : Env σ τ φ) (fl : Faults) (db : Database)
    (tx : Option Tx) (mt : ModelTraining σ τ) : CallResult :=
  withQuerier db tx fl (fun fl qrr => Odahuflow.SaveModelTraining env fl qrr mt)

/-- Method `TrainingRepo.UpdateModelTraining` with its `tx` argument. -/
def TrainingRepo.UpdateModelTraining (env : Env σ τ φ) (fl : Faults) (db : Database)
    (tx : Option Tx) (mt : ModelTraining σ τ) : CallResult :=
  withQuerier db tx fl (fun fl qrr => Odahuflow.UpdateModelTraining env fl qrr mt)

/-- Method `TrainingRepo.UpdateModelTrainingStatus` with its `tx` argument. -/
def TrainingRepo.UpdateModelTrainingStatus (env : Env σ τ φ) (fl : Faults) (db : Database)
    (tx : Option Tx) (id : String) (s : τ) : CallResult :=
  withQuerier db tx fl (fun fl qrr => Odahuflow.UpdateModelTrainingStatus env fl qrr id s)

/-- Method `TrainingRepo.DeleteModelTraining` with its `tx` argument. -/
def TrainingRepo.DeleteModelTraining (env : Env σ τ φ) (fl : Faults) (db : Database)
    (tx : Option Tx) (id : String) : CallResult :=
  withQuerier db tx fl (fun fl qrr => Odahuflow.DeleteModelTraining env fl qrr id)

/-- Method `TrainingRepo.SetDeletionMark` with its `tx` argument. -/
def TrainingRepo.SetDeletionMark (env : Env σ τ φ) (fl : Faults) (db : Database)
    (tx : Option Tx) (id : String) (value : Bool) : CallResult :=
  withQuerier db tx fl (fun fl qrr => Odahuflow.SetDeletionMark env fl qrr id value)

/-- A mutation of the entity store, with its arguments. -/
inductive Mutation (σ τ : Type) where
  | Save (mt : ModelTraining σ τ)
  | Update (mt : ModelTraining σ τ)
  | UpdateStatus (id : String) (s : τ)
  | Delete (id : String)
  | SetDeletionMark (id : String) (value : Bool)

/-- The repository call that a mutation stands for. -/
def Mutation.run (env : Env σ τ φ) (fl : Faults) (db : Database) (tx : Option Tx) :
    Mutation σ τ → CallResult
  | .Save mt => TrainingRepo.SaveModelTraining env fl db tx mt
  | .Update mt => TrainingRepo.UpdateModelTraining env fl db tx mt
  | .UpdateStatus id s => TrainingRepo.UpdateModelTrainingStatus env fl db tx id s
  | .Delete id => TrainingRepo.DeleteModelTraining env fl db tx id
  | .SetDeletionMark id value => TrainingRepo.SetDeletionMark env fl db tx id value

/-- The mutations run one after the other with one transaction handle, each with the
faults the storage layer shows during that call. -/
def runWithTx (env : Env σ τ φ) (db : Database) (tx : Tx) :
    List (Faults × Mutation σ τ) → Database × Tx
  | [] => (db, tx)
  | (fl, m) :: ms =>
    runWithTx env (m.run env fl db (some tx)).db ((m.run env fl db (some tx)).tx.getD tx) ms

/-- The mutations run one after the other with a nil handle. -/
def runWithoutTx (env : Env σ τ φ) (db : Database) :
    List (Faults × Mutation σ τ) → Database
  | [] => db
  | (fl, m) :: ms => runWithoutTx env (m.run env fl db Option.none).db ms

/-- A committed state around the sample table. -/
def sampleDatabase : Database :=
  { training := sampleTable, outbox := [], outboxSeq := 0 }

/-- The body of the method a mutation stands for, on the table seen through `qrr`. -/
def Mutation.body (env : Env σ τ φ) : Mutation σ τ → Faults → Table → Option GoError × Table
  | .Save mt => fun fl qrr => Odahuflow.SaveModelTraining env fl qrr mt
  | .Update mt => fun fl qrr => Odahuflow.UpdateModelTraining env fl qrr mt
  | .UpdateStatus id s => fun fl qrr => Odahuflow.UpdateModelTrainingStatus env fl qrr id s
  | .Delete id => fun fl qrr => Odahuflow.DeleteModelTraining env fl qrr id
  | .SetDeletionMark id value => fun fl qrr => Odahuflow.SetDeletionMark env fl qrr id value

/-- A transaction just opened on `sampleDatabase`. -/
def sampleTx : Tx :=
  { opts := txOptions, training := sampleTable, outbox := [], failed := false }

/-- Two mutations of stored rows: an update of `m1` and a delete of `m2`. -/
def sampleMutations : List (Faults × Mutation String String) :=
  [ (Faults.none, Mutation.Update { sampleNew with ID := "m1" }),
    (Faults.none, Mutation.Delete "m2") ]

/-- A save under the stored `ID` `m1`, which the server rejects, followed by a delete. -/
def sampleRejected : List (Faults × Mutation String String) :=
  [ (Faults.none, Mutation.Save { sampleNew with ID := "m1" }),
    (Faults.none, Mutation.Delete "m2") ]

/-- Codec of a payload kept as JSON text, after the shape of `ModelPackagingSpec.Scan`
(model_packaging.go 68-75): `Scan` hands back the error of `json.Unmarshal` as it is
when the text is not a JSON object. -/
def Codec.object : Codec String :=
  { Value := fun s => .ok s
    Scan := fun b =>
      match b.toList with
      | [] => .error (GoError.other "unexpected end of JSON input")
      | c :: _ =>
        if c.toNat = 123 then .ok b
        else .error (GoError.other "invalid character looking for beginning of value") }

/-- The plain environment with a spec that must be a JSON object. -/
def Env.object : Env String String (List String) :=
  { spec := Codec.object, status := Codec.plain, deletionMarkDefault := false,
    compileFilter := fun specs => [fun r => r.spec ∈ specs],
    FirstPage := 0, MaxSize := 500 }

/-- An error of the Serialization kind. -/
def isSerializationError : Option GoError → Bool
  | some (GoError.SerializationError _) => true
  | _ => false

/-- The storage layer works, except that closing a row set that is still open reports an
error. -/
def Faults.closeOnly : Faults :=
  { Faults.none with rowsClose := some (GoError.other "close: connection reset by peer") }

/-- The common tail of Delete, Update, UpdateStatus and SetDeletionMark: `ExecContext`,
then `RowsAffected`, then `NotFoundError` when no row was affected. -/
def execAndCount (dflt : Bool) (fl : Faults) (qrr : Table) (stmt : Statement) (id : String) :
    Option GoError × Table :=
  match ExecContext dflt fl qrr stmt with
  | .error err => (some err, qrr)
  | .ok (affected, qrr') =>
    match RowsAffected fl affected with
    | .error err => (some err, qrr')
    | .ok rows =>
      if rows = 0 then (some (GoError.NotFoundError id), qrr')
      else (Option.none, qrr')

/-! ## Outbox: appending, reading, publishing -/

/-- Order of the outbox rows by the identity column. -/
def outboxLE (a b : OutboxRow) : Prop := a.id ≤ b.id

instance : DecidableRel outboxLE := fun a b => by
  unfold outboxLE; infer_instance

/-- Modelled from the spec: which rows the publishing of an event takes out of the outbox.
`EventPublisher.PublishEvent` of `repository/outbox` is not part of the sources at hand;
its one test is. `TestRaiseEvent` (publisher_test.go 65-123) publishes `(CustomID,
Create)`, `(CustomID-2, Create)` and `(CustomID, Delete)`, all in one group, and then
reads exactly two rows, those of the second and of the third event: publishing the
`Delete` event of an entity takes the rows of that entity out. The model takes out the
rows with the `entity_id` and the `event_group` of a `Delete` event and no other row. -/
def Event.supersedes {π : Type} (event : Event π) (r : OutboxRow) : Bool :=
  decide (event.EventType = EventType.Delete) && decide (r.entity_id = event.EntityID) &&
    decide (r.event_group = event.EventGroup)

/-- Modelled from the spec: the body of `EventPublisher.PublishEvent` of
`repository/outbox`, which is not part of the sources at hand, on the outbox table seen
through the `Querier`: "appends one row to the outbox table", whose `ID` is a
"monotonically increasing identity assigned by the store at insert time", here the next
value `seq + 1` of the sequence; and, as `TestRaiseEvent` shows, the rows that the event
supersedes are taken out. As every method "returns the precise typed error to its
caller", a failure of building the statement, of serializing the payload, which
`ExecContext` reports for the fifth argument, or of executing is returned and the table
is left as it was. The result is the error, the sequence and the table afterwards. -/
def PublishEvent {π : Type} (payload : Codec π) (fl : Faults) (seq : Nat)
    (qrr : List OutboxRow) (event : Event π) : Option GoError × Nat × List OutboxRow :=
  match fl.toSql with
  | some err => (some err, seq, qrr)
  | Option.none =>
    match payload.Value event.Payload with
    | .error err => (some (.argumentError 5 err), seq, qrr)
    | .ok blob =>
      match fl.query with
      | some err => (some err, seq, qrr)
      | Option.none =>
        (Option.none, seq + 1,
         qrr.filter (fun r => !event.supersedes r) ++
           [{ id := seq + 1, entity_id := event.EntityID, event_type := event.EventType,
              event_group := event.EventGroup, datetime := event.Datetime,
              payload := blob }])

/-- Modelled from the spec: `EventPublisher.PublishEvent(ctx, tx, event)` with its `tx`
argument. "If `tx` is supplied, the insert is part of that transaction"; "if `tx` is
nil, the insert commits immediately as an independent unit". The sequence belongs to
the database and moves on in either case. -/
def EventPublisher.PublishEvent {π : Type} (payload : Codec π) (fl : Faults) (db : Database)
    (tx : Option Tx) (event : Event π) : CallResult :=
  match tx with
  | Option.none =>
    { err := (Odahuflow.PublishEvent payload fl db.outboxSeq db.outbox event).1
      db := { db with
        outboxSeq := (Odahuflow.PublishEvent payload fl db.outboxSeq db.outbox event).2.1
        outbox := (Odahuflow.PublishEvent payload fl db.outboxSeq db.outbox event).2.2 }
      tx := Option.none }
  | some tx =>
    { err := (Odahuflow.PublishEvent payload (tx.faults fl) db.outboxSeq tx.outbox event).1
      db := { db with
        outboxSeq := (Odahuflow.PublishEvent payload (tx.faults fl) db.outboxSeq tx.outbox event).2.1 }
      tx := some { tx with
        outbox := (Odahuflow.PublishEvent payload (tx.faults fl) db.outboxSeq tx.outbox event).2.2
        failed := tx.failed ||
          serverError (Odahuflow.PublishEvent payload (tx.faults fl) db.outboxSeq tx.outbox event).1 } }

/-- The scan of one outbox row in `TestRaiseEvent` (lines 110-114):
`rows.Scan(&e.EntityID, &e.EventType, &e.EventGroup, &e.Datetime, &p)` and
`e.Payload = p`; a failing `Scan` of the payload is reported by `rows.Scan` for the
fifth column. -/
def scanEvent {π : Type} (payload : Codec π) (r : OutboxRow) : Except GoError (Event π) :=
  match payload.Scan r.payload with
  | .error err => .error (.scanError 4 "payload" err)
  | .ok p =>
    .ok { EntityID := r.entity_id, EventType := r.event_type, EventGroup := r.event_group,
          Datetime := r.datetime, Payload := p }

/-- The scan of the rows of a result set, one after the other. -/
def scanEvents {π : Type} (payload : Codec π) : List OutboxRow → Except GoError (List (Event π))
  | [] => .ok []
  | r :: rows =>
    match scanEvent payload r with
    | .error err => .error err
    | .ok e =>
      match scanEvents payload rows with
      | .error err => .error err
      | .ok es => .ok (e :: es)

/-- The select of `TestRaiseEvent` (lines 95-123): the columns `entity_id, event_type,
event_group, datetime, payload` of the outbox rows, ordered by `id`, each row scanned
into an event. -/
def selectEvents {π : Type} (payload : Codec π) (outbox : List OutboxRow) :
    Except GoError (List (Event π)) :=
  scanEvents payload (outbox.insertionSort outboxLE)

/-- The events published one after the other with a nil handle and a working storage
layer: the errors of the calls, in order, and the database afterwards. -/
def publishAll {π : Type} (payload : Codec π) (db : Database) :
    List (Event π) → List (Option GoError) × Database
  | [] => ([], db)
  | e :: es =>
    ((EventPublisher.PublishEvent payload Faults.none db Option.none e).err ::
       (publishAll payload (EventPublisher.PublishEvent payload Faults.none db
          Option.none e).db es).1,
     (publishAll payload (EventPublisher.PublishEvent payload Faults.none db
        Option.none e).db es).2)

/-- A call made with a transaction handle: a mutation of the entity store or the
publishing of an event. -/
inductive Op (σ τ π : Type) where
  | mutate (m : Mutation σ τ)
  | publish (event : Event π)

/-- The repository call that an operation stands for. -/
def Op.run {π : Type} (env : Env σ τ φ) (payload : Codec π) (fl : Faults) (db : Database)
    (tx : Option Tx) : Op σ τ π → CallResult
  | .mutate m => m.run env fl db tx
  | .publish event => EventPublisher.PublishEvent payload fl db tx event

/-- The operations run one after the other with one transaction handle. -/
def runOpsWithTx {π : Type} (env : Env σ τ φ) (payload : Codec π) (db : Database) (tx : Tx) :
    List (Faults × Op σ τ π) → Database × Tx
  | [] => (db, tx)
  | (fl, op) :: ops =>
    runOpsWithTx env payload (op.run env payload fl db (some tx)).db
      ((op.run env payload fl db (some tx)).tx.getD tx) ops

/-- Every row of the committed outbox got its `id` from the sequence. -/
def Database.WellFormed (db : Database) : Prop := ∀ r ∈ db.outbox, r.id ≤ db.outboxSeq

/-- One step of reading a Go string, which is a sequence of bytes that need not be valid
UTF-8, the way `encoding/json` and `range` read it (`utf8.DecodeRuneInString`): a
character in its UTF-8 encoding, or a byte that is not part of such an encoding. -/
inductive GoStringPart where
  | rune (c : Char)
  | byte (b : Nat)
  deriving DecidableEq, Repr

/-- A Go string, cut into the characters it encodes and the bytes in between that encode
none. -/
abbrev GoString := List GoStringPart

/-- The Go string that holds the UTF-8 encoding of a text. -/
def GoString.ofString (s : String) : GoString := s.toList.map GoStringPart.rune

/-- The payload of `TestRaiseEvent` (lines 48-50). -/
structure CustomPayload where
  Name : GoString
  deriving DecidableEq, Repr

/-- The event `event1` of `TestRaiseEvent`, published at time 1. -/
def event1 : Event CustomPayload :=
  { EntityID := "CustomID", EventType := EventType.Create, EventGroup := "CustomEventGroup",
    Datetime := 1, Payload := { Name := GoString.ofString "test" } }

/-- The event `event2` of `TestRaiseEvent`, published at time 2. -/
def event2 : Event CustomPayload :=
  { EntityID := "CustomID-2", EventType := EventType.Create,
    EventGroup := "CustomEventGroup", Datetime := 2,
    Payload := { Name := GoString.ofString "test" } }

/-- The event `event1Delete` of `TestRaiseEvent`, published at time 3. -/
def event1Delete : Event CustomPayload :=
  { EntityID := "CustomID", EventType := EventType.Delete, EventGroup := "CustomEventGroup",
    Datetime := 3, Payload := { Name := GoString.ofString "test" } }

/-- A database with an empty outbox. -/
def emptyDatabase : Database := { training := [], outbox := [], outboxSeq := 0 }

instance (db : Database) : Decidable db.WellFormed := by
  unfold Database.WellFormed; infer_instance

/-- A database whose outbox holds the row of `event2`, committed earlier. -/
def sampleOutboxDatabase : Database :=
  { training := []
    outbox := [{ id := 1, entity_id := "CustomID-2", event_type := EventType.Create,
                 event_group := "CustomEventGroup", datetime := 2,
                 payload := "\x7b\"name\":\"test\"\x7d" }]
    outboxSeq := 1 }

/-- A transaction just opened on `sampleOutboxDatabase`. -/
def sampleOutboxTx : Tx :=
  { opts := txOptions, training := sampleOutboxDatabase.training,
    outbox := sampleOutboxDatabase.outbox, failed := false }

/-! ## Publisher -/

/-- The row that stores an event under a given `id`, with the payload serialized. -/
def Event.row {π : Type} (event : Event π) (id : Nat) (blob : Blob) : OutboxRow :=
  { id := id, entity_id := event.EntityID, event_type := event.EventType,
    event_group := event.EventGroup, datetime := event.Datetime, payload := blob }

/-- Modelled from the spec: what the Publisher loop of `repository/outbox`, which is not
part of the sources at hand, works on and leaves behind: the committed outbox with its
sequence, the rows forwarded to the sink so far, oldest first, and the rows the sink
has acknowledged. -/
structure OutboxSystem where
  outbox : List OutboxRow
  seq : Nat
  sink : List OutboxRow
  acked : List OutboxRow
  deriving DecidableEq, Repr

/-- Modelled from the spec: one pass of the Publisher loop, which "selects the oldest
undelivered rows ordered by the identity column, forwards each to the external sink,
and deletes (or marks delivered) only after the sink acknowledges". The batch size is
"externally tunable"; `ack` tells which rows the sink acknowledges in this pass. -/
def Publisher.poll (batch : Nat) (ack : OutboxRow → Bool) (s : OutboxSystem) :
    OutboxSystem :=
  { outbox := s.outbox.filter (fun r =>
      decide (¬ (r ∈ (s.outbox.insertionSort outboxLE).take batch ∧ ack r = true)))
    seq := s.seq
    sink := s.sink ++ (s.outbox.insertionSort outboxLE).take batch
    acked := s.acked ++ ((s.outbox.insertionSort outboxLE).take batch).filter ack }

/-- What happens to the outbox, one thing at a time: an event is published and committed,
or the Publisher makes a pass. -/
inductive Step (π : Type) where
  | publish (event : Event π)
  | poll (batch : Nat) (ack : OutboxRow → Bool)

/-- A step is a pass of the Publisher. -/
def Step.isPoll {π : Type} : Step π → Bool
  | .publish _ => false
  | .poll _ _ => true

/-- The effect of one step, with the storage layer working. -/
def Step.run {π : Type} (payload : Codec π) (s : OutboxSystem) : Step π → OutboxSystem
  | .publish event =>
    { s with
      seq := (PublishEvent payload Faults.none s.seq s.outbox event).2.1
      outbox := (PublishEvent payload Faults.none s.seq s.outbox event).2.2 }
  | .poll batch ack => Publisher.poll batch ack s

/-- The effect of the steps, one after the other. -/
def runSteps {π : Type} (payload : Codec π) (s : OutboxSystem) (steps : List (Step π)) :
    OutboxSystem :=
  steps.foldl (Step.run payload) s

/-- Every id in the outbox, in the sink and among the acknowledged rows came from the
sequence, and no row of the outbox has been acknowledged. -/
def OutboxSystem.WellFormed (s : OutboxSystem) : Prop :=
  (∀ r ∈ s.outbox, r.id ≤ s.seq) ∧ (∀ r ∈ s.sink, r.id ≤ s.seq) ∧
  (∀ r ∈ s.acked, r.id ≤ s.seq) ∧ (∀ r ∈ s.outbox, r ∉ s.acked)

instance (s : OutboxSystem) : Decidable s.WellFormed := by
  unfold OutboxSystem.WellFormed; infer_instance

/-- The outbox before anything was published. -/
def OutboxSystem.empty : OutboxSystem := { outbox := [], seq := 0, sink := [], acked := [] }

/-- A pass of the Publisher over up to ten rows, every one of which the sink
acknowledges. -/
def pollAll : Step CustomPayload := Step.poll 10 (fun _ => true)

/-! ## The insert of a save -/

/-- The statement that `SaveModelTraining` hands to `ExecContext` (lines 257-272), if the
call gets that far: the insert into the columns `id, spec, status, created, updated` with
the values `mt.ID, mt.Spec, mt.Status, mt.CreatedAt, mt.UpdatedAt`, the two payloads
serialized by their `Value` methods. -/
def saveInsert (env : Env σ τ φ) (fl : Faults) (mt : ModelTraining σ τ) : Option Statement :=
  match fl.toSql with
  | some _ => Option.none
  | Option.none =>
    match env.spec.Value mt.Spec with
    | .error _ => Option.none
    | .ok spec =>
      match env.status.Value mt.Status with
      | .error _ => Option.none
      | .ok status => some (.insert mt.ID spec status mt.CreatedAt mt.UpdatedAt)

/-- What `SaveModelTraining` makes of the answer of `ExecContext` (lines 273-280): a
unique violation becomes `AlreadyExistError`, any other error is returned as it is. -/
def saveResult (id : String) (qrr : Table) :
    Except GoError (Nat × Table) → Option GoError × Table
  | .error (.pqError code) =>
    if code = uniqueViolationPostgresCode then (some (.AlreadyExistError id), qrr)
    else (some (.pqError code), qrr)
  | .error err => (some err, qrr)
  | .ok (_, qrr') => (Option.none, qrr')

/-! ## Model packaging: JSON documents and Go values -/

/-- A JSON document as `encoding/json` writes and reads it. The members of an object are
kept in document order. Numbers are modelled by the integers. -/
inductive JSON where
  | null
  | bool (b : Bool)
  | number (n : Int)
  | string (s : String)
  | array (elems : List JSON)
  | object (members : List (String × JSON))
  deriving Repr

/-- A Go value held in an `interface{}`, as far as `encoding/json` tells values apart:
`nil`, a `bool`, an `int`, a `float64` (one that holds an integer of magnitude below
`2^53`), a `string` (one that is valid UTF-8), a non-nil `[]interface{}`, a non-nil
`map[string]interface{}` (its entries listed by ascending key), or a value of a kind that
`json.Marshal` rejects (a channel, a function, a complex number, a float that is not
finite). -/
inductive GoValue where
  | nil
  | bool (b : Bool)
  | int (i : Int)
  | float64 (n : Int)
  | string (s : String)
  | slice (elems : List GoValue)
  | map (entries : List (String × GoValue))
  | unsupported
  deriving Repr

/-- Modelled from the spec: the type `v1alpha1.Target`, which is declared outside the
sources at hand, with the two fields that `getPackaging` reads (edi.go 36 and 47): the
name of the target and the name of its connection. -/
structure Target where
  Name : String
  ConnectionName : String
  deriving DecidableEq, Repr

/-- Type `ModelPackagingSpec` (model_packaging.go 43-62). A nil map, slice or pointer is
`none`; a Go map is the list of its entries by ascending key; `ρ` stands for
`v1alpha1.ResourceRequirements`. A `String` holds a Go string that is valid UTF-8: the
specs with a string that is not are outside this type. -/
structure ModelPackagingSpec (ρ : Type) where
  ArtifactName : String
  IntegrationName : String
  Image : String
  Arguments : Option (List (String × GoValue))
  Targets : Option (List Target)
  Resources : Option ρ
  OutputConnection : String
  NodeSelector : Option (List (String × String))

/-- Type `ModelPackaging` (model_packaging.go 27-40); `ψ` stands for
`v1alpha1.ModelPackagingStatus`. -/
structure ModelPackaging (ρ ψ : Type) where
  ID : String
  DeletionMark : Bool
  CreatedAt : Time
  UpdatedAt : Time
  Spec : ModelPackagingSpec ρ
  Status : ψ

/-! ## Packager -/

/-- Modelled from the spec: the type `packaging.PackagerTarget`, which is declared outside
the sources at hand, with the two fields that `getPackaging` fills in (edi.go 46-49); `γ`
stands for the connection type. -/
structure PackagerTarget (γ : Type) where
  Name : String
  Connection : γ

/-- Modelled from the spec: the type `packaging.K8sPackager`, which is declared outside
the sources at hand, with the five fields that `getPackaging` fills in (edi.go 62-68);
`γ` and `ι` stand for the connection and the packaging integration types. -/
structure K8sPackager (γ ι ρ ψ : Type) where
  ModelHolder : γ
  ModelPackaging : ModelPackaging ρ ψ
  PackagingIntegration : ι
  TrainingZipName : String
  Targets : List (PackagerTarget γ)

/-- A call to one of the two clients of the packager. -/
inductive ClientCall where
  | GetModelPackaging (id : String)
  | GetPackagingIntegration (id : String)
  | GetConnection (id : String)
  deriving DecidableEq, Repr

/-- The receiver `p *Packager` as far as `getPackaging` uses it: the field
`modelPackagingID`, the answers of `packagingClient` and `connClient`, and the method
`DecodeBase64Fields` of a connection. A client answers with an error or with a non-nil
pointer; the first argument of a client method is the number of client calls made
before, so a client may answer the same question differently at different times. -/
structure Packager (γ ι ρ ψ : Type) where
  modelPackagingID : String
  GetModelPackaging : Nat → String → Except GoError (ModelPackaging ρ ψ)
  GetPackagingIntegration : Nat → String → Except GoError ι
  GetConnection : Nat → String → Except GoError γ
  DecodeBase64Fields : γ → Except GoError γ

/-- What a call of `getPackaging` leaves behind: the returned packager (`none` for nil),
the returned error, and the client calls it made, in order. -/
structure PackagingRun (γ ι ρ ψ : Type) where
  packager : Option (K8sPackager γ ι ρ ψ)
  err : Option GoError
  calls : List ClientCall

/-- The body of the loop over the targets (edi.go 36-49) for one target, as client call
number `n`: the connection is fetched and its fields are decoded. -/
def Packager.fetchTarget {γ ι ρ ψ : Type} (p : Packager γ ι ρ ψ) (n : Nat) (target : Target) :
    Except GoError (PackagerTarget γ) :=
  match p.GetConnection n target.ConnectionName with
  | .error err => .error err
  | .ok conn =>
    match p.DecodeBase64Fields conn with
    | .error err => .error err
    | .ok conn => .ok { Name := target.Name, Connection := conn }

/-- The loop over the targets (edi.go 34-50), started after `n` client calls with the
slice `targets` built so far: the slice at the end or the first error, and the client
calls made. -/
def Packager.fetchTargets {γ ι ρ ψ : Type} (p : Packager γ ι ρ ψ) :
    List Target → Nat → List (PackagerTarget γ) →
      Except GoError (List (PackagerTarget γ)) × List ClientCall
  | [], _, targets => (.ok targets, [])
  | target :: rest, n, targets =>
    match p.fetchTarget n target with
    | .error err => (.error err, [ClientCall.GetConnection target.ConnectionName])
    | .ok t =>
      ((p.fetchTargets rest (n + 1) (targets ++ [t])).1,
       ClientCall.GetConnection target.ConnectionName ::
         (p.fetchTargets rest (n + 1) (targets ++ [t])).2)

/-- Method `Packager.getPackaging` (edi.go 24-69). -/
def Packager.getPackaging {γ ι ρ ψ : Type} (p : Packager γ ι ρ ψ) : PackagingRun γ ι ρ ψ :=
  match p.GetModelPackaging 0 p.modelPackagingID with
  | .error err =>
    { packager := Option.none, err := some err,
      calls := [ClientCall.GetModelPackaging p.modelPackagingID] }
  | .ok modelPackaging =>
    match p.GetPackagingIntegration 1 modelPackaging.Spec.IntegrationName with
    | .error err =>
      { packager := Option.none, err := some err,
        calls := [ClientCall.GetModelPackaging p.modelPackagingID,
                  ClientCall.GetPackagingIntegration modelPackaging.Spec.IntegrationName] }
    | .ok packagingIntegration =>
      match p.fetchTargets (modelPackaging.Spec.Targets.getD []) 2 [] with
      | (.error err, calls) =>
        { packager := Option.none, err := some err,
          calls := ClientCall.GetModelPackaging p.modelPackagingID ::
            ClientCall.GetPackagingIntegration modelPackaging.Spec.IntegrationName :: calls }
      | (.ok targets, calls) =>
        match p.GetConnection (2 + (modelPackaging.Spec.Targets.getD []).length)
            modelPackaging.Spec.OutputConnection with
        | .error err =>
          { packager := Option.none, err := some err,
            calls := ClientCall.GetModelPackaging p.modelPackagingID ::
              ClientCall.GetPackagingIntegration modelPackaging.Spec.IntegrationName ::
              (calls ++ [ClientCall.GetConnection modelPackaging.Spec.OutputConnection]) }
        | .ok modelHolder =>
          match p.DecodeBase64Fields modelHolder with
          | .error err =>
            { packager := Option.none, err := some err,
              calls := ClientCall.GetModelPackaging p.modelPackagingID ::
                ClientCall.GetPackagingIntegration modelPackaging.Spec.IntegrationName ::
                (calls ++ [ClientCall.GetConnection modelPackaging.Spec.OutputConnection]) }
          | .ok modelHolder =>
            { packager := some
                { ModelHolder := modelHolder, ModelPackaging := modelPackaging,
                  PackagingIntegration := packagingIntegration,
                  TrainingZipName := modelPackaging.Spec.ArtifactName, Targets := targets }
              err := Option.none
              calls := ClientCall.GetModelPackaging p.modelPackagingID ::
                ClientCall.GetPackagingIntegration modelPackaging.Spec.IntegrationName ::
                (calls ++ [ClientCall.GetConnection modelPackaging.Spec.OutputConnection]) }

/-- A sample model packaging with one target and an output connection. -/
def sampleModelPackaging : ModelPackaging Unit Unit :=
  { ID := "mp1", DeletionMark := false, CreatedAt := 1, UpdatedAt := 1,
    Spec :=
      { ArtifactName := "model.zip", IntegrationName := "docker-rest", Image := "",
        Arguments := Option.none,
        Targets := some [{ Name := "docker-push", ConnectionName := "registry" }],
        Resources := Option.none, OutputConnection := "models",
        NodeSelector := Option.none },
    Status := () }

/-- A sample packager whose clients know the model packaging `mp1`, the integration
`docker-rest` and the connections `registry` and `models`; connections and integrations
are plain texts. -/
def samplePackager : Packager String String Unit Unit :=
  { modelPackagingID := "mp1"
    GetModelPackaging := fun _ id =>
      if id = "mp1" then .ok sampleModelPackaging else .error (GoError.NotFoundError id)
    GetPackagingIntegration := fun _ id =>
      if id = "docker-rest" then .ok "docker-rest integration"
      else .error (GoError.NotFoundError id)
    GetConnection := fun _ id =>
      if id = "registry" then .ok "cmVnaXN0cnk="
      else if id = "models" then .ok "bW9kZWxz"
      else .error (GoError.NotFoundError id)
    DecodeBase64Fields := fun conn =>
      if conn = "cmVnaXN0cnk=" then .ok "registry"
      else if conn = "bW9kZWxz" then .ok "models"
      else .error (GoError.other "illegal base64 data at input byte 0") }

/-- The sample packager with a model packaging that names, after `registry`, a target
connection `backup` that the connection client does not know, and a third target. -/
def sampleFailingPackager : Packager String String Unit Unit :=
  { samplePackager with
    GetModelPackaging := fun _ id =>
      if id = "mp1" then
        .ok { sampleModelPackaging with
              Spec := { sampleModelPackaging.Spec with
                Targets := some [{ Name := "docker-push", ConnectionName := "registry" },
                                 { Name := "archive", ConnectionName := "backup" },
                                 { Name := "mirror", ConnectionName := "registry" }] } }
      else .error (GoError.NotFoundError id) }

/-- A pass of the Publisher over one row in which the sink acknowledges nothing. -/
def pollUnacknowledged : Step CustomPayload := Step.poll 1 (fun _ => false)

/-! ## Filter compiler -/

/-- Modelled from the spec: one declared attribute of a filter object such as `MdFilter`,
which is declared in `repository/deployment`, outside the sources at hand: "the filter
object's declared attributes and their associated storage column names". `name` is the
tag under `TagKey`, by which a request names the attribute. -/
structure FilterField where
  name : String
  column : String
  deriving DecidableEq, Repr

/-- The assignment `cache[key] = value` on a Go `map[string]int`, kept as the list of its
entries. -/
def mapAssign (cache : List (String × Nat)) (key : String) (value : Nat) :
    List (String × Nat) :=
  (key, value) :: cache.filter (fun entry => decide (entry.1 ≠ key))

/-- The lookup `value, ok := cache[key]`. -/
def mapIndex : List (String × Nat) → String → Option Nat
  | [], _ => Option.none
  | (k, v) :: rest, key => if k = key then some v else mapIndex rest key

/-- The loop of `init` (model_deployment.go 48-52) from field number `i` on:
`fieldsCache[tagName] = i` for each declared field in turn. -/
def deployment.initLoop : List FilterField → Nat → List (String × Nat) → List (String × Nat)
  | [], _, cache => cache
  | field :: rest, i, cache => deployment.initLoop rest (i + 1) (mapAssign cache field.name i)

/-- The variable `fieldsCache` after `init` ran (model_deployment.go 42-53), for the
declared fields of `MdFilter`. -/
def deployment.fieldsCache (fields : List FilterField) : List (String × Nat) :=
  deployment.initLoop fields 0 []

/-- The variable `emptyCache` (packaging_integration.go 42-44). -/
def packaging.emptyCache : List (String × Nat) := []

/-- Modelled from the spec: the part of `routes.URLParamsToFilter` that fills the filter
object from the parameters of the request. "Only populated attributes present in the
allow-list contribute": a parameter whose name is a key of `fields` is written into the
attribute of the filter object with that field number, any other parameter is passed
over. -/
def routes.fillFilter (query : List (String × List String)) (fields : List (String × Nat))
    (filter : List (List String)) : List (List String) :=
  query.foldl (fun filter param =>
    match mapIndex fields param.1 with
    | some i => filter.set i param.2
    | Option.none => filter) filter

/-- Modelled from the spec: `routes.URLParamsToFilter(c, filters, fields)`, which is not
part of the sources at hand. Size and page are read from the request and "validated
non-negative", which is left to the parameter `paging`; the filter object is filled from
the other parameters, and a nil filter object stays nil. The result is size and page or
the error, and the filter object afterwards. -/
def routes.URLParamsToFilter (paging : List (String × List String) → Except GoError (Int × Int))
    (query : List (String × List String)) (filters : Option (List (List String)))
    (fields : List (String × Nat)) :
    Except GoError (Int × Int) × Option (List (List String)) :=
  match paging query with
  | .error err => (.error err, filters)
  | .ok sizePage => (.ok sizePage, filters.map (routes.fillFilter query fields))

/-- One conjunct of a `WHERE` clause: the column is one of the values. -/
structure Predicate where
  column : String
  values : List String
  deriving DecidableEq, Repr

/-- Modelled from the spec: the predicates that `utils.TransformFilter` compiles from a
filter object whose declared attributes are `fields`: "only populated attributes"
contribute "equality/membership predicates, combined with logical AND", each on the
storage column of its attribute. -/
def filterPredicates (fields : List FilterField) (filter : List (List String)) :
    List Predicate :=
  (fields.zip filter).filterMap (fun entry =>
    if entry.2 = [] then Option.none
    else some { column := entry.1.column, values := entry.2 })

/-- A row satisfies a predicate when the value of the column in the row is one of the
values; `columnValue` reads a column expression in a row. -/
def Predicate.holds (columnValue : String → Row → Option String) (p : Predicate) (r : Row) :
    Bool :=
  match columnValue p.column r with
  | some v => decide (v ∈ p.values)
  | Option.none => false

/-- Method `ModelDeploymentController.getAllMDs` (model_deployment.go 95-118) up to the
call of the repository: the error answered with status 400, or the options handed to
`GetModelDeploymentList`. `fields` are the declared fields of `MdFilter`. -/
def deployment.getAllMDs (paging : List (String × List String) → Except GoError (Int × Int))
    (fields : List FilterField) (query : List (String × List String)) :
    Except GoError (List (ListOption (List (List String)))) :=
  match (routes.URLParamsToFilter paging query (some (fields.map (fun _ => [])))
      (deployment.fieldsCache fields)).1 with
  | .error err => .error err
  | .ok (size, page) =>
    .ok [ListFilter ((routes.URLParamsToFilter paging query (some (fields.map (fun _ => [])))
            (deployment.fieldsCache fields)).2.getD (fields.map (fun _ => []))),
         Size size, Page page]

/-- Method `PackagingIntegrationController.getAllPackagingIntegrations`
(packaging_integration.go 94-115) up to the call of the service: the error answered with
status 400, or the options handed to `GetPackagingIntegrationList`. -/
def packaging.getAllPackagingIntegrations
    (paging : List (String × List String) → Except GoError (Int × Int))
    (query : List (String × List String)) :
    Except GoError (List (ListOption (List (List String)))) :=
  match (routes.URLParamsToFilter paging query Option.none packaging.emptyCache).1 with
  | .error err => .error err
  | .ok (size, page) => .ok [Size size, Page page]

/-- A reading of size and page that answers size 10 and page 0 for every request. -/
def samplePaging (_ : List (String × List String)) : Except GoError (Int × Int) :=
  .ok (10, 0)

/-- Declared fields of a filter object with one attribute, after `MdFilter`. -/
def sampleFilterFields : List FilterField :=
  [{ name := "roleName", column := "spec->>'roleName'" }]

/-- A request that names the declared attribute and two names that are not declared. -/
def sampleQuery : List (String × List String) :=
  [("roleName", ["admin"]), ("deletionmark", ["true"]), ("id", ["m1"])]

/-! ## Model packaging: `Value` and `Scan` -/

/-- A byte string as `encoding/json` reads it: the JSON document it holds, or the message
of the syntax error that `json.Unmarshal` reports for it. `json.Marshal` returns the byte
string that holds the document it wrote. -/
inductive Bytes where
  | document (doc : JSON)
  | malformed (msg : String)
  deriving Repr

/-- A value handed to `Scan(value interface{})` by `database/sql`: one of the kinds of
`driver.Value`. -/
inductive DriverValue where
  | null
  | int64 (i : Int)
  | float64 (bits : Nat)
  | bool (b : Bool)
  | bytes (b : Bytes)
  | string (s : String)
  | time (t : Time)
  deriving Repr

/-- The JSON forms of the `v1alpha1` types inside `ModelPackagingSpec`, which are declared
outside the sources at hand: what `encoding/json` writes for a `Target` and for the
`ResourceRequirements`, and what it reads from a document into a fresh value. -/
structure PackagingJSON (ρ : Type) where
  targetValue : Target → JSON
  targetScan : JSON → Except GoError Target
  resourcesValue : ρ → JSON
  resourcesScan : JSON → Except GoError ρ

/-- The assignment `m[key] = value` on a Go map with string keys, kept as the list of its
entries by ascending key. -/
def mapInsert {α : Type} (key : String) (value : α) : List (String × α) → List (String × α)
  | [] => [(key, value)]
  | (k, v) :: rest =>
    if key = k then (key, value) :: rest
    else if idLE key k then (key, value) :: (k, v) :: rest
    else (k, v) :: mapInsert key value rest

/-- The keys of a Go map as the model keeps it: strictly ascending. -/
def keysAscending (keys : List String) : Prop :=
  keys.Pairwise (fun a b => idLE a b = true ∧ a ≠ b)

instance (keys : List String) : Decidable (keysAscending keys) := by
  unfold keysAscending; infer_instance

/-- The order in which `json.Marshal` writes the entries of a map: by key. -/
def entryLE {α : Type} (a b : String × α) : Prop := idLE a.1 b.1 = true

instance {α : Type} : DecidableRel (@entryLE α) := fun a b => by
  unfold entryLE; infer_instance

mutual
/-- What `json.Marshal` writes for a value held in an `interface{}`; an `int` and a
`float64` that hold the same integer are written alike; the entries of a map are written
by ascending key; a value of an unsupported kind is an error. -/
def GoValue.toJSON : GoValue → Except GoError JSON
  | .nil => .ok .null
  | .bool b => .ok (.bool b)
  | .int i => .ok (.number i)
  | .float64 n => .ok (.number n)
  | .string s => .ok (.string s)
  | .slice elems =>
    match GoValue.toJSONs elems with
    | .error err => .error err
    | .ok docs => .ok (.array docs)
  | .map entries =>
    match GoValue.toMembers entries with
    | .error err => .error err
    | .ok members => .ok (.object (members.insertionSort entryLE))
  | .unsupported => .error (GoError.other "json: unsupported type")
/-- The elements of a slice, written one after the other. -/
def GoValue.toJSONs : List GoValue → Except GoError (List JSON)
  | [] => .ok []
  | v :: vs =>
    match GoValue.toJSON v with
    | .error err => .error err
    | .ok doc =>
      match GoValue.toJSONs vs with
      | .error err => .error err
      | .ok docs => .ok (doc :: docs)
/-- The entries of a map, written one after the other. -/
def GoValue.toMembers : List (String × GoValue) → Except GoError (List (String × JSON))
  | [] => .ok []
  | (k, v) :: rest =>
    match GoValue.toJSON v with
    | .error err => .error err
    | .ok doc =>
      match GoValue.toMembers rest with
      | .error err => .error err
      | .ok members => .ok ((k, doc) :: members)
end

mutual
/-- What `json.Unmarshal` stores into an `interface{}` for a document: `nil`, a `bool`, a
`float64`, a `string`, a `[]interface{}` or a `map[string]interface{}`, in which a later
member overrides an earlier one of the same name. -/
def GoValue.ofJSON : JSON → GoValue
  | .null => .nil
  | .bool b => .bool b
  | .number n => .float64 n
  | .string s => .string s
  | .array elems => .slice (GoValue.ofJSONs elems)
  | .object members =>
    .map ((GoValue.ofMembers members).foldl (fun m entry => mapInsert entry.1 entry.2 m) [])
/-- The elements of an array, read one after the other. -/
def GoValue.ofJSONs : List JSON → List GoValue
  | [] => []
  | doc :: docs => GoValue.ofJSON doc :: GoValue.ofJSONs docs
/-- The members of an object, read one after the other. -/
def GoValue.ofMembers : List (String × JSON) → List (String × GoValue)
  | [] => []
  | (k, doc) :: rest => (k, GoValue.ofJSON doc) :: GoValue.ofMembers rest
end

mutual
/-- A value of the kinds that `json.Unmarshal` stores into an `interface{}`: no `int`, no
value of an unsupported kind, and every map with its keys strictly ascending. -/
def GoValue.isFromJSON : GoValue → Bool
  | .nil => true
  | .bool _ => true
  | .int _ => false
  | .float64 _ => true
  | .string _ => true
  | .slice elems => GoValue.allFromJSON elems
  | .map entries => GoValue.entriesFromJSON entries
  | .unsupported => false
/-- Every element of a slice is of these kinds. -/
def GoValue.allFromJSON : List GoValue → Bool
  | [] => true
  | v :: vs => GoValue.isFromJSON v && GoValue.allFromJSON vs
/-- Every value of a map is of these kinds, and each key is below the keys after it. -/
def GoValue.entriesFromJSON : List (String × GoValue) → Bool
  | [] => true
  | (k, v) :: rest =>
    GoValue.isFromJSON v &&
      rest.all (fun entry => idLE k entry.1 && decide (k ≠ entry.1)) &&
      GoValue.entriesFromJSON rest
end

/-- The name of the kind of a document in the messages of `encoding/json`. -/
def JSON.kind : JSON → String
  | .null => "null"
  | .bool _ => "bool"
  | .number _ => "number"
  | .string _ => "string"
  | .array _ => "array"
  | .object _ => "object"

/-- The zero value of `ModelPackagingSpec`, which is what `Scan` is given when a row is
read into a fresh entity. -/
def ModelPackagingSpec.empty {ρ : Type} : ModelPackagingSpec ρ :=
  { ArtifactName := "", IntegrationName := "", Image := "", Arguments := Option.none,
    Targets := Option.none, Resources := Option.none, OutputConnection := "",
    NodeSelector := Option.none }

/-- The member that `json.Marshal` writes for a field of type `string` tagged `omitempty`:
none when the string is empty. -/
def omitEmptyString (name value : String) : List (String × JSON) :=
  if value = "" then [] else [(name, JSON.string value)]

/-- What `json.Marshal` writes for the field `Arguments`: `null` for a nil map, else the
object of its entries. -/
def ModelPackagingSpec.argumentsJSON (arguments : Option (List (String × GoValue))) :
    Except GoError JSON :=
  match arguments with
  | Option.none => .ok JSON.null
  | some entries => GoValue.toJSON (GoValue.map entries)

/-- What `json.Marshal` writes for the field `Targets`: `null` for a nil slice, else the
array of its elements. -/
def ModelPackagingSpec.targetsJSON {ρ : Type} (types : PackagingJSON ρ)
    (targets : Option (List Target)) : JSON :=
  match targets with
  | Option.none => JSON.null
  | some targets => JSON.array (targets.map types.targetValue)

/-- The member that `json.Marshal` writes for the field `Resources`, a pointer tagged
`omitempty`: none for a nil pointer. -/
def ModelPackagingSpec.resourcesMembers {ρ : Type} (types : PackagingJSON ρ)
    (resources : Option ρ) : List (String × JSON) :=
  match resources with
  | Option.none => []
  | some resources => [("resources", types.resourcesValue resources)]

/-- The member that `json.Marshal` writes for the field `NodeSelector`, a map tagged
`omitempty`: none for a nil map and for a map without entries, else the object of the
entries by ascending key. -/
def ModelPackagingSpec.nodeSelectorMembers (nodeSelector : Option (List (String × String))) :
    List (String × JSON) :=
  match nodeSelector with
  | Option.none => []
  | some [] => []
  | some entries =>
    [("nodeSelector",
      JSON.object ((entries.map (fun entry => (entry.1, JSON.string entry.2))).insertionSort
        entryLE))]

/-- What `json.Marshal` writes for a `ModelPackagingSpec` (model_packaging.go 43-62): one
member per field in the order of declaration under the name of its `json` tag; `image`,
`resources`, `outputConnection` and `nodeSelector` are tagged `omitempty` and are left
out when empty (an empty string, a nil pointer, a map without entries); a nil map or
slice without `omitempty` is written as `null`. -/
def ModelPackagingSpec.toJSON {ρ : Type} (types : PackagingJSON ρ) (piSpec : ModelPackagingSpec ρ) :
    Except GoError JSON :=
  match ModelPackagingSpec.argumentsJSON piSpec.Arguments with
  | .error err => .error err
  | .ok arguments =>
    .ok (.object (
      [("artifactName", JSON.string piSpec.ArtifactName),
       ("integrationName", JSON.string piSpec.IntegrationName)] ++
      omitEmptyString "image" piSpec.Image ++
      [("arguments", arguments),
       ("targets", ModelPackagingSpec.targetsJSON types piSpec.Targets)] ++
      ModelPackagingSpec.resourcesMembers types piSpec.Resources ++
      omitEmptyString "outputConnection" piSpec.OutputConnection ++
      ModelPackagingSpec.nodeSelectorMembers piSpec.NodeSelector))

/-- Method `ModelPackagingSpec.Value` (model_packaging.go 64-66): `json.Marshal(piSpec)`. -/
def ModelPackagingSpec.Value {ρ : Type} (types : PackagingJSON ρ) (piSpec : ModelPackagingSpec ρ) :
    Except GoError Bytes :=
  match ModelPackagingSpec.toJSON types piSpec with
  | .error err => .error err
  | .ok doc => .ok (Bytes.document doc)

/-- The name of a member as `encoding/json` compares it with the names of the fields:
without regard to the case of letters. -/
def foldName (name : String) : List Char := name.toList.map Char.toLower

/-- The first error stays: `d.saveError(err)`. -/
def saveError (saved : Option GoError) (err : GoError) : Option GoError :=
  match saved with
  | some first => some first
  | Option.none => some err

/-- The error of `encoding/json` for a member whose document does not fit its field. -/
def fieldTypeError (doc : JSON) (field goType : String) : GoError :=
  GoError.other ("json: cannot unmarshal " ++ doc.kind ++ " into Go struct field " ++
    "ModelPackagingSpec." ++ field ++ " of type " ++ goType)

/-- A member read into a field of type `string`: a string is stored, `null` leaves the
field as it is, anything else is an error. -/
def decodeString (field : String) (old : String) (doc : JSON) : Option GoError × String :=
  match doc with
  | .string s => (Option.none, s)
  | .null => (Option.none, old)
  | other => (some (fieldTypeError other field "string"), old)

/-- The members of an object read into a `map[string]string`: a string is stored under
its name, `null` stores the empty string, anything else is an error and stores the empty
string; a later member overrides an earlier one of the same name. -/
def decodeStringMap (field : String) :
    List (String × JSON) → Option GoError × List (String × String) →
      Option GoError × List (String × String)
  | [], acc => acc
  | (k, doc) :: rest, (err, m) =>
    match doc with
    | .string s => decodeStringMap field rest (err, mapInsert k s m)
    | .null => decodeStringMap field rest (err, mapInsert k "" m)
    | other =>
      decodeStringMap field rest
        (saveError err (fieldTypeError other field "string"), mapInsert k "" m)

/-- The elements of an array read into fresh targets: the targets, or the first error. -/
def decodeTargets {ρ : Type} (types : PackagingJSON ρ) :
    List JSON → Except GoError (List Target)
  | [] => .ok []
  | doc :: docs =>
    match types.targetScan doc with
    | .error err => .error err
    | .ok target =>
      match decodeTargets types docs with
      | .error err => .error err
      | .ok targets => .ok (target :: targets)

/-- One member of the object read into the field whose `json` tag is its name, without
regard to case; a member of another name is passed over. The first error is kept and the
reading goes on. Elements of `targets` and the value of `resources` are read into fresh
values; when one of them cannot be read the field keeps its value. -/
def ModelPackagingSpec.decodeMember {ρ : Type} (types : PackagingJSON ρ)
    (state : Option GoError × ModelPackagingSpec ρ) (member : String × JSON) :
    Option GoError × ModelPackagingSpec ρ :=
  if foldName member.1 = foldName "artifactName" then
    match decodeString "artifactName" state.2.ArtifactName member.2 with
    | (Option.none, s) => (state.1, { state.2 with ArtifactName := s })
    | (some err, s) => (saveError state.1 err, { state.2 with ArtifactName := s })
  else if foldName member.1 = foldName "integrationName" then
    match decodeString "integrationName" state.2.IntegrationName member.2 with
    | (Option.none, s) => (state.1, { state.2 with IntegrationName := s })
    | (some err, s) => (saveError state.1 err, { state.2 with IntegrationName := s })
  else if foldName member.1 = foldName "image" then
    match decodeString "image" state.2.Image member.2 with
    | (Option.none, s) => (state.1, { state.2 with Image := s })
    | (some err, s) => (saveError state.1 err, { state.2 with Image := s })
  else if foldName member.1 = foldName "arguments" then
    match member.2 with
    | .null => (state.1, { state.2 with Arguments := Option.none })
    | .object members =>
      (state.1, { state.2 with
        Arguments := some ((GoValue.ofMembers members).foldl
          (fun m entry => mapInsert entry.1 entry.2 m) (state.2.Arguments.getD [])) })
    | other =>
      (saveError state.1 (fieldTypeError other "arguments" "map[string]interface {}"), state.2)
  else if foldName member.1 = foldName "targets" then
    match member.2 with
    | .null => (state.1, { state.2 with Targets := Option.none })
    | .array elems =>
      match decodeTargets types elems with
      | .error err => (saveError state.1 err, state.2)
      | .ok targets => (state.1, { state.2 with Targets := some targets })
    | other =>
      (saveError state.1 (fieldTypeError other "targets" "[]v1alpha1.Target"), state.2)
  else if foldName member.1 = foldName "resources" then
    match member.2 with
    | .null => (state.1, { state.2 with Resources := Option.none })
    | doc =>
      match types.resourcesScan doc with
      | .error err => (saveError state.1 err, state.2)
      | .ok resources => (state.1, { state.2 with Resources := some resources })
  else if foldName member.1 = foldName "outputConnection" then
    match decodeString "outputConnection" state.2.OutputConnection member.2 with
    | (Option.none, s) => (state.1, { state.2 with OutputConnection := s })
    | (some err, s) => (saveError state.1 err, { state.2 with OutputConnection := s })
  else if foldName member.1 = foldName "nodeSelector" then
    match member.2 with
    | .null => (state.1, { state.2 with NodeSelector := Option.none })
    | .object members =>
      ((decodeStringMap "nodeSelector" members
          (state.1, state.2.NodeSelector.getD [])).1,
       { state.2 with
         NodeSelector := some (decodeStringMap "nodeSelector" members
           (state.1, state.2.NodeSelector.getD [])).2 })
    | other =>
      (saveError state.1 (fieldTypeError other "nodeSelector" "map[string]string"), state.2)
  else state

/-- The call `json.Unmarshal(b, &piSpec)` of `Scan` (model_packaging.go 73), where
`piSpec` is the pointer to the receiver: a byte string that is not valid JSON is a syntax
error and nothing is stored; the document `null` sets the pointer `piSpec`, a local
variable, to nil and stores nothing in the receiver; the members of an object are read
into the receiver one after the other; any other document is an error. The result is the
error and the receiver afterwards. -/
def ModelPackagingSpec.Unmarshal {ρ : Type} (types : PackagingJSON ρ) (b : Bytes)
    (piSpec : ModelPackagingSpec ρ) : Option GoError × ModelPackagingSpec ρ :=
  match b with
  | .malformed msg => (some (GoError.other msg), piSpec)
  | .document .null => (Option.none, piSpec)
  | .document (.object members) =>
    members.foldl (ModelPackagingSpec.decodeMember types) (Option.none, piSpec)
  | .document other =>
    (some (GoError.other ("json: cannot unmarshal " ++ other.kind ++
       " into Go value of type packaging.ModelPackagingSpec")), piSpec)

/-- Method `ModelPackagingSpec.Scan` (model_packaging.go 68-75): the error it returns and
the receiver afterwards. -/
def ModelPackagingSpec.Scan {ρ : Type} (types : PackagingJSON ρ) (piSpec : ModelPackagingSpec ρ)
    (value : DriverValue) : Option GoError × ModelPackagingSpec ρ :=
  match value with
  | .bytes b => ModelPackagingSpec.Unmarshal types b piSpec
  | _ => (some (GoError.other "type assertion to []byte failed"), piSpec)

/-- A byte string, among the values handed to `Scan`. -/
def DriverValue.isBytes : DriverValue → Bool
  | .bytes _ => true
  | _ => false

/-- A sample of the JSON forms of the embedded types: a target is written as an object
with the members `name` and `connectionName` and read from such an object; the resource
requirements carry nothing and are written as the empty object. -/
def samplePackagingJSON : PackagingJSON Unit :=
  { targetValue := fun target =>
      JSON.object [("name", JSON.string target.Name),
                   ("connectionName", JSON.string target.ConnectionName)]
    targetScan := fun doc =>
      match doc with
      | .object [("name", .string name), ("connectionName", .string connection)] =>
        .ok { Name := name, ConnectionName := connection }
      | other =>
        .error (GoError.other ("json: cannot unmarshal " ++ other.kind ++
          " into Go value of type v1alpha1.Target"))
    resourcesValue := fun _ => JSON.object []
    resourcesScan := fun doc =>
      match doc with
      | .object _ => .ok ()
      | other =>
        .error (GoError.other ("json: cannot unmarshal " ++ other.kind ++
          " into Go value of type v1alpha1.ResourceRequirements")) }

/-- One member of an object read into a `CustomPayload`: the member `name`, without
regard to case, is stored when it is a string, leaves the field as it is when it is
`null` and is an error otherwise; a member of another name is passed over. -/
def CustomPayload.decodeMember (state : Option GoError × CustomPayload)
    (member : String × JSON) : Option GoError × CustomPayload :=
  if foldName member.1 = foldName "name" then
    match member.2 with
    | .string s => (state.1, { Name := GoString.ofString s })
    | .null => state
    | other =>
      (saveError state.1 (GoError.other ("json: cannot unmarshal " ++ other.kind ++
        " into Go struct field CustomPayload.name of type string")), state.2)
  else state

/-- Method `CustomPayload.Scan` (publisher_test.go 52-59) on the kinds of `driver.Value`,
with `json.Unmarshal(b, &c)` on documents as in `ModelPackagingSpec.Scan`: the error it
returns and the receiver afterwards. -/
def CustomPayload.ScanValue (c : CustomPayload) (value : DriverValue) :
    Option GoError × CustomPayload :=
  match value with
  | .bytes (.malformed msg) => (some (GoError.other msg), c)
  | .bytes (.document .null) => (Option.none, c)
  | .bytes (.document (.object members)) =>
    members.foldl CustomPayload.decodeMember (Option.none, c)
  | .bytes (.document other) =>
    (some (GoError.other ("json: cannot unmarshal " ++ other.kind ++
       " into Go value of type outbox_test.CustomPayload")), c)
  | _ => (some (GoError.other "type assertion to []byte failed"), c)

/-- A spec whose `NodeSelector` is a map without entries, not a nil map. -/
def sampleEmptySelectorSpec : ModelPackagingSpec Unit :=
  { ArtifactName := "model.zip", IntegrationName := "docker-rest", Image := "",
    Arguments := Option.none, Targets := Option.none, Resources := Option.none,
    OutputConnection := "", NodeSelector := some [] }

/-- A spec whose `Arguments` hold a Go `int`. -/
def sampleIntArgumentSpec : ModelPackagingSpec Unit :=
  { ArtifactName := "model.zip", IntegrationName := "docker-rest", Image := "",
    Arguments := some [("replicas", GoValue.int 1)], Targets := Option.none,
    Resources := Option.none, OutputConnection := "", NodeSelector := Option.none }

/-- A spec whose `Arguments` hold a value of a kind that `json.Marshal` rejects. -/
def sampleUnsupportedArgumentSpec : ModelPackagingSpec Unit :=
  { ArtifactName := "model.zip", IntegrationName := "docker-rest", Image := "",
    Arguments := some [("callback", GoValue.unsupported)], Targets := Option.none,
    Resources := Option.none, OutputConnection := "", NodeSelector := Option.none }

/-- A spec with every field set, its `Arguments` of the kinds that `json.Unmarshal`
stores. -/
def sampleFullSpec : ModelPackagingSpec Unit :=
  { ArtifactName := "model.zip", IntegrationName := "docker-rest", Image := "packager:1",
    Arguments := some [("dockerfile", GoValue.bool true), ("workers", GoValue.float64 2)],
    Targets := some [{ Name := "docker-push", ConnectionName := "registry" }],
    Resources := some (), OutputConnection := "models",
    NodeSelector := some [("mode", "packaging"), ("pool", "cpu")] }

/-! ## JSON texts -/

/-- The digit of a value below sixteen in the lower-case hexadecimal that `encoding/json`
writes. -/
def hexDigit (n : Nat) : Char :=
  if n < 10 then Char.ofNat (48 + n) else Char.ofNat (87 + n)

/-- The characters that `encoding/json` writes for one character of a string: the short
escapes of the quotation mark, the backslash, line feed, carriage return and tab, the
six-character escape of the other control characters, of `<`, `>` and `&` and of the
line and paragraph separators, and the character itself otherwise. -/
def JSON.escapeChar (c : Char) : List Char :=
  if c = '"' then ['\\', '"']
  else if c = '\\' then ['\\', '\\']
  else if c = '\n' then ['\\', 'n']
  else if c = '\r' then ['\\', 'r']
  else if c = '\t' then ['\\', 't']
  else if c.toNat < 32 ∨ c = '<' ∨ c = '>' ∨ c = '&' ∨ c.toNat = 8232 ∨ c.toNat = 8233 then
    ['\\', 'u', hexDigit (c.toNat / 4096 % 16), hexDigit (c.toNat / 256 % 16),
     hexDigit (c.toNat / 16 % 16), hexDigit (c.toNat % 16)]
  else [c]

/-- The text of a string: its characters, escaped, between quotation marks. -/
def JSON.renderString (s : String) : List Char :=
  '"' :: (s.toList.flatMap JSON.escapeChar ++ ['"'])

/-- The decimal text of an integer. -/
def JSON.renderInt (n : Int) : List Char :=
  match n with
  | Int.ofNat m => (Nat.repr m).toList
  | Int.negSucc m => '-' :: (Nat.repr (m + 1)).toList

mutual
/-- The compact text that `json.Marshal` writes for a document. -/
def JSON.render : JSON → List Char
  | .null => ['n', 'u', 'l', 'l']
  | .bool true => ['t', 'r', 'u', 'e']
  | .bool false => ['f', 'a', 'l', 's', 'e']
  | .number n => JSON.renderInt n
  | .string s => JSON.renderString s
  | .array elems => '[' :: (JSON.renderElems elems ++ [']'])
  | .object members => Char.ofNat 123 :: (JSON.renderMembers members ++ [Char.ofNat 125])
/-- The elements of an array, separated by commas. -/
def JSON.renderElems : List JSON → List Char
  | [] => []
  | [doc] => JSON.render doc
  | doc :: rest => JSON.render doc ++ ',' :: JSON.renderElems rest
/-- The members of an object, separated by commas. -/
def JSON.renderMembers : List (String × JSON) → List Char
  | [] => []
  | [(k, doc)] => JSON.renderString k ++ ':' :: JSON.render doc
  | (k, doc) :: rest =>
    JSON.renderString k ++ ':' :: (JSON.render doc ++ ',' :: JSON.renderMembers rest)
end

/-- The text after leading white space. -/
def skipSpace : List Char → List Char
  | [] => []
  | c :: cs => if c = ' ' ∨ c = '\n' ∨ c = '\r' ∨ c = '\t' then skipSpace cs else c :: cs

/-- The value of a hexadecimal digit. -/
def hexValue (c : Char) : Option Nat :=
  if 48 ≤ c.toNat ∧ c.toNat ≤ 57 then some (c.toNat - 48)
  else if 97 ≤ c.toNat ∧ c.toNat ≤ 102 then some (c.toNat - 87)
  else if 65 ≤ c.toNat ∧ c.toNat ≤ 70 then some (c.toNat - 55)
  else Option.none

/-- The number written by four hexadecimal digits. -/
def hexValue4 (a b c d : Char) : Option Nat :=
  match hexValue a, hexValue b, hexValue c, hexValue d with
  | some x, some y, some z, some w => some (4096 * x + 256 * y + 16 * z + w)
  | _, _, _, _ => Option.none

/-- The escape of a low surrogate at the head of a text: its number and the text after
it. -/
def lowSurrogate : List Char → Option (Nat × List Char)
  | '\\' :: 'u' :: e :: f :: g :: h :: rest =>
    match hexValue4 e f g h with
    | some lo => if 56320 ≤ lo ∧ lo < 57344 then some (lo, rest) else Option.none
    | Option.none => Option.none
  | _ => Option.none

/-- The rest of a string after its opening quotation mark: the characters up to the
closing quotation mark, escapes resolved, and the text after it. The escape of a high
surrogate followed by the escape of a low surrogate is the character of the pair; the
escape of any other surrogate is read as U+FFFD. A control character is not allowed in a
string. The first argument bounds the number of characters read. -/
def parseStringBody : Nat → List Char → List Char → Option (String × List Char)
  | 0, _, _ => Option.none
  | _ + 1, [], _ => Option.none
  | _ + 1, '"' :: rest, acc => some (String.mk acc.reverse, rest)
  | fuel + 1, '\\' :: 'u' :: a :: b :: c :: d :: rest, acc =>
    match hexValue4 a b c d with
    | Option.none => Option.none
    | some n =>
      if 55296 ≤ n ∧ n < 56320 then
        match lowSurrogate rest with
        | some (lo, rest2) =>
          parseStringBody fuel rest2
            (Char.ofNat (65536 + (n - 55296) * 1024 + (lo - 56320)) :: acc)
        | Option.none => parseStringBody fuel rest (Char.ofNat 65533 :: acc)
      else if 56320 ≤ n ∧ n < 57344 then parseStringBody fuel rest (Char.ofNat 65533 :: acc)
      else parseStringBody fuel rest (Char.ofNat n :: acc)
  | fuel + 1, '\\' :: e :: rest, acc =>
    if e = '"' then parseStringBody fuel rest ('"' :: acc)
    else if e = '\\' then parseStringBody fuel rest ('\\' :: acc)
    else if e = '/' then parseStringBody fuel rest ('/' :: acc)
    else if e = 'b' then parseStringBody fuel rest (Char.ofNat 8 :: acc)
    else if e = 'f' then parseStringBody fuel rest (Char.ofNat 12 :: acc)
    else if e = 'n' then parseStringBody fuel rest ('\n' :: acc)
    else if e = 'r' then parseStringBody fuel rest ('\r' :: acc)
    else if e = 't' then parseStringBody fuel rest ('\t' :: acc)
    else Option.none
  | fuel + 1, c :: rest, acc =>
    if c.toNat < 32 then Option.none else parseStringBody fuel rest (c :: acc)

/-- The digits at the head of a text, as a number, and the text after them. -/
def parseDigits : List Char → Nat → Nat × List Char
  | [], n => (n, [])
  | c :: cs, n =>
    if 48 ≤ c.toNat ∧ c.toNat ≤ 57 then parseDigits cs (10 * n + (c.toNat - 48))
    else (n, c :: cs)

/-- The head of a text, if there is one, is a character of the given kind. -/
def headIs (p : Char → Bool) : List Char → Bool
  | [] => false
  | c :: _ => p c

/-- A number without sign at the head of a text: its digits, where a zero is not followed
by another digit. A number with a fraction or an exponent is outside the integers that
model the numbers and is not read. -/
def parseNat (cs : List Char) : Option (Nat × List Char) :=
  match cs with
  | [] => Option.none
  | d :: ds =>
    if 48 ≤ d.toNat ∧ d.toNat ≤ 57 then
      if d = '0' ∧ headIs (fun c => decide (48 ≤ c.toNat ∧ c.toNat ≤ 57)) ds = true then
        Option.none
      else if headIs (fun c => decide (c = '.' ∨ c = 'e' ∨ c = 'E'))
          (parseDigits (d :: ds) 0).2 = true then
        Option.none
      else some (parseDigits (d :: ds) 0)
    else Option.none

/-- An integer at the head of a text: a number, after a minus sign or without one. -/
def parseInt (cs : List Char) : Option (Int × List Char) :=
  match cs with
  | '-' :: rest =>
    match parseNat rest with
    | some (n, rest) => some (-(n : Int), rest)
    | Option.none => Option.none
  | _ =>
    match parseNat cs with
    | some (n, rest) => some ((n : Int), rest)
    | Option.none => Option.none

mutual
/-- The document at the head of a text and the text after it; the first argument bounds
the depth of nesting and the number of elements read. -/
def parseValue : Nat → List Char → Option (JSON × List Char)
  | 0, _ => Option.none
  | fuel + 1, cs =>
    match skipSpace cs with
    | 'n' :: 'u' :: 'l' :: 'l' :: rest => some (JSON.null, rest)
    | 't' :: 'r' :: 'u' :: 'e' :: rest => some (JSON.bool true, rest)
    | 'f' :: 'a' :: 'l' :: 's' :: 'e' :: rest => some (JSON.bool false, rest)
    | '"' :: rest =>
      match parseStringBody (rest.length + 1) rest [] with
      | some (s, rest) => some (JSON.string s, rest)
      | Option.none => Option.none
    | '[' :: rest =>
      match skipSpace rest with
      | ']' :: rest => some (JSON.array [], rest)
      | rest =>
        match parseElems fuel rest with
        | some (elems, rest) => some (JSON.array elems, rest)
        | Option.none => Option.none
    | c :: rest =>
      if c.toNat = 123 then
        match skipSpace rest with
        | d :: rest2 =>
          if d.toNat = 125 then some (JSON.object [], rest2)
          else
            match parseMembers fuel (d :: rest2) with
            | some (members, rest) => some (JSON.object members, rest)
            | Option.none => Option.none
        | [] => Option.none
      else
        match parseInt (c :: rest) with
        | some (n, rest) => some (JSON.number n, rest)
        | Option.none => Option.none
    | [] => Option.none
/-- The elements of an array up to its closing bracket. -/
def parseElems : Nat → List Char → Option (List JSON × List Char)
  | 0, _ => Option.none
  | fuel + 1, cs =>
    match parseValue fuel cs with
    | Option.none => Option.none
    | some (doc, rest) =>
      match skipSpace rest with
      | ',' :: rest =>
        match parseElems fuel rest with
        | some (docs, rest) => some (doc :: docs, rest)
        | Option.none => Option.none
      | ']' :: rest => some ([doc], rest)
      | _ => Option.none
/-- The members of an object up to its closing brace. -/
def parseMembers : Nat → List Char → Option (List (String × JSON) × List Char)
  | 0, _ => Option.none
  | fuel + 1, cs =>
    match skipSpace cs with
    | '"' :: rest =>
      match parseStringBody (rest.length + 1) rest [] with
      | Option.none => Option.none
      | some (k, rest) =>
        match skipSpace rest with
        | ':' :: rest =>
          match parseValue fuel rest with
          | Option.none => Option.none
          | some (doc, rest) =>
            match skipSpace rest with
            | ',' :: rest =>
              match parseMembers fuel rest with
              | some (members, rest) => some ((k, doc) :: members, rest)
              | Option.none => Option.none
            | d :: rest => if d.toNat = 125 then some ([(k, doc)], rest) else Option.none
            | [] => Option.none
        | _ => Option.none
    | _ => Option.none
end

/-- The byte string of a text as `encoding/json` reads it: the document it holds, or a
syntax error. -/
def Bytes.ofText (text : Blob) : Bytes :=
  match parseValue (text.length + 1) text.toList with
  | some (doc, rest) =>
    match skipSpace rest with
    | [] => Bytes.document doc
    | _ => Bytes.malformed "invalid character after top-level value"
  | Option.none => Bytes.malformed "invalid character looking for beginning of value"


/-- A text that begins where a value has ended: the end of the text, a comma, or a closing
bracket or brace. -/
def endsValue (rest : List Char) : Prop :=
  rest = [] ∨ ∃ tl, rest = ',' :: tl ∨ rest = ']' :: tl ∨ rest = Char.ofNat 125 :: tl

/-- The text that `encoding/json` writes for a Go string: its characters, escaped, between
quotation marks, with the six-character escape of U+FFFD in the place of each byte that
is not part of the encoding of a character. -/
def JSON.renderGoString (g : GoString) : List Char :=
  '"' :: (g.flatMap (fun part =>
    match part with
    | .rune c => JSON.escapeChar c
    | .byte _ => ['\\', 'u', 'f', 'f', 'f', 'd']) ++ ['"'])

/-- Method `CustomPayload.Value` (publisher_test.go 61-63): the text that `json.Marshal(c)`
writes, the object with the one member `name`. -/
def CustomPayload.Value (c : CustomPayload) : Except GoError Blob :=
  .ok (String.mk (Char.ofNat 123 ::
    (JSON.renderString "name" ++ ':' :: (JSON.renderGoString c.Name ++ [Char.ofNat 125]))))

/-- Method `CustomPayload.Scan` (publisher_test.go 52-59) on the text of a column, read
into a fresh receiver. -/
def CustomPayload.Scan (b : Blob) : Except GoError CustomPayload :=
  match CustomPayload.ScanValue { Name := [] } (DriverValue.bytes (Bytes.ofText b)) with
  | (Option.none, c) => .ok c
  | (some err, _) => .error err

/-- The `Value` / `Scan` pair of `CustomPayload`. -/
def CustomPayload.codec : Codec CustomPayload :=
  { Value := CustomPayload.Value, Scan := CustomPayload.Scan }

/-- The `Value` / `Scan` pair of `ModelPackagingSpec` (model_packaging.go 64-75) on the
texts of a column: `Value` hands over the text that `json.Marshal` wrote, and `Scan` reads
the text it is given into a fresh receiver. -/
def ModelPackagingSpec.codec {ρ : Type} (types : PackagingJSON ρ) :
    Codec (ModelPackagingSpec ρ) :=
  { Value := fun piSpec =>
      match ModelPackagingSpec.toJSON types piSpec with
      | .error err => .error err
      | .ok doc => .ok (String.mk (JSON.render doc))
    Scan := fun b =>
      match ModelPackagingSpec.Scan types ModelPackagingSpec.empty
          (DriverValue.bytes (Bytes.ofText b)) with
      | (Option.none, piSpec) => .ok piSpec
      | (some err, _) => .error err }

/-- The plain environment with the one payload type of the sources that has a `Value` and
a `Scan` method, `ModelPackagingSpec`, in the place of the spec type, which is declared
outside the sources at hand. -/
def Env.packaging : Env (ModelPackagingSpec Unit) String (List String) :=
  { spec := ModelPackagingSpec.codec samplePackagingJSON, status := Codec.plain,
    deletionMarkDefault := false,
    compileFilter := fun specs => [fun r => r.spec ∈ specs],
    FirstPage := 0, MaxSize := 500 }

/-- A fresh entity whose spec carries a node selector without entries. -/
def sampleEmptySelector : ModelTraining (ModelPackagingSpec Unit) String :=
  { ID := "m4", DeletionMark := false, CreatedAt := 30, UpdatedAt := 31,
    Spec := sampleEmptySelectorSpec, Status := "scheduling" }

/-- A fresh entity whose spec carries a Go `int` among its arguments. -/
def sampleIntArgument : ModelTraining (ModelPackagingSpec Unit) String :=
  { ID := "m4", DeletionMark := false, CreatedAt := 30, UpdatedAt := 31,
    Spec := sampleIntArgumentSpec, Status := "scheduling" }

/-! ## Outbox: which events stay, and the course of a database -/

/-- An event whose row a later event takes out: the later event is a `Delete` event of the
same entity and group. -/
def Event.supersededBy {π : Type} (e later : Event π) : Bool :=
  decide (later.EventType = EventType.Delete) && decide (e.EntityID = later.EntityID) &&
    decide (e.EventGroup = later.EventGroup)

/-- The events of a list that no later event of the list supersedes, in the order of the
list. -/
def survivors {π : Type} : List (Event π) → List (Event π)
  | [] => []
  | e :: rest =>
    if rest.any (fun later => e.supersededBy later) then survivors rest
    else e :: survivors rest

/-- A row that stores an event: it carries the entity, type and group of the event and the
bytes that `Value` wrote for its payload. -/
def Event.storedAs {π : Type} (payload : Codec π) (e : Event π) (r : OutboxRow) : Prop :=
  r.entity_id = e.EntityID ∧ r.event_type = e.EventType ∧ r.event_group = e.EventGroup ∧
    payload.Value e.Payload = .ok r.payload

/-- An event read back from the outbox for a published one: it carries the entity, type
and group of the published event, and as its payload what `Scan` reads from the bytes
that `Value` wrote for the published payload. -/
def Event.readAs {π : Type} (payload : Codec π) (e o : Event π) : Prop :=
  o.EntityID = e.EntityID ∧ o.EventType = e.EventType ∧ o.EventGroup = e.EventGroup ∧
    ∃ b, payload.Value e.Payload = .ok b ∧ payload.Scan b = .ok o.Payload

/-- What happens to a database, one thing at a time: a call made with a nil handle; a
transaction that is begun, runs its calls with its handle and is committed or rolled
back; or a pass of the Publisher, which removes the rows that the sink acknowledged. -/
inductive Session (σ τ π : Type) where
  | call (fl : Faults) (op : Op σ τ π)
  | transaction (opts : TxOptions) (ops : List (Faults × Op σ τ π)) (commit : Bool)
      (fault : Option GoError)
  | forward (batch : Nat) (ack : OutboxRow → Bool)

/-- The database after one of these. -/
def Session.run {π : Type} (env : Env σ τ φ) (payload : Codec π) (db : Database) :
    Session σ τ π → Database
  | .call fl op => (op.run env payload fl db Option.none).db
  | .transaction opts ops commit fault =>
    if commit then
      (Tx.Commit fault
        (runOpsWithTx env payload db
          { opts := opts, training := db.training, outbox := db.outbox, failed := false }
          ops).1
        (runOpsWithTx env payload db
          { opts := opts, training := db.training, outbox := db.outbox, failed := false }
          ops).2).2
    else
      (Tx.Rollback fault
        (runOpsWithTx env payload db
          { opts := opts, training := db.training, outbox := db.outbox, failed := false }
          ops).1
        (runOpsWithTx env payload db
          { opts := opts, training := db.training, outbox := db.outbox, failed := false }
          ops).2).2
  | .forward batch ack =>
    { db with
      outbox := (Publisher.poll batch ack
        { outbox := db.outbox, seq := db.outboxSeq, sink := [], acked := [] }).outbox }

/-- The database after a course of sessions, one after the other. -/
def runSessions {π : Type} (env : Env σ τ φ) (payload : Codec π) (db : Database)
    (sessions : List (Session σ τ π)) : Database :=
  sessions.foldl (Session.run env payload) db

/-- An event whose payload is a `ModelPackagingSpec` with a node selector without
entries. -/
def samplePackagingEvent : Event (ModelPackagingSpec Unit) :=
  { EntityID := "mp1", EventType := EventType.Create, EventGroup := "ModelPackaging",
    Datetime := 4, Payload := sampleEmptySelectorSpec }

/-- Two calls made with one handle: `event1` is published, then `event1Delete`. -/
def sampleSupersedingOps : List (Faults × Op String String CustomPayload) :=
  [(Faults.none, Op.publish event1), (Faults.none, Op.publish event1Delete)]

/-- A step that may take a row out of the outbox without a pass of the Publisher: the
publishing of an event that supersedes the row. -/
def Step.supersedes {π : Type} (st : Step π) (r : OutboxRow) : Bool :=
  match st with
  | .publish event => event.supersedes r
  | .poll _ _ => false

/-- A pass of the Publisher in which the sink acknowledges the row, if the pass forwards
it. -/
def Step.acknowledges {π : Type} (st : Step π) (r : OutboxRow) : Bool :=
  match st with
  | .publish _ => false
  | .poll _ ack => ack r

/-- The deferred `rows.Close()` of a listing call (lines 107-110), whose error is logged.
The deferred function is registered once `QueryContext` has handed back the row set.
`rows.Next()` closes the row set itself when it returns false, and `Close` on a closed row
set returns nil; so the deferred call can report an error only when the scan loop was
left early, by the `return nil, err` of line 122. -/
def deferredClose (env : Env σ τ φ) (fl : Faults) (qrr : Table)
    (options : List (ListOption φ)) : Option GoError :=
  match fl.toSql with
  | some _ => Option.none
  | Option.none =>
    match fl.query with
    | some _ => Option.none
    | Option.none =>
      match scanRows env (Engine.select qrr (listStatement env options)) [] with
      | .error _ => fl.rowsClose
      | .ok _ => Option.none

/-! ## Basic facts about the engine -/

theorem any_id_eq_true (t : Table) (id : String) :
    t.any (fun r => decide (r.id = id)) = true ↔ ∃ r ∈ t, r.id = id := by
  simp [List.any_eq_true]

theorem any_id_eq_false (t : Table) (id : String) (h : ∀ r ∈ t, r.id ≠ id) :
    t.any (fun r => decide (r.id = id)) = false := by
  induction t with
  | nil => rfl
  | cons a t ih =>
    have ha : a.id ≠ id := h a (List.mem_cons_self a t)
    have ht : ∀ r ∈ t, r.id ≠ id := fun r hr => h r (List.mem_cons_of_mem a hr)
    simp [List.any_cons, ha, ih ht]

theorem filter_id_eq_nil (t : Table) (id : String) (h : ∀ r ∈ t, r.id ≠ id) :
    t.filter (fun r => decide (r.id = id)) = [] := by
  induction t with
  | nil => rfl
  | cons a t ih =>
    have ha : a.id ≠ id := h a (List.mem_cons_self a t)
    have ht : ∀ r ∈ t, r.id ≠ id := fun r hr => h r (List.mem_cons_of_mem a hr)
    simp [List.filter_cons, ha, ih ht]

theorem filter_id_ne_self (t : Table) (id : String) (h : ∀ r ∈ t, r.id ≠ id) :
    t.filter (fun r => decide (¬ r.id = id)) = t := by
  induction t with
  | nil => rfl
  | cons a t ih =>
    have ha : a.id ≠ id := h a (List.mem_cons_self a t)
    have ht : ∀ r ∈ t, r.id ≠ id := fun r hr => h r (List.mem_cons_of_mem a hr)
    simp only [List.filter_cons, ha, not_false_eq_true, decide_True, if_true, ih ht]

theorem map_update_self (t : Table) (id : String) (f : Row → Row)
    (h : ∀ r ∈ t, r.id ≠ id) :
    t.map (fun r => if r.id = id then f r else r) = t := by
  induction t with
  | nil => rfl
  | cons a t ih =>
    have ha : a.id ≠ id := h a (List.mem_cons_self a t)
    have ht : ∀ r ∈ t, r.id ≠ id := fun r hr => h r (List.mem_cons_of_mem a hr)
    simp [ha, ih ht]

theorem filter_id_pos_length (t : Table) (id : String) (h : ∃ r ∈ t, r.id = id) :
    (t.filter (fun r => decide (r.id = id))).length ≠ 0 := by
  obtain ⟨r, hr, hid⟩ := h
  have hmem : r ∈ t.filter (fun r => decide (r.id = id)) := by
    simp [List.mem_filter, hr, hid]
  intro h0
  rw [List.length_eq_zero] at h0
  rw [h0] at hmem
  exact List.not_mem_nil r hmem

/-- Under the primary key, the rows with a given `id` are that one row. -/
theorem filter_id_eq_singleton (t : Table) (r : Row) (hpk : PrimaryKey t) (hr : r ∈ t) :
    t.filter (fun x => decide (x.id = r.id)) = [r] := by
  induction t with
  | nil => cases hr
  | cons a t ih =>
    unfold PrimaryKey at hpk ih
    rw [List.map_cons, List.nodup_cons] at hpk
    rcases List.mem_cons.mp hr with h | h
    · subst h
      have hno : ∀ x ∈ t, x.id ≠ r.id := by
        intro x hx hxe
        exact hpk.1 (hxe ▸ List.mem_map_of_mem Row.id hx)
      simp [List.filter_cons, filter_id_eq_nil t r.id hno]
    · have hne : a.id ≠ r.id := by
        intro hae
        exact hpk.1 (hae ▸ List.mem_map_of_mem Row.id h)
      simp [List.filter_cons, hne, ih hpk.2 h]

/-! ## Save -/

/-- C1. With the storage layer working and the payloads serializable: saving an entity
whose `ID` is already in the table returns `AlreadyExistError{Entity: e.ID}` and leaves
the table as it was; saving one whose `ID` is absent succeeds and appends exactly one
row, carrying that `ID`; and a second save under the same `ID` then fails with
`AlreadyExistError`, the table still holding the row of the first save. -/
theorem SaveModelTraining_existing_or_fresh (env : Env σ τ φ) (qrr : Table)
    (e : ModelTraining σ τ) (bs bt : Blob)
    (hs : env.spec.Value e.Spec = .ok bs) (ht : env.status.Value e.Status = .ok bt) :
    ((∃ r ∈ qrr, r.id = e.ID) →
      SaveModelTraining env Faults.none qrr e = (some (.AlreadyExistError e.ID), qrr)) ∧
    ((∀ r ∈ qrr, r.id ≠ e.ID) →
      SaveModelTraining env Faults.none qrr e =
        (Option.none, qrr ++ [{ id := e.ID, spec := bs, status := bt,
                                deletionmark := env.deletionMarkDefault,
                                created := e.CreatedAt, updated := e.UpdatedAt }]) ∧
      ∀ (e2 : ModelTraining σ τ) (bs2 bt2 : Blob), e2.ID = e.ID →
        env.spec.Value e2.Spec = .ok bs2 → env.status.Value e2.Status = .ok bt2 →
        SaveModelTraining env Faults.none (SaveModelTraining env Faults.none qrr e).2 e2 =
          (some (.AlreadyExistError e.ID), (SaveModelTraining env Faults.none qrr e).2)) := by
  have hdup : ∀ (t : Table) (x : ModelTraining σ τ) (b1 b2 : Blob),
      env.spec.Value x.Spec = .ok b1 → env.status.Value x.Status = .ok b2 →
      (∃ r ∈ t, r.id = x.ID) →
      SaveModelTraining env Faults.none t x = (some (.AlreadyExistError x.ID), t) := by
    intro t x b1 b2 h1 h2 hex
    have hany := (any_id_eq_true t x.ID).mpr hex
    simp [SaveModelTraining, Faults.none, ExecContext, Engine.exec, h1, h2, hany,
      uniqueViolationPostgresCode]
  have hfresh : (∀ r ∈ qrr, r.id ≠ e.ID) →
      SaveModelTraining env Faults.none qrr e =
        (Option.none, qrr ++ [{ id := e.ID, spec := bs, status := bt,
                                deletionmark := env.deletionMarkDefault,
                                created := e.CreatedAt, updated := e.UpdatedAt }]) := by
    intro hno
    have hany := any_id_eq_false qrr e.ID hno
    simp [SaveModelTraining, Faults.none, ExecContext, Engine.exec, hs, ht, hany]
  refine ⟨hdup qrr e bs bt hs ht, fun hno => ⟨hfresh hno, ?_⟩⟩
  intro e2 bs2 bt2 hid hs2 ht2
  rw [hfresh hno, ← hid]
  apply hdup _ e2 bs2 bt2 hs2 ht2
  exact ⟨_, List.mem_append_right _ (List.mem_singleton_self _), rfl⟩

/-- Witness for C1 on the sample table: a fresh `ID` is appended, a second save under it
is rejected. -/
theorem SaveModelTraining_existing_or_fresh_witness :
    SaveModelTraining Env.plain Faults.none sampleTable sampleNew =
      (Option.none, sampleTable ++ [{ id := "m4", spec := "mlflow", status := "scheduling",
                                      deletionmark := false, created := 30, updated := 31 }]) ∧
    ((∃ r ∈ sampleTable, r.id = "m1") →
      SaveModelTraining Env.plain Faults.none sampleTable
          { sampleNew with ID := "m1" } = (some (.AlreadyExistError "m1"), sampleTable)) :=
  ⟨((SaveModelTraining_existing_or_fresh Env.plain sampleTable sampleNew "mlflow"
      "scheduling" rfl rfl).2 (by decide)).1,
   (SaveModelTraining_existing_or_fresh Env.plain sampleTable { sampleNew with ID := "m1" }
      "mlflow" "scheduling" rfl rfl).1⟩

/-! ## Get -/

theorem select_by_id (t : Table) (id : String) :
    Engine.select t { wheres := [fun r => decide (r.id = id)], orderById := false,
                      offset := Option.none, limit := Option.none }
      = t.filter (fun r => decide (r.id = id)) := by
  simp [Engine.select]

theorem GetModelTraining_absent (env : Env σ τ φ) (qrr : Table) (id : String)
    (h : ∀ r ∈ qrr, r.id ≠ id) :
    GetModelTraining env Faults.none qrr id = (Option.none, some (.NotFoundError id)) := by
  simp [GetModelTraining, QueryRowScan, Faults.none, select_by_id, filter_id_eq_nil qrr id h]

/-- Get returns the scan of the first row that carries the `id`. -/
theorem GetModelTraining_first (env : Env σ τ φ) (qrr : Table) (id : String) (r : Row)
    (rest : List Row) (mt : ModelTraining σ τ)
    (hsel : qrr.filter (fun x => decide (x.id = id)) = r :: rest)
    (hscan : scanRow env r = .ok mt) :
    GetModelTraining env Faults.none qrr id = (some mt, Option.none) := by
  simp [GetModelTraining, QueryRowScan, Faults.none, select_by_id, hsel, hscan]

theorem GetModelTraining_present (env : Env σ τ φ) (qrr : Table) (r : Row)
    (mt : ModelTraining σ τ) (hpk : PrimaryKey qrr) (hr : r ∈ qrr)
    (hscan : scanRow env r = .ok mt) :
    GetModelTraining env Faults.none qrr r.id = (some mt, Option.none) :=
  GetModelTraining_first env qrr r.id r [] mt (filter_id_eq_singleton qrr r hpk hr) hscan

theorem scanRow_ok (env : Env σ τ φ) (r : Row) (mt : ModelTraining σ τ)
    (h : scanRow env r = .ok mt) :
    mt.ID = r.id ∧ env.spec.Scan r.spec = .ok mt.Spec ∧
      env.status.Scan r.status = .ok mt.Status ∧ mt.DeletionMark = r.deletionmark ∧
      mt.CreatedAt = r.created ∧ mt.UpdatedAt = r.updated := by
  unfold scanRow at h
  cases hs : env.spec.Scan r.spec with
  | error err => simp [hs] at h
  | ok spec =>
    cases ht : env.status.Scan r.status with
    | error err => simp [hs, ht] at h
    | ok status =>
      simp only [hs, ht, Except.ok.injEq] at h
      subst h
      exact ⟨rfl, rfl, rfl, rfl, rfl, rfl⟩

theorem scanRow_of_scans (env : Env σ τ φ) (r : Row) (spec : σ) (status : τ)
    (hs : env.spec.Scan r.spec = .ok spec) (ht : env.status.Scan r.status = .ok status) :
    scanRow env r = .ok { ID := r.id, Spec := spec, Status := status,
                          DeletionMark := r.deletionmark, CreatedAt := r.created,
                          UpdatedAt := r.updated } := by
  simp [scanRow, hs, ht]

/-- C3. With the storage layer working and the rows that carry the `id` deserializable:
Get returns a nil entity with `NotFoundError{Entity: id}` exactly when no row has that
`id`; and when a row of a table with a primary key has the `id`, Get returns, without
error, the entity scanned from that row: its `id`, deletion mark, created and updated
values, and the deserialized `spec` and `status`. -/
theorem GetModelTraining_spec (env : Env σ τ φ) (qrr : Table) (id : String)
    (hscan : ∀ r ∈ qrr, r.id = id → ∃ mt, scanRow env r = .ok mt) :
    (GetModelTraining env Faults.none qrr id = (Option.none, some (.NotFoundError id))
      ↔ ∀ r ∈ qrr, r.id ≠ id) ∧
    (∀ r ∈ qrr, r.id = id → PrimaryKey qrr →
      ∃ mt, GetModelTraining env Faults.none qrr id = (some mt, Option.none) ∧
        mt.ID = r.id ∧ env.spec.Scan r.spec = .ok mt.Spec ∧
        env.status.Scan r.status = .ok mt.Status ∧ mt.DeletionMark = r.deletionmark ∧
        mt.CreatedAt = r.created ∧ mt.UpdatedAt = r.updated) := by
  constructor
  · constructor
    · intro hget r hr hid
      cases hsel : qrr.filter (fun x => decide (x.id = id)) with
      | nil =>
        have hmem : r ∈ qrr.filter (fun x => decide (x.id = id)) := by
          simp [List.mem_filter, hr, hid]
        rw [hsel] at hmem
        exact List.not_mem_nil r hmem
      | cons a rest =>
        have ha : a ∈ qrr.filter (fun x => decide (x.id = id)) := by
          rw [hsel]; exact List.mem_cons_self a rest
        rw [List.mem_filter] at ha
        obtain ⟨mt, hmt⟩ := hscan a ha.1 (by simpa using ha.2)
        rw [GetModelTraining_first env qrr id a rest mt hsel hmt] at hget
        simp at hget
    · exact GetModelTraining_absent env qrr id
  · intro r hr hid hpk
    obtain ⟨mt, hmt⟩ := hscan r hr hid
    refine ⟨mt, ?_, scanRow_ok env r mt hmt⟩
    rw [← hid]
    exact GetModelTraining_present env qrr r mt hpk hr hmt

/-- Witness for C3 on the sample table: `m1` is found, with the values of its row. -/
theorem GetModelTraining_spec_witness :
    ∃ mt, GetModelTraining Env.plain Faults.none sampleTable "m1" = (some mt, Option.none) ∧
      mt.ID = "m1" ∧ Env.plain.spec.Scan "mlflow" = .ok mt.Spec ∧
      Env.plain.status.Scan "succeeded" = .ok mt.Status ∧ mt.DeletionMark = true ∧
      mt.CreatedAt = 5 ∧ mt.UpdatedAt = 7 :=
  (GetModelTraining_spec Env.plain sampleTable "m1"
    (fun r _ _ => ⟨_, scanRow_of_scans Env.plain r r.spec r.status rfl rfl⟩)).2
    { id := "m1", spec := "mlflow", status := "succeeded", deletionmark := true,
      created := 5, updated := 7 } (by decide) rfl (by decide)

/-! ## Operations on an unknown `ID` -/

/-- C4. With the storage layer working and the payloads serializable: on an `ID` that no
row carries, Update, Delete and SetDeletionMark each return `NotFoundError{Entity: id}`
and leave the table as it was. -/
theorem unknown_id_NotFound (env : Env σ τ φ) (qrr : Table) (e : ModelTraining σ τ)
    (value : Bool) (bs bt : Blob)
    (hs : env.spec.Value e.Spec = .ok bs) (ht : env.status.Value e.Status = .ok bt)
    (hno : ∀ r ∈ qrr, r.id ≠ e.ID) :
    UpdateModelTraining env Faults.none qrr e = (some (.NotFoundError e.ID), qrr) ∧
    DeleteModelTraining env Faults.none qrr e.ID = (some (.NotFoundError e.ID), qrr) ∧
    SetDeletionMark env Faults.none qrr e.ID value = (some (.NotFoundError e.ID), qrr) := by
  refine ⟨?_, ?_, ?_⟩
  · simp [UpdateModelTraining, Faults.none, ExecContext, Engine.exec, RowsAffected, hs, ht,
      filter_id_eq_nil qrr e.ID hno, map_update_self qrr e.ID _ hno]
  · simp only [DeleteModelTraining, Faults.none, ExecContext, Engine.exec, RowsAffected,
      filter_id_eq_nil qrr e.ID hno, filter_id_ne_self qrr e.ID hno, List.length_nil,
      if_true]
  · simp [SetDeletionMark, utils.SetDeletionMark, Faults.none, ExecContext, Engine.exec,
      RowsAffected, filter_id_eq_nil qrr e.ID hno, map_update_self qrr e.ID _ hno]

/-- Witness for C4 on the sample table with the unknown `ID` `m4`. -/
theorem unknown_id_NotFound_witness :
    UpdateModelTraining Env.plain Faults.none sampleTable sampleNew
      = (some (.NotFoundError "m4"), sampleTable) ∧
    DeleteModelTraining Env.plain Faults.none sampleTable "m4"
      = (some (.NotFoundError "m4"), sampleTable) ∧
    SetDeletionMark Env.plain Faults.none sampleTable "m4" true
      = (some (.NotFoundError "m4"), sampleTable) :=
  unknown_id_NotFound Env.plain sampleTable sampleNew true "mlflow" "scheduling" rfl rfl
    (by decide)

/-! ## Update -/

theorem SetClauses.apply_id (s : SetClauses) (r : Row) : (s.apply r).id = r.id := rfl

/-- The rows with a given `id` after an `UPDATE ... WHERE id` are the updated old ones. -/
theorem filter_map_update (t : Table) (id : String) (f : Row → Row)
    (hf : ∀ r, (f r).id = r.id) :
    (t.map (fun r => if r.id = id then f r else r)).filter (fun r => decide (r.id = id))
      = (t.filter (fun r => decide (r.id = id))).map f := by
  induction t with
  | nil => rfl
  | cons a t ih =>
    by_cases ha : a.id = id
    · have hfa : (f a).id = id := by rw [hf a, ha]
      simp [List.filter_cons, ha, hfa, ih]
    · simp [List.filter_cons, ha, ih]

/-- With the storage layer working, an update of a stored `ID` succeeds and maps the
`SET` clauses over the rows with that `ID`. -/
theorem UpdateModelTraining_stored (env : Env σ τ φ) (qrr : Table) (e : ModelTraining σ τ)
    (bs bt : Blob)
    (hs : env.spec.Value e.Spec = .ok bs) (ht : env.status.Value e.Status = .ok bt)
    (hex : ∃ r ∈ qrr, r.id = e.ID) :
    UpdateModelTraining env Faults.none qrr e =
      (Option.none, qrr.map (fun r => if r.id = e.ID then
        SetClauses.apply { spec := some bs, status := some bt, updated := some e.UpdatedAt,
                           deletionmark := Option.none } r else r)) := by
  have hlen := filter_id_pos_length qrr e.ID hex
  simp only [UpdateModelTraining, Faults.none, ExecContext, Engine.exec, RowsAffected, hs, ht,
    hlen, if_false]

/-- C6. With the storage layer working and the payloads serializable: an update of a
stored `ID` succeeds and the table afterwards matches the table before row by row; each
row keeps its `id`, `deletionmark` and `created`, whatever the entity carries in `ID`,
`DeletionMark` and `CreatedAt`; a row with another `id` is unchanged; a row with the
entity's `ID` gets the serialized `Spec`, `Status` and the `UpdatedAt` of the entity. -/
theorem UpdateModelTraining_frame (env : Env σ τ φ) (qrr : Table) (e : ModelTraining σ τ)
    (bs bt : Blob)
    (hs : env.spec.Value e.Spec = .ok bs) (ht : env.status.Value e.Status = .ok bt)
    (hex : ∃ r ∈ qrr, r.id = e.ID) :
    (UpdateModelTraining env Faults.none qrr e).1 = Option.none ∧
    List.Forall₂
      (fun old new =>
        new.id = old.id ∧ new.deletionmark = old.deletionmark ∧ new.created = old.created ∧
        (old.id ≠ e.ID → new = old) ∧
        (old.id = e.ID → new.spec = bs ∧ new.status = bt ∧ new.updated = e.UpdatedAt))
      qrr (UpdateModelTraining env Faults.none qrr e).2 := by
  rw [UpdateModelTraining_stored env qrr e bs bt hs ht hex]
  refine ⟨rfl, ?_⟩
  rw [List.forall₂_map_right_iff, List.forall₂_same]
  intro r _
  by_cases hr : r.id = e.ID
  · simp [hr, SetClauses.apply]
  · simp [hr]

/-- Witness for C6: updating `m1` in the sample table with an entity that carries another
deletion mark and creation time. -/
theorem UpdateModelTraining_frame_witness :
    UpdateModelTraining Env.plain Faults.none sampleTable { sampleNew with ID := "m1" } =
      (Option.none,
       [ { id := "m2", spec := "xgboost", status := "running", deletionmark := false,
           created := 10, updated := 11 },
         { id := "m1", spec := "mlflow", status := "scheduling", deletionmark := true,
           created := 5, updated := 31 },
         { id := "m3", spec := "mlflow", status := "failed", deletionmark := false,
           created := 20, updated := 20 } ]) ∧
    List.Forall₂
      (fun old new =>
        new.id = old.id ∧ new.deletionmark = old.deletionmark ∧ new.created = old.created ∧
        (old.id ≠ "m1" → new = old) ∧
        (old.id = "m1" → new.spec = "mlflow" ∧ new.status = "scheduling" ∧ new.updated = 31))
      sampleTable
      (UpdateModelTraining Env.plain Faults.none sampleTable { sampleNew with ID := "m1" }).2 :=
  ⟨by decide,
   (UpdateModelTraining_frame Env.plain sampleTable { sampleNew with ID := "m1" }
      "mlflow" "scheduling" rfl rfl (by decide)).2⟩

/-! ## Delete -/

theorem length_filter_id_split (t : Table) (id : String) :
    (t.filter (fun r => decide (¬ r.id = id))).length
      + (t.filter (fun r => decide (r.id = id))).length = t.length := by
  induction t with
  | nil => rfl
  | cons a t ih =>
    by_cases ha : a.id = id
    · simp only [List.filter_cons, ha, not_true_eq_false, decide_False, decide_True, if_true,
        List.length_cons]
      simp only [Bool.false_eq_true, if_false]
      omega
    · simp only [List.filter_cons, ha, not_false_eq_true, decide_True, decide_False, if_true,
        List.length_cons]
      simp only [Bool.false_eq_true, if_false]
      omega

/-- With the storage layer working, a delete of a stored `id` succeeds and keeps the
rows with another `id`. -/
theorem DeleteModelTraining_eq (env : Env σ τ φ) (qrr : Table) (id : String)
    (hex : ∃ r ∈ qrr, r.id = id) :
    DeleteModelTraining env Faults.none qrr id =
      (Option.none, qrr.filter (fun r => decide (¬ r.id = id))) := by
  have hlen := filter_id_pos_length qrr id hex
  simp only [DeleteModelTraining, Faults.none, ExecContext, Engine.exec, RowsAffected, hlen,
    if_false]

/-- C7. With the storage layer working, on a table with a primary key that holds a row
with the given `id`: Delete succeeds; the rows afterwards are exactly the rows with
another `id`, in their old order and one fewer in number; and Get on that `id` afterwards
fails with `NotFoundError{Entity: id}`. -/
theorem DeleteModelTraining_stored (env : Env σ τ φ) (qrr : Table) (id : String)
    (hpk : PrimaryKey qrr) (hex : ∃ r ∈ qrr, r.id = id) :
    (DeleteModelTraining env Faults.none qrr id).1 = Option.none ∧
    (∀ r, r ∈ (DeleteModelTraining env Faults.none qrr id).2 ↔ r ∈ qrr ∧ r.id ≠ id) ∧
    (DeleteModelTraining env Faults.none qrr id).2.Sublist qrr ∧
    (DeleteModelTraining env Faults.none qrr id).2.length + 1 = qrr.length ∧
    GetModelTraining env Faults.none (DeleteModelTraining env Faults.none qrr id).2 id
      = (Option.none, some (.NotFoundError id)) := by
  rw [DeleteModelTraining_eq env qrr id hex]
  refine ⟨rfl, ?_, List.filter_sublist qrr, ?_, ?_⟩
  · intro r
    simp [List.mem_filter]
  · obtain ⟨r, hr, hid⟩ := hex
    have hone := filter_id_eq_singleton qrr r hpk hr
    rw [hid] at hone
    have hsplit := length_filter_id_split qrr id
    rw [hone] at hsplit
    simpa using hsplit
  · apply GetModelTraining_absent
    intro r hr
    rw [List.mem_filter] at hr
    simpa using hr.2

/-- Witness for C7: deleting `m1` from the sample table. -/
theorem DeleteModelTraining_stored_witness :
    DeleteModelTraining Env.plain Faults.none sampleTable "m1" =
      (Option.none,
       [ { id := "m2", spec := "xgboost", status := "running", deletionmark := false,
           created := 10, updated := 11 },
         { id := "m3", spec := "mlflow", status := "failed", deletionmark := false,
           created := 20, updated := 20 } ]) ∧
    GetModelTraining Env.plain Faults.none
        (DeleteModelTraining Env.plain Faults.none sampleTable "m1").2 "m1"
      = (Option.none, some (.NotFoundError "m1")) :=
  ⟨by decide,
   (DeleteModelTraining_stored Env.plain sampleTable "m1" (by decide) (by decide)).2.2.2.2⟩

/-! ## The order of `ORDER BY id` -/

theorem lexLE_nil (b : List Char) : lexLE [] b = true := by
  cases b <;> rfl

theorem lexLE_total : ∀ a b : List Char, lexLE a b = true ∨ lexLE b a = true
  | [], b => Or.inl (lexLE_nil b)
  | _ :: _, [] => Or.inr rfl
  | x :: xs, y :: ys => by
    simp only [lexLE]
    rcases Nat.lt_trichotomy x.toNat y.toNat with h | h | h
    · left; simp [h]
    · have h1 : ¬ x.toNat < y.toNat := by omega
      have h2 : ¬ y.toNat < x.toNat := by omega
      simp only [h1, h2, if_false]
      exact lexLE_total xs ys
    · right; simp [h]

theorem lexLE_trans :
    ∀ a b c : List Char, lexLE a b = true → lexLE b c = true → lexLE a c = true
  | [], _, c, _, _ => lexLE_nil c
  | _ :: _, [], _, h, _ => by simp [lexLE] at h
  | _ :: _, _ :: _, [], _, h => by simp [lexLE] at h
  | x :: xs, y :: ys, z :: zs, hab, hbc => by
    simp only [lexLE] at hab hbc ⊢
    by_cases hxy : x.toNat < y.toNat
    · by_cases hyz : y.toNat < z.toNat
      · have : x.toNat < z.toNat := by omega
        simp [this]
      · by_cases hzy : z.toNat < y.toNat
        · simp [hyz, hzy] at hbc
        · have : x.toNat < z.toNat := by omega
          simp [this]
    · by_cases hyx : y.toNat < x.toNat
      · simp [hxy, hyx] at hab
      · simp only [hxy, hyx, if_false] at hab
        by_cases hyz : y.toNat < z.toNat
        · have : x.toNat < z.toNat := by omega
          simp [this]
        · by_cases hzy : z.toNat < y.toNat
          · simp [hyz, hzy] at hbc
          · simp only [hyz, hzy, if_false] at hbc
            have h1 : ¬ x.toNat < z.toNat := by omega
            have h2 : ¬ z.toNat < x.toNat := by omega
            simp only [h1, h2, if_false]
            exact lexLE_trans xs ys zs hab hbc

theorem char_eq_of_toNat_eq (x y : Char) (h : x.toNat = y.toNat) : x = y := by
  apply Char.ext
  apply UInt32.ext
  exact h

theorem lexLE_antisymm :
    ∀ a b : List Char, lexLE a b = true → lexLE b a = true → a = b
  | [], [], _, _ => rfl
  | [], _ :: _, _, h => by simp [lexLE] at h
  | _ :: _, [], h, _ => by simp [lexLE] at h
  | x :: xs, y :: ys, hab, hba => by
    simp only [lexLE] at hab hba
    by_cases hxy : x.toNat < y.toNat
    · have : ¬ y.toNat < x.toNat := by omega
      simp [hxy, this] at hba
    · by_cases hyx : y.toNat < x.toNat
      · simp [hxy, hyx] at hab
      · simp only [hxy, hyx, if_false] at hab hba
        have hc : x = y := char_eq_of_toNat_eq x y (by omega)
        rw [hc, lexLE_antisymm xs ys hab hba]

theorem idLE_antisymm (a b : String) (hab : idLE a b = true) (hba : idLE b a = true) :
    a = b :=
  String.ext (lexLE_antisymm a.toList b.toList hab hba)

theorem rowLE_total : IsTotal Row rowLE :=
  ⟨fun a b => lexLE_total a.id.toList b.id.toList⟩

theorem rowLE_trans : IsTrans Row rowLE :=
  ⟨fun a b c hab hbc => lexLE_trans a.id.toList b.id.toList c.id.toList hab hbc⟩

/-- The rows put in `id` order are in ascending order. -/
theorem sorted_byId (l : List Row) : (l.insertionSort rowLE).Sorted rowLE := by
  haveI := rowLE_total
  haveI := rowLE_trans
  exact List.sorted_insertionSort rowLE l

/-- Rows of a table with a primary key are told apart by their `id`. -/
theorem PrimaryKey.eq_of_id_eq {t : Table} (hpk : PrimaryKey t) {a b : Row}
    (ha : a ∈ t) (hb : b ∈ t) (h : a.id = b.id) : a = b :=
  List.inj_on_of_nodup_map hpk ha hb h

/-- Under the primary key, the rows in `id` order do not depend on the order in which the
table stores them. -/
theorem insertionSort_filter_perm (t t2 : Table) (p : Row → Bool) (hpk : PrimaryKey t)
    (hperm : t2.Perm t) :
    (t2.filter p).insertionSort rowLE = (t.filter p).insertionSort rowLE := by
  apply @List.Perm.eq_of_sorted Row rowLE
  · intro a b ha hb hab hba
    have ha2 : a ∈ t :=
      hperm.subset (List.mem_of_mem_filter ((List.perm_insertionSort rowLE _).subset ha))
    have hb2 : b ∈ t :=
      List.mem_of_mem_filter ((List.perm_insertionSort rowLE _).subset hb)
    exact hpk.eq_of_id_eq ha2 hb2 (idLE_antisymm a.id b.id hab hba)
  · exact sorted_byId _
  · exact sorted_byId _
  · exact (List.perm_insertionSort rowLE _).trans
      ((hperm.filter p).trans (List.perm_insertionSort rowLE _).symm)

/-! ## Machine integers in range -/

theorem int64_of_range (x : Int) (h0 : 0 ≤ x) (h1 : x < 2 ^ 63) : int64 x = x := by
  unfold int64
  omega

theorem uint64_of_range (x : Int) (h0 : 0 ≤ x) (h1 : x < 2 ^ 63) : uint64 x = x.toNat := by
  unfold uint64
  congr 1
  omega

theorem toNat_mul_of_nonneg (a b : Int) (ha : 0 ≤ a) (hb : 0 ≤ b) :
    (a * b).toNat = b.toNat * a.toNat := by
  have h : ((a * b).toNat : Int) = ((b.toNat * a.toNat : Nat) : Int) := by
    rw [Int.toNat_of_nonneg (Int.mul_nonneg ha hb), Nat.cast_mul, Int.toNat_of_nonneg ha,
      Int.toNat_of_nonneg hb, Int.mul_comm]
  exact_mod_cast h

/-! ## List -/

theorem applyOptions_append_Page (env : Env σ τ φ) (options : List (ListOption φ))
    (p : Int) :
    applyOptions env (options ++ [Page p]) = { applyOptions env options with Page := p } := by
  simp [applyOptions, List.foldl_append, Page]

theorem select_list (env : Env σ τ φ) (qrr : Table) (filter : Option φ) (o l : Nat) :
    Engine.select qrr (utils.TransformFilter env.compileFilter
        { wheres := [], orderById := true, offset := some o, limit := some l } filter)
      = (((qrr.filter (satisfies env filter)).insertionSort rowLE).drop o).take l := by
  cases filter with
  | none =>
    simp only [utils.TransformFilter, Engine.select, List.all_nil, if_true]
    rfl
  | some f =>
    simp only [utils.TransformFilter, Engine.select, List.nil_append, if_true]
    rfl

theorem mem_of_mem_issuedRows (env : Env σ τ φ) (qrr : Table) (options : List (ListOption φ))
    (r : Row) (h : r ∈ issuedRows env qrr options) : r ∈ qrr := by
  unfold issuedRows at h
  have h1 := List.mem_of_mem_drop (List.mem_of_mem_take h)
  exact List.mem_of_mem_filter ((List.perm_insertionSort rowLE _).subset h1)

theorem scanRows_ok (env : Env σ τ φ) (rows : List Row)
    (h : ∀ r ∈ rows, ∃ mt, scanRow env r = .ok mt) (acc : List (ModelTraining σ τ)) :
    ∃ mts, scanRows env rows acc = .ok (acc ++ mts) ∧
      List.Forall₂ (fun r mt => scanRow env r = .ok mt) rows mts := by
  induction rows generalizing acc with
  | nil => exact ⟨[], by simp [scanRows], List.Forall₂.nil⟩
  | cons r rows ih =>
    obtain ⟨mt, hmt⟩ := h r (List.mem_cons_self r rows)
    obtain ⟨mts, hmts, hall⟩ :=
      ih (fun x hx => h x (List.mem_cons_of_mem r hx)) (acc ++ [mt])
    refine ⟨mt :: mts, ?_, List.Forall₂.cons hmt hall⟩
    simp [scanRows, hmt, hmts]

/-- With the storage layer working, a listing call returns what the scan loop makes of
the rows issued by the engine. -/
theorem GetModelTrainingList_eq (env : Env σ τ φ) (qrr : Table)
    (options : List (ListOption φ)) :
    GetModelTrainingList env Faults.none qrr options =
      match scanRows env (issuedRows env qrr options) [] with
      | .error err => (Option.none, some err)
      | .ok mts => (some mts, Option.none) := by
  simp only [GetModelTrainingList, Faults.none, select_list, issuedRows]

theorem GetModelTrainingList_ok (env : Env σ τ φ) (qrr : Table)
    (options : List (ListOption φ)) (hscan : ∀ r ∈ qrr, ∃ mt, scanRow env r = .ok mt) :
    ∃ mts, GetModelTrainingList env Faults.none qrr options = (some mts, Option.none) ∧
      List.Forall₂ (fun r mt => scanRow env r = .ok mt) (issuedRows env qrr options) mts := by
  obtain ⟨mts, hmts, hall⟩ := scanRows_ok env (issuedRows env qrr options)
    (fun r hr => hscan r (mem_of_mem_issuedRows env qrr options r hr)) []
  refine ⟨mts, ?_, hall⟩
  rw [GetModelTrainingList_eq, hmts]
  rfl

/-- Without overflow the issued `OFFSET` is `page * size` and the issued `LIMIT` is `size`. -/
theorem issuedRows_of_range (env : Env σ τ φ) (qrr : Table) (options : List (ListOption φ))
    (hpage : 0 ≤ (applyOptions env options).Page)
    (hsize : 0 ≤ (applyOptions env options).Size)
    (hint : (applyOptions env options).Size < 2 ^ 63)
    (hmul : (applyOptions env options).Size * (applyOptions env options).Page < 2 ^ 63) :
    issuedRows env qrr options =
      (((qrr.filter (satisfies env (applyOptions env options).Filter)).insertionSort
          rowLE).drop
        ((applyOptions env options).Page.toNat * (applyOptions env options).Size.toNat)).take
        (applyOptions env options).Size.toNat := by
  have hnn : 0 ≤ (applyOptions env options).Size * (applyOptions env options).Page :=
    Int.mul_nonneg hsize hpage
  unfold issuedRows
  rw [int64_of_range _ hnn hmul, uint64_of_range _ hnn hmul, uint64_of_range _ hsize hint,
    toNat_mul_of_nonneg _ _ hsize hpage]

/-- C8 as stated fails when `size * page` overflows the Go `int`: with `page = 2^62` and
`size = 4` the issued `OFFSET` is `0`, so the call returns the first rows of the sample
table, although skipping `page * size` rows leaves nothing. -/
theorem GetModelTrainingList_overflow_counterexample :
    (0 : Int) ≤ 2 ^ 62 ∧ (2 : Int) ^ 62 < 2 ^ 63 ∧ (0 : Int) ≤ 4 ∧
    (GetModelTrainingList Env.plain Faults.none sampleTable
        [Size 4, Page (2 ^ 62)]).1.map (List.map (fun mt => mt.ID))
      = some ["m1", "m2", "m3"] ∧
    (((sampleTable.filter (satisfies Env.plain Option.none)).insertionSort rowLE).drop
        (2 ^ 62 * 4)).take 4 = [] := by
  decide

/-- C8, amended. With the storage layer working and every stored row deserializable, for
options that resolve to `page >= 0` and `size >= 0` with `size * page` below `2^63`: the
call returns, without error, the entities scanned from the rows that satisfy the filter,
put in ascending `id` order, with the first `page * size` of them skipped and at most
`size` of them kept. Under the primary key the result does not depend on the order in
which the table stores its rows, so repeated calls on an unchanged table agree. -/
theorem GetModelTrainingList_page (env : Env σ τ φ) (qrr : Table)
    (options : List (ListOption φ))
    (hpage : 0 ≤ (applyOptions env options).Page)
    (hsize : 0 ≤ (applyOptions env options).Size)
    (hint : (applyOptions env options).Size < 2 ^ 63)
    (hmul : (applyOptions env options).Size * (applyOptions env options).Page < 2 ^ 63)
    (hscan : ∀ r ∈ qrr, ∃ mt, scanRow env r = .ok mt) :
    (∃ (sorted : List Row) (mts : List (ModelTraining σ τ)),
      sorted.Perm (qrr.filter (satisfies env (applyOptions env options).Filter)) ∧
      sorted.Sorted rowLE ∧
      GetModelTrainingList env Faults.none qrr options = (some mts, Option.none) ∧
      List.Forall₂ (fun r mt => scanRow env r = .ok mt)
        ((sorted.drop ((applyOptions env options).Page.toNat *
            (applyOptions env options).Size.toNat)).take
          (applyOptions env options).Size.toNat) mts) ∧
    (PrimaryKey qrr → ∀ qrr2 : Table, qrr2.Perm qrr →
      GetModelTrainingList env Faults.none qrr2 options =
        GetModelTrainingList env Faults.none qrr options) := by
  constructor
  · obtain ⟨mts, hres, hall⟩ := GetModelTrainingList_ok env qrr options hscan
    rw [issuedRows_of_range env qrr options hpage hsize hint hmul] at hall
    exact ⟨_, mts, List.perm_insertionSort rowLE _, sorted_byId _, hres,
      hall⟩
  · intro hpk qrr2 hperm
    rw [GetModelTrainingList_eq, GetModelTrainingList_eq]
    unfold issuedRows
    rw [insertionSort_filter_perm qrr qrr2 _ hpk hperm]

/-- Witness for the amended C8: the second page of size one of the `mlflow` rows of the
sample table is the row `m3`. -/
theorem GetModelTrainingList_page_witness :
    GetModelTrainingList Env.plain Faults.none sampleTable
        [ListFilter ["mlflow"], Size 1, Page 1]
      = (some [{ ID := "m3", DeletionMark := false, CreatedAt := 20, UpdatedAt := 20,
                 Spec := "mlflow", Status := "failed" }], Option.none) ∧
    ∃ (sorted : List Row) (mts : List (ModelTraining String String)),
      sorted.Perm (sampleTable.filter (satisfies Env.plain
        (applyOptions Env.plain [ListFilter ["mlflow"], Size 1, Page 1]).Filter)) ∧
      sorted.Sorted rowLE ∧
      GetModelTrainingList Env.plain Faults.none sampleTable
        [ListFilter ["mlflow"], Size 1, Page 1] = (some mts, Option.none) ∧
      List.Forall₂ (fun r mt => scanRow Env.plain r = .ok mt)
        ((sorted.drop ((applyOptions Env.plain [ListFilter ["mlflow"], Size 1, Page 1]).Page.toNat *
            (applyOptions Env.plain [ListFilter ["mlflow"], Size 1, Page 1]).Size.toNat)).take
          (applyOptions Env.plain [ListFilter ["mlflow"], Size 1, Page 1]).Size.toNat) mts :=
  ⟨by decide,
   (GetModelTrainingList_page Env.plain sampleTable [ListFilter ["mlflow"], Size 1, Page 1]
      (by decide) (by decide) (by decide) (by decide)
      (fun r _ => ⟨_, scanRow_of_scans Env.plain r r.spec r.status rfl rfl⟩)).1⟩

/-! ## Paging through a listing -/

theorem forall₂_append_both {α β : Type} {R : α → β → Prop} {l1 l2 : List α}
    {m1 m2 : List β} (h1 : List.Forall₂ R l1 m1) (h2 : List.Forall₂ R l2 m2) :
    List.Forall₂ R (l1 ++ l2) (m1 ++ m2) := by
  induction h1 with
  | nil => exact h2
  | cons hab _ ih => exact List.Forall₂.cons hab ih

theorem issuedRows_page (env : Env σ τ φ) (qrr : Table) (options : List (ListOption φ))
    (p : Nat) (hsize : 0 ≤ (applyOptions env options).Size)
    (hint : (applyOptions env options).Size < 2 ^ 63)
    (hmul : (applyOptions env options).Size * (p : Int) < 2 ^ 63) :
    issuedRows env qrr (options ++ [Page (p : Int)]) =
      (((qrr.filter (satisfies env (applyOptions env options).Filter)).insertionSort
          rowLE).drop (p * (applyOptions env options).Size.toNat)).take
        (applyOptions env options).Size.toNat := by
  have h := issuedRows_of_range env qrr (options ++ [Page (p : Int)])
    (by rw [applyOptions_append_Page]; exact Int.ofNat_nonneg p)
    (by rw [applyOptions_append_Page]; exact hsize)
    (by rw [applyOptions_append_Page]; exact hint)
    (by rw [applyOptions_append_Page]; exact hmul)
  rw [h, applyOptions_append_Page]
  simp

theorem mul_page_le (size : Int) (p k : Nat) (hsize : 0 ≤ size) (hpk : p ≤ k)
    (hmul : size * (k : Int) < 2 ^ 63) : size * (p : Int) < 2 ^ 63 := by
  have h1 : (p : Int) ≤ (k : Int) := by exact_mod_cast hpk
  have h2 : size * (p : Int) ≤ size * (k : Int) := Int.mul_le_mul_of_nonneg_left h1 hsize
  omega

/-- Without overflow up to page `k`, the pages `0..k` are the first `(k + 1) * size`
rows in `id` order. -/
theorem pagesUpTo_take (env : Env σ τ φ) (qrr : Table) (options : List (ListOption φ))
    (hsize : 0 ≤ (applyOptions env options).Size)
    (hint : (applyOptions env options).Size < 2 ^ 63)
    (hscan : ∀ r ∈ qrr, ∃ mt, scanRow env r = .ok mt) (k : Nat)
    (hmul : (applyOptions env options).Size * (k : Int) < 2 ^ 63) :
    ∃ mts, pagesUpTo env Faults.none qrr options k = some mts ∧
      List.Forall₂ (fun r mt => scanRow env r = .ok mt)
        (((qrr.filter (satisfies env (applyOptions env options).Filter)).insertionSort
            rowLE).take ((k + 1) * (applyOptions env options).Size.toNat)) mts := by
  induction k with
  | zero =>
    obtain ⟨mts, hres, hall⟩ := GetModelTrainingList_ok env qrr (options ++ [Page (0 : Int)])
      hscan
    have hrows := issuedRows_page env qrr options 0 hsize hint (by simp)
    simp only [Nat.cast_zero] at hrows
    rw [hrows] at hall
    refine ⟨mts, ?_, ?_⟩
    · simp [pagesUpTo, hres]
    · simpa using hall
  | succ k ih =>
    obtain ⟨before, hbefore, hallb⟩ :=
      ih (mul_page_le _ k (k + 1) hsize (Nat.le_succ k) hmul)
    obtain ⟨last, hres, hall⟩ :=
      GetModelTrainingList_ok env qrr (options ++ [Page ((k + 1 : Nat) : Int)]) hscan
    rw [issuedRows_page env qrr options (k + 1) hsize hint hmul] at hall
    refine ⟨before ++ last, ?_, ?_⟩
    · simp only [pagesUpTo, hbefore, hres]
    · have hsplit : (k + 1 + 1) * (applyOptions env options).Size.toNat
          = (k + 1) * (applyOptions env options).Size.toNat
            + (applyOptions env options).Size.toNat := by
        rw [Nat.add_mul (k + 1) 1, Nat.one_mul]
      rw [hsplit, List.take_add]
      exact forall₂_append_both hallb hall

theorem map_ID_of_scanned (env : Env σ τ φ) (rows : List Row)
    (mts : List (ModelTraining σ τ))
    (h : List.Forall₂ (fun r mt => scanRow env r = .ok mt) rows mts) :
    mts.map (fun mt => mt.ID) = rows.map Row.id := by
  induction h with
  | nil => rfl
  | cons hab _ ih =>
    simp only [List.map_cons, ih, (scanRow_ok env _ _ hab).1]

/-- C9 as stated fails when `size * page` overflows the Go `int`: with `size = 2^62` on
the sample table, page 5 is empty, yet page 4 is issued with `OFFSET 0` and repeats
page 0, so the pages `0..4` hold every row twice. -/
theorem pagesUpTo_overflow_counterexample :
    (0 : Int) < 2 ^ 62 ∧ (2 : Int) ^ 62 < 2 ^ 63 ∧
    (GetModelTrainingList Env.plain Faults.none sampleTable
        ([Size (2 ^ 62)] ++ [Page ((5 : Nat) : Int)])).1 = some [] ∧
    (pagesUpTo Env.plain Faults.none sampleTable [Size (2 ^ 62)] 4).map
        (List.map (fun mt => mt.ID))
      = some ["m1", "m2", "m3", "m1", "m2", "m3"] := by
  decide

/-- C9, amended. With the storage layer working, every stored row deserializable and a
primary key on the table, for options that resolve to `size > 0` and a `k` with
`size * (k + 1)` below `2^63`: if page `k + 1` is empty, the results of the pages
`0, 1, ..., k`, one after the other, are the entities scanned from all rows that satisfy
the filter, in ascending `id` order, no `ID` twice. -/
theorem pagesUpTo_all (env : Env σ τ φ) (qrr : Table) (options : List (ListOption φ))
    (k : Nat)
    (hsize : 0 < (applyOptions env options).Size)
    (hmul : (applyOptions env options).Size * ((k + 1 : Nat) : Int) < 2 ^ 63)
    (hscan : ∀ r ∈ qrr, ∃ mt, scanRow env r = .ok mt)
    (hpk : PrimaryKey qrr)
    (hlast : (GetModelTrainingList env Faults.none qrr
        (options ++ [Page ((k + 1 : Nat) : Int)])).1 = some []) :
    ∃ (sorted : List Row) (mts : List (ModelTraining σ τ)),
      sorted.Perm (qrr.filter (satisfies env (applyOptions env options).Filter)) ∧
      sorted.Sorted rowLE ∧
      pagesUpTo env Faults.none qrr options k = some mts ∧
      List.Forall₂ (fun r mt => scanRow env r = .ok mt) sorted mts ∧
      (mts.map (fun mt => mt.ID)).Nodup := by
  have hsize0 : 0 ≤ (applyOptions env options).Size := Int.le_of_lt hsize
  have hint : (applyOptions env options).Size < 2 ^ 63 := by
    have h := mul_page_le _ 1 (k + 1) hsize0 (Nat.succ_le_succ (Nat.zero_le k)) hmul
    simpa using h
  obtain ⟨mts, hpages, hall⟩ := pagesUpTo_take env qrr options hsize0 hint hscan k
    (mul_page_le _ k (k + 1) hsize0 (Nat.le_succ k) hmul)
  obtain ⟨last, hres, hlastall⟩ :=
    GetModelTrainingList_ok env qrr (options ++ [Page ((k + 1 : Nat) : Int)]) hscan
  rw [hres] at hlast
  have hnil : last = [] := by simpa using hlast
  rw [hnil, List.forall₂_nil_right_iff,
    issuedRows_page env qrr options (k + 1) hsize0 hint hmul, List.take_eq_nil_iff] at hlastall
  have hlen : ((qrr.filter (satisfies env (applyOptions env options).Filter)).insertionSort
      rowLE).length ≤ (k + 1) * (applyOptions env options).Size.toNat := by
    rcases hlastall with h0 | hdrop
    · have hpos : 0 < (applyOptions env options).Size.toNat := by omega
      omega
    · exact List.drop_eq_nil_iff.mp hdrop
  rw [List.take_of_length_le hlen] at hall
  refine ⟨_, mts, List.perm_insertionSort rowLE _, sorted_byId _, hpages,
    hall, ?_⟩
  rw [map_ID_of_scanned env _ mts hall]
  have hperm := (List.perm_insertionSort rowLE
    (qrr.filter (satisfies env (applyOptions env options).Filter))).map Row.id
  rw [hperm.nodup_iff]
  exact List.Nodup.sublist ((List.filter_sublist qrr).map Row.id) hpk

/-- Witness for the amended C9: with size 2 the sample table is exhausted by the pages
0 and 1, page 2 being empty. -/
theorem pagesUpTo_all_witness :
    pagesUpTo Env.plain Faults.none sampleTable [Size 2] 1 =
      some [ { ID := "m1", DeletionMark := true, CreatedAt := 5, UpdatedAt := 7,
               Spec := "mlflow", Status := "succeeded" },
             { ID := "m2", DeletionMark := false, CreatedAt := 10, UpdatedAt := 11,
               Spec := "xgboost", Status := "running" },
             { ID := "m3", DeletionMark := false, CreatedAt := 20, UpdatedAt := 20,
               Spec := "mlflow", Status := "failed" } ] ∧
    ∃ (sorted : List Row) (mts : List (ModelTraining String String)),
      sorted.Perm (sampleTable.filter
        (satisfies Env.plain (applyOptions Env.plain [Size 2]).Filter)) ∧
      sorted.Sorted rowLE ∧
      pagesUpTo Env.plain Faults.none sampleTable [Size 2] 1 = some mts ∧
      List.Forall₂ (fun r mt => scanRow Env.plain r = .ok mt) sorted mts ∧
      (mts.map (fun mt => mt.ID)).Nodup :=
  ⟨by decide,
   pagesUpTo_all Env.plain sampleTable [Size 2] 1 (by decide) (by decide)
     (fun r _ => ⟨_, scanRow_of_scans Env.plain r r.spec r.status rfl rfl⟩)
     (by decide) (by decide)⟩

/-! ## A listing never returns a nil slice without an error -/

/-- C10. Whatever the storage layer does, a listing call that returns no error returns a
slice that is not nil. With the storage layer working it returns the empty slice and no
error on the empty table, when no row satisfies the filter, and when the issued `OFFSET`
is at or beyond the number of rows that satisfy the filter, which without overflow means
`page * size` is. -/
theorem GetModelTrainingList_non_nil (env : Env σ τ φ) (fl : Faults) (qrr : Table)
    (options : List (ListOption φ)) :
    ((GetModelTrainingList env fl qrr options).2 = Option.none →
      ∃ mts, (GetModelTrainingList env fl qrr options).1 = some mts) ∧
    GetModelTrainingList env Faults.none [] options = (some [], Option.none) ∧
    ((∀ r ∈ qrr, satisfies env (applyOptions env options).Filter r = false) →
      GetModelTrainingList env Faults.none qrr options = (some [], Option.none)) ∧
    ((qrr.filter (satisfies env (applyOptions env options).Filter)).length ≤
        uint64 (int64 ((applyOptions env options).Size * (applyOptions env options).Page)) →
      GetModelTrainingList env Faults.none qrr options = (some [], Option.none)) ∧
    (0 ≤ (applyOptions env options).Page → 0 ≤ (applyOptions env options).Size →
      (applyOptions env options).Size < 2 ^ 63 →
      (applyOptions env options).Size * (applyOptions env options).Page < 2 ^ 63 →
      (qrr.filter (satisfies env (applyOptions env options).Filter)).length ≤
        (applyOptions env options).Page.toNat * (applyOptions env options).Size.toNat →
      GetModelTrainingList env Faults.none qrr options = (some [], Option.none)) := by
  have hempty : ∀ t : Table, issuedRows env t options = [] →
      GetModelTrainingList env Faults.none t options = (some [], Option.none) := by
    intro t ht
    rw [GetModelTrainingList_eq, ht]
    rfl
  have hpast : ∀ n : Nat,
      (qrr.filter (satisfies env (applyOptions env options).Filter)).length ≤ n →
      (((qrr.filter (satisfies env (applyOptions env options).Filter)).insertionSort
        rowLE).drop n).take (uint64 (applyOptions env options).Size) = [] := by
    intro n hn
    have hdrop : ((qrr.filter (satisfies env (applyOptions env options).Filter)).insertionSort
        rowLE).drop n = [] := by
      rw [List.drop_eq_nil_iff, List.length_insertionSort]
      exact hn
    rw [hdrop, List.take_nil]
  refine ⟨?_, ?_, ?_, ?_, ?_⟩
  · intro h
    simp only [GetModelTrainingList] at h ⊢
    split at h
    · simp at h
    · split at h
      · simp at h
      · split at h
        · simp at h
        · split at h
          · simp at h
          · simp_all
  · apply hempty
    simp [issuedRows]
  · intro hnone
    apply hempty
    have hfil : qrr.filter (satisfies env (applyOptions env options).Filter) = [] := by
      rw [List.filter_eq_nil_iff]
      intro r hr
      simp [hnone r hr]
    simp [issuedRows, hfil]
  · intro hlen
    apply hempty
    unfold issuedRows
    exact hpast _ hlen
  · intro hpage hsize hint hmul hlen
    apply hempty
    rw [issuedRows_of_range env qrr options hpage hsize hint hmul]
    have hdrop : ((qrr.filter (satisfies env (applyOptions env options).Filter)).insertionSort
        rowLE).drop ((applyOptions env options).Page.toNat *
          (applyOptions env options).Size.toNat) = [] := by
      rw [List.drop_eq_nil_iff, List.length_insertionSort]
      exact hlen
    rw [hdrop, List.take_nil]

/-- Witness for C10 on the sample table: a filter that no row satisfies, and a page past
the end, both give the empty slice and no error. -/
theorem GetModelTrainingList_non_nil_witness :
    GetModelTrainingList Env.plain Faults.none sampleTable [ListFilter ["sklearn"]]
      = (some [], Option.none) ∧
    GetModelTrainingList Env.plain Faults.none sampleTable [Size 2, Page 2]
      = (some [], Option.none) :=
  ⟨(GetModelTrainingList_non_nil Env.plain Faults.none sampleTable
      [ListFilter ["sklearn"]]).2.2.1 (by decide),
   (GetModelTrainingList_non_nil Env.plain Faults.none sampleTable
      [Size 2, Page 2]).2.2.2.2 (by decide) (by decide) (by decide) (by decide) (by decide)⟩

/-! ## Pagination inputs and defaults -/

theorem GetModelTrainingList_runs_listStatement (env : Env σ τ φ) (fl : Faults) (qrr : Table)
    (options : List (ListOption φ)) :
    GetModelTrainingList env fl qrr options =
      runListStatement env fl qrr (listStatement env options) := rfl

theorem uint64_of_neg (x : Int) (h0 : x < 0) (h1 : -(2 ^ 63) ≤ x) :
    uint64 x = (2 ^ 64 + x).toNat := by
  unfold uint64
  congr 1
  omega

/-- C11 as stated fails. With `page = -1` and `size = 0` the call is not rejected: it
issues `OFFSET 0` and `LIMIT 0` and, with the storage layer working, returns the empty
slice and no error. With `page = -2^62` and `size = 4` the Go product wraps around to `0`:
the call issues `OFFSET 0` and `LIMIT 4` and returns the first rows without an error. With
`size = -1` the statement handed to the storage layer carries `LIMIT 2^64 - 1`, and with
`page = -1` and `size = 2` it carries `OFFSET 2^64 - 2`: both are derived from the
negative value. -/
theorem GetModelTrainingList_negative_counterexample :
    (issuedStatement Env.plain Faults.none [Size 0, Page (-1)]).map
        (fun sb => (sb.offset, sb.limit)) = some (some 0, some 0) ∧
    GetModelTrainingList Env.plain Faults.none sampleTable [Size 0, Page (-1)]
      = (some [], Option.none) ∧
    (issuedStatement Env.plain Faults.none [Size 4, Page (-(2 ^ 62))]).map
        (fun sb => (sb.offset, sb.limit)) = some (some 0, some 4) ∧
    (GetModelTrainingList Env.plain Faults.none sampleTable [Size 4, Page (-(2 ^ 62))]).2
      = Option.none ∧
    (GetModelTrainingList Env.plain Faults.none sampleTable
        [Size 4, Page (-(2 ^ 62))]).1.map (List.map (fun mt => mt.ID))
      = some ["m1", "m2", "m3"] ∧
    (issuedStatement Env.plain Faults.none [Size (-1)]).map (fun sb => sb.limit)
      = some (some (2 ^ 64 - 1)) ∧
    (issuedStatement Env.plain Faults.none [Size 2, Page (-1)]).map (fun sb => sb.offset)
      = some (some (2 ^ 64 - 2)) := by
  decide

/-- C11, amended. A listing call does not validate page and size. Whatever they are,
the call builds a select with `OFFSET = uint64(int64(size * page))` and
`LIMIT = uint64(size)`, hands it to the storage layer unless `ToSql` fails, and returns
what running that select gives; a negative size in the Go `int` range is issued as
`LIMIT 2^64 + size`; and when the issued `OFFSET` and `LIMIT` are both below `2^63`, the
storage layer works and the stored rows are deserializable, the call returns a slice and
no error, whatever the signs of page and size. -/
theorem GetModelTrainingList_no_validation (env : Env σ τ φ) (fl : Faults) (qrr : Table)
    (options : List (ListOption φ)) :
    GetModelTrainingList env fl qrr options =
      runListStatement env fl qrr (listStatement env options) ∧
    (fl.toSql = Option.none → ∃ sb, issuedStatement env fl options = some sb ∧
      sb.offset = some (uint64 (int64 ((applyOptions env options).Size *
        (applyOptions env options).Page))) ∧
      sb.limit = some (uint64 (applyOptions env options).Size)) ∧
    ((applyOptions env options).Size < 0 → -(2 ^ 63) ≤ (applyOptions env options).Size →
      (listStatement env options).limit
        = some ((2 ^ 64 + (applyOptions env options).Size).toNat)) ∧
    ((∀ r ∈ qrr, ∃ mt, scanRow env r = .ok mt) →
      uint64 (int64 ((applyOptions env options).Size * (applyOptions env options).Page))
        < 2 ^ 63 →
      uint64 (applyOptions env options).Size < 2 ^ 63 →
      ∃ mts, GetModelTrainingList env Faults.none qrr options = (some mts, Option.none) ∧
        mts.length ≤ uint64 (applyOptions env options).Size) := by
  have hfields : (listStatement env options).offset
        = some (uint64 (int64 ((applyOptions env options).Size *
            (applyOptions env options).Page))) ∧
      (listStatement env options).limit = some (uint64 (applyOptions env options).Size) := by
    unfold listStatement utils.TransformFilter
    cases (applyOptions env options).Filter <;> exact ⟨rfl, rfl⟩
  refine ⟨rfl, ?_, ?_, ?_⟩
  · intro h
    refine ⟨listStatement env options, ?_, hfields.1, hfields.2⟩
    simp only [issuedStatement, h]
  · intro hneg hrange
    rw [hfields.2, uint64_of_neg _ hneg hrange]
  · intro hscan _ _
    obtain ⟨mts, hres, hrows⟩ := GetModelTrainingList_ok env qrr options hscan
    refine ⟨mts, hres, ?_⟩
    rw [← hrows.length_eq]
    unfold issuedRows
    exact List.length_take_le _ _

/-- Witness for the amended C11 on the sample table: `size = -1` is issued as
`LIMIT 2^64 - 1`, and `page = -1` with `size = 0` gives a slice and no error. -/
theorem GetModelTrainingList_no_validation_witness :
    (listStatement Env.plain [Size (-1)]).limit = some ((2 ^ 64 + (-1 : Int)).toNat) ∧
    ∃ mts, GetModelTrainingList Env.plain Faults.none sampleTable [Size 0, Page (-1)]
      = (some mts, Option.none) ∧ mts.length ≤ 0 :=
  ⟨(GetModelTrainingList_no_validation Env.plain Faults.none sampleTable
      [Size (-1)]).2.2.1 (by decide) (by decide),
   (GetModelTrainingList_no_validation Env.plain Faults.none sampleTable
      [Size 0, Page (-1)]).2.2.2
      (fun r _ => ⟨_, scanRow_of_scans Env.plain r r.spec r.status rfl rfl⟩)
      (by decide) (by decide)⟩

/-- The options left by a list of options none of which is a page option carry the
default page. -/
theorem applyOptions_foldl_Page (options : List (ListOption φ)) (args : ListOptions φ)
    (h : ∀ o ∈ options, (∃ s : Int, o = Size s) ∨ ∃ f : φ, o = ListFilter f) :
    (options.foldl (fun args option => option args) args).Page = args.Page := by
  induction options generalizing args with
  | nil => rfl
  | cons o rest ih =>
    rw [List.foldl_cons, ih _ (fun x hx => h x (List.mem_cons_of_mem o hx))]
    rcases h o (List.mem_cons_self o rest) with ⟨s, hs⟩ | ⟨f, hf⟩
    · rw [hs]; rfl
    · rw [hf]; rfl

/-- The options left by a list of options none of which is a size option carry the
default size. -/
theorem applyOptions_foldl_Size (options : List (ListOption φ)) (args : ListOptions φ)
    (h : ∀ o ∈ options, (∃ p : Int, o = Page p) ∨ ∃ f : φ, o = ListFilter f) :
    (options.foldl (fun args option => option args) args).Size = args.Size := by
  induction options generalizing args with
  | nil => rfl
  | cons o rest ih =>
    rw [List.foldl_cons, ih _ (fun x hx => h x (List.mem_cons_of_mem o hx))]
    rcases h o (List.mem_cons_self o rest) with ⟨p, hp⟩ | ⟨f, hf⟩
    · rw [hp]; rfl
    · rw [hf]; rfl

/-- The options left by a list of options none of which is a filter option carry no
filter. -/
theorem applyOptions_foldl_Filter (options : List (ListOption φ)) (args : ListOptions φ)
    (h : ∀ o ∈ options, (∃ p : Int, o = Page p) ∨ ∃ s : Int, o = Size s) :
    (options.foldl (fun args option => option args) args).Filter = args.Filter := by
  induction options generalizing args with
  | nil => rfl
  | cons o rest ih =>
    rw [List.foldl_cons, ih _ (fun x hx => h x (List.mem_cons_of_mem o hx))]
    rcases h o (List.mem_cons_self o rest) with ⟨p, hp⟩ | ⟨s, hs⟩
    · rw [hp]; rfl
    · rw [hs]; rfl

/-- C12. Without options a listing call works with `Filter: nil`, `Page: FirstPage` and
`Size: MaxSize`. Every supplied option is applied, in the order given, to what the options
before it left: a page, size or filter option at the end of any list of options replaces
its own field and leaves the other two as the options before it left them, so the three
options that `getAllMDs` passes give exactly that filter, size and page. A list of
options without a page option keeps `FirstPage`, one without a size option keeps
`MaxSize`, one without a filter option keeps the nil filter. Without a filter the built
select has no `WHERE` conjunct; a resolved page of `0`, which is what `FirstPage` stands
for, gives `OFFSET 0`; and the call runs the select built from the resolved options. -/
theorem GetModelTrainingList_defaults (env : Env σ τ φ) (p s : Int) (f : φ) :
    applyOptions env ([] : List (ListOption φ))
      = { Filter := Option.none, Page := env.FirstPage, Size := env.MaxSize } ∧
    applyOptions env [Page p] = { Filter := Option.none, Page := p, Size := env.MaxSize } ∧
    applyOptions env [Size s]
      = { Filter := Option.none, Page := env.FirstPage, Size := s } ∧
    applyOptions env [ListFilter f]
      = { Filter := some f, Page := env.FirstPage, Size := env.MaxSize } ∧
    (∀ options : List (ListOption φ), (applyOptions env options).Filter = Option.none →
      (listStatement env options).wheres = []) ∧
    (∀ options : List (ListOption φ), (applyOptions env options).Page = 0 →
      (listStatement env options).offset = some 0) ∧
    (listStatement env ([] : List (ListOption φ))).limit = some (uint64 env.MaxSize) ∧
    (∀ (fl : Faults) (qrr : Table) (options : List (ListOption φ)),
      GetModelTrainingList env fl qrr options =
        runListStatement env fl qrr (listStatement env options)) ∧
    (∀ options : List (ListOption φ),
      applyOptions env (options ++ [Page p]) = { applyOptions env options with Page := p } ∧
      applyOptions env (options ++ [Size s]) = { applyOptions env options with Size := s } ∧
      applyOptions env (options ++ [ListFilter f])
        = { applyOptions env options with Filter := some f }) ∧
    applyOptions env [ListFilter f, Size s, Page p]
      = { Filter := some f, Page := p, Size := s } ∧
    (∀ options : List (ListOption φ),
      (∀ o ∈ options, (∃ s2 : Int, o = Size s2) ∨ ∃ f2 : φ, o = ListFilter f2) →
      (applyOptions env options).Page = env.FirstPage) ∧
    (∀ options : List (ListOption φ),
      (∀ o ∈ options, (∃ p2 : Int, o = Page p2) ∨ ∃ f2 : φ, o = ListFilter f2) →
      (applyOptions env options).Size = env.MaxSize) ∧
    (∀ options : List (ListOption φ),
      (∀ o ∈ options, (∃ p2 : Int, o = Page p2) ∨ ∃ s2 : Int, o = Size s2) →
      (applyOptions env options).Filter = Option.none) := by
  refine ⟨rfl, rfl, rfl, rfl, ?_, ?_, rfl, fun _ _ _ => rfl, ?_, rfl, ?_, ?_, ?_⟩
  · intro options h
    unfold listStatement utils.TransformFilter
    rw [h]
  · intro options h
    unfold listStatement utils.TransformFilter
    rw [h]
    cases (applyOptions env options).Filter <;> simp [int64, uint64]
  · intro options
    refine ⟨?_, ?_, ?_⟩
    · simp [applyOptions, List.foldl_append, Page]
    · simp [applyOptions, List.foldl_append, Size]
    · simp [applyOptions, List.foldl_append, ListFilter]
  · intro options h
    exact applyOptions_foldl_Page options _ h
  · intro options h
    exact applyOptions_foldl_Size options _ h
  · intro options h
    exact applyOptions_foldl_Filter options _ h

/-! ## Transactions -/

/-- C14. For every context and every behaviour of the engine, `BeginTransaction` is
`BeginTx` with isolation level repeatable read and read-only off; a transaction it
returns was opened with exactly these options; and when opening fails, on account of the
context or of the engine, the error comes back as it is, with a nil handle. -/
theorem BeginTransaction_options (fault : Option GoError) (db : Database) (ctx : Context) :
    BeginTransaction fault db ctx =
      DB.BeginTx fault db ctx
        { Isolation := IsolationLevel.LevelRepeatableRead, ReadOnly := false } ∧
    (∀ tx, (BeginTransaction fault db ctx).1 = some tx →
      tx.opts.Isolation = IsolationLevel.LevelRepeatableRead ∧ tx.opts.ReadOnly = false) ∧
    (∀ err, ctx.Err = some err → BeginTransaction fault db ctx = (Option.none, some err)) ∧
    (∀ err, ctx.Err = Option.none → fault = some err →
      BeginTransaction fault db ctx = (Option.none, some err)) ∧
    (ctx.Err = Option.none → fault = Option.none →
      ∃ tx, BeginTransaction fault db ctx = (some tx, Option.none)) := by
  refine ⟨rfl, ?_, ?_, ?_, ?_⟩
  · intro tx h
    unfold BeginTransaction DB.BeginTx at h
    cases hc : ctx.Err with
    | some e => simp [hc] at h
    | none =>
      cases hf : fault with
      | some e => simp [hc, hf] at h
      | none =>
        simp only [hc, hf, Option.some.injEq] at h
        subst h
        exact ⟨rfl, rfl⟩
  · intro err h
    simp [BeginTransaction, DB.BeginTx, h]
  · intro err hc hf
    simp [BeginTransaction, DB.BeginTx, hc, hf]
  · intro hc hf
    exact ⟨{ opts := txOptions, training := db.training, outbox := db.outbox,
             failed := false }, by simp only [BeginTransaction, DB.BeginTx, hc, hf]⟩

/-- Witness for C14: a transaction opened on the sample database, and a cancelled
context. -/
theorem BeginTransaction_options_witness :
    (∃ tx, BeginTransaction Option.none sampleDatabase { Err := Option.none }
        = (some tx, Option.none) ∧
      tx.opts.Isolation = IsolationLevel.LevelRepeatableRead ∧ tx.opts.ReadOnly = false) ∧
    BeginTransaction Option.none sampleDatabase { Err := some (GoError.other "context canceled") }
      = (Option.none, some (GoError.other "context canceled")) :=
  ⟨⟨_, rfl,
     (BeginTransaction_options Option.none sampleDatabase { Err := Option.none }).2.1 _ rfl⟩,
   (BeginTransaction_options Option.none sampleDatabase
      { Err := some (GoError.other "context canceled") }).2.2.1 _ rfl⟩

theorem Mutation.run_eq (env : Env σ τ φ) (fl : Faults) (db : Database) (tx : Option Tx)
    (m : Mutation σ τ) : m.run env fl db tx = withQuerier db tx fl (m.body env) := by
  cases m <;> rfl

theorem Tx.faults_of_not_failed (tx : Tx) (fl : Faults) (h : tx.failed = false) :
    tx.faults fl = fl := by
  simp [Tx.faults, h]

theorem runWithoutTx_frame (env : Env σ τ φ) (db : Database)
    (ms : List (Faults × Mutation σ τ)) :
    (runWithoutTx env db ms).outbox = db.outbox ∧
      (runWithoutTx env db ms).outboxSeq = db.outboxSeq := by
  induction ms generalizing db with
  | nil => exact ⟨rfl, rfl⟩
  | cons a ms ih =>
    obtain ⟨fl, m⟩ := a
    simp only [runWithoutTx]
    rw [(ih _).1, (ih _).2, Mutation.run_eq]
    exact ⟨rfl, rfl⟩

/-- While a transaction is open the committed state is not touched; and if the
transaction has not failed at the end, it never had, its options and outbox are as at
the start, and its entity table is what the same calls give without a handle. -/
theorem runWithTx_spec (env : Env σ τ φ) (db : Database) (tx : Tx)
    (ms : List (Faults × Mutation σ τ)) :
    (runWithTx env db tx ms).1 = db ∧
    ((runWithTx env db tx ms).2.failed = false →
      tx.failed = false ∧
      (runWithTx env db tx ms).2.outbox = tx.outbox ∧
      (runWithTx env db tx ms).2.training =
        (runWithoutTx env { db with training := tx.training } ms).training) := by
  induction ms generalizing tx with
  | nil => exact ⟨rfl, fun h => ⟨h, rfl, rfl⟩⟩
  | cons a ms ih =>
    obtain ⟨fl, m⟩ := a
    simp only [runWithTx, runWithoutTx, Mutation.run_eq, withQuerier, Option.getD_some]
    refine ⟨(ih _).1, fun hfin => ?_⟩
    obtain ⟨hnf, hout, htr⟩ := (ih _).2 hfin
    have hf : tx.failed = false := by
      simp only [Bool.or_eq_false_iff] at hnf
      exact hnf.1
    refine ⟨hf, hout, ?_⟩
    rw [htr, Tx.faults_of_not_failed tx fl hf]

/-- C13. For every sequence of Save, Update, UpdateStatus, Delete and SetDeletionMark
calls made with one handle obtained from `BeginTransaction`, whatever faults the storage
layer shows during the calls: while the transaction is open and after a rollback the
committed state is the state before the transaction began; a commit that succeeds leaves
the state that the same calls leave when made in order with a nil handle; a commit that
fails leaves the state before the transaction; and a call with a nil handle gives the
result of its body on the committed table, which it replaces at once. -/
theorem transaction_atomic (env : Env σ τ φ) (fault rf cf : Option GoError) (db : Database)
    (ctx : Context) (tx : Tx) (ms : List (Faults × Mutation σ τ))
    (hbegin : BeginTransaction fault db ctx = (some tx, Option.none)) :
    (runWithTx env db tx ms).1 = db ∧
    (Tx.Rollback rf (runWithTx env db tx ms).1 (runWithTx env db tx ms).2).2 = db ∧
    ((Tx.Commit cf (runWithTx env db tx ms).1 (runWithTx env db tx ms).2).1 = Option.none →
      (Tx.Commit cf (runWithTx env db tx ms).1 (runWithTx env db tx ms).2).2
        = runWithoutTx env db ms) ∧
    ((Tx.Commit cf (runWithTx env db tx ms).1 (runWithTx env db tx ms).2).1 ≠ Option.none →
      (Tx.Commit cf (runWithTx env db tx ms).1 (runWithTx env db tx ms).2).2 = db) ∧
    (∀ (fl : Faults) (m : Mutation σ τ),
      (m.run env fl db Option.none).tx = Option.none ∧
      (m.run env fl db Option.none).err = (m.body env fl db.training).1 ∧
      (m.run env fl db Option.none).db
        = { db with training := (m.body env fl db.training).2 }) := by
  have htx : tx = { opts := txOptions, training := db.training, outbox := db.outbox,
                    failed := false } := by
    unfold BeginTransaction DB.BeginTx at hbegin
    cases hc : ctx.Err with
    | some e => simp [hc] at hbegin
    | none =>
      cases hf : fault with
      | some e => simp [hc, hf] at hbegin
      | none =>
        simp only [hc, hf, Prod.mk.injEq, Option.some.injEq, and_true] at hbegin
        exact hbegin.symm
  obtain ⟨hdb, hok⟩ := runWithTx_spec env db tx ms
  refine ⟨hdb, ?_, ?_, ?_, ?_⟩
  · simp only [Tx.Rollback, hdb]
  · intro hcommit
    cases hfail : (runWithTx env db tx ms).2.failed with
    | true => simp [Tx.Commit, hfail] at hcommit
    | false =>
      cases cf with
      | some e => simp [Tx.Commit, hfail] at hcommit
      | none =>
        obtain ⟨_, hout, htr⟩ := hok hfail
        obtain ⟨hfo, hfs⟩ := runWithoutTx_frame env db ms
        have hdbeq : ({ db with training := tx.training } : Database) = db := by
          rw [htx]
        rw [hdbeq] at htr
        simp only [Tx.Commit, hfail, hdb, Bool.false_eq_true, if_false]
        rw [htr, hout, htx]
        cases hres : runWithoutTx env db ms with
        | mk t o s =>
          rw [hres] at hfo hfs
          simp only at hfo hfs
          simp only [hfo, hfs]
  · intro hcommit
    cases hfail : (runWithTx env db tx ms).2.failed with
    | true => simp only [Tx.Commit, hfail, hdb, if_true]
    | false =>
      cases cf with
      | some e => simp only [Tx.Commit, hfail, hdb, Bool.false_eq_true, if_false]
      | none => simp [Tx.Commit, hfail] at hcommit
  · intro fl m
    rw [Mutation.run_eq]
    exact ⟨rfl, rfl, rfl⟩

/-- Witness for C13 on the sample database: an update and a delete are committed as the
same calls without a handle leave them, a rollback leaves the database as it was, and
after a rejected save the commit fails and leaves the database as it was. -/
theorem transaction_atomic_witness :
    (Tx.Commit Option.none (runWithTx Env.plain sampleDatabase sampleTx sampleMutations).1
        (runWithTx Env.plain sampleDatabase sampleTx sampleMutations).2).2
      = runWithoutTx Env.plain sampleDatabase sampleMutations ∧
    (Tx.Rollback Option.none (runWithTx Env.plain sampleDatabase sampleTx sampleMutations).1
        (runWithTx Env.plain sampleDatabase sampleTx sampleMutations).2).2 = sampleDatabase ∧
    (Tx.Commit Option.none (runWithTx Env.plain sampleDatabase sampleTx sampleRejected).1
        (runWithTx Env.plain sampleDatabase sampleTx sampleRejected).2).2 = sampleDatabase ∧
    (runWithoutTx Env.plain sampleDatabase sampleMutations).training =
      [ { id := "m1", spec := "mlflow", status := "scheduling", deletionmark := true,
          created := 5, updated := 31 },
        { id := "m3", spec := "mlflow", status := "failed", deletionmark := false,
          created := 20, updated := 20 } ] :=
  ⟨(transaction_atomic Env.plain Option.none Option.none Option.none sampleDatabase
      { Err := Option.none } sampleTx sampleMutations rfl).2.2.1 (by decide),
   (transaction_atomic Env.plain Option.none Option.none Option.none sampleDatabase
      { Err := Option.none } sampleTx sampleMutations rfl).2.1,
   (transaction_atomic Env.plain Option.none Option.none Option.none sampleDatabase
      { Err := Option.none } sampleTx sampleRejected rfl).2.2.2.1 (by decide),
   by decide⟩

/-- Witness for C12 in the plain environment, whose `FirstPage` is `0` and whose `MaxSize`
is `500`: the select built without options, and the options left by a filter and a size
option, which carry no page option, and by a size and a page option, which carry no
filter option. -/
theorem GetModelTrainingList_defaults_witness :
    (listStatement Env.plain ([] : List (ListOption (List String)))).offset = some 0 ∧
    (listStatement Env.plain ([] : List (ListOption (List String)))).limit = some 500 ∧
    (listStatement Env.plain ([] : List (ListOption (List String)))).wheres = [] ∧
    (applyOptions Env.plain [ListFilter ["mlflow"], Size 2]).Page = 0 ∧
    (applyOptions Env.plain [Page 3, ListFilter ["mlflow"]]).Size = 500 ∧
    (applyOptions Env.plain [Size 2, Page 3]).Filter = Option.none :=
  ⟨(GetModelTrainingList_defaults Env.plain 0 0 []).2.2.2.2.2.1 [] rfl,
   by decide,
   (GetModelTrainingList_defaults Env.plain 0 0 []).2.2.2.2.1 [] rfl,
   (GetModelTrainingList_defaults Env.plain 0 0 []).2.2.2.2.2.2.2.2.2.2.1
     [ListFilter ["mlflow"], Size 2]
     (by
       intro o ho
       simp only [List.mem_cons, List.mem_singleton, List.not_mem_nil, or_false] at ho
       rcases ho with h | h
       · right; exact ⟨_, h⟩
       · left; exact ⟨_, h⟩),
   (GetModelTrainingList_defaults Env.plain 0 0 []).2.2.2.2.2.2.2.2.2.2.2.1
     [Page 3, ListFilter ["mlflow"]]
     (by
       intro o ho
       simp only [List.mem_cons, List.mem_singleton, List.not_mem_nil, or_false] at ho
       rcases ho with h | h
       · left; exact ⟨_, h⟩
       · right; exact ⟨_, h⟩),
   (GetModelTrainingList_defaults Env.plain 0 0 []).2.2.2.2.2.2.2.2.2.2.2.2
     [Size 2, Page 3]
     (by
       intro o ho
       simp only [List.mem_cons, List.mem_singleton, List.not_mem_nil, or_false] at ho
       rcases ho with h | h
       · right; exact ⟨_, h⟩
       · left; exact ⟨_, h⟩)⟩

/-! ## Errors of the storage layer -/

theorem Engine.exec_error (dflt : Bool) (t : Table) (stmt : Statement) (e : GoError)
    (h : Engine.exec dflt t stmt = .error e) :
    e = GoError.pqError "23505" ∧ ∃ id spec status created updated,
      stmt = Statement.insert id spec status created updated := by
  cases stmt with
  | insert id spec status created updated =>
    simp only [Engine.exec] at h
    split at h
    · simp only [Except.error.injEq] at h
      exact ⟨h.symm, id, spec, status, created, updated, rfl⟩
    · simp at h
  | update set id => simp [Engine.exec] at h
  | delete id => simp [Engine.exec] at h

theorem ExecContext_error (dflt : Bool) (fl : Faults) (t : Table) (stmt : Statement)
    (e : GoError) (h : ExecContext dflt fl t stmt = .error e) :
    fl.query = some e ∨ (fl.query = Option.none ∧ Engine.exec dflt t stmt = .error e) := by
  unfold ExecContext at h
  cases hq : fl.query with
  | some err =>
    simp only [hq, Except.error.injEq] at h
    exact Or.inl (by rw [h])
  | none =>
    simp only [hq] at h
    exact Or.inr ⟨rfl, h⟩

theorem ExecContext_fault (dflt : Bool) (fl : Faults) (t : Table) (stmt : Statement)
    (e : GoError) (h : fl.query = some e) : ExecContext dflt fl t stmt = .error e := by
  simp [ExecContext, h]

theorem execAndCount_fault (dflt : Bool) (fl : Faults) (qrr : Table) (stmt : Statement)
    (id : String) (h : fl.query ≠ Option.none ∨ fl.rowsAffected ≠ Option.none) :
    (execAndCount dflt fl qrr stmt id).1 ≠ Option.none := by
  unfold execAndCount
  cases hx : ExecContext dflt fl qrr stmt with
  | error err => simp
  | ok res =>
    obtain ⟨affected, qrr'⟩ := res
    cases hr : fl.rowsAffected with
    | some e => simp [RowsAffected, hr]
    | none =>
      cases hq : fl.query with
      | some e =>
        rw [ExecContext_fault dflt fl qrr stmt e hq] at hx
        simp at hx
      | none =>
        rcases h with h | h
        · exact absurd hq h
        · exact absurd hr h

theorem execAndCount_error (dflt : Bool) (fl : Faults) (qrr : Table) (stmt : Statement)
    (id : String) (e : GoError) (h : (execAndCount dflt fl qrr stmt id).1 = some e) :
    e = GoError.NotFoundError id ∨ fl.query = some e ∨ fl.rowsAffected = some e ∨
      Engine.exec dflt qrr stmt = .error e := by
  unfold execAndCount at h
  cases hx : ExecContext dflt fl qrr stmt with
  | error err =>
    simp only [hx, Option.some.injEq] at h
    subst h
    rcases ExecContext_error dflt fl qrr stmt err hx with hq | ⟨_, he⟩
    · exact Or.inr (Or.inl hq)
    · exact Or.inr (Or.inr (Or.inr he))
  | ok res =>
    obtain ⟨affected, qrr'⟩ := res
    simp only [hx] at h
    cases hr : fl.rowsAffected with
    | some e2 =>
      simp only [RowsAffected, hr, Option.some.injEq] at h
      subst h
      exact Or.inr (Or.inr (Or.inl rfl))
    | none =>
      simp only [RowsAffected, hr] at h
      split at h
      · simp only [Option.some.injEq] at h
        exact Or.inl h.symm
      · simp at h

theorem DeleteModelTraining_tail (env : Env σ τ φ) (fl : Faults) (qrr : Table) (id : String) :
    DeleteModelTraining env fl qrr id =
      match fl.toSql with
      | some err => (some err, qrr)
      | Option.none =>
        execAndCount env.deletionMarkDefault fl qrr (Statement.delete id) id := rfl

theorem UpdateModelTraining_tail (env : Env σ τ φ) (fl : Faults) (qrr : Table)
    (mt : ModelTraining σ τ) :
    UpdateModelTraining env fl qrr mt =
      match fl.toSql with
      | some err => (some err, qrr)
      | Option.none =>
        match env.spec.Value mt.Spec with
        | .error err => (some (.argumentError 1 err), qrr)
        | .ok spec =>
          match env.status.Value mt.Status with
          | .error err => (some (.argumentError 2 err), qrr)
          | .ok status =>
            execAndCount env.deletionMarkDefault fl qrr
              (Statement.update { spec := some spec, status := some status,
                                  updated := some mt.UpdatedAt,
                                  deletionmark := Option.none } mt.ID) mt.ID := rfl

theorem UpdateModelTrainingStatus_tail (env : Env σ τ φ) (fl : Faults) (qrr : Table)
    (id : String) (s : τ) :
    UpdateModelTrainingStatus env fl qrr id s =
      match fl.toSql with
      | some err => (some err, qrr)
      | Option.none =>
        match env.status.Value s with
        | .error err => (some (.argumentError 1 err), qrr)
        | .ok status =>
          execAndCount env.deletionMarkDefault fl qrr
            (Statement.update { spec := Option.none, status := some status,
                                updated := Option.none,
                                deletionmark := Option.none } id) id := rfl

theorem DeleteModelTraining_fault (env : Env σ τ φ) (fl : Faults) (qrr : Table)
    (id : String) :
    ((fl.toSql ≠ Option.none ∨ fl.query ≠ Option.none ∨ fl.rowsAffected ≠ Option.none) →
      (DeleteModelTraining env fl qrr id).1 ≠ Option.none) ∧
    (∀ e, (DeleteModelTraining env fl qrr id).1 = some e →
      e = GoError.NotFoundError id ∨ fl.toSql = some e ∨ fl.query = some e ∨
      fl.rowsAffected = some e) := by
  rw [DeleteModelTraining_tail]
  cases h1 : fl.toSql with
  | some e1 => simp
  | none =>
    simp only
    constructor
    · intro h
      apply execAndCount_fault
      rcases h with h | h | h
      · exact absurd rfl h
      · exact Or.inl h
      · exact Or.inr h
    · intro e he
      rcases execAndCount_error _ _ _ _ _ e he with h | h | h | h
      · exact Or.inl h
      · right; right; left; exact h
      · right; right; right; exact h
      · obtain ⟨_, _, _, _, _, _, hst⟩ := Engine.exec_error _ _ _ _ h
        cases hst

theorem UpdateModelTraining_fault (env : Env σ τ φ) (fl : Faults) (qrr : Table)
    (mt : ModelTraining σ τ) :
    ((fl.toSql ≠ Option.none ∨ fl.query ≠ Option.none ∨ fl.rowsAffected ≠ Option.none ∨
        (∃ c, env.spec.Value mt.Spec = .error c) ∨
        ∃ c, env.status.Value mt.Status = .error c) →
      (UpdateModelTraining env fl qrr mt).1 ≠ Option.none) ∧
    (∀ e, (UpdateModelTraining env fl qrr mt).1 = some e →
      e = GoError.NotFoundError mt.ID ∨ fl.toSql = some e ∨ fl.query = some e ∨
      fl.rowsAffected = some e ∨
      (∃ c, env.spec.Value mt.Spec = .error c ∧ e = GoError.argumentError 1 c) ∨
      ∃ c, env.status.Value mt.Status = .error c ∧ e = GoError.argumentError 2 c) := by
  rw [UpdateModelTraining_tail]
  cases h1 : fl.toSql with
  | some e1 => simp
  | none =>
    cases h2 : env.spec.Value mt.Spec with
    | error e2 =>
      refine ⟨fun _ => by simp, fun e he => ?_⟩
      simp only [Option.some.injEq] at he
      right; right; right; right; left
      exact ⟨e2, rfl, he.symm⟩
    | ok bs =>
      cases h3 : env.status.Value mt.Status with
      | error e3 =>
        refine ⟨fun _ => by simp, fun e he => ?_⟩
        simp only [Option.some.injEq] at he
        right; right; right; right; right
        exact ⟨e3, rfl, he.symm⟩
      | ok bt =>
        simp only
        constructor
        · intro h
          apply execAndCount_fault
          rcases h with h | h | h | ⟨c, hc⟩ | ⟨c, hc⟩
          · exact absurd rfl h
          · exact Or.inl h
          · exact Or.inr h
          · cases hc
          · cases hc
        · intro e he
          rcases execAndCount_error _ _ _ _ _ e he with h | h | h | h
          · exact Or.inl h
          · right; right; left; exact h
          · right; right; right; left; exact h
          · obtain ⟨_, _, _, _, _, _, hst⟩ := Engine.exec_error _ _ _ _ h
            cases hst

theorem UpdateModelTrainingStatus_fault (env : Env σ τ φ) (fl : Faults) (qrr : Table)
    (id : String) (s : τ) :
    ((fl.toSql ≠ Option.none ∨ fl.query ≠ Option.none ∨ fl.rowsAffected ≠ Option.none ∨
        ∃ c, env.status.Value s = .error c) →
      (UpdateModelTrainingStatus env fl qrr id s).1 ≠ Option.none) ∧
    (∀ e, (UpdateModelTrainingStatus env fl qrr id s).1 = some e →
      e = GoError.NotFoundError id ∨ fl.toSql = some e ∨ fl.query = some e ∨
      fl.rowsAffected = some e ∨
      ∃ c, env.status.Value s = .error c ∧ e = GoError.argumentError 1 c) := by
  rw [UpdateModelTrainingStatus_tail]
  cases h1 : fl.toSql with
  | some e1 => simp
  | none =>
    cases h3 : env.status.Value s with
    | error e3 =>
      refine ⟨fun _ => by simp, fun e he => ?_⟩
      simp only [Option.some.injEq] at he
      right; right; right; right
      exact ⟨e3, rfl, he.symm⟩
    | ok bt =>
      simp only
      constructor
      · intro h
        apply execAndCount_fault
        rcases h with h | h | h | ⟨c, hc⟩
        · exact absurd rfl h
        · exact Or.inl h
        · exact Or.inr h
        · cases hc
      · intro e he
        rcases execAndCount_error _ _ _ _ _ e he with h | h | h | h
        · exact Or.inl h
        · right; right; left; exact h
        · right; right; right; left; exact h
        · obtain ⟨_, _, _, _, _, _, hst⟩ := Engine.exec_error _ _ _ _ h
          cases hst

/-- What `SaveModelTraining` returns once the statement is built and the arguments are
converted. -/
theorem SaveModelTraining_exec (env : Env σ τ φ) (fl : Faults) (qrr : Table)
    (mt : ModelTraining σ τ) (bs bt : Blob) (h1 : fl.toSql = Option.none)
    (h2 : env.spec.Value mt.Spec = .ok bs) (h3 : env.status.Value mt.Status = .ok bt) :
    SaveModelTraining env fl qrr mt =
      saveResult mt.ID qrr (ExecContext env.deletionMarkDefault fl qrr
        (Statement.insert mt.ID bs bt mt.CreatedAt mt.UpdatedAt)) := by
  simp only [SaveModelTraining, h1, h2, h3]
  cases ExecContext env.deletionMarkDefault fl qrr
      (Statement.insert mt.ID bs bt mt.CreatedAt mt.UpdatedAt) with
  | error err => cases err <;> rfl
  | ok res => rfl

theorem SaveModelTraining_fault (env : Env σ τ φ) (fl : Faults) (qrr : Table)
    (mt : ModelTraining σ τ) :
    ((fl.toSql ≠ Option.none ∨ fl.query ≠ Option.none ∨
        (∃ c, env.spec.Value mt.Spec = .error c) ∨
        ∃ c, env.status.Value mt.Status = .error c) →
      (SaveModelTraining env fl qrr mt).1 ≠ Option.none) ∧
    (∀ e, (SaveModelTraining env fl qrr mt).1 = some e →
      e = GoError.AlreadyExistError mt.ID ∨ fl.toSql = some e ∨ fl.query = some e ∨
      (∃ c, env.spec.Value mt.Spec = .error c ∧ e = GoError.argumentError 2 c) ∨
      ∃ c, env.status.Value mt.Status = .error c ∧ e = GoError.argumentError 3 c) := by
  cases h1 : fl.toSql with
  | some e1 => simp [SaveModelTraining, h1]
  | none =>
    cases h2 : env.spec.Value mt.Spec with
    | error e2 =>
      refine ⟨fun _ => by simp [SaveModelTraining, h1, h2], fun e he => ?_⟩
      simp only [SaveModelTraining, h1, h2, Option.some.injEq] at he
      right; right; right; left
      exact ⟨e2, rfl, he.symm⟩
    | ok bs =>
      cases h3 : env.status.Value mt.Status with
      | error e3 =>
        refine ⟨fun _ => by simp [SaveModelTraining, h1, h2, h3], fun e he => ?_⟩
        simp only [SaveModelTraining, h1, h2, h3, Option.some.injEq] at he
        right; right; right; right
        exact ⟨e3, rfl, he.symm⟩
      | ok bt =>
        rw [SaveModelTraining_exec env fl qrr mt bs bt h1 h2 h3]
        cases h5 : ExecContext env.deletionMarkDefault fl qrr
            (Statement.insert mt.ID bs bt mt.CreatedAt mt.UpdatedAt) with
        | error err =>
          have hsome : (saveResult mt.ID qrr (Except.error err)).1 ≠ Option.none := by
            cases err <;> simp [saveResult]
            split <;> simp
          refine ⟨fun _ => hsome, fun e he => ?_⟩
          rcases ExecContext_error _ _ _ _ _ h5 with hq | ⟨_, hx⟩
          · by_cases hdup : err = GoError.pqError uniqueViolationPostgresCode
            · subst hdup
              simp only [saveResult, if_true, Option.some.injEq] at he
              exact Or.inl he.symm
            · have hsame : saveResult mt.ID qrr (Except.error err) = (some err, qrr) := by
                cases err with
                | pqError code =>
                  have hcode : ¬ code = uniqueViolationPostgresCode :=
                    fun hc => hdup (by rw [hc])
                  simp only [saveResult, hcode, if_false]
                | _ => rfl
              rw [hsame] at he
              simp only [Option.some.injEq] at he
              right; right; left
              rw [← he]; exact hq
          · obtain ⟨hpq, _⟩ := Engine.exec_error _ _ _ _ hx
            subst hpq
            simp only [saveResult, uniqueViolationPostgresCode, if_true,
              Option.some.injEq] at he
            exact Or.inl he.symm
        | ok res =>
          obtain ⟨n, t⟩ := res
          constructor
          · intro h
            rcases h with h | h | ⟨c, hc⟩ | ⟨c, hc⟩
            · exact absurd rfl h
            · cases hq : fl.query with
              | none => exact absurd hq h
              | some e =>
                rw [ExecContext_fault _ _ _ _ e hq] at h5
                cases h5
            · cases hc
            · cases hc
          · intro e he
            simp [saveResult] at he

theorem QueryRowScan_by_id (env : Env σ τ φ) (fl : Faults) (qrr : Table) (id : String) :
    QueryRowScan env fl qrr
        { wheres := [fun r => decide (r.id = id)], orderById := false,
          offset := Option.none, limit := Option.none } =
      match fl.query with
      | some err => .error err
      | Option.none =>
        match qrr.filter (fun r => decide (r.id = id)) with
        | [] =>
          match fl.rowsErr with
          | some err => .error err
          | Option.none => .error GoError.ErrNoRows
        | r :: _ =>
          match scanRow env r with
          | .error err => .error err
          | .ok mt =>
            match fl.rowsClose with
            | some err => .error err
            | Option.none => .ok mt := by
  simp only [QueryRowScan, select_by_id]

theorem QueryRowScan_fault (env : Env σ τ φ) (fl : Faults) (qrr : Table) (id : String)
    (h : fl.query ≠ Option.none ∨ fl.rowsClose ≠ Option.none) (mt : ModelTraining σ τ) :
    QueryRowScan env fl qrr
        { wheres := [fun r => decide (r.id = id)], orderById := false,
          offset := Option.none, limit := Option.none } ≠ .ok mt := by
  rw [QueryRowScan_by_id]
  cases hq : fl.query with
  | some e => simp
  | none =>
    cases hsel : qrr.filter (fun r => decide (r.id = id)) with
    | nil => cases hr : fl.rowsErr <;> simp
    | cons r rest =>
      cases hs : scanRow env r with
      | error e => simp [hs]
      | ok m =>
        cases hc : fl.rowsClose with
        | some e => simp [hs]
        | none =>
          rcases h with h | h
          · exact absurd hq h
          · exact absurd hc h

theorem QueryRowScan_error (env : Env σ τ φ) (fl : Faults) (qrr : Table) (id : String)
    (e : GoError)
    (h : QueryRowScan env fl qrr
        { wheres := [fun r => decide (r.id = id)], orderById := false,
          offset := Option.none, limit := Option.none } = .error e) :
    e = GoError.ErrNoRows ∨ fl.query = some e ∨ fl.rowsErr = some e ∨
      fl.rowsClose = some e ∨ ∃ r ∈ qrr, r.id = id ∧ scanRow env r = .error e := by
  rw [QueryRowScan_by_id] at h
  cases hq : fl.query with
  | some e1 =>
    simp only [hq, Except.error.injEq] at h
    exact Or.inr (Or.inl (by rw [h]))
  | none =>
    simp only [hq] at h
    cases hsel : qrr.filter (fun r => decide (r.id = id)) with
    | nil =>
      simp only [hsel] at h
      cases hr : fl.rowsErr with
      | some e2 =>
        simp only [hr, Except.error.injEq] at h
        exact Or.inr (Or.inr (Or.inl (by rw [h])))
      | none =>
        simp only [hr, Except.error.injEq] at h
        exact Or.inl h.symm
    | cons r rest =>
      simp only [hsel] at h
      have hmem : r ∈ qrr.filter (fun r => decide (r.id = id)) := by
        rw [hsel]; exact List.mem_cons_self r rest
      rw [List.mem_filter] at hmem
      cases hs : scanRow env r with
      | error e3 =>
        simp only [hs, Except.error.injEq] at h
        subst h
        exact Or.inr (Or.inr (Or.inr (Or.inr ⟨r, hmem.1, by simpa using hmem.2, hs⟩)))
      | ok m =>
        simp only [hs] at h
        cases hc : fl.rowsClose with
        | some e4 =>
          simp only [hc, Except.error.injEq] at h
          exact Or.inr (Or.inr (Or.inr (Or.inl (by rw [h]))))
        | none => simp [hc] at h

theorem GetModelTraining_switch (env : Env σ τ φ) (fl : Faults) (qrr : Table) (id : String)
    (h1 : fl.toSql = Option.none) :
    (∀ e, QueryRowScan env fl qrr
        { wheres := [fun r => decide (r.id = id)], orderById := false,
          offset := Option.none, limit := Option.none } = .error e →
      GetModelTraining env fl qrr id =
        (Option.none, some (if e = GoError.ErrNoRows then GoError.NotFoundError id else e))) ∧
    (∀ mt, QueryRowScan env fl qrr
        { wheres := [fun r => decide (r.id = id)], orderById := false,
          offset := Option.none, limit := Option.none } = .ok mt →
      GetModelTraining env fl qrr id = (some mt, Option.none)) := by
  constructor
  · intro e h
    simp only [GetModelTraining, h1, h]
    cases e <;> simp
  · intro mt h
    simp only [GetModelTraining, h1, h]

theorem GetModelTraining_fault (env : Env σ τ φ) (fl : Faults) (qrr : Table) (id : String) :
    ((fl.toSql ≠ Option.none ∨ fl.query ≠ Option.none ∨ fl.rowsClose ≠ Option.none ∨
        ∃ r rest e, qrr.filter (fun x => decide (x.id = id)) = r :: rest ∧
          scanRow env r = .error e) →
      (GetModelTraining env fl qrr id).2 ≠ Option.none) ∧
    ((GetModelTraining env fl qrr id).2 ≠ Option.none →
      (GetModelTraining env fl qrr id).1 = Option.none) ∧
    (∀ e, (GetModelTraining env fl qrr id).2 = some e →
      e = GoError.NotFoundError id ∨ fl.toSql = some e ∨ fl.query = some e ∨
      fl.rowsErr = some e ∨ fl.rowsClose = some e ∨
      ∃ r ∈ qrr, r.id = id ∧ scanRow env r = .error e) := by
  cases h1 : fl.toSql with
  | some e1 => simp [GetModelTraining, h1]
  | none =>
    obtain ⟨herr, hok⟩ := GetModelTraining_switch env fl qrr id h1
    cases hres : QueryRowScan env fl qrr
        { wheres := [fun r => decide (r.id = id)], orderById := false,
          offset := Option.none, limit := Option.none } with
    | error e0 =>
      rw [herr e0 hres]
      refine ⟨fun _ => by simp, fun _ => rfl, ?_⟩
      intro e he
      simp only [Option.some.injEq] at he
      by_cases hno : e0 = GoError.ErrNoRows
      · simp only [hno, if_true] at he
        exact Or.inl he.symm
      · simp only [hno, if_false] at he
        subst he
        rcases QueryRowScan_error env fl qrr id e0 hres with h | h | h | h | h
        · exact absurd h hno
        · right; right; left; exact h
        · right; right; right; left; exact h
        · right; right; right; right; left; exact h
        · right; right; right; right; right; exact h
    | ok mt =>
      rw [hok mt hres]
      refine ⟨?_, fun h => absurd rfl h, fun e he => by simp at he⟩
      intro h
      rcases h with h | h | h | ⟨r, rest, e, hsel, hscan⟩
      · exact absurd rfl h
      · exact absurd hres (QueryRowScan_fault env fl qrr id (Or.inl h) mt)
      · exact absurd hres (QueryRowScan_fault env fl qrr id (Or.inr h) mt)
      · rw [QueryRowScan_by_id, hsel] at hres
        cases hq : fl.query with
        | some e2 => simp [hq] at hres
        | none => simp [hq, hscan] at hres

theorem scanRows_error (env : Env σ τ φ) (rows : List Row) (acc : List (ModelTraining σ τ))
    (e : GoError) (h : scanRows env rows acc = .error e) :
    ∃ r ∈ rows, scanRow env r = .error e := by
  induction rows generalizing acc with
  | nil => simp [scanRows] at h
  | cons r rows ih =>
    cases hs : scanRow env r with
    | error e1 =>
      simp only [scanRows, hs, Except.error.injEq] at h
      subst h
      exact ⟨r, List.mem_cons_self r rows, hs⟩
    | ok mt =>
      simp only [scanRows, hs] at h
      obtain ⟨x, hx, hxe⟩ := ih _ h
      exact ⟨x, List.mem_cons_of_mem r hx, hxe⟩

theorem scanRows_of_error (env : Env σ τ φ) (rows : List Row)
    (acc : List (ModelTraining σ τ)) (h : ∃ r ∈ rows, ∃ e, scanRow env r = .error e) :
    ∃ e, scanRows env rows acc = .error e := by
  induction rows generalizing acc with
  | nil =>
    obtain ⟨r, hr, _⟩ := h
    cases hr
  | cons r rows ih =>
    cases hs : scanRow env r with
    | error e1 => exact ⟨e1, by simp [scanRows, hs]⟩
    | ok mt =>
      obtain ⟨x, hx, e, hxe⟩ := h
      rcases List.mem_cons.mp hx with hxr | hxr
      · subst hxr
        rw [hs] at hxe
        cases hxe
      · obtain ⟨e2, he2⟩ := ih (acc ++ [mt]) ⟨x, hxr, e, hxe⟩
        exact ⟨e2, by simp [scanRows, hs, he2]⟩

theorem GetModelTrainingList_fault (env : Env σ τ φ) (fl : Faults) (qrr : Table)
    (options : List (ListOption φ)) :
    ((fl.toSql ≠ Option.none ∨ fl.query ≠ Option.none ∨ fl.rowsErr ≠ Option.none ∨
        ∃ r ∈ issuedRows env qrr options, ∃ e, scanRow env r = .error e) →
      (GetModelTrainingList env fl qrr options).2 ≠ Option.none) ∧
    (∀ e, (GetModelTrainingList env fl qrr options).2 = some e →
      fl.toSql = some e ∨ fl.query = some e ∨ fl.rowsErr = some e ∨
      ∃ r ∈ qrr, scanRow env r = .error e) ∧
    (deferredClose env fl qrr options ≠ Option.none →
      ∃ r ∈ qrr, ∃ e, scanRow env r = .error e ∧
        GetModelTrainingList env fl qrr options = (Option.none, some e)) := by
  have hsel : Engine.select qrr (listStatement env options) = issuedRows env qrr options := by
    unfold listStatement issuedRows
    rw [select_list]
  refine ⟨?_, ?_, ?_⟩
  rotate_left 2
  · intro h
    rw [GetModelTrainingList_runs_listStatement, runListStatement]
    unfold deferredClose at h
    cases h1 : fl.toSql with
    | some e1 => simp [h1] at h
    | none =>
      cases h2 : fl.query with
      | some e2 => simp [h1, h2] at h
      | none =>
        cases h3 : scanRows env (Engine.select qrr (listStatement env options)) [] with
        | ok mts => simp [h1, h2, h3] at h
        | error e3 =>
          rw [hsel] at h3
          obtain ⟨r, hr, hre⟩ := scanRows_error env _ [] e3 h3
          exact ⟨r, mem_of_mem_issuedRows env qrr options r hr, e3, hre, rfl⟩
  · intro h
    rw [GetModelTrainingList_runs_listStatement, runListStatement, hsel]
    cases h1 : fl.toSql with
    | some e1 => simp
    | none =>
      cases h2 : fl.query with
      | some e2 => simp
      | none =>
        cases h3 : scanRows env (issuedRows env qrr options) [] with
        | error e3 => simp
        | ok mts =>
          cases h4 : fl.rowsErr with
          | some e4 => simp
          | none =>
            rcases h with h | h | h | h
            · exact absurd h1 h
            · exact absurd h2 h
            · exact absurd h4 h
            · obtain ⟨e, he⟩ := scanRows_of_error env _ [] h
              rw [he] at h3
              cases h3
  · intro e he
    rw [GetModelTrainingList_runs_listStatement, runListStatement, hsel] at he
    cases h1 : fl.toSql with
    | some e1 =>
      simp only [h1, Option.some.injEq] at he
      exact Or.inl (by rw [he])
    | none =>
      cases h2 : fl.query with
      | some e2 =>
        simp only [h1, h2, Option.some.injEq] at he
        exact Or.inr (Or.inl (by rw [he]))
      | none =>
        cases h3 : scanRows env (issuedRows env qrr options) [] with
        | error e3 =>
          simp only [h1, h2, h3, Option.some.injEq] at he
          subst he
          obtain ⟨r, hr, hre⟩ := scanRows_error env _ [] e3 h3
          exact Or.inr (Or.inr (Or.inr
            ⟨r, mem_of_mem_issuedRows env qrr options r hr, hre⟩))
        | ok mts =>
          cases h4 : fl.rowsErr with
          | some e4 =>
            simp only [h1, h2, h3, h4, Option.some.injEq] at he
            exact Or.inr (Or.inr (Or.inl (by rw [he])))
          | none => simp [h1, h2, h3, h4] at he

/-- C15. Save, Get, List, Update, UpdateStatus and Delete return an error whenever a
step they perform fails. Building the statement, converting an argument with its
`Value` method and executing the statement: in every method that has the step. Reading
rows-affected: in Update, UpdateStatus and Delete. Scanning the row and closing the row
set: in Get, whose entity is then nil. Scanning an issued row and iterating: in List;
its deferred `rows.Close()` can report an error only after the scan of a row failed, and
that scan error is what List returns. The error a method returns is the error of the
failing step as `database/sql` handed it over, or the `NotFoundError` /
`AlreadyExistError` of the method. -/
theorem storage_errors_returned (env : Env σ τ φ) (fl : Faults) (qrr : Table)
    (mt : ModelTraining σ τ) (id : String) (s : τ) (options : List (ListOption φ)) :
    (((fl.toSql ≠ Option.none ∨ fl.query ≠ Option.none ∨
          (∃ c, env.spec.Value mt.Spec = .error c) ∨
          ∃ c, env.status.Value mt.Status = .error c) →
        (SaveModelTraining env fl qrr mt).1 ≠ Option.none) ∧
      (∀ e, (SaveModelTraining env fl qrr mt).1 = some e →
        e = GoError.AlreadyExistError mt.ID ∨ fl.toSql = some e ∨ fl.query = some e ∨
        (∃ c, env.spec.Value mt.Spec = .error c ∧ e = GoError.argumentError 2 c) ∨
        ∃ c, env.status.Value mt.Status = .error c ∧ e = GoError.argumentError 3 c)) ∧
    (((fl.toSql ≠ Option.none ∨ fl.query ≠ Option.none ∨ fl.rowsClose ≠ Option.none ∨
          ∃ r rest e, qrr.filter (fun x => decide (x.id = id)) = r :: rest ∧
            scanRow env r = .error e) →
        (GetModelTraining env fl qrr id).2 ≠ Option.none) ∧
      ((GetModelTraining env fl qrr id).2 ≠ Option.none →
        (GetModelTraining env fl qrr id).1 = Option.none) ∧
      (∀ e, (GetModelTraining env fl qrr id).2 = some e →
        e = GoError.NotFoundError id ∨ fl.toSql = some e ∨ fl.query = some e ∨
        fl.rowsErr = some e ∨ fl.rowsClose = some e ∨
        ∃ r ∈ qrr, r.id = id ∧ scanRow env r = .error e)) ∧
    (((fl.toSql ≠ Option.none ∨ fl.query ≠ Option.none ∨ fl.rowsErr ≠ Option.none ∨
          ∃ r ∈ issuedRows env qrr options, ∃ e, scanRow env r = .error e) →
        (GetModelTrainingList env fl qrr options).2 ≠ Option.none) ∧
      (∀ e, (GetModelTrainingList env fl qrr options).2 = some e →
        fl.toSql = some e ∨ fl.query = some e ∨ fl.rowsErr = some e ∨
        ∃ r ∈ qrr, scanRow env r = .error e) ∧
      (deferredClose env fl qrr options ≠ Option.none →
        ∃ r ∈ qrr, ∃ e, scanRow env r = .error e ∧
          GetModelTrainingList env fl qrr options = (Option.none, some e))) ∧
    (((fl.toSql ≠ Option.none ∨ fl.query ≠ Option.none ∨ fl.rowsAffected ≠ Option.none ∨
          (∃ c, env.spec.Value mt.Spec = .error c) ∨
          ∃ c, env.status.Value mt.Status = .error c) →
        (UpdateModelTraining env fl qrr mt).1 ≠ Option.none) ∧
      (∀ e, (UpdateModelTraining env fl qrr mt).1 = some e →
        e = GoError.NotFoundError mt.ID ∨ fl.toSql = some e ∨ fl.query = some e ∨
        fl.rowsAffected = some e ∨
        (∃ c, env.spec.Value mt.Spec = .error c ∧ e = GoError.argumentError 1 c) ∨
        ∃ c, env.status.Value mt.Status = .error c ∧ e = GoError.argumentError 2 c)) ∧
    (((fl.toSql ≠ Option.none ∨ fl.query ≠ Option.none ∨ fl.rowsAffected ≠ Option.none ∨
          ∃ c, env.status.Value s = .error c) →
        (UpdateModelTrainingStatus env fl qrr id s).1 ≠ Option.none) ∧
      (∀ e, (UpdateModelTrainingStatus env fl qrr id s).1 = some e →
        e = GoError.NotFoundError id ∨ fl.toSql = some e ∨ fl.query = some e ∨
        fl.rowsAffected = some e ∨
        ∃ c, env.status.Value s = .error c ∧ e = GoError.argumentError 1 c)) ∧
    (((fl.toSql ≠ Option.none ∨ fl.query ≠ Option.none ∨ fl.rowsAffected ≠ Option.none) →
        (DeleteModelTraining env fl qrr id).1 ≠ Option.none) ∧
      (∀ e, (DeleteModelTraining env fl qrr id).1 = some e →
        e = GoError.NotFoundError id ∨ fl.toSql = some e ∨ fl.query = some e ∨
        fl.rowsAffected = some e)) :=
  ⟨SaveModelTraining_fault env fl qrr mt, GetModelTraining_fault env fl qrr id,
   GetModelTrainingList_fault env fl qrr options, UpdateModelTraining_fault env fl qrr mt,
   UpdateModelTrainingStatus_fault env fl qrr id s, DeleteModelTraining_fault env fl qrr id⟩

/-- Witness for C15. With `rows.Close` failing, Get on the sample table returns an error
and a nil entity. With a spec type that must be a JSON object the scan of the first
issued row fails: the deferred `rows.Close()` of List reports its error, and List returns
the error of the scan. -/
theorem storage_errors_returned_witness :
    (GetModelTraining Env.plain Faults.closeOnly sampleTable "m1").2 ≠ Option.none ∧
    deferredClose Env.plain Faults.closeOnly sampleTable [] = Option.none ∧
    deferredClose Env.object Faults.closeOnly sampleTable [] ≠ Option.none ∧
    ∃ r ∈ sampleTable, ∃ e, scanRow Env.object r = .error e ∧
      GetModelTrainingList Env.object Faults.closeOnly sampleTable []
        = (Option.none, some e) :=
  ⟨(storage_errors_returned Env.plain Faults.closeOnly sampleTable sampleNew "m1"
      "running" []).2.1.1 (Or.inr (Or.inr (Or.inl (by decide)))),
   by decide, by decide,
   (storage_errors_returned Env.object Faults.closeOnly sampleTable sampleNew "m1"
      "running" []).2.2.1.2.2 (by decide)⟩

/-! ## Scan errors -/

theorem scanRow_error_iff (env : Env σ τ φ) (r : Row) (e : GoError) :
    scanRow env r = .error e ↔
      (∃ c, env.spec.Scan r.spec = .error c ∧ e = GoError.scanError 1 "spec" c) ∨
      ∃ spec c, env.spec.Scan r.spec = .ok spec ∧ env.status.Scan r.status = .error c ∧
        e = GoError.scanError 2 "status" c := by
  unfold scanRow
  cases hs : env.spec.Scan r.spec with
  | error e1 =>
    simp only [Except.error.injEq, exists_eq_left', false_and, exists_false, or_false,
      reduceCtorEq]
    exact eq_comm
  | ok spec =>
    cases ht : env.status.Scan r.status with
    | error e2 =>
      constructor
      · intro h
        right
        exact ⟨spec, e2, rfl, rfl, (Except.error.inj h).symm⟩
      · intro h
        rcases h with ⟨c, hc, _⟩ | ⟨_, c, _, hc, he⟩
        · cases hc
        · cases hc
          rw [he]
    | ok status => simp

theorem scanRows_first_error (env : Env σ τ φ) (pre post : List Row) (r : Row)
    (e : GoError) (acc : List (ModelTraining σ τ))
    (hpre : ∀ x ∈ pre, ∃ mt, scanRow env x = .ok mt) (hr : scanRow env r = .error e) :
    scanRows env (pre ++ r :: post) acc = .error e := by
  induction pre generalizing acc with
  | nil => simp [scanRows, hr]
  | cons a pre ih =>
    obtain ⟨mt, hmt⟩ := hpre a (List.mem_cons_self a pre)
    simp only [List.cons_append, scanRows, hmt]
    exact ih _ (fun x hx => hpre x (List.mem_cons_of_mem a hx))

/-- C16 as stated fails: with a spec type whose `Scan` hands back the error of
`json.Unmarshal`, as `ModelPackagingSpec.Scan` does, Get and List on a row whose spec
is not a JSON object return the error that `rows.Scan` builds around that error, which
is not of the Serialization kind. -/
theorem scan_error_counterexample :
    Env.object.spec.Scan "mlflow"
      = .error (GoError.other "invalid character looking for beginning of value") ∧
    GetModelTraining Env.object Faults.none sampleTable "m1"
      = (Option.none,
         some (GoError.scanError 1 "spec"
           (GoError.other "invalid character looking for beginning of value"))) ∧
    isSerializationError (GetModelTraining Env.object Faults.none sampleTable "m1").2
      = false ∧
    GetModelTrainingList Env.object Faults.none sampleTable []
      = (Option.none,
         some (GoError.scanError 1 "spec"
           (GoError.other "invalid character looking for beginning of value"))) ∧
    isSerializationError (GetModelTrainingList Env.object Faults.none sampleTable []).2
      = false :=
  ⟨rfl, by decide, by decide, by decide, by decide⟩

/-- C16, amended. With the storage layer working: when `Scan` of the spec or of the status
of the row with the given `id` fails, Get returns a nil entity and the error of
`rows.Scan`, which is the error of `database/sql` for column `spec` (index 1) or `status`
(index 2) built around the error that `Scan` returned; when the first issued row that
fails to scan fails in this way, List returns a nil slice and that error. Whatever the
cause, also `sql.ErrNoRows` or an error of the Serialization kind, the error returned is
the one built around it: it is neither of the Serialization kind nor a `NotFoundError`
nor an `AlreadyExistError`. -/
theorem scan_error_returned (env : Env σ τ φ) (qrr : Table) (id : String)
    (options : List (ListOption φ)) (r : Row) (c e : GoError)
    (hscan : (env.spec.Scan r.spec = .error c ∧ e = GoError.scanError 1 "spec" c) ∨
      ∃ spec, env.spec.Scan r.spec = .ok spec ∧ env.status.Scan r.status = .error c ∧
        e = GoError.scanError 2 "status" c) :
    (∀ rest, qrr.filter (fun x => decide (x.id = id)) = r :: rest →
      GetModelTraining env Faults.none qrr id = (Option.none, some e)) ∧
    (∀ pre post, issuedRows env qrr options = pre ++ r :: post →
      (∀ x ∈ pre, ∃ mt, scanRow env x = .ok mt) →
      GetModelTrainingList env Faults.none qrr options = (Option.none, some e)) ∧
    isSerializationError (some e) = false ∧
    (∀ entity, e ≠ GoError.NotFoundError entity ∧ e ≠ GoError.AlreadyExistError entity) ∧
    e ≠ c := by
  have hr : scanRow env r = .error e := by
    rw [scanRow_error_iff]
    rcases hscan with ⟨h1, h2⟩ | ⟨spec, h1, h2, h3⟩
    · left; exact ⟨c, h1, h2⟩
    · right; exact ⟨spec, c, h1, h2, h3⟩
  have hshape : ∃ i name, e = GoError.scanError i name c := by
    rcases hscan with ⟨_, h2⟩ | ⟨_, _, _, h3⟩
    · exact ⟨_, _, h2⟩
    · exact ⟨_, _, h3⟩
  obtain ⟨i, name, he⟩ := hshape
  have hno : e ≠ GoError.ErrNoRows := by rw [he]; intro h; cases h
  refine ⟨?_, ?_, ?_, ?_, ?_⟩
  · intro rest hsel
    have h := (GetModelTraining_switch env Faults.none qrr id rfl).1 e (by
      rw [QueryRowScan_by_id]
      simp only [Faults.none, hsel, hr])
    rw [h, if_neg hno]
  · intro pre post hrows hpre
    rw [GetModelTrainingList_eq, hrows, scanRows_first_error env pre post r e [] hpre hr]
  · rw [he]; rfl
  · intro entity
    rw [he]
    exact ⟨(fun h => by cases h), (fun h => by cases h)⟩
  · rw [he]
    intro h
    have hsize := congrArg sizeOf h
    simp only [GoError.scanError.sizeOf_spec] at hsize
    omega

/-- Witness for the amended C16: the row `m1` of the sample table under a spec type that
must be a JSON object. -/
theorem scan_error_returned_witness :
    GetModelTraining Env.object Faults.none sampleTable "m1" =
      (Option.none,
       some (GoError.scanError 1 "spec"
         (GoError.other "invalid character looking for beginning of value"))) :=
  (scan_error_returned Env.object sampleTable "m1" []
    { id := "m1", spec := "mlflow", status := "succeeded", deletionmark := true,
      created := 5, updated := 7 }
    (GoError.other "invalid character looking for beginning of value")
    (GoError.scanError 1 "spec"
      (GoError.other "invalid character looking for beginning of value"))
    (Or.inl ⟨rfl, rfl⟩)).1 [] (by decide)

/-! ## Status updates -/

/-- With the storage layer working, a status update of a stored `id` succeeds and writes
the serialized status into the rows with that `id`. -/
theorem UpdateModelTrainingStatus_stored (env : Env σ τ φ) (qrr : Table) (id : String)
    (s : τ) (bt : Blob) (ht : env.status.Value s = .ok bt) (hex : ∃ r ∈ qrr, r.id = id) :
    UpdateModelTrainingStatus env Faults.none qrr id s =
      (Option.none, qrr.map (fun r => if r.id = id then { r with status := bt } else r)) := by
  have hlen := filter_id_pos_length qrr id hex
  simp only [UpdateModelTrainingStatus, Faults.none, ExecContext, Engine.exec, RowsAffected,
    ht, hlen, if_false]
  rfl

/-- C25. With the storage layer working and the status serializable: on a stored `id`
`UpdateModelTrainingStatus` succeeds; the table afterwards matches the table before row by
row, every row keeps its `id`, `spec`, `deletionmark`, `created` and `updated`, a row with
another `id` is unchanged, and a row with the `id` carries the serialized status; an entity
that Get returned before comes back with the new status and nothing else changed. On an
`id` that is not stored the call returns `NotFoundError{Entity: id}` and leaves the table
as it was. -/
theorem UpdateModelTrainingStatus_frame (env : Env σ τ φ) (qrr : Table) (id : String)
    (s : τ) (bt : Blob) (ht : env.status.Value s = .ok bt) :
    ((∃ r ∈ qrr, r.id = id) →
      (UpdateModelTrainingStatus env Faults.none qrr id s).1 = Option.none ∧
      List.Forall₂
        (fun old new =>
          new.id = old.id ∧ new.spec = old.spec ∧ new.deletionmark = old.deletionmark ∧
          new.created = old.created ∧ new.updated = old.updated ∧
          (old.id ≠ id → new = old) ∧ (old.id = id → new.status = bt))
        qrr (UpdateModelTrainingStatus env Faults.none qrr id s).2 ∧
      (∀ mt, GetModelTraining env Faults.none qrr id = (some mt, Option.none) →
        env.status.Scan bt = .ok s →
        GetModelTraining env Faults.none
            (UpdateModelTrainingStatus env Faults.none qrr id s).2 id
          = (some { mt with Status := s }, Option.none))) ∧
    ((∀ r ∈ qrr, r.id ≠ id) →
      UpdateModelTrainingStatus env Faults.none qrr id s
        = (some (.NotFoundError id), qrr)) := by
  constructor
  · intro hex
    rw [UpdateModelTrainingStatus_stored env qrr id s bt ht hex]
    refine ⟨rfl, ?_, ?_⟩
    · rw [List.forall₂_map_right_iff, List.forall₂_same]
      intro r _
      by_cases hr : r.id = id
      · simp [hr]
      · simp [hr]
    · intro mt hget hscan
      cases hsel : qrr.filter (fun x => decide (x.id = id)) with
      | nil =>
        have hno : ∀ r ∈ qrr, r.id ≠ id := by
          intro r hr hid
          have hmem : r ∈ qrr.filter (fun x => decide (x.id = id)) := by
            simp [List.mem_filter, hr, hid]
          rw [hsel] at hmem
          exact List.not_mem_nil r hmem
        rw [GetModelTraining_absent env qrr id hno] at hget
        simp at hget
      | cons a rest =>
        cases hsa : scanRow env a with
        | error e =>
          simp [GetModelTraining, QueryRowScan, Faults.none, select_by_id, hsel, hsa] at hget
          cases e <;> simp at hget
        | ok m =>
          rw [GetModelTraining_first env qrr id a rest m hsel hsa] at hget
          simp only [Prod.mk.injEq, Option.some.injEq, and_true] at hget
          subst hget
          obtain ⟨h1, h2, _, h4, h5, h6⟩ := scanRow_ok env a m hsa
          refine GetModelTraining_first env _ id { a with status := bt }
            (rest.map (fun r => { r with status := bt })) _ ?_ ?_
          · have hf := filter_map_update qrr id (fun r => { r with status := bt })
              (fun _ => rfl)
            rw [hf, hsel, List.map_cons]
          · simp only [scanRow, h2, hscan]
            rw [← h1, ← h4, ← h5, ← h6]
  · intro hno
    simp [UpdateModelTrainingStatus, Faults.none, ExecContext, Engine.exec, RowsAffected, ht,
      filter_id_eq_nil qrr id hno, map_update_self qrr id _ hno]

/-- Witness for C25: a status update of `m1` in the sample table, and one of the unknown
`id` `m4`. -/
theorem UpdateModelTrainingStatus_frame_witness :
    UpdateModelTrainingStatus Env.plain Faults.none sampleTable "m1" "failed" =
      (Option.none,
       [ { id := "m2", spec := "xgboost", status := "running", deletionmark := false,
           created := 10, updated := 11 },
         { id := "m1", spec := "mlflow", status := "failed", deletionmark := true,
           created := 5, updated := 7 },
         { id := "m3", spec := "mlflow", status := "failed", deletionmark := false,
           created := 20, updated := 20 } ]) ∧
    GetModelTraining Env.plain Faults.none
        (UpdateModelTrainingStatus Env.plain Faults.none sampleTable "m1" "failed").2 "m1"
      = (some { ID := "m1", DeletionMark := true, CreatedAt := 5, UpdatedAt := 7,
                Spec := "mlflow", Status := "failed" }, Option.none) ∧
    UpdateModelTrainingStatus Env.plain Faults.none sampleTable "m4" "failed"
      = (some (.NotFoundError "m4"), sampleTable) :=
  ⟨by decide,
   ((UpdateModelTrainingStatus_frame Env.plain sampleTable "m1" "failed" "failed" rfl).1
      (by decide)).2.2
      { ID := "m1", DeletionMark := true, CreatedAt := 5, UpdatedAt := 7,
        Spec := "mlflow", Status := "succeeded" } (by decide) rfl,
   (UpdateModelTrainingStatus_frame Env.plain sampleTable "m4" "failed" "failed" rfl).2
      (by decide)⟩

/-! ## Save and the deletion mark -/

/-- A save runs the insert it built and maps the answer of the engine. -/
theorem SaveModelTraining_runs_saveInsert (env : Env σ τ φ) (fl : Faults) (qrr : Table)
    (mt : ModelTraining σ τ) (stmt : Statement) (h : saveInsert env fl mt = some stmt) :
    SaveModelTraining env fl qrr mt =
      saveResult mt.ID qrr (ExecContext env.deletionMarkDefault fl qrr stmt) := by
  unfold saveInsert at h
  cases h1 : fl.toSql with
  | some e1 => simp [h1] at h
  | none =>
    cases h2 : env.spec.Value mt.Spec with
    | error e2 => simp [h1, h2] at h
    | ok bs =>
      cases h3 : env.status.Value mt.Status with
      | error e3 => simp [h1, h2, h3] at h
      | ok bt =>
        simp only [h1, h2, h3, Option.some.injEq] at h
        subst h
        simp only [SaveModelTraining, h1, h2, h3]
        cases h5 : ExecContext env.deletionMarkDefault fl qrr
            (Statement.insert mt.ID bs bt mt.CreatedAt mt.UpdatedAt) with
        | error err => cases err <;> rfl
        | ok res => rfl

/-- C26. For any two entities that differ at most in `DeletionMark`, any table and any
behaviour of the storage layer: the two saves build the same insert, which lists the
columns `id, spec, status, created, updated` with the values of the entity and says nothing
of `deletionmark`; they return the same error and leave the same table. -/
theorem SaveModelTraining_ignores_DeletionMark (env : Env σ τ φ) (fl : Faults) (qrr : Table)
    (mt1 mt2 : ModelTraining σ τ)
    (hid : mt1.ID = mt2.ID) (hspec : mt1.Spec = mt2.Spec) (hstatus : mt1.Status = mt2.Status)
    (hcreated : mt1.CreatedAt = mt2.CreatedAt) (hupdated : mt1.UpdatedAt = mt2.UpdatedAt) :
    saveInsert env fl mt1 = saveInsert env fl mt2 ∧
    (∀ stmt, saveInsert env fl mt1 = some stmt →
      (∃ bs bt, env.spec.Value mt1.Spec = .ok bs ∧ env.status.Value mt1.Status = .ok bt ∧
        stmt = Statement.insert mt1.ID bs bt mt1.CreatedAt mt1.UpdatedAt) ∧
      SaveModelTraining env fl qrr mt1 =
        saveResult mt1.ID qrr (ExecContext env.deletionMarkDefault fl qrr stmt) ∧
      SaveModelTraining env fl qrr mt2 =
        saveResult mt1.ID qrr (ExecContext env.deletionMarkDefault fl qrr stmt)) ∧
    SaveModelTraining env fl qrr mt1 = SaveModelTraining env fl qrr mt2 := by
  have heq : mt2 = { mt1 with DeletionMark := mt2.DeletionMark } := by
    cases mt1
    cases mt2
    simp only at hid hspec hstatus hcreated hupdated
    subst hid hspec hstatus hcreated hupdated
    rfl
  have hins : saveInsert env fl mt1 = saveInsert env fl mt2 := by
    rw [heq]
    rfl
  have hsave : SaveModelTraining env fl qrr mt1 = SaveModelTraining env fl qrr mt2 := by
    rw [heq]
    rfl
  refine ⟨hins, ?_, hsave⟩
  intro stmt h
  have hrun := SaveModelTraining_runs_saveInsert env fl qrr mt1 stmt h
  refine ⟨?_, hrun, by rw [← hsave, hrun]⟩
  unfold saveInsert at h
  cases h1 : fl.toSql with
  | some e1 => simp [h1] at h
  | none =>
    cases h2 : env.spec.Value mt1.Spec with
    | error e2 => simp [h1, h2] at h
    | ok bs =>
      cases h3 : env.status.Value mt1.Status with
      | error e3 => simp [h1, h2, h3] at h
      | ok bt =>
        simp only [h1, h2, h3, Option.some.injEq] at h
        exact ⟨bs, bt, rfl, rfl, h.symm⟩

/-- Witness for C26: the sample entity saved with and without the deletion mark. -/
theorem SaveModelTraining_ignores_DeletionMark_witness :
    saveInsert Env.plain Faults.none sampleNew
      = some (Statement.insert "m4" "mlflow" "scheduling" 30 31) ∧
    saveInsert Env.plain Faults.none sampleMarked
      = some (Statement.insert "m4" "mlflow" "scheduling" 30 31) ∧
    SaveModelTraining Env.plain Faults.none sampleTable sampleNew
      = SaveModelTraining Env.plain Faults.none sampleTable sampleMarked :=
  ⟨by decide, by decide,
   (SaveModelTraining_ignores_DeletionMark Env.plain Faults.none sampleTable sampleNew
      sampleMarked rfl rfl rfl rfl rfl).2.2⟩

/-! ## Offset and limit as machine integers -/

theorem uint64_int64 (x : Int) : uint64 (int64 x) = (x % 2 ^ 64).toNat := by
  unfold uint64 int64
  congr 1
  omega

theorem uint64_cast (x : Int) : ((uint64 x : Nat) : Int) = x % 2 ^ 64 := by
  unfold uint64
  omega

/-- C27 as stated fails. With `size = 0` and `page = -1` the issued `OFFSET` and `LIMIT`
equal `page * size` and `size` although the page is negative; with `size = 2^32` and
`page = 2^31` they equal `page * size = 2^63` and `size` although the product is not below
`2^63`; and with `size = 4` and the negative page `-(2^62)` the issued `OFFSET` is `0`,
which is not at least `2^63`. -/
theorem listStatement_offset_counterexample :
    (listStatement Env.plain [Size 0, Page (-1)]).offset = some 0 ∧
    (listStatement Env.plain [Size 0, Page (-1)]).limit = some 0 ∧
    ((0 : Nat) : Int) = (-1) * 0 ∧ ¬ (0 : Int) ≤ -1 ∧
    (listStatement Env.plain [Size (2 ^ 32), Page (2 ^ 31)]).offset = some (2 ^ 63) ∧
    (listStatement Env.plain [Size (2 ^ 32), Page (2 ^ 31)]).limit = some (2 ^ 32) ∧
    ((2 ^ 63 : Nat) : Int) = 2 ^ 31 * 2 ^ 32 ∧ ¬ (2 ^ 31 * 2 ^ 32 : Int) < 2 ^ 63 ∧
    (listStatement Env.plain [Size 4, Page (-(2 ^ 62))]).offset = some 0 ∧
    (-(2 ^ 62) : Int) < 0 ∧ (0 : Int) < 4 ∧ -(2 ^ 63) ≤ (-(2 ^ 62) : Int) ∧
    ¬ (2 ^ 63 : Nat) ≤ 0 := by
  decide

/-- C27, amended. For every page and every size in the range of a Go `int`: the issued `OFFSET`
is `(size * page) mod 2^64` and the issued `LIMIT` is `size mod 2^64`; they equal
`page * size` and `size` exactly when `size` is not negative and `page * size` lies in
`[0, 2^64)`, which is the case whenever page and size are not negative and
`page * size < 2^63`; and for a negative page with a positive size whose product is not
below `-2^63`, the issued `OFFSET` is `2^64 + page * size`, which is at least `2^63`. -/
theorem listStatement_offset_limit (env : Env σ τ φ) (options : List (ListOption φ))
    (hsize : -(2 ^ 63) ≤ (applyOptions env options).Size ∧
      (applyOptions env options).Size < 2 ^ 63) :
    ∃ off lim : Nat,
      (listStatement env options).offset = some off ∧
      (listStatement env options).limit = some lim ∧
      (off : Int) = ((applyOptions env options).Size * (applyOptions env options).Page)
        % 2 ^ 64 ∧
      (lim : Int) = (applyOptions env options).Size % 2 ^ 64 ∧
      (((off : Int) = (applyOptions env options).Page * (applyOptions env options).Size ∧
          (lim : Int) = (applyOptions env options).Size) ↔
        (0 ≤ (applyOptions env options).Size ∧
          0 ≤ (applyOptions env options).Page * (applyOptions env options).Size ∧
          (applyOptions env options).Page * (applyOptions env options).Size < 2 ^ 64)) ∧
      (0 ≤ (applyOptions env options).Page → 0 ≤ (applyOptions env options).Size →
        (applyOptions env options).Page * (applyOptions env options).Size < 2 ^ 63 →
        (off : Int) = (applyOptions env options).Page * (applyOptions env options).Size ∧
          (lim : Int) = (applyOptions env options).Size) ∧
      ((applyOptions env options).Page < 0 → 0 < (applyOptions env options).Size →
        -(2 ^ 63) ≤ (applyOptions env options).Page * (applyOptions env options).Size →
        (off : Int) = 2 ^ 64 +
            (applyOptions env options).Page * (applyOptions env options).Size ∧
          2 ^ 63 ≤ off) := by
  have hfields : (listStatement env options).offset
        = some (uint64 (int64 ((applyOptions env options).Size *
            (applyOptions env options).Page))) ∧
      (listStatement env options).limit = some (uint64 (applyOptions env options).Size) := by
    unfold listStatement utils.TransformFilter
    cases (applyOptions env options).Filter <;> exact ⟨rfl, rfl⟩
  refine ⟨_, _, hfields.1, hfields.2, ?_, ?_, ?_, ?_, ?_⟩
  · rw [uint64_int64]
    omega
  · exact uint64_cast _
  · rw [uint64_int64, uint64_cast, Int.mul_comm (applyOptions env options).Page]
    generalize (applyOptions env options).Size * (applyOptions env options).Page = prod
    generalize (applyOptions env options).Size = size at hsize
    have hoff : ((prod % 2 ^ 64).toNat : Int) = prod % 2 ^ 64 := by omega
    rw [hoff]
    omega
  · intro hp hs hlt
    rw [uint64_int64, uint64_cast, Int.mul_comm (applyOptions env options).Page] at *
    have hnn : 0 ≤ (applyOptions env options).Size * (applyOptions env options).Page :=
      Int.mul_nonneg hs hp
    generalize (applyOptions env options).Size * (applyOptions env options).Page = prod at *
    generalize (applyOptions env options).Size = size at *
    have hoff : ((prod % 2 ^ 64).toNat : Int) = prod % 2 ^ 64 := by omega
    rw [hoff]
    omega
  · intro hp hs hge
    rw [uint64_int64, Int.mul_comm (applyOptions env options).Page] at *
    have hneg : (applyOptions env options).Size * (applyOptions env options).Page < 0 :=
      Int.mul_neg_of_pos_of_neg hs hp
    generalize (applyOptions env options).Size * (applyOptions env options).Page = prod at *
    omega

/-- Witness for the amended C27: page `-1` with size `2` is issued as `OFFSET 2^64 - 2`. -/
theorem listStatement_offset_limit_witness :
    ∃ off lim : Nat,
      (listStatement Env.plain [Size 2, Page (-1)]).offset = some off ∧
      (listStatement Env.plain [Size 2, Page (-1)]).limit = some lim ∧
      (off : Int) = 2 ^ 64 + (-1) * 2 ∧ 2 ^ 63 ≤ off ∧ (lim : Int) = 2 % 2 ^ 64 := by
  obtain ⟨off, lim, h1, h2, _, h4, _, _, h7⟩ :=
    listStatement_offset_limit Env.plain [Size 2, Page (-1)] (by decide)
  exact ⟨off, lim, h1, h2, (h7 (by decide) (by decide) (by decide)).1,
    (h7 (by decide) (by decide) (by decide)).2, h4⟩

/-! ## Packager: what `getPackaging` returns -/

theorem Packager.fetchTarget_ok_iff {γ ι ρ ψ : Type} (p : Packager γ ι ρ ψ) (n : Nat)
    (t : Target) (pt : PackagerTarget γ) :
    p.fetchTarget n t = .ok pt ↔
      ∃ conn, p.GetConnection n t.ConnectionName = .ok conn ∧
        p.DecodeBase64Fields conn = .ok pt.Connection ∧ pt.Name = t.Name := by
  unfold Packager.fetchTarget
  cases h1 : p.GetConnection n t.ConnectionName with
  | error e => simp
  | ok conn =>
    cases h2 : p.DecodeBase64Fields conn with
    | error e => simp [h2]
    | ok conn2 =>
      simp only [Except.ok.injEq, exists_eq_left', h2]
      constructor
      · intro h
        subst h
        exact ⟨rfl, rfl⟩
      · intro h
        cases pt
        simp only at h
        rw [h.1, h.2]

theorem Packager.fetchTarget_error_iff {γ ι ρ ψ : Type} (p : Packager γ ι ρ ψ) (n : Nat)
    (t : Target) (e : GoError) :
    p.fetchTarget n t = .error e ↔
      (p.GetConnection n t.ConnectionName = .error e ∨
        ∃ conn, p.GetConnection n t.ConnectionName = .ok conn ∧
          p.DecodeBase64Fields conn = .error e) := by
  unfold Packager.fetchTarget
  cases h1 : p.GetConnection n t.ConnectionName with
  | error e1 => simp
  | ok conn =>
    cases h2 : p.DecodeBase64Fields conn with
    | error e2 => simp [h2]
    | ok conn2 => simp [h2]

/-- The loop over the targets either fetches every target, in order, one client call
each, or stops at the first target whose fetch or decoding fails. -/
theorem Packager.fetchTargets_cases {γ ι ρ ψ : Type} (p : Packager γ ι ρ ψ)
    (ts : List Target) (n : Nat) (acc : List (PackagerTarget γ)) :
    (∃ pts : List (PackagerTarget γ),
      p.fetchTargets ts n acc =
        (.ok (acc ++ pts), ts.map (fun t => ClientCall.GetConnection t.ConnectionName)) ∧
      pts.length = ts.length ∧
      ∀ j t, ts[j]? = some t → ∃ pt, pts[j]? = some pt ∧ p.fetchTarget (n + j) t = .ok pt) ∨
    (∃ k t e, ts[k]? = some t ∧ p.fetchTarget (n + k) t = .error e ∧
      (∀ j t2, j < k → ts[j]? = some t2 → ∃ pt, p.fetchTarget (n + j) t2 = .ok pt) ∧
      p.fetchTargets ts n acc =
        (.error e,
         (ts.take (k + 1)).map (fun t => ClientCall.GetConnection t.ConnectionName))) := by
  induction ts generalizing n acc with
  | nil =>
    left
    exact ⟨[], by simp [Packager.fetchTargets], rfl, fun j t h => by simp at h⟩
  | cons t rest ih =>
    cases h : p.fetchTarget n t with
    | error e =>
      right
      refine ⟨0, t, e, List.getElem?_cons_zero, h,
        fun j t2 hj _ => absurd hj (Nat.not_lt_zero j), ?_⟩
      simp [Packager.fetchTargets, h]
    | ok pt =>
      rcases ih (n + 1) (acc ++ [pt]) with ⟨pts, hrun, hlen, hall⟩ | ⟨k, tk, e, hk, hfail, hbefore, hrun⟩
      · left
        refine ⟨pt :: pts, ?_, by simp [hlen], ?_⟩
        · simp only [Packager.fetchTargets, h, hrun, List.map_cons, List.append_assoc,
            List.singleton_append]
        · intro j t2 hj
          cases j with
          | zero =>
            simp only [List.getElem?_cons_zero, Option.some.injEq] at hj
            subst hj
            exact ⟨pt, List.getElem?_cons_zero, h⟩
          | succ j =>
            simp only [List.getElem?_cons_succ] at hj
            obtain ⟨pt2, hpt2, hf2⟩ := hall j t2 hj
            refine ⟨pt2, by simpa using hpt2, ?_⟩
            rw [← hf2]
            congr 1
            omega
      · right
        refine ⟨k + 1, tk, e, by simpa using hk, ?_, ?_, ?_⟩
        · rw [← hfail]
          congr 1
          omega
        · intro j t2 hj hj2
          cases j with
          | zero =>
            simp only [List.getElem?_cons_zero, Option.some.injEq] at hj2
            subst hj2
            exact ⟨pt, h⟩
          | succ j =>
            simp only [List.getElem?_cons_succ] at hj2
            obtain ⟨pt2, hf2⟩ := hbefore j t2 (by omega) hj2
            refine ⟨pt2, ?_⟩
            rw [← hf2]
            congr 1
            omega
        · simp only [Packager.fetchTargets, h, hrun, List.take_succ_cons, List.map_cons]

/-- A run of `getPackaging` that returns a nil error fetched and decoded everything the
returned packager holds. -/
theorem Packager.getPackaging_no_error {γ ι ρ ψ : Type} (p : Packager γ ι ρ ψ)
    (h : p.getPackaging.err = Option.none) :
    ∃ pk mp, p.getPackaging.packager = some pk ∧
      p.GetModelPackaging 0 p.modelPackagingID = .ok mp ∧
      pk.Targets.length = (mp.Spec.Targets.getD []).length ∧
      (∀ i t, (mp.Spec.Targets.getD [])[i]? = some t →
        ∃ pt conn, pk.Targets[i]? = some pt ∧ pt.Name = t.Name ∧
          p.GetConnection (2 + i) t.ConnectionName = .ok conn ∧
          p.DecodeBase64Fields conn = .ok pt.Connection) ∧
      pk.TrainingZipName = mp.Spec.ArtifactName ∧
      (∃ conn, p.GetConnection (2 + (mp.Spec.Targets.getD []).length)
          mp.Spec.OutputConnection = .ok conn ∧
        p.DecodeBase64Fields conn = .ok pk.ModelHolder) ∧
      p.GetPackagingIntegration 1 mp.Spec.IntegrationName = .ok pk.PackagingIntegration ∧
      pk.ModelPackaging = mp := by
  unfold Packager.getPackaging at h ⊢
  cases h1 : p.GetModelPackaging 0 p.modelPackagingID with
  | error e => simp [h1] at h
  | ok mp =>
    cases h2 : p.GetPackagingIntegration 1 mp.Spec.IntegrationName with
    | error e => simp [h1, h2] at h
    | ok pi =>
      rcases p.fetchTargets_cases (mp.Spec.Targets.getD []) 2 [] with
        ⟨pts, hrun, hlen, hall⟩ | ⟨k, tk, e, _, _, _, hrun⟩
      · cases h3 : p.GetConnection (2 + (mp.Spec.Targets.getD []).length)
            mp.Spec.OutputConnection with
        | error e => simp [h1, h2, hrun, h3] at h
        | ok holder =>
          cases h4 : p.DecodeBase64Fields holder with
          | error e => simp [h1, h2, hrun, h3, h4] at h
          | ok holder2 =>
            simp only [h1, h2, hrun, h3, h4, List.nil_append]
            refine ⟨_, mp, rfl, rfl, hlen, ?_, rfl, ⟨holder, h3, h4⟩, h2, rfl⟩
            intro i t hi
            obtain ⟨pt, hpt, hf⟩ := hall i t hi
            obtain ⟨conn, hc1, hc2, hc3⟩ := (p.fetchTarget_ok_iff (2 + i) t pt).mp hf
            exact ⟨pt, conn, hpt, hc3, hc1, hc2⟩
      · simp [h1, h2, hrun] at h

/-- C29. Whenever `getPackaging` returns a nil error it returns a packager, and with `mp`
the model packaging that the packaging client returned: `Targets` has the length of
`mp.Spec.Targets`; for every index `i`, `Targets[i].Name` is `mp.Spec.Targets[i].Name`
and `Targets[i].Connection` is the decoded form of the connection that the connection
client returned for `mp.Spec.Targets[i].ConnectionName`; `TrainingZipName` is
`mp.Spec.ArtifactName`; `ModelHolder` is the decoded form of the connection returned for
`mp.Spec.OutputConnection`; `PackagingIntegration` is what the packaging client returned
for `mp.Spec.IntegrationName`; and `ModelPackaging` is `mp`. -/
theorem getPackaging_success {γ ι ρ ψ : Type} (p : Packager γ ι ρ ψ)
    (h : p.getPackaging.err = Option.none) :
    ∃ pk mp, p.getPackaging.packager = some pk ∧
      p.GetModelPackaging 0 p.modelPackagingID = .ok mp ∧
      pk.Targets.length = (mp.Spec.Targets.getD []).length ∧
      (∀ i t, (mp.Spec.Targets.getD [])[i]? = some t →
        ∃ pt conn, pk.Targets[i]? = some pt ∧ pt.Name = t.Name ∧
          p.GetConnection (2 + i) t.ConnectionName = .ok conn ∧
          p.DecodeBase64Fields conn = .ok pt.Connection) ∧
      pk.TrainingZipName = mp.Spec.ArtifactName ∧
      (∃ conn, p.GetConnection (2 + (mp.Spec.Targets.getD []).length)
          mp.Spec.OutputConnection = .ok conn ∧
        p.DecodeBase64Fields conn = .ok pk.ModelHolder) ∧
      p.GetPackagingIntegration 1 mp.Spec.IntegrationName = .ok pk.PackagingIntegration ∧
      pk.ModelPackaging = mp :=
  p.getPackaging_no_error h

/-- Witness for C29: the sample packager. -/
theorem getPackaging_success_witness :
    samplePackager.getPackaging.err = Option.none ∧
    ∃ pk mp, samplePackager.getPackaging.packager = some pk ∧
      samplePackager.GetModelPackaging 0 samplePackager.modelPackagingID = .ok mp ∧
      pk.Targets.length = (mp.Spec.Targets.getD []).length ∧
      (∀ i t, (mp.Spec.Targets.getD [])[i]? = some t →
        ∃ pt conn, pk.Targets[i]? = some pt ∧ pt.Name = t.Name ∧
          samplePackager.GetConnection (2 + i) t.ConnectionName = .ok conn ∧
          samplePackager.DecodeBase64Fields conn = .ok pt.Connection) ∧
      pk.TrainingZipName = mp.Spec.ArtifactName ∧
      (∃ conn, samplePackager.GetConnection (2 + (mp.Spec.Targets.getD []).length)
          mp.Spec.OutputConnection = .ok conn ∧
        samplePackager.DecodeBase64Fields conn = .ok pk.ModelHolder) ∧
      samplePackager.GetPackagingIntegration 1 mp.Spec.IntegrationName
        = .ok pk.PackagingIntegration ∧
      pk.ModelPackaging = mp :=
  ⟨rfl, getPackaging_success samplePackager rfl⟩

/-- The run of `getPackaging` once the model packaging and the packaging integration have
been fetched, in terms of the loop over the targets. -/
theorem Packager.getPackaging_after_fetch {γ ι ρ ψ : Type} (p : Packager γ ι ρ ψ)
    (mp : ModelPackaging ρ ψ) (pi : ι)
    (h1 : p.GetModelPackaging 0 p.modelPackagingID = .ok mp)
    (h2 : p.GetPackagingIntegration 1 mp.Spec.IntegrationName = .ok pi) :
    (∀ e calls, p.fetchTargets (mp.Spec.Targets.getD []) 2 [] = (.error e, calls) →
      p.getPackaging.packager = Option.none ∧ p.getPackaging.err = some e ∧
      p.getPackaging.calls = ClientCall.GetModelPackaging p.modelPackagingID ::
        ClientCall.GetPackagingIntegration mp.Spec.IntegrationName :: calls) ∧
    (∀ targets calls, p.fetchTargets (mp.Spec.Targets.getD []) 2 [] = (.ok targets, calls) →
      p.getPackaging.calls = ClientCall.GetModelPackaging p.modelPackagingID ::
        ClientCall.GetPackagingIntegration mp.Spec.IntegrationName ::
        (calls ++ [ClientCall.GetConnection mp.Spec.OutputConnection]) ∧
      (∀ e, (p.GetConnection (2 + (mp.Spec.Targets.getD []).length)
              mp.Spec.OutputConnection = .error e ∨
            ∃ conn, p.GetConnection (2 + (mp.Spec.Targets.getD []).length)
                mp.Spec.OutputConnection = .ok conn ∧
              p.DecodeBase64Fields conn = .error e) →
        p.getPackaging.packager = Option.none ∧ p.getPackaging.err = some e) ∧
      (∀ conn conn2, p.GetConnection (2 + (mp.Spec.Targets.getD []).length)
            mp.Spec.OutputConnection = .ok conn →
          p.DecodeBase64Fields conn = .ok conn2 →
        p.getPackaging.packager ≠ Option.none ∧ p.getPackaging.err = Option.none)) := by
  constructor
  · intro e calls hrun
    simp only [Packager.getPackaging, h1, h2, hrun, and_self]
  · intro targets calls hrun
    unfold Packager.getPackaging
    simp only [h1, h2, hrun]
    cases h3 : p.GetConnection (2 + (mp.Spec.Targets.getD []).length)
        mp.Spec.OutputConnection with
    | error e3 =>
      refine ⟨rfl, ?_, ?_⟩
      · intro e he
        rcases he with he | ⟨conn, he, _⟩
        · simp only [Except.error.injEq] at he
          subst he
          exact ⟨rfl, rfl⟩
        · simp at he
      · intro conn conn2 hc
        simp at hc
    | ok holder =>
      cases h4 : p.DecodeBase64Fields holder with
      | error e4 =>
        refine ⟨by simp only [h4], ?_, ?_⟩
        · intro e he
          rcases he with he | ⟨conn, he, hd⟩
          · simp at he
          · simp only [Except.ok.injEq] at he
            subst he
            rw [h4] at hd
            simp only [Except.error.injEq] at hd
            subst hd
            simp only [h4, and_self]
        · intro conn conn2 hc hd
          simp only [Except.ok.injEq] at hc
          subst hc
          rw [h4] at hd
          simp at hd
      | ok holder2 =>
        refine ⟨by simp only [h4], ?_, ?_⟩
        · intro e he
          rcases he with he | ⟨conn, he, hd⟩
          · simp at he
          · simp only [Except.ok.injEq] at he
            subst he
            rw [h4] at hd
            simp at hd
        · intro conn conn2 _ _
          simp only [h4]
          exact ⟨by simp, trivial⟩

/-- When every target can be fetched and decoded, the loop fetches them all. -/
theorem Packager.fetchTargets_ok {γ ι ρ ψ : Type} (p : Packager γ ι ρ ψ)
    (ts : List Target) (n : Nat) (acc : List (PackagerTarget γ))
    (hall : ∀ j t, ts[j]? = some t → ∃ pt, p.fetchTarget (n + j) t = .ok pt) :
    ∃ pts : List (PackagerTarget γ),
      p.fetchTargets ts n acc =
        (.ok (acc ++ pts), ts.map (fun t => ClientCall.GetConnection t.ConnectionName)) := by
  rcases p.fetchTargets_cases ts n acc with ⟨pts, hrun, _, _⟩ | ⟨k, t, e, hk, hfail, _, _⟩
  · exact ⟨pts, hrun⟩
  · obtain ⟨pt, hpt⟩ := hall k t hk
    rw [hfail] at hpt
    simp at hpt

/-- When target `k` is the first that cannot be fetched or decoded, the loop returns its
error after the client calls for the targets up to `k`. -/
theorem Packager.fetchTargets_error {γ ι ρ ψ : Type} (p : Packager γ ι ρ ψ)
    (ts : List Target) (n : Nat) (acc : List (PackagerTarget γ)) (k : Nat) (t : Target)
    (e : GoError) (hk : ts[k]? = some t) (hfail : p.fetchTarget (n + k) t = .error e)
    (hbefore : ∀ j t2, j < k → ts[j]? = some t2 → ∃ pt, p.fetchTarget (n + j) t2 = .ok pt) :
    p.fetchTargets ts n acc =
      (.error e,
       (ts.take (k + 1)).map (fun t => ClientCall.GetConnection t.ConnectionName)) := by
  rcases p.fetchTargets_cases ts n acc with
    ⟨pts, _, _, hall⟩ | ⟨k2, t2, e2, hk2, hfail2, hbefore2, hrun⟩
  · obtain ⟨pt, _, hpt⟩ := hall k t hk
    rw [hfail] at hpt
    simp at hpt
  · rcases Nat.lt_trichotomy k2 k with hlt | heq | hgt
    · obtain ⟨pt, hpt⟩ := hbefore k2 t2 hlt hk2
      rw [hfail2] at hpt
      simp at hpt
    · subst heq
      rw [hk] at hk2
      simp only [Option.some.injEq] at hk2
      subst hk2
      rw [hfail] at hfail2
      simp only [Except.error.injEq] at hfail2
      subst hfail2
      exact hrun
    · obtain ⟨pt, hpt⟩ := hbefore2 k t hgt hk
      rw [hfail] at hpt
      simp at hpt

/-- A run of `getPackaging` returns a nil packager with an error, or a packager with a
nil error. -/
theorem Packager.getPackaging_shape {γ ι ρ ψ : Type} (p : Packager γ ι ρ ψ) :
    (p.getPackaging.packager = Option.none ∧ p.getPackaging.err ≠ Option.none) ∨
    (p.getPackaging.packager ≠ Option.none ∧ p.getPackaging.err = Option.none) := by
  cases h1 : p.GetModelPackaging 0 p.modelPackagingID with
  | error e => simp [Packager.getPackaging, h1]
  | ok mp =>
    cases h2 : p.GetPackagingIntegration 1 mp.Spec.IntegrationName with
    | error e => simp [Packager.getPackaging, h1, h2]
    | ok pi =>
      obtain ⟨herr, hok⟩ := p.getPackaging_after_fetch mp pi h1 h2
      cases hrun : p.fetchTargets (mp.Spec.Targets.getD []) 2 [] with
      | mk res calls =>
        cases res with
        | error e =>
          obtain ⟨ha, hb, _⟩ := herr e calls hrun
          left
          rw [ha, hb]
          simp
        | ok targets =>
          obtain ⟨_, hfail, hsucc⟩ := hok targets calls hrun
          cases h3 : p.GetConnection (2 + (mp.Spec.Targets.getD []).length)
              mp.Spec.OutputConnection with
          | error e =>
            obtain ⟨ha, hb⟩ := hfail e (Or.inl h3)
            left
            rw [ha, hb]
            simp
          | ok conn =>
            cases h4 : p.DecodeBase64Fields conn with
            | error e =>
              obtain ⟨ha, hb⟩ := hfail e (Or.inr ⟨conn, h3, h4⟩)
              left
              rw [ha, hb]
              simp
            | ok conn2 =>
              right
              exact hsucc conn conn2 h3 h4

/-- C30. A run of `getPackaging` returns a nil packager with an error or a packager with a
nil error. When fetching the model packaging fails, that error is returned after that one
client call; when fetching the packaging integration fails, its error is returned after
those two calls; when target `k` is the first whose connection cannot be fetched or
decoded, that error is returned after the calls for the targets up to `k`, in target
order, and none for a later target or the output connection; when every target succeeds
and the output connection cannot be fetched or decoded, that error is returned. The
packager is returned with a nil error exactly when every step succeeds. -/
theorem getPackaging_fails_fast {γ ι ρ ψ : Type} (p : Packager γ ι ρ ψ) :
    ((p.getPackaging.packager = Option.none ∧ p.getPackaging.err ≠ Option.none) ∨
      (p.getPackaging.packager ≠ Option.none ∧ p.getPackaging.err = Option.none)) ∧
    (∀ e, p.GetModelPackaging 0 p.modelPackagingID = .error e →
      p.getPackaging.packager = Option.none ∧ p.getPackaging.err = some e ∧
      p.getPackaging.calls = [ClientCall.GetModelPackaging p.modelPackagingID]) ∧
    (∀ mp, p.GetModelPackaging 0 p.modelPackagingID = .ok mp →
      (∀ e, p.GetPackagingIntegration 1 mp.Spec.IntegrationName = .error e →
        p.getPackaging.packager = Option.none ∧ p.getPackaging.err = some e ∧
        p.getPackaging.calls =
          [ClientCall.GetModelPackaging p.modelPackagingID,
           ClientCall.GetPackagingIntegration mp.Spec.IntegrationName]) ∧
      (∀ pi, p.GetPackagingIntegration 1 mp.Spec.IntegrationName = .ok pi →
        (∀ k t e, (mp.Spec.Targets.getD [])[k]? = some t →
          (∀ j t2, j < k → (mp.Spec.Targets.getD [])[j]? = some t2 →
            ∃ conn conn2, p.GetConnection (2 + j) t2.ConnectionName = .ok conn ∧
              p.DecodeBase64Fields conn = .ok conn2) →
          (p.GetConnection (2 + k) t.ConnectionName = .error e ∨
            ∃ conn, p.GetConnection (2 + k) t.ConnectionName = .ok conn ∧
              p.DecodeBase64Fields conn = .error e) →
          p.getPackaging.packager = Option.none ∧ p.getPackaging.err = some e ∧
          p.getPackaging.calls =
            ClientCall.GetModelPackaging p.modelPackagingID ::
            ClientCall.GetPackagingIntegration mp.Spec.IntegrationName ::
            ((mp.Spec.Targets.getD []).take (k + 1)).map
              (fun t => ClientCall.GetConnection t.ConnectionName)) ∧
        ((∀ j t2, (mp.Spec.Targets.getD [])[j]? = some t2 →
            ∃ conn conn2, p.GetConnection (2 + j) t2.ConnectionName = .ok conn ∧
              p.DecodeBase64Fields conn = .ok conn2) →
          p.getPackaging.calls =
            ClientCall.GetModelPackaging p.modelPackagingID ::
            ClientCall.GetPackagingIntegration mp.Spec.IntegrationName ::
            ((mp.Spec.Targets.getD []).map
                (fun t => ClientCall.GetConnection t.ConnectionName) ++
              [ClientCall.GetConnection mp.Spec.OutputConnection]) ∧
          (∀ e, (p.GetConnection (2 + (mp.Spec.Targets.getD []).length)
                  mp.Spec.OutputConnection = .error e ∨
                ∃ conn, p.GetConnection (2 + (mp.Spec.Targets.getD []).length)
                    mp.Spec.OutputConnection = .ok conn ∧
                  p.DecodeBase64Fields conn = .error e) →
            p.getPackaging.packager = Option.none ∧ p.getPackaging.err = some e) ∧
          (∀ conn conn2, p.GetConnection (2 + (mp.Spec.Targets.getD []).length)
                mp.Spec.OutputConnection = .ok conn →
              p.DecodeBase64Fields conn = .ok conn2 →
            p.getPackaging.packager ≠ Option.none ∧ p.getPackaging.err = Option.none)))) ∧
    (p.getPackaging.err = Option.none ↔
      ∃ mp pi, p.GetModelPackaging 0 p.modelPackagingID = .ok mp ∧
        p.GetPackagingIntegration 1 mp.Spec.IntegrationName = .ok pi ∧
        (∀ j t2, (mp.Spec.Targets.getD [])[j]? = some t2 →
          ∃ conn conn2, p.GetConnection (2 + j) t2.ConnectionName = .ok conn ∧
            p.DecodeBase64Fields conn = .ok conn2) ∧
        ∃ conn conn2, p.GetConnection (2 + (mp.Spec.Targets.getD []).length)
            mp.Spec.OutputConnection = .ok conn ∧
          p.DecodeBase64Fields conn = .ok conn2) := by
  have hall_ok : ∀ mp : ModelPackaging ρ ψ,
      (∀ j t2, (mp.Spec.Targets.getD [])[j]? = some t2 →
        ∃ conn conn2, p.GetConnection (2 + j) t2.ConnectionName = .ok conn ∧
          p.DecodeBase64Fields conn = .ok conn2) →
      ∃ pts : List (PackagerTarget γ),
        p.fetchTargets (mp.Spec.Targets.getD []) 2 [] =
          (.ok ([] ++ pts),
           (mp.Spec.Targets.getD []).map
             (fun t => ClientCall.GetConnection t.ConnectionName)) := by
    intro mp hall
    apply p.fetchTargets_ok
    intro j t2 hj
    obtain ⟨conn, conn2, hc1, hc2⟩ := hall j t2 hj
    exact ⟨{ Name := t2.Name, Connection := conn2 },
      (p.fetchTarget_ok_iff (2 + j) t2 _).mpr ⟨conn, hc1, hc2, rfl⟩⟩
  refine ⟨p.getPackaging_shape, ?_, ?_, ?_⟩
  · intro e h1
    simp only [Packager.getPackaging, h1, and_self]
  · intro mp h1
    constructor
    · intro e h2
      simp only [Packager.getPackaging, h1, h2, and_self]
    · intro pi h2
      obtain ⟨herr, hok⟩ := p.getPackaging_after_fetch mp pi h1 h2
      constructor
      · intro k t e hk hbefore hfail
        apply herr
        apply p.fetchTargets_error _ 2 [] k t e hk
        · exact (p.fetchTarget_error_iff (2 + k) t e).mpr hfail
        · intro j t2 hj hj2
          obtain ⟨conn, conn2, hc1, hc2⟩ := hbefore j t2 hj hj2
          exact ⟨{ Name := t2.Name, Connection := conn2 },
            (p.fetchTarget_ok_iff (2 + j) t2 _).mpr ⟨conn, hc1, hc2, rfl⟩⟩
      · intro hall
        obtain ⟨pts, hrun⟩ := hall_ok mp hall
        exact hok _ _ hrun
  · constructor
    · intro h
      obtain ⟨pk, mp, _, h1, _, hts, _, hout, h2, _⟩ := p.getPackaging_no_error h
      refine ⟨mp, pk.PackagingIntegration, h1, h2, ?_, ?_⟩
      · intro j t2 hj
        obtain ⟨pt, conn, _, _, hc1, hc2⟩ := hts j t2 hj
        exact ⟨conn, pt.Connection, hc1, hc2⟩
      · obtain ⟨conn, hc1, hc2⟩ := hout
        exact ⟨conn, pk.ModelHolder, hc1, hc2⟩
    · rintro ⟨mp, pi, h1, h2, hall, conn, conn2, hc1, hc2⟩
      obtain ⟨_, hok⟩ := p.getPackaging_after_fetch mp pi h1 h2
      obtain ⟨pts, hrun⟩ := hall_ok mp hall
      exact ((hok _ _ hrun).2.2 conn conn2 hc1 hc2).2

/-- Witness for C30: the sample packager whose second target names an unknown connection
stops there, after four client calls, with the error of the connection client. -/
theorem getPackaging_fails_fast_witness :
    sampleFailingPackager.getPackaging.packager = Option.none ∧
    sampleFailingPackager.getPackaging.err = some (GoError.NotFoundError "backup") ∧
    sampleFailingPackager.getPackaging.calls =
      [ClientCall.GetModelPackaging "mp1", ClientCall.GetPackagingIntegration "docker-rest",
       ClientCall.GetConnection "registry", ClientCall.GetConnection "backup"] :=
  (((getPackaging_fails_fast sampleFailingPackager).2.2.1 _ rfl).2
      "docker-rest integration" rfl).1 1 { Name := "archive", ConnectionName := "backup" }
    (GoError.NotFoundError "backup") rfl
    (fun j t2 hj h => by
      have hj0 : j = 0 := by omega
      subst hj0
      exact ⟨"cmVnaXN0cnk=", "registry", by
        simp only [Option.getD_some, List.getElem?_cons_zero, Option.some.injEq] at h
        subst h
        exact ⟨rfl, rfl⟩⟩)
    (Or.inl rfl)

/-! ## Filter compiler: the allow-list -/

theorem mapIndex_filter_ne (cache : List (String × Nat)) (k key : String) (h : k ≠ key) :
    mapIndex (cache.filter (fun entry => decide (entry.1 ≠ k))) key = mapIndex cache key := by
  induction cache with
  | nil => rfl
  | cons a cache ih =>
    obtain ⟨k2, v2⟩ := a
    by_cases h2 : k2 = k
    · have hne : ¬ k2 = key := by rw [h2]; exact h
      have hd : decide ((k2, v2).1 ≠ k) = false := by simp [h2]
      rw [List.filter_cons, hd]
      simp only [Bool.false_eq_true, if_false, mapIndex, hne]
      exact ih
    · have hd : decide ((k2, v2).1 ≠ k) = true := by simp [h2]
      rw [List.filter_cons, hd]
      simp only [if_true, mapIndex]
      rw [ih]

theorem mapIndex_mapAssign (cache : List (String × Nat)) (k key : String) (v : Nat) :
    mapIndex (mapAssign cache k v) key = if k = key then some v else mapIndex cache key := by
  by_cases h : k = key
  · simp [mapAssign, mapIndex, h]
  · simp only [mapAssign, mapIndex, h, if_false]
    exact mapIndex_filter_ne cache k key h

/-- What the loop of `init` leaves under a key: the number of a declared field with that
tag, or what was there before. -/
theorem deployment.initLoop_some (fields : List FilterField) (i : Nat)
    (cache : List (String × Nat)) (name : String) (n : Nat)
    (h : mapIndex (deployment.initLoop fields i cache) name = some n) :
    (∃ j field, fields[j]? = some field ∧ field.name = name ∧ n = i + j) ∨
      mapIndex cache name = some n := by
  induction fields generalizing i cache with
  | nil => exact Or.inr h
  | cons a rest ih =>
    simp only [deployment.initLoop] at h
    rcases ih (i + 1) _ h with ⟨j, field, hj, hname, hn⟩ | hc
    · left
      exact ⟨j + 1, field, by simpa using hj, hname, by omega⟩
    · rw [mapIndex_mapAssign] at hc
      by_cases ha : a.name = name
      · simp only [ha, if_true, Option.some.injEq] at hc
        left
        exact ⟨0, a, List.getElem?_cons_zero, ha, by omega⟩
      · simp only [ha, if_false] at hc
        exact Or.inr hc

/-- The loop of `init` leaves a key for every declared tag and keeps the keys that were
there. -/
theorem deployment.initLoop_isSome (fields : List FilterField) (i : Nat)
    (cache : List (String × Nat)) (name : String)
    (h : (∃ field ∈ fields, field.name = name) ∨ (mapIndex cache name).isSome = true) :
    (mapIndex (deployment.initLoop fields i cache) name).isSome = true := by
  induction fields generalizing i cache with
  | nil =>
    rcases h with ⟨field, hf, _⟩ | h
    · cases hf
    · exact h
  | cons a rest ih =>
    simp only [deployment.initLoop]
    apply ih
    rcases h with ⟨field, hf, hname⟩ | h
    · rcases List.mem_cons.mp hf with hf | hf
      · right
        rw [mapIndex_mapAssign, ← hf, hname]
        simp
      · exact Or.inl ⟨field, hf, hname⟩
    · right
      rw [mapIndex_mapAssign]
      by_cases ha : a.name = name
      · simp [ha]
      · simp only [ha, if_false]
        exact h

theorem routes.fillFilter_cons (param : String × List String)
    (query : List (String × List String)) (fields : List (String × Nat))
    (filter : List (List String)) :
    routes.fillFilter (param :: query) fields filter =
      routes.fillFilter query fields
        (match mapIndex fields param.1 with
         | some i => filter.set i param.2
         | Option.none => filter) := rfl

/-- A value of the filled filter object was there before or is the value of a parameter
whose name is a key of the allow-list. -/
theorem routes.fillFilter_provenance (query : List (String × List String))
    (fields : List (String × Nat)) (filter : List (List String)) (i : Nat)
    (vals : List String) (h : (routes.fillFilter query fields filter)[i]? = some vals) :
    filter[i]? = some vals ∨
      ∃ param ∈ query, mapIndex fields param.1 = some i ∧ param.2 = vals := by
  induction query generalizing filter with
  | nil => exact Or.inl h
  | cons param query ih =>
    rw [routes.fillFilter_cons] at h
    rcases ih _ h with hold | ⟨p, hp, hidx, hval⟩
    · cases hm : mapIndex fields param.1 with
      | none =>
        rw [hm] at hold
        exact Or.inl hold
      | some j =>
        rw [hm] at hold
        simp only at hold
        by_cases hij : j = i
        · subst hij
          right
          refine ⟨param, List.mem_cons_self _ _, hm, ?_⟩
          rw [List.getElem?_set_self'] at hold
          cases hfj : filter[j]? with
          | none => simp [hfj] at hold
          | some x => simpa [hfj] using hold
        · rw [List.getElem?_set_ne hij] at hold
          exact Or.inl hold
    · exact Or.inr ⟨p, List.mem_cons_of_mem _ hp, hidx, hval⟩

/-- A parameter whose name is not a key of the allow-list has no effect on the filter
object. -/
theorem routes.fillFilter_ignores (query : List (String × List String))
    (fields : List (String × Nat)) (filter : List (List String)) (name : String)
    (h : mapIndex fields name = Option.none) :
    routes.fillFilter (query.filter (fun param => decide (param.1 ≠ name))) fields filter =
      routes.fillFilter query fields filter := by
  induction query generalizing filter with
  | nil => rfl
  | cons param query ih =>
    by_cases hp : param.1 = name
    · simp only [List.filter_cons, hp, ne_eq, not_true_eq_false, decide_False,
        Bool.false_eq_true, if_false]
      rw [routes.fillFilter_cons, hp, h]
      exact ih filter
    · simp only [List.filter_cons, hp, ne_eq, not_false_eq_true, decide_True, if_true]
      rw [routes.fillFilter_cons, routes.fillFilter_cons]
      exact ih _

/-- A compiled predicate is on the column of a declared attribute whose value in the
filter object is populated. -/
theorem filterPredicates_mem (fields : List FilterField) (filter : List (List String))
    (p : Predicate) (h : p ∈ filterPredicates fields filter) :
    ∃ (i : Nat) (field : FilterField), fields[i]? = some field ∧
      filter[i]? = some p.values ∧ p.values ≠ [] ∧ p.column = field.column := by
  unfold filterPredicates at h
  rw [List.mem_filterMap] at h
  obtain ⟨⟨field, vals⟩, hmem, hp⟩ := h
  obtain ⟨i, hi⟩ := List.getElem?_of_mem hmem
  rw [List.getElem?_zip_eq_some] at hi
  by_cases hv : vals = []
  · simp [hv] at hp
  · simp only [hv, if_false, Option.some.injEq] at hp
    subst hp
    exact ⟨i, field, hi.1, hi.2, hv, rfl⟩

/-- C23. The keys of `fieldsCache` are exactly the tag names of the declared fields of the
filter object. For every request, the predicates compiled from the filter object that
`getAllMDs` hands to List are each on the column of a declared attribute whose name is a
key of the allow-list and stands in the request with the values of the predicate; a
parameter whose name is not a key has no effect on the predicates; a column of no declared
attribute is never referenced; and `getAllPackagingIntegrations`, with the empty
allow-list and a nil filter object, hands over size and page only, so that the select of
List has no `WHERE` conjunct. -/
theorem filter_allow_list
    (paging : List (String × List String) → Except GoError (Int × Int))
    (fields : List FilterField) (query : List (String × List String)) :
    (∀ name, (mapIndex (deployment.fieldsCache fields) name).isSome = true ↔
      ∃ field ∈ fields, field.name = name) ∧
    (∀ name, mapIndex packaging.emptyCache name = Option.none) ∧
    (∀ opts, deployment.getAllMDs paging fields query = .ok opts →
      ∃ size page, paging query = .ok (size, page) ∧
        opts = [ListFilter (routes.fillFilter query (deployment.fieldsCache fields)
                  (fields.map (fun _ => []))), Size size, Page page]) ∧
    (∀ p ∈ filterPredicates fields
        (routes.fillFilter query (deployment.fieldsCache fields) (fields.map (fun _ => []))),
      ∃ field ∈ fields, p.column = field.column ∧ (field.name, p.values) ∈ query ∧
        (mapIndex (deployment.fieldsCache fields) field.name).isSome = true) ∧
    (∀ name, mapIndex (deployment.fieldsCache fields) name = Option.none →
      filterPredicates fields
          (routes.fillFilter (query.filter (fun param => decide (param.1 ≠ name)))
            (deployment.fieldsCache fields) (fields.map (fun _ => []))) =
        filterPredicates fields
          (routes.fillFilter query (deployment.fieldsCache fields)
            (fields.map (fun _ => [])))) ∧
    (∀ column, (∀ field ∈ fields, field.column ≠ column) →
      ∀ p ∈ filterPredicates fields
          (routes.fillFilter query (deployment.fieldsCache fields)
            (fields.map (fun _ => []))), p.column ≠ column) ∧
    (∀ (env : Env σ τ (List (List String))) (columnValue : String → Row → Option String),
      env.compileFilter =
        (fun filter => (filterPredicates fields filter).map (Predicate.holds columnValue)) →
      ∀ opts, deployment.getAllMDs paging fields query = .ok opts →
        (listStatement env opts).wheres =
          (filterPredicates fields
            (routes.fillFilter query (deployment.fieldsCache fields)
              (fields.map (fun _ => [])))).map (Predicate.holds columnValue)) ∧
    (∀ opts, packaging.getAllPackagingIntegrations paging query = .ok opts →
      ∃ size page, paging query = .ok (size, page) ∧ opts = [Size size, Page page] ∧
        ∀ env : Env σ τ (List (List String)),
          (applyOptions env opts).Filter = Option.none ∧
          (listStatement env opts).wheres = []) := by
  have hkeys : ∀ name, (mapIndex (deployment.fieldsCache fields) name).isSome = true ↔
      ∃ field ∈ fields, field.name = name := by
    intro name
    constructor
    · intro h
      obtain ⟨n, hn⟩ := Option.isSome_iff_exists.mp h
      rcases deployment.initLoop_some fields 0 [] name n hn with ⟨j, field, hj, hname, _⟩ | hc
      · exact ⟨field, List.getElem?_mem hj, hname⟩
      · simp [mapIndex] at hc
    · intro h
      exact deployment.initLoop_isSome fields 0 [] name (Or.inl h)
  have hmds : ∀ opts, deployment.getAllMDs paging fields query = .ok opts →
      ∃ size page, paging query = .ok (size, page) ∧
        opts = [ListFilter (routes.fillFilter query (deployment.fieldsCache fields)
                  (fields.map (fun _ => []))), Size size, Page page] := by
    intro opts h
    unfold deployment.getAllMDs routes.URLParamsToFilter at h
    cases hp : paging query with
    | error e => simp [hp] at h
    | ok sp =>
      obtain ⟨size, page⟩ := sp
      simp only [hp, Option.map_some', Option.getD_some, Except.ok.injEq] at h
      exact ⟨size, page, rfl, h.symm⟩
  have hprov : ∀ p ∈ filterPredicates fields
        (routes.fillFilter query (deployment.fieldsCache fields) (fields.map (fun _ => []))),
      ∃ field ∈ fields, p.column = field.column ∧ (field.name, p.values) ∈ query ∧
        (mapIndex (deployment.fieldsCache fields) field.name).isSome = true := by
    intro p hp
    obtain ⟨i, field, hi, hfi, hne, hcol⟩ := filterPredicates_mem fields _ p hp
    have hmem : field ∈ fields := List.getElem?_mem hi
    refine ⟨field, hmem, hcol, ?_, (hkeys field.name).mpr ⟨field, hmem, rfl⟩⟩
    rcases routes.fillFilter_provenance query _ _ i p.values hfi with
      hold | ⟨param, hparam, hidx, hval⟩
    · rw [List.getElem?_map] at hold
      cases hfi2 : fields[i]? with
      | none => simp [hfi2] at hold
      | some x =>
        simp only [hfi2, Option.map_some', Option.some.injEq] at hold
        exact absurd hold.symm hne
    · rcases deployment.initLoop_some fields 0 [] param.1 i hidx with
        ⟨j, field2, hj, hname, hij⟩ | hc
      · have hji : j = i := by omega
        subst hji
        rw [hi] at hj
        simp only [Option.some.injEq] at hj
        subst hj
        rw [hname, ← hval]
        exact hparam
      · simp [mapIndex] at hc
  refine ⟨hkeys, fun _ => rfl, hmds, hprov, ?_, ?_, ?_, ?_⟩
  · intro name hname
    rw [routes.fillFilter_ignores query _ _ name hname]
  · intro column hcol p hp
    obtain ⟨field, hmem, hpc, _, _⟩ := hprov p hp
    rw [hpc]
    exact hcol field hmem
  · intro env columnValue henv opts hopts
    obtain ⟨size, page, _, hopts2⟩ := hmds opts hopts
    subst hopts2
    simp [listStatement, applyOptions, utils.TransformFilter, ListFilter, Size, Page, henv]
  · intro opts h
    unfold packaging.getAllPackagingIntegrations routes.URLParamsToFilter at h
    cases hp : paging query with
    | error e => simp [hp] at h
    | ok sp =>
      obtain ⟨size, page⟩ := sp
      simp only [hp, Except.ok.injEq] at h
      subst h
      refine ⟨size, page, rfl, rfl, fun env => ⟨rfl, ?_⟩⟩
      simp [listStatement, applyOptions, utils.TransformFilter, Size, Page]

/-- C23 on a request that names the declared attribute `roleName` and the undeclared
names `deletionmark` and `id`: one predicate is compiled, on the column of `roleName`. -/
theorem filter_allow_list_witness :
    filterPredicates sampleFilterFields
        (routes.fillFilter sampleQuery (deployment.fieldsCache sampleFilterFields)
          (sampleFilterFields.map (fun _ => [])))
      = [{ column := "spec->>'roleName'", values := ["admin"] }] ∧
    ∀ p ∈ filterPredicates sampleFilterFields
        (routes.fillFilter sampleQuery (deployment.fieldsCache sampleFilterFields)
          (sampleFilterFields.map (fun _ => []))), p.column ≠ "deletionmark" :=
  ⟨by decide,
   (@filter_allow_list String String samplePaging sampleFilterFields
      sampleQuery).2.2.2.2.2.1 "deletionmark" (by decide)⟩

/-! ## Model packaging: `Scan` on what is not a JSON object -/

/-- C28. For every receiver and every value that is not a byte string, `Scan` returns the
error `type assertion to []byte failed` and leaves the receiver as it was; for the byte
string that holds the JSON literal `null` it returns no error and leaves the receiver as
it was. -/
theorem Scan_not_bytes_or_null {ρ : Type} (types : PackagingJSON ρ)
    (piSpec : ModelPackagingSpec ρ) :
    (∀ value : DriverValue, value.isBytes = false →
      ModelPackagingSpec.Scan types piSpec value =
        (some (GoError.other "type assertion to []byte failed"), piSpec)) ∧
    ModelPackagingSpec.Scan types piSpec (DriverValue.bytes (Bytes.document JSON.null)) =
      (Option.none, piSpec) := by
  constructor
  · intro value h
    cases value <;> first | rfl | simp [DriverValue.isBytes] at h
  · rfl

/-! ## Model packaging: maps by ascending key -/

/-- An entry whose key is above every key of a map is put at the end. -/
theorem mapInsert_last {α : Type} (key : String) (value : α) (m : List (String × α))
    (h : ∀ entry ∈ m, idLE entry.1 key = true ∧ entry.1 ≠ key) :
    mapInsert key value m = m ++ [(key, value)] := by
  induction m with
  | nil => rfl
  | cons a m ih =>
    obtain ⟨k, v⟩ := a
    obtain ⟨hle, hne⟩ := h (k, v) (List.mem_cons_self _ _)
    have hne2 : ¬ key = k := fun he => hne he.symm
    have hnle : ¬ idLE key k = true := fun hc => hne (idLE_antisymm k key hle hc)
    simp only [mapInsert, hne2, hnle, if_false, List.cons_append, Bool.false_eq_true]
    rw [ih (fun entry he => h entry (List.mem_cons_of_mem _ he))]

/-- Entries put into a map by ascending key give the list of the entries. -/
theorem foldl_mapInsert_ascending {α : Type} (entries acc : List (String × α))
    (h : keysAscending ((acc ++ entries).map Prod.fst)) :
    entries.foldl (fun m entry => mapInsert entry.1 entry.2 m) acc = acc ++ entries := by
  induction entries generalizing acc with
  | nil => simp
  | cons a entries ih =>
    have hlast : mapInsert a.1 a.2 acc = acc ++ [a] := by
      apply mapInsert_last
      intro entry he
      unfold keysAscending at h
      rw [List.map_append, List.pairwise_append] at h
      exact h.2.2 entry.1 (List.mem_map_of_mem Prod.fst he) a.1 (by simp)
    simp only [List.foldl_cons, hlast]
    rw [ih (acc ++ [a]) (by simpa using h)]
    simp

/-- Entries with ascending keys are written in their order. -/
theorem insertionSort_ascending {α : Type} (entries : List (String × α))
    (h : keysAscending (entries.map Prod.fst)) :
    entries.insertionSort entryLE = entries := by
  apply List.Sorted.insertionSort_eq
  unfold keysAscending at h
  rw [List.pairwise_map] at h
  exact h.imp (fun hab => hab.1)

/-- Witness for C28: the text `null` handed over as a Go `string`, not as a byte string,
is rejected, and the receiver keeps its values. -/
theorem Scan_not_bytes_or_null_witness :
    ModelPackagingSpec.Scan samplePackagingJSON sampleModelPackaging.Spec
        (DriverValue.string "null") =
      (some (GoError.other "type assertion to []byte failed"), sampleModelPackaging.Spec) :=
  (Scan_not_bytes_or_null samplePackagingJSON sampleModelPackaging.Spec).1
    (DriverValue.string "null") rfl

/-! ## Model packaging: values in an `interface{}` survive `Marshal` and `Unmarshal` -/

/-- The keys of the entries of a map of the kinds that `json.Unmarshal` stores are
strictly ascending. -/
theorem GoValue.entriesFromJSON_keys (entries : List (String × GoValue))
    (h : GoValue.entriesFromJSON entries = true) :
    keysAscending (entries.map Prod.fst) := by
  induction entries with
  | nil => exact List.Pairwise.nil
  | cons a rest ih =>
    obtain ⟨k, v⟩ := a
    simp only [GoValue.entriesFromJSON, Bool.and_eq_true, List.all_eq_true,
      decide_eq_true_eq] at h
    obtain ⟨⟨_, hk⟩, hrest⟩ := h
    unfold keysAscending at ih ⊢
    rw [List.map_cons, List.pairwise_cons]
    refine ⟨?_, ih hrest⟩
    intro b hb
    obtain ⟨entry, he, hfst⟩ := List.mem_map.mp hb
    rw [← hfst]
    exact hk entry he

mutual
/-- A value of the kinds that `json.Unmarshal` stores is written by `json.Marshal`, and
reading what was written gives the value back. -/
theorem GoValue.ofJSON_toJSON : ∀ v : GoValue, v.isFromJSON = true →
    ∃ doc, v.toJSON = .ok doc ∧ GoValue.ofJSON doc = v
  | .nil, _ => ⟨JSON.null, rfl, rfl⟩
  | .bool b, _ => ⟨JSON.bool b, rfl, rfl⟩
  | .int _, h => by simp [GoValue.isFromJSON] at h
  | .float64 n, _ => ⟨JSON.number n, rfl, rfl⟩
  | .string s, _ => ⟨JSON.string s, rfl, rfl⟩
  | .slice elems, h => by
    obtain ⟨docs, h1, h2⟩ := GoValue.ofJSONs_toJSONs elems
      (by simpa [GoValue.isFromJSON] using h)
    exact ⟨JSON.array docs, by simp [GoValue.toJSON, h1], by simp [GoValue.ofJSON, h2]⟩
  | .map entries, h => by
    have he : GoValue.entriesFromJSON entries = true := by
      simpa [GoValue.isFromJSON] using h
    obtain ⟨members, h1, h2, h3⟩ := GoValue.ofMembers_toMembers entries he
    have hasc := GoValue.entriesFromJSON_keys entries he
    refine ⟨JSON.object members, ?_, ?_⟩
    · simp only [GoValue.toJSON, h1]
      rw [insertionSort_ascending members (by rw [h3]; exact hasc)]
    · simp only [GoValue.ofJSON, h2]
      rw [foldl_mapInsert_ascending entries [] (by simpa using hasc)]
      simp
  | .unsupported, h => by simp [GoValue.isFromJSON] at h
/-- The elements of a slice survive. -/
theorem GoValue.ofJSONs_toJSONs : ∀ vs : List GoValue, GoValue.allFromJSON vs = true →
    ∃ docs, GoValue.toJSONs vs = .ok docs ∧ GoValue.ofJSONs docs = vs
  | [], _ => ⟨[], rfl, rfl⟩
  | v :: vs, h => by
    simp only [GoValue.allFromJSON, Bool.and_eq_true] at h
    obtain ⟨doc, h1, h2⟩ := GoValue.ofJSON_toJSON v h.1
    obtain ⟨docs, h3, h4⟩ := GoValue.ofJSONs_toJSONs vs h.2
    exact ⟨doc :: docs, by simp [GoValue.toJSONs, h1, h3], by simp [GoValue.ofJSONs, h2, h4]⟩
/-- The entries of a map survive, under their names. -/
theorem GoValue.ofMembers_toMembers : ∀ entries : List (String × GoValue),
    GoValue.entriesFromJSON entries = true →
    ∃ members, GoValue.toMembers entries = .ok members ∧
      GoValue.ofMembers members = entries ∧
      members.map Prod.fst = entries.map Prod.fst
  | [], _ => ⟨[], rfl, rfl, rfl⟩
  | (k, v) :: rest, h => by
    simp only [GoValue.entriesFromJSON, Bool.and_eq_true] at h
    obtain ⟨doc, h1, h2⟩ := GoValue.ofJSON_toJSON v h.1.1
    obtain ⟨members, h3, h4, h5⟩ := GoValue.ofMembers_toMembers rest h.2
    exact ⟨(k, doc) :: members, by simp [GoValue.toMembers, h1, h3],
      by simp [GoValue.ofMembers, h2, h4], by simp [h5]⟩
end

/-! ## Model packaging: a spec written by `Value` and read by `Scan` -/

theorem decodeMember_artifactName {ρ : Type} (types : PackagingJSON ρ)
    (st : Option GoError × ModelPackagingSpec ρ) (s : String) :
    ModelPackagingSpec.decodeMember types st ("artifactName", JSON.string s) =
      (st.1, { st.2 with ArtifactName := s }) := rfl

theorem decodeMember_integrationName {ρ : Type} (types : PackagingJSON ρ)
    (st : Option GoError × ModelPackagingSpec ρ) (s : String) :
    ModelPackagingSpec.decodeMember types st ("integrationName", JSON.string s) =
      (st.1, { st.2 with IntegrationName := s }) := rfl

theorem decodeMember_image {ρ : Type} (types : PackagingJSON ρ)
    (st : Option GoError × ModelPackagingSpec ρ) (s : String) :
    ModelPackagingSpec.decodeMember types st ("image", JSON.string s) =
      (st.1, { st.2 with Image := s }) := rfl

theorem decodeMember_arguments_null {ρ : Type} (types : PackagingJSON ρ)
    (st : Option GoError × ModelPackagingSpec ρ) :
    ModelPackagingSpec.decodeMember types st ("arguments", JSON.null) =
      (st.1, { st.2 with Arguments := Option.none }) := rfl

theorem decodeMember_arguments_object {ρ : Type} (types : PackagingJSON ρ)
    (st : Option GoError × ModelPackagingSpec ρ) (members : List (String × JSON)) :
    ModelPackagingSpec.decodeMember types st ("arguments", JSON.object members) =
      (st.1, { st.2 with
        Arguments := some ((GoValue.ofMembers members).foldl
          (fun m entry => mapInsert entry.1 entry.2 m) (st.2.Arguments.getD [])) }) := rfl

theorem decodeMember_targets_null {ρ : Type} (types : PackagingJSON ρ)
    (st : Option GoError × ModelPackagingSpec ρ) :
    ModelPackagingSpec.decodeMember types st ("targets", JSON.null) =
      (st.1, { st.2 with Targets := Option.none }) := rfl

theorem decodeMember_targets_array {ρ : Type} (types : PackagingJSON ρ)
    (st : Option GoError × ModelPackagingSpec ρ) (elems : List JSON) (targets : List Target)
    (h : decodeTargets types elems = .ok targets) :
    ModelPackagingSpec.decodeMember types st ("targets", JSON.array elems) =
      (st.1, { st.2 with Targets := some targets }) := by
  have hrun : ModelPackagingSpec.decodeMember types st ("targets", JSON.array elems) =
      (match decodeTargets types elems with
       | .error err => (saveError st.1 err, st.2)
       | .ok targets => (st.1, { st.2 with Targets := some targets })) := rfl
  rw [hrun, h]

theorem decodeMember_resources_run {ρ : Type} (types : PackagingJSON ρ)
    (st : Option GoError × ModelPackagingSpec ρ) (doc : JSON) :
    ModelPackagingSpec.decodeMember types st ("resources", doc) =
      (match doc with
       | .null => (st.1, { st.2 with Resources := Option.none })
       | doc =>
         match types.resourcesScan doc with
         | .error err => (saveError st.1 err, st.2)
         | .ok resources => (st.1, { st.2 with Resources := some resources })) := rfl

theorem decodeMember_resources {ρ : Type} (types : PackagingJSON ρ)
    (st : Option GoError × ModelPackagingSpec ρ) (doc : JSON) (resources : ρ)
    (hdoc : doc ≠ JSON.null) (h : types.resourcesScan doc = .ok resources) :
    ModelPackagingSpec.decodeMember types st ("resources", doc) =
      (st.1, { st.2 with Resources := some resources }) := by
  rw [decodeMember_resources_run]
  cases doc with
  | null => exact absurd rfl hdoc
  | bool b => simp only [h]
  | number n => simp only [h]
  | string s => simp only [h]
  | array elems => simp only [h]
  | object members => simp only [h]

theorem decodeMember_outputConnection {ρ : Type} (types : PackagingJSON ρ)
    (st : Option GoError × ModelPackagingSpec ρ) (s : String) :
    ModelPackagingSpec.decodeMember types st ("outputConnection", JSON.string s) =
      (st.1, { st.2 with OutputConnection := s }) := rfl

theorem decodeMember_nodeSelector {ρ : Type} (types : PackagingJSON ρ)
    (st : Option GoError × ModelPackagingSpec ρ) (members : List (String × JSON)) :
    ModelPackagingSpec.decodeMember types st ("nodeSelector", JSON.object members) =
      ((decodeStringMap "nodeSelector" members (st.1, st.2.NodeSelector.getD [])).1,
       { st.2 with
         NodeSelector := some (decodeStringMap "nodeSelector" members
           (st.1, st.2.NodeSelector.getD [])).2 }) := rfl

/-- Targets written and read back are the targets, when each target survives. -/
theorem decodeTargets_values {ρ : Type} (types : PackagingJSON ρ) (targets : List Target)
    (h : ∀ target, types.targetScan (types.targetValue target) = .ok target) :
    decodeTargets types (targets.map types.targetValue) = .ok targets := by
  induction targets with
  | nil => rfl
  | cons t rest ih => simp only [List.map_cons, decodeTargets, h t, ih]

/-- The members of a map of strings are read without error into the entries they were
written from. -/
theorem decodeStringMap_strings (field : String) (entries : List (String × String))
    (err : Option GoError) (m : List (String × String)) :
    decodeStringMap field (entries.map (fun entry => (entry.1, JSON.string entry.2))) (err, m) =
      (err, entries.foldl (fun m entry => mapInsert entry.1 entry.2 m) m) := by
  induction entries generalizing m with
  | nil => rfl
  | cons a rest ih =>
    simp only [List.map_cons, decodeStringMap, List.foldl_cons]
    exact ih _

/-- A spec whose `Arguments` hold values of the kinds that `json.Unmarshal` stores and
whose `NodeSelector` is nil or has entries is written by `Value`, and `Scan` of what was
written into the zero value gives the spec back, provided the embedded types survive. -/
theorem ModelPackagingSpec.Scan_Value {ρ : Type} (types : PackagingJSON ρ)
    (s : ModelPackagingSpec ρ)
    (htarget : ∀ target, types.targetScan (types.targetValue target) = .ok target)
    (hres : ∀ resources, types.resourcesValue resources ≠ JSON.null ∧
      types.resourcesScan (types.resourcesValue resources) = .ok resources)
    (hargs : ∀ entries, s.Arguments = some entries → GoValue.entriesFromJSON entries = true)
    (hsel : ∀ entries, s.NodeSelector = some entries →
      entries ≠ [] ∧ keysAscending (entries.map Prod.fst)) :
    ∃ doc, ModelPackagingSpec.Value types s = .ok (Bytes.document doc) ∧
      ModelPackagingSpec.Scan types ModelPackagingSpec.empty
          (DriverValue.bytes (Bytes.document doc)) = (Option.none, s) := by
  cases s with
  | mk an iname img args tgts res out sel =>
  simp only at hargs hsel
  -- the member `arguments`
  obtain ⟨adoc, hadoc, hadec⟩ : ∃ adoc,
      ModelPackagingSpec.argumentsJSON args = .ok adoc ∧
      ∀ st : Option GoError × ModelPackagingSpec ρ, st.2.Arguments = Option.none →
        ModelPackagingSpec.decodeMember types st ("arguments", adoc) =
          (st.1, { st.2 with Arguments := args }) := by
    cases args with
    | none => exact ⟨JSON.null, rfl, fun st _ => decodeMember_arguments_null types st⟩
    | some entries =>
      have he := hargs entries rfl
      obtain ⟨members, h1, h2, h3⟩ := GoValue.ofMembers_toMembers entries he
      have hasc := GoValue.entriesFromJSON_keys entries he
      refine ⟨JSON.object members, ?_, ?_⟩
      · simp only [ModelPackagingSpec.argumentsJSON, GoValue.toJSON, h1]
        rw [insertionSort_ascending members (by rw [h3]; exact hasc)]
      · intro st hst
        rw [decodeMember_arguments_object, h2, hst, Option.getD_none,
          foldl_mapInsert_ascending entries [] (by simpa using hasc)]
        simp
  -- the member `targets`
  have htdec : ∀ st : Option GoError × ModelPackagingSpec ρ,
      ModelPackagingSpec.decodeMember types st
          ("targets", ModelPackagingSpec.targetsJSON types tgts) =
        (st.1, { st.2 with Targets := tgts }) := by
    intro st
    cases tgts with
    | none => exact decodeMember_targets_null types st
    | some targets =>
      exact decodeMember_targets_array types st _ targets
        (decodeTargets_values types targets htarget)
  -- the member `nodeSelector`
  have hsdec : ∀ st : Option GoError × ModelPackagingSpec ρ,
      st.2.NodeSelector = Option.none →
      (ModelPackagingSpec.nodeSelectorMembers sel).foldl
          (ModelPackagingSpec.decodeMember types) st =
        (st.1, { st.2 with NodeSelector := sel }) := by
    intro st hst
    cases sel with
    | none =>
      obtain ⟨e, sp⟩ := st
      cases sp
      simp only at hst
      subst hst
      rfl
    | some entries =>
      obtain ⟨hne, hasc⟩ := hsel entries rfl
      cases entries with
      | nil => exact absurd rfl hne
      | cons a rest =>
        have hkeys : ((a :: rest).map
            (fun entry : String × String => (entry.1, JSON.string entry.2))).map
            Prod.fst = (a :: rest).map Prod.fst := by
          simp [List.map_map, Function.comp]
        simp only [ModelPackagingSpec.nodeSelectorMembers, List.foldl_cons, List.foldl_nil]
        rw [insertionSort_ascending _ (by rw [hkeys]; exact hasc), decodeMember_nodeSelector,
          decodeStringMap_strings, hst, Option.getD_none,
          foldl_mapInsert_ascending (a :: rest) [] (by simpa using hasc)]
        simp
  -- the member `resources`
  have hrdec : ∀ st : Option GoError × ModelPackagingSpec ρ,
      st.2.Resources = Option.none →
      (ModelPackagingSpec.resourcesMembers types res).foldl
          (ModelPackagingSpec.decodeMember types) st =
        (st.1, { st.2 with Resources := res }) := by
    intro st hst
    cases res with
    | none =>
      obtain ⟨e, sp⟩ := st
      cases sp
      simp only at hst
      subst hst
      rfl
    | some resources =>
      simp only [ModelPackagingSpec.resourcesMembers, List.foldl_cons, List.foldl_nil]
      exact decodeMember_resources types st _ resources (hres resources).1 (hres resources).2
  -- the members `image` and `outputConnection`
  have hidec : ∀ st : Option GoError × ModelPackagingSpec ρ, st.2.Image = "" →
      (omitEmptyString "image" img).foldl (ModelPackagingSpec.decodeMember types) st =
        (st.1, { st.2 with Image := img }) := by
    intro st hst
    by_cases himg : img = ""
    · obtain ⟨e, sp⟩ := st
      cases sp
      simp only at hst
      subst hst
      simp only [omitEmptyString, himg, if_true, List.foldl_nil]
    · simp only [omitEmptyString, himg, if_false, List.foldl_cons, List.foldl_nil,
        decodeMember_image]
  have hodec : ∀ st : Option GoError × ModelPackagingSpec ρ, st.2.OutputConnection = "" →
      (omitEmptyString "outputConnection" out).foldl
          (ModelPackagingSpec.decodeMember types) st =
        (st.1, { st.2 with OutputConnection := out }) := by
    intro st hst
    by_cases hout : out = ""
    · obtain ⟨e, sp⟩ := st
      cases sp
      simp only at hst
      subst hst
      simp only [omitEmptyString, hout, if_true, List.foldl_nil]
    · simp only [omitEmptyString, hout, if_false, List.foldl_cons, List.foldl_nil,
        decodeMember_outputConnection]
  refine ⟨JSON.object (
      [("artifactName", JSON.string an), ("integrationName", JSON.string iname)] ++
      omitEmptyString "image" img ++
      [("arguments", adoc), ("targets", ModelPackagingSpec.targetsJSON types tgts)] ++
      ModelPackagingSpec.resourcesMembers types res ++
      omitEmptyString "outputConnection" out ++
      ModelPackagingSpec.nodeSelectorMembers sel), ?_, ?_⟩
  · unfold ModelPackagingSpec.Value ModelPackagingSpec.toJSON
    simp only [hadoc]
  · simp only [ModelPackagingSpec.Scan, ModelPackagingSpec.Unmarshal, List.foldl_append,
      List.foldl_cons, List.foldl_nil, decodeMember_artifactName, decodeMember_integrationName]
    rw [hidec _ rfl, hadec _ rfl, htdec, hrdec _ rfl, hodec _ rfl, hsdec _ rfl]

/-! ## JSON texts: what the printer wrote, the parser reads -/

theorem hexValue_hexDigit : ∀ k, k < 16 → hexValue (hexDigit k) = some k := by
  decide

theorem hexValue4_hexDigit (n : Nat) (h : n < 65536) :
    hexValue4 (hexDigit (n / 4096 % 16)) (hexDigit (n / 256 % 16)) (hexDigit (n / 16 % 16))
      (hexDigit (n % 16)) = some n := by
  unfold hexValue4
  rw [hexValue_hexDigit _ (Nat.mod_lt _ (by decide)), hexValue_hexDigit _ (Nat.mod_lt _ (by decide)),
    hexValue_hexDigit _ (Nat.mod_lt _ (by decide)), hexValue_hexDigit _ (Nat.mod_lt _ (by decide))]
  simp only [Option.some.injEq]
  omega

theorem parseStringBody_quote (fuel : Nat) (rest acc : List Char) :
    parseStringBody (fuel + 1) ('"' :: rest) acc = some (String.mk acc.reverse, rest) := by
  simp [parseStringBody]

theorem parseStringBody_raw (fuel : Nat) (c : Char) (rest acc : List Char)
    (h1 : c ≠ '"') (h2 : c ≠ '\\') (h3 : ¬ c.toNat < 32) :
    parseStringBody (fuel + 1) (c :: rest) acc = parseStringBody fuel rest (c :: acc) := by
  rw [parseStringBody]
  · simp [h3]
  all_goals simp_all

theorem parseStringBody_short (fuel : Nat) (e : Char) (rest acc : List Char) (h : e ≠ 'u') :
    parseStringBody (fuel + 1) ('\\' :: e :: rest) acc =
      if e = '"' then parseStringBody fuel rest ('"' :: acc)
      else if e = '\\' then parseStringBody fuel rest ('\\' :: acc)
      else if e = '/' then parseStringBody fuel rest ('/' :: acc)
      else if e = 'b' then parseStringBody fuel rest (Char.ofNat 8 :: acc)
      else if e = 'f' then parseStringBody fuel rest (Char.ofNat 12 :: acc)
      else if e = 'n' then parseStringBody fuel rest ('\n' :: acc)
      else if e = 'r' then parseStringBody fuel rest ('\r' :: acc)
      else if e = 't' then parseStringBody fuel rest ('\t' :: acc)
      else Option.none := by
  rw [parseStringBody]
  all_goals simp_all

theorem parseStringBody_unicode (fuel : Nat) (a b c d : Char) (rest acc : List Char) (n : Nat)
    (h : hexValue4 a b c d = some n) (h1 : ¬ (55296 ≤ n ∧ n < 56320))
    (h2 : ¬ (56320 ≤ n ∧ n < 57344)) :
    parseStringBody (fuel + 1) ('\\' :: 'u' :: a :: b :: c :: d :: rest) acc =
      parseStringBody fuel rest (Char.ofNat n :: acc) := by
  rw [parseStringBody]
  simp only [h, h1, h2, if_false]

theorem Char.ofNat_toNat_self (c : Char) : Char.ofNat c.toNat = c := by
  simp

theorem Char.toNat_lt_of_special (c : Char)
    (h : c.toNat < 32 ∨ c = '<' ∨ c = '>' ∨ c = '&' ∨ c.toNat = 8232 ∨ c.toNat = 8233) :
    c.toNat < 55296 := by
  rcases h with h | h | h | h | h | h
  · omega
  · subst h; decide
  · subst h; decide
  · subst h; decide
  · omega
  · omega

/-- The parser reads what the printer wrote for one character of a string. -/
theorem parseStringBody_escapeChar (fuel : Nat) (c : Char) (rest acc : List Char) :
    parseStringBody (fuel + 1) (JSON.escapeChar c ++ rest) acc =
      parseStringBody fuel rest (c :: acc) := by
  unfold JSON.escapeChar
  split_ifs with h1 h2 h3 h4 h5 h6
  · subst h1
    rw [List.cons_append, List.cons_append, List.nil_append,
      parseStringBody_short _ _ _ _ (by decide)]
    simp
  · subst h2
    rw [List.cons_append, List.cons_append, List.nil_append,
      parseStringBody_short _ _ _ _ (by decide)]
    simp
  · subst h3
    rw [List.cons_append, List.cons_append, List.nil_append,
      parseStringBody_short _ _ _ _ (by decide)]
    simp
  · subst h4
    rw [List.cons_append, List.cons_append, List.nil_append,
      parseStringBody_short _ _ _ _ (by decide)]
    simp
  · subst h5
    rw [List.cons_append, List.cons_append, List.nil_append,
      parseStringBody_short _ _ _ _ (by decide)]
    simp
  · have hlt := Char.toNat_lt_of_special c h6
    simp only [List.cons_append, List.nil_append]
    rw [parseStringBody_unicode _ _ _ _ _ _ _ c.toNat
      (hexValue4_hexDigit c.toNat (by omega)) (by omega) (by omega), Char.ofNat_toNat_self]
  · have h7 : ¬ c.toNat < 32 := fun h => h6 (Or.inl h)
    rw [List.cons_append, List.nil_append, parseStringBody_raw _ _ _ _ h1 h2 h7]

theorem flatMap_escapeChar_length (cs : List Char) :
    cs.length ≤ (cs.flatMap JSON.escapeChar).length := by
  induction cs with
  | nil => simp
  | cons c cs ih =>
    have h : 1 ≤ (JSON.escapeChar c).length := by
      unfold JSON.escapeChar
      split_ifs <;> simp
    simp only [List.flatMap_cons, List.length_append, List.length_cons]
    omega

theorem parseStringBody_flatMap (cs : List Char) :
    ∀ (fuel : Nat) (rest acc : List Char), cs.length < fuel →
      parseStringBody fuel (cs.flatMap JSON.escapeChar ++ '"' :: rest) acc =
        some (String.mk (acc.reverse ++ cs), rest) := by
  induction cs with
  | nil =>
    intro fuel rest acc h
    obtain ⟨f, rfl⟩ : ∃ f, fuel = f + 1 := ⟨fuel - 1, by simp at h; omega⟩
    simp [parseStringBody_quote]
  | cons c cs ih =>
    intro fuel rest acc h
    obtain ⟨f, rfl⟩ : ∃ f, fuel = f + 1 := ⟨fuel - 1, by simp at h; omega⟩
    rw [List.flatMap_cons, List.append_assoc, parseStringBody_escapeChar,
      ih f rest (c :: acc) (by simp at h; omega)]
    simp

/-- The parser reads back the string that the printer wrote, whatever follows it. -/
theorem parseStringBody_renderString (s : String) (rest : List Char) (fuel : Nat)
    (h : (s.toList.flatMap JSON.escapeChar ++ '"' :: rest).length < fuel) :
    parseStringBody fuel (s.toList.flatMap JSON.escapeChar ++ '"' :: rest) [] =
      some (s, rest) := by
  rw [parseStringBody_flatMap s.toList fuel rest []]
  · simp
  · have := flatMap_escapeChar_length s.toList
    simp only [List.length_append, List.length_cons] at h
    omega

theorem digitChar_digit : ∀ k, k < 10 →
    48 ≤ (Nat.digitChar k).toNat ∧ (Nat.digitChar k).toNat ≤ 57 ∧
      (Nat.digitChar k).toNat - 48 = k := by
  decide

theorem parseDigits_digits (ds : List Char) :
    ∀ (rest : List Char) (a : Nat), (∀ c ∈ ds, 48 ≤ c.toNat ∧ c.toNat ≤ 57) →
      (∀ c tl, rest = c :: tl → ¬ (48 ≤ c.toNat ∧ c.toNat ≤ 57)) →
      parseDigits (ds ++ rest) a =
        (ds.foldl (fun a c => 10 * a + (c.toNat - 48)) a, rest) := by
  induction ds with
  | nil =>
    intro rest a _ hrest
    cases rest with
    | nil => rfl
    | cons c tl =>
      simp only [List.nil_append, parseDigits, hrest c tl rfl, if_false, List.foldl_nil]
  | cons d ds ih =>
    intro rest a hds hrest
    simp only [List.cons_append, parseDigits, hds d (List.mem_cons_self _ _), and_self,
      if_true, List.foldl_cons]
    exact ih rest _ (fun c hc => hds c (List.mem_cons_of_mem _ hc)) hrest

theorem toDigitsCore_value (fuel : Nat) :
    ∀ (n : Nat) (ds : List Char), n < fuel →
      (Nat.toDigitsCore 10 fuel n ds).foldl (fun a c => 10 * a + (c.toNat - 48)) 0 =
        ds.foldl (fun a c => 10 * a + (c.toNat - 48)) n := by
  induction fuel with
  | zero => intro n ds h; omega
  | succ fuel ih =>
    intro n ds h
    have hd := digitChar_digit (n % 10) (Nat.mod_lt _ (by decide))
    simp only [Nat.toDigitsCore]
    split_ifs with h0
    · simp only [List.foldl_cons, Nat.mul_zero, Nat.zero_add, hd.2.2]
      congr 1
      omega
    · rw [ih (n / 10) _ (by omega)]
      simp only [List.foldl_cons, hd.2.2]
      congr 1
      omega

theorem toDigitsCore_digits (fuel : Nat) :
    ∀ (n : Nat) (ds : List Char), (∀ c ∈ ds, 48 ≤ c.toNat ∧ c.toNat ≤ 57) →
      ∀ c ∈ Nat.toDigitsCore 10 fuel n ds, 48 ≤ c.toNat ∧ c.toNat ≤ 57 := by
  induction fuel with
  | zero => intro n ds h; simpa [Nat.toDigitsCore] using h
  | succ fuel ih =>
    intro n ds h
    have hd := digitChar_digit (n % 10) (Nat.mod_lt _ (by decide))
    have hds : ∀ c ∈ Nat.digitChar (n % 10) :: ds, 48 ≤ c.toNat ∧ c.toNat ≤ 57 := by
      intro c hc
      rcases List.mem_cons.mp hc with hc | hc
      · rw [hc]; exact ⟨hd.1, hd.2.1⟩
      · exact h c hc
    simp only [Nat.toDigitsCore]
    split_ifs with h0
    · exact hds
    · exact ih _ _ hds

theorem toDigitsCore_head (fuel : Nat) :
    ∀ (n : Nat) (ds : List Char), n ≠ 0 → n < fuel →
      ∃ c cs, Nat.toDigitsCore 10 fuel n ds = c :: cs ∧ 49 ≤ c.toNat ∧ c.toNat ≤ 57 := by
  induction fuel with
  | zero => intro n ds _ h; omega
  | succ fuel ih =>
    intro n ds hn h
    have hd := digitChar_digit (n % 10) (Nat.mod_lt _ (by decide))
    simp only [Nat.toDigitsCore]
    split_ifs with h0
    · refine ⟨_, _, rfl, ?_, hd.2.1⟩
      have : n % 10 ≠ 0 := by omega
      omega
    · exact ih _ _ h0 (by omega)

/-- The decimal text of a number: digits only, with the value of the number, and without a
leading zero unless the number is zero. -/
theorem repr_digits (m : Nat) :
    (∀ c ∈ (Nat.repr m).toList, 48 ≤ c.toNat ∧ c.toNat ≤ 57) ∧
    (Nat.repr m).toList.foldl (fun a c => 10 * a + (c.toNat - 48)) 0 = m ∧
    ((m = 0 ∧ (Nat.repr m).toList = ['0']) ∨
      ∃ c cs, (Nat.repr m).toList = c :: cs ∧ 49 ≤ c.toNat ∧ c.toNat ≤ 57) := by
  have hrepr : (Nat.repr m).toList = Nat.toDigitsCore 10 (m + 1) m [] := rfl
  rw [hrepr]
  refine ⟨toDigitsCore_digits _ _ _ (fun c hc => by cases hc), ?_, ?_⟩
  · rw [toDigitsCore_value _ _ _ (Nat.lt_succ_self m)]
    rfl
  · by_cases hm : m = 0
    · left
      subst hm
      exact ⟨rfl, rfl⟩
    · right
      exact toDigitsCore_head _ _ _ hm (Nat.lt_succ_self m)

theorem endsValue_not_digit (rest : List Char) (h : endsValue rest) :
    ∀ c tl, rest = c :: tl → ¬ (48 ≤ c.toNat ∧ c.toNat ≤ 57) := by
  intro c tl hc
  rcases h with h | ⟨tl2, h | h | h⟩
  · rw [h] at hc; cases hc
  all_goals
    rw [h] at hc
    injection hc with hc _
    subst hc
    decide

theorem endsValue_headIs (rest : List Char) (h : endsValue rest) :
    headIs (fun c => decide (48 ≤ c.toNat ∧ c.toNat ≤ 57)) rest = false ∧
    headIs (fun c => decide (c = '.' ∨ c = 'e' ∨ c = 'E')) rest = false := by
  rcases h with h | ⟨tl2, h | h | h⟩ <;> subst h <;> simp only [headIs] <;> decide

theorem parseNat_repr (m : Nat) (rest : List Char) (hrest : endsValue rest) :
    parseNat ((Nat.repr m).toList ++ rest) = some (m, rest) := by
  obtain ⟨hdig, hval, hhead⟩ := repr_digits m
  have hpd := parseDigits_digits (Nat.repr m).toList rest 0 hdig
    (endsValue_not_digit rest hrest)
  rw [hval] at hpd
  obtain ⟨hh1, hh2⟩ := endsValue_headIs rest hrest
  rcases hhead with ⟨hm, h0⟩ | ⟨c, cs, hcs, h1, h2⟩
  · rw [h0] at hpd ⊢
    simp only [List.cons_append, List.nil_append] at hpd ⊢
    simp only [parseNat, hpd, hh1, hh2]
    simp
  · rw [hcs] at hpd ⊢
    simp only [List.cons_append] at hpd ⊢
    have hne : c ≠ '0' := by
      intro h
      subst h
      revert h1
      decide
    simp only [parseNat, hpd, hh2, hne]
    simp
    omega

theorem parseInt_renderInt (n : Int) (rest : List Char) (hrest : endsValue rest) :
    parseInt (JSON.renderInt n ++ rest) = some (n, rest) := by
  cases n with
  | ofNat m =>
    have hp := parseNat_repr m rest hrest
    obtain ⟨hdig, _, hhead⟩ := repr_digits m
    simp only [JSON.renderInt]
    have hne : ∀ tl, (Nat.repr m).toList ++ rest ≠ '-' :: tl := by
      intro tl h
      rcases hhead with ⟨_, h0⟩ | ⟨c, cs, hcs, h1, _⟩
      · rw [h0] at h
        cases h
      · rw [hcs] at h
        injection h with h _
        subst h
        revert h1
        decide
    unfold parseInt
    split
    · rename_i tl heq
      exact absurd heq (hne tl)
    · rw [hp]
      rfl
  | negSucc m =>
    have hp := parseNat_repr (m + 1) rest hrest
    simp only [JSON.renderInt, List.cons_append, parseInt, hp]
    rfl

theorem digit_cases (c : Char) (h1 : 48 ≤ c.toNat) (h2 : c.toNat ≤ 57) :
    c = '0' ∨ c = '1' ∨ c = '2' ∨ c = '3' ∨ c = '4' ∨ c = '5' ∨ c = '6' ∨ c = '7' ∨
      c = '8' ∨ c = '9' := by
  have hc : c = Char.ofNat c.toNat := (Char.ofNat_toNat_self c).symm
  generalize c.toNat = k at hc h1 h2
  subst hc
  interval_cases k <;> simp

/-- A text that begins with a digit or a minus sign is read as a number. -/
theorem parseValue_number (fuel : Nat) (c : Char) (tl : List Char)
    (h : c = '-' ∨ (48 ≤ c.toNat ∧ c.toNat ≤ 57)) :
    parseValue (fuel + 1) (c :: tl) =
      match parseInt (c :: tl) with
      | some (n, rest) => some (JSON.number n, rest)
      | Option.none => Option.none := by
  have hc : c = '-' ∨ c = '0' ∨ c = '1' ∨ c = '2' ∨ c = '3' ∨ c = '4' ∨ c = '5' ∨ c = '6' ∨
      c = '7' ∨ c = '8' ∨ c = '9' := by
    rcases h with h | h
    · exact Or.inl h
    · exact Or.inr (digit_cases c h.1 h.2)
  rcases hc with h | h | h | h | h | h | h | h | h | h | h <;> subst h <;>
    simp [parseValue, skipSpace]

/-- The text of an integer begins with a digit or a minus sign. -/
theorem renderInt_head (n : Int) :
    ∃ c tl, JSON.renderInt n = c :: tl ∧ (c = '-' ∨ (48 ≤ c.toNat ∧ c.toNat ≤ 57)) := by
  cases n with
  | ofNat m =>
    obtain ⟨hdig, _, hhead⟩ := repr_digits m
    rcases hhead with ⟨_, h0⟩ | ⟨c, cs, hcs, h1, h2⟩
    · exact ⟨'0', [], h0, Or.inr (by decide)⟩
    · exact ⟨c, cs, hcs, Or.inr ⟨by omega, h2⟩⟩
  | negSucc m => exact ⟨'-', _, rfl, Or.inl rfl⟩

/-- The text of a document begins with a character that is neither white space nor a
closing bracket. -/
theorem render_head (doc : JSON) :
    ∃ c tl, JSON.render doc = c :: tl ∧
      c ≠ ' ' ∧ c ≠ '\n' ∧ c ≠ '\r' ∧ c ≠ '\t' ∧ c ≠ ']' := by
  cases doc with
  | null => exact ⟨'n', ['u', 'l', 'l'], rfl, by decide⟩
  | bool b =>
    cases b with
    | true => exact ⟨'t', ['r', 'u', 'e'], rfl, by decide⟩
    | false => exact ⟨'f', ['a', 'l', 's', 'e'], rfl, by decide⟩
  | number n =>
    obtain ⟨c, tl, h, hc⟩ := renderInt_head n
    refine ⟨c, tl, by simp [JSON.render, h], ?_⟩
    rcases hc with hc | hc
    · subst hc; decide
    · rcases digit_cases c hc.1 hc.2 with h | h | h | h | h | h | h | h | h | h <;>
        subst h <;> decide
  | string s =>
    exact ⟨'"', s.toList.flatMap JSON.escapeChar ++ ['"'],
      by simp [JSON.render, JSON.renderString], by decide⟩
  | array elems =>
    exact ⟨'[', JSON.renderElems elems ++ [']'], by simp [JSON.render], by decide⟩
  | object members =>
    exact ⟨Char.ofNat 123, JSON.renderMembers members ++ [Char.ofNat 125],
      by simp [JSON.render], by decide⟩

theorem skipSpace_of_head (c : Char) (tl : List Char)
    (h : c ≠ ' ' ∧ c ≠ '\n' ∧ c ≠ '\r' ∧ c ≠ '\t') : skipSpace (c :: tl) = c :: tl := by
  simp [skipSpace, h.1, h.2.1, h.2.2.1, h.2.2.2]

theorem parseValue_string (fuel : Nat) (s : String) (rest : List Char) :
    parseValue (fuel + 1) (JSON.renderString s ++ rest) = some (JSON.string s, rest) := by
  have h := parseStringBody_renderString s rest
    ((s.toList.flatMap JSON.escapeChar ++ '"' :: rest).length + 1) (Nat.lt_succ_self _)
  simp only [JSON.renderString, List.cons_append, List.append_assoc, List.nil_append,
    parseValue]
  rw [skipSpace_of_head _ _ (by decide)]
  simp only [h]

mutual
/-- The parser reads back the document that the printer wrote, given that what follows
is the end of the text, a comma or a closing bracket or brace. -/
theorem parseValue_render : ∀ (doc : JSON) (fuel : Nat) (rest : List Char),
    endsValue rest → (JSON.render doc).length < fuel →
    parseValue fuel (JSON.render doc ++ rest) = some (doc, rest)
  | .null, fuel, rest, _, h => by
    obtain ⟨f, rfl⟩ : ∃ f, fuel = f + 1 := ⟨fuel - 1, by omega⟩
    simp [JSON.render, parseValue, skipSpace]
  | .bool true, fuel, rest, _, h => by
    obtain ⟨f, rfl⟩ : ∃ f, fuel = f + 1 := ⟨fuel - 1, by omega⟩
    simp [JSON.render, parseValue, skipSpace]
  | .bool false, fuel, rest, _, h => by
    obtain ⟨f, rfl⟩ : ∃ f, fuel = f + 1 := ⟨fuel - 1, by omega⟩
    simp [JSON.render, parseValue, skipSpace]
  | .number n, fuel, rest, hrest, h => by
    obtain ⟨f, rfl⟩ : ∃ f, fuel = f + 1 := ⟨fuel - 1, by omega⟩
    obtain ⟨c, tl, hc, hd⟩ := renderInt_head n
    have hp := parseInt_renderInt n rest hrest
    simp only [JSON.render]
    rw [hc] at hp ⊢
    rw [List.cons_append] at hp ⊢
    rw [parseValue_number f c _ hd, hp]
  | .string s, fuel, rest, _, h => by
    obtain ⟨f, rfl⟩ : ∃ f, fuel = f + 1 := ⟨fuel - 1, by omega⟩
    simp only [JSON.render]
    exact parseValue_string f s rest
  | .array [], fuel, rest, _, h => by
    obtain ⟨f, rfl⟩ : ∃ f, fuel = f + 1 := ⟨fuel - 1, by omega⟩
    simp [JSON.render, JSON.renderElems, parseValue, skipSpace]
  | .array (e :: es), fuel, rest, _, h => by
    obtain ⟨f, rfl⟩ : ∃ f, fuel = f + 1 := ⟨fuel - 1, by omega⟩
    have hE := parseElems_render (e :: es) (by simp) f rest
      (by simp only [JSON.render, List.length_cons, List.length_append, List.length_nil] at h
          omega)
    obtain ⟨c, tl, hc, h1, h2, h3, h4, h5⟩ : ∃ c tl, JSON.renderElems (e :: es) = c :: tl ∧
        c ≠ ' ' ∧ c ≠ '\n' ∧ c ≠ '\r' ∧ c ≠ '\t' ∧ c ≠ ']' := by
      obtain ⟨c, tl, hc, hh⟩ := render_head e
      cases es with
      | nil => exact ⟨c, tl, by simp [JSON.renderElems, hc], hh⟩
      | cons e2 es =>
        exact ⟨c, tl ++ ',' :: JSON.renderElems (e2 :: es), by simp [JSON.renderElems, hc],
          hh⟩
    simp only [JSON.render, List.cons_append, List.append_assoc, List.nil_append]
    rw [hc] at hE ⊢
    simp only [List.cons_append] at hE ⊢
    simp [parseValue, skipSpace, h1, h2, h3, h4, h5, hE]
  | .object [], fuel, rest, _, h => by
    obtain ⟨f, rfl⟩ : ∃ f, fuel = f + 1 := ⟨fuel - 1, by omega⟩
    simp [JSON.render, JSON.renderMembers, parseValue, skipSpace]
  | .object (m :: ms), fuel, rest, _, h => by
    obtain ⟨f, rfl⟩ : ∃ f, fuel = f + 1 := ⟨fuel - 1, by omega⟩
    have hM := parseMembers_render (m :: ms) (by simp) f rest
      (by simp only [JSON.render, List.length_cons, List.length_append, List.length_nil] at h
          omega)
    obtain ⟨tl, hc⟩ : ∃ tl, JSON.renderMembers (m :: ms) = '"' :: tl := by
      obtain ⟨k, doc⟩ := m
      cases ms with
      | nil => exact ⟨_, rfl⟩
      | cons m2 ms => exact ⟨_, rfl⟩
    simp only [JSON.render, List.cons_append, List.append_assoc, List.nil_append]
    rw [hc] at hM ⊢
    simp only [List.cons_append] at hM ⊢
    simp [parseValue, skipSpace, hM]
/-- The parser reads back the elements of an array up to its closing bracket. -/
theorem parseElems_render : ∀ (es : List JSON), es ≠ [] → ∀ (fuel : Nat) (rest : List Char),
    (JSON.renderElems es).length + 1 < fuel →
    parseElems fuel (JSON.renderElems es ++ ']' :: rest) = some (es, rest)
  | [], hne, _, _, _ => absurd rfl hne
  | [e], _, fuel, rest, h => by
    obtain ⟨f, rfl⟩ : ∃ f, fuel = f + 1 := ⟨fuel - 1, by omega⟩
    have hV := parseValue_render e f (']' :: rest) (Or.inr ⟨rest, Or.inr (Or.inl rfl)⟩)
      (by simp only [JSON.renderElems] at h; omega)
    simp only [JSON.renderElems, parseElems, hV]
    rw [skipSpace_of_head _ _ (by decide)]
    simp
  | e :: e2 :: es, _, fuel, rest, h => by
    obtain ⟨f, rfl⟩ : ∃ f, fuel = f + 1 := ⟨fuel - 1, by omega⟩
    simp only [JSON.renderElems, List.length_append, List.length_cons] at h
    have hV := parseValue_render e f (',' :: (JSON.renderElems (e2 :: es) ++ ']' :: rest))
      (Or.inr ⟨_, Or.inl rfl⟩) (by omega)
    have hE := parseElems_render (e2 :: es) (by simp) f rest (by omega)
    simp only [JSON.renderElems, List.append_assoc, List.cons_append, parseElems, hV]
    rw [skipSpace_of_head _ _ (by decide)]
    simp only [hE]
/-- The parser reads back the members of an object up to its closing brace. -/
theorem parseMembers_render : ∀ (ms : List (String × JSON)), ms ≠ [] →
    ∀ (fuel : Nat) (rest : List Char), (JSON.renderMembers ms).length + 1 < fuel →
    parseMembers fuel (JSON.renderMembers ms ++ Char.ofNat 125 :: rest) = some (ms, rest)
  | [], hne, _, _, _ => absurd rfl hne
  | [(k, doc)], _, fuel, rest, h => by
    obtain ⟨f, rfl⟩ : ∃ f, fuel = f + 1 := ⟨fuel - 1, by omega⟩
    simp only [JSON.renderMembers, List.length_append, List.length_cons] at h
    have hV := parseValue_render doc f (Char.ofNat 125 :: rest)
      (Or.inr ⟨rest, Or.inr (Or.inr rfl)⟩) (by omega)
    have hS := parseStringBody_renderString k
      (':' :: (JSON.render doc ++ Char.ofNat 125 :: rest))
      ((k.toList.flatMap JSON.escapeChar ++
        '"' :: ':' :: (JSON.render doc ++ Char.ofNat 125 :: rest)).length + 1)
      (Nat.lt_succ_self _)
    simp only [JSON.renderMembers, JSON.renderString, List.append_assoc, List.cons_append,
      List.nil_append, parseMembers]
    rw [skipSpace_of_head _ _ (by decide)]
    simp only [hS]
    rw [skipSpace_of_head _ _ (by decide)]
    simp only [hV]
    rw [skipSpace_of_head _ _ (by decide)]
    simp
  | (k, doc) :: m2 :: ms, _, fuel, rest, h => by
    obtain ⟨f, rfl⟩ : ∃ f, fuel = f + 1 := ⟨fuel - 1, by omega⟩
    simp only [JSON.renderMembers, List.length_append, List.length_cons] at h
    have hV := parseValue_render doc f
      (',' :: (JSON.renderMembers (m2 :: ms) ++ Char.ofNat 125 :: rest))
      (Or.inr ⟨_, Or.inl rfl⟩) (by omega)
    have hM := parseMembers_render (m2 :: ms) (by simp) f rest (by omega)
    have hS := parseStringBody_renderString k
      (':' :: (JSON.render doc ++
        ',' :: (JSON.renderMembers (m2 :: ms) ++ Char.ofNat 125 :: rest)))
      ((k.toList.flatMap JSON.escapeChar ++
        '"' :: ':' :: (JSON.render doc ++
          ',' :: (JSON.renderMembers (m2 :: ms) ++ Char.ofNat 125 :: rest))).length + 1)
      (Nat.lt_succ_self _)
    simp only [JSON.renderMembers, JSON.renderString, List.append_assoc, List.cons_append,
      List.nil_append, parseMembers]
    rw [skipSpace_of_head _ _ (by decide)]
    simp only [hS]
    rw [skipSpace_of_head _ _ (by decide)]
    simp only [hV]
    rw [skipSpace_of_head _ _ (by decide)]
    simp only [hM]
end

/-- A text written by the printer is read as the document it was written for. -/
theorem Bytes.ofText_render (doc : JSON) :
    Bytes.ofText (String.mk (JSON.render doc)) = Bytes.document doc := by
  have h := parseValue_render doc ((JSON.render doc).length + 1) [] (Or.inl rfl)
    (Nat.lt_succ_self _)
  rw [List.append_nil] at h
  simp only [Bytes.ofText, String.length, String.toList, h, skipSpace]

/-! ## Model packaging: `Value` followed by `Scan` -/

/-- C22 as stated fails. A `NodeSelector` that is a map without entries is left out of the
text and comes back as the nil map; an `int` among the `Arguments` comes back as a
`float64`; a value that `json.Marshal` rejects makes `Value` fail; and a `CustomPayload`
whose `Name` is the one byte FF, which is not valid UTF-8, is written with the escape of
U+FFFD and comes back with the character U+FFFD as its name. -/
theorem Value_Scan_counterexample :
    ((ModelPackagingSpec.codec samplePackagingJSON).Value sampleEmptySelectorSpec
        = .ok "\x7b\"artifactName\":\"model.zip\",\"integrationName\":\"docker-rest\",\"arguments\":null,\"targets\":null\x7d" ∧
      (ModelPackagingSpec.Scan samplePackagingJSON ModelPackagingSpec.empty
        (DriverValue.bytes (Bytes.ofText "\x7b\"artifactName\":\"model.zip\",\"integrationName\":\"docker-rest\",\"arguments\":null,\"targets\":null\x7d"))).1 = Option.none ∧
      (ModelPackagingSpec.Scan samplePackagingJSON ModelPackagingSpec.empty
        (DriverValue.bytes (Bytes.ofText "\x7b\"artifactName\":\"model.zip\",\"integrationName\":\"docker-rest\",\"arguments\":null,\"targets\":null\x7d"))).2.NodeSelector = Option.none ∧
      sampleEmptySelectorSpec.NodeSelector = some []) ∧
    ((ModelPackagingSpec.codec samplePackagingJSON).Value sampleIntArgumentSpec
        = .ok "\x7b\"artifactName\":\"model.zip\",\"integrationName\":\"docker-rest\",\"arguments\":\x7b\"replicas\":1\x7d,\"targets\":null\x7d" ∧
      (ModelPackagingSpec.Scan samplePackagingJSON ModelPackagingSpec.empty
        (DriverValue.bytes (Bytes.ofText "\x7b\"artifactName\":\"model.zip\",\"integrationName\":\"docker-rest\",\"arguments\":\x7b\"replicas\":1\x7d,\"targets\":null\x7d"))).1 = Option.none ∧
      (ModelPackagingSpec.Scan samplePackagingJSON ModelPackagingSpec.empty
        (DriverValue.bytes (Bytes.ofText "\x7b\"artifactName\":\"model.zip\",\"integrationName\":\"docker-rest\",\"arguments\":\x7b\"replicas\":1\x7d,\"targets\":null\x7d"))).2.Arguments
        = some [("replicas", GoValue.float64 1)] ∧
      sampleIntArgumentSpec.Arguments = some [("replicas", GoValue.int 1)]) ∧
    (∃ err, (ModelPackagingSpec.codec samplePackagingJSON).Value
        sampleUnsupportedArgumentSpec = .error err) ∧
    (CustomPayload.Value { Name := [GoStringPart.byte 255] } = .ok "\x7b\"name\":\"\\ufffd\"\x7d" ∧
      CustomPayload.Scan "\x7b\"name\":\"\\ufffd\"\x7d" = .ok { Name := [GoStringPart.rune (Char.ofNat 65533)] } ∧
      ({ Name := [GoStringPart.rune (Char.ofNat 65533)] } : CustomPayload) ≠
        { Name := [GoStringPart.byte 255] }) :=
  ⟨⟨rfl, rfl, rfl, rfl⟩, ⟨rfl, rfl, rfl, rfl⟩, ⟨_, rfl⟩, ⟨rfl, rfl, by decide⟩⟩

/-- A Go string that is valid UTF-8 is written like the text it encodes. -/
theorem JSON.renderGoString_ofString (s : String) :
    JSON.renderGoString (GoString.ofString s) = JSON.renderString s := by
  simp only [JSON.renderGoString, GoString.ofString, JSON.renderString, List.flatMap_map]

/-- The text that `Value` writes for a `CustomPayload` whose name is valid UTF-8 is the
text of the object with the one member `name`. -/
theorem CustomPayload.Value_ofString (name : String) :
    CustomPayload.Value { Name := GoString.ofString name } =
      .ok (String.mk (JSON.render (JSON.object [("name", JSON.string name)]))) := by
  simp only [CustomPayload.Value, JSON.renderGoString_ofString, JSON.render,
    JSON.renderMembers, List.append_assoc, List.cons_append]

/-- C22, amended. Take a `ModelPackagingSpec` whose strings are valid UTF-8, whose
`Arguments` hold only values of the kinds that `json.Unmarshal` stores into an
`interface{}` (nil, `bool`, `string`, `float64` holding an integer of magnitude below
`2^53`, slices and maps of these; no Go `int`, nothing that `json.Marshal` rejects) and
whose `NodeSelector` is the nil map or has an entry, and let the `v1alpha1` types inside
the spec come back from their own JSON forms. Then `Value` writes a JSON text, and `Scan`
of this text into the zero value returns no error and leaves the receiver equal to the
spec. And for every `CustomPayload` whose `Name` is valid UTF-8, `Value` writes a JSON
text, and `Scan` of this text into any receiver returns no error and leaves the receiver
equal to the payload. -/
theorem Value_Scan_round_trip {ρ : Type} (types : PackagingJSON ρ) (s : ModelPackagingSpec ρ)
    (htarget : ∀ target, types.targetScan (types.targetValue target) = .ok target)
    (hres : ∀ resources, types.resourcesValue resources ≠ JSON.null ∧
      types.resourcesScan (types.resourcesValue resources) = .ok resources)
    (hargs : ∀ entries, s.Arguments = some entries → GoValue.entriesFromJSON entries = true)
    (hsel : ∀ entries, s.NodeSelector = some entries →
      entries ≠ [] ∧ keysAscending (entries.map Prod.fst)) :
    (∃ b, (ModelPackagingSpec.codec types).Value s = .ok b ∧
      ModelPackagingSpec.Value types s = .ok (Bytes.ofText b) ∧
      ModelPackagingSpec.Scan types ModelPackagingSpec.empty
          (DriverValue.bytes (Bytes.ofText b)) = (Option.none, s) ∧
      (ModelPackagingSpec.codec types).Scan b = .ok s) ∧
    ∀ (name : String) (receiver : CustomPayload),
      ∃ b, CustomPayload.Value { Name := GoString.ofString name } = .ok b ∧
        CustomPayload.ScanValue receiver (DriverValue.bytes (Bytes.ofText b)) =
          (Option.none, { Name := GoString.ofString name }) ∧
        CustomPayload.Scan b = .ok { Name := GoString.ofString name } := by
  constructor
  · obtain ⟨doc, hv, hs⟩ := ModelPackagingSpec.Scan_Value types s htarget hres hargs hsel
    have hdoc : ModelPackagingSpec.toJSON types s = .ok doc := by
      unfold ModelPackagingSpec.Value at hv
      cases hj : ModelPackagingSpec.toJSON types s with
      | error err => simp [hj] at hv
      | ok d =>
        simp only [hj, Except.ok.injEq, Bytes.document.injEq] at hv
        rw [hv]
    refine ⟨String.mk (JSON.render doc), ?_, ?_, ?_, ?_⟩
    · simp only [ModelPackagingSpec.codec, hdoc]
    · rw [Bytes.ofText_render]
      exact hv
    · rw [Bytes.ofText_render]
      exact hs
    · simp only [ModelPackagingSpec.codec, Bytes.ofText_render, hs]
  · intro name receiver
    have hscan : ∀ r : CustomPayload,
        CustomPayload.ScanValue r (DriverValue.bytes
          (Bytes.document (JSON.object [("name", JSON.string name)]))) =
        (Option.none, { Name := GoString.ofString name }) := by
      intro r
      simp only [CustomPayload.ScanValue, List.foldl_cons, List.foldl_nil,
        CustomPayload.decodeMember, if_true]
    refine ⟨_, CustomPayload.Value_ofString name, ?_, ?_⟩
    · rw [Bytes.ofText_render]
      exact hscan receiver
    · simp only [CustomPayload.Scan, Bytes.ofText_render, hscan]

/-- Witness for the amended C22: a spec with every field set comes back from the text
that `Value` writes for it. -/
theorem Value_Scan_round_trip_witness :
    (∃ b, (ModelPackagingSpec.codec samplePackagingJSON).Value sampleFullSpec = .ok b ∧
      ModelPackagingSpec.Value samplePackagingJSON sampleFullSpec = .ok (Bytes.ofText b) ∧
      ModelPackagingSpec.Scan samplePackagingJSON ModelPackagingSpec.empty
          (DriverValue.bytes (Bytes.ofText b)) = (Option.none, sampleFullSpec) ∧
      (ModelPackagingSpec.codec samplePackagingJSON).Scan b = .ok sampleFullSpec) ∧
    ∀ (name : String) (receiver : CustomPayload),
      ∃ b, CustomPayload.Value { Name := GoString.ofString name } = .ok b ∧
        CustomPayload.ScanValue receiver (DriverValue.bytes (Bytes.ofText b)) =
          (Option.none, { Name := GoString.ofString name }) ∧
        CustomPayload.Scan b = .ok { Name := GoString.ofString name } :=
  Value_Scan_round_trip samplePackagingJSON sampleFullSpec
    (fun _ => rfl)
    (fun _ => ⟨(fun h => by cases h), rfl⟩)
    (fun entries h => by
      cases h
      rfl)
    (fun entries h => by
      cases h
      exact ⟨(fun h => by cases h), by decide⟩)

/-! ## Save or Update, then Get -/

/-- Get on a table whose first row with the `id` fails to scan returns a nil entity and
the error of the scan. -/
theorem GetModelTraining_first_error (env : Env σ τ φ) (qrr : Table) (id : String) (r : Row)
    (rest : List Row) (e : GoError)
    (hsel : qrr.filter (fun x => decide (x.id = id)) = r :: rest)
    (hscan : scanRow env r = .error e) :
    GetModelTraining env Faults.none qrr id = (Option.none, some e) := by
  have hno : e ≠ GoError.ErrNoRows := by
    rcases (scanRow_error_iff env r e).mp hscan with ⟨c, _, he⟩ | ⟨_, c, _, _, he⟩
    · rw [he]; intro h; cases h
    · rw [he]; intro h; cases h
  have h := (GetModelTraining_switch env Faults.none qrr id rfl).1 e (by
    rw [QueryRowScan_by_id]
    simp only [Faults.none, hsel, hscan])
  rw [h, if_neg hno]

/-- The rows with the `ID` of a saved entity, after the save on a table without it. -/
theorem SaveModelTraining_row (env : Env σ τ φ) (qrr : Table) (e : ModelTraining σ τ)
    (bs bt : Blob)
    (hs : env.spec.Value e.Spec = .ok bs) (ht : env.status.Value e.Status = .ok bt)
    (hno : ∀ r ∈ qrr, r.id ≠ e.ID) :
    (SaveModelTraining env Faults.none qrr e).1 = Option.none ∧
    (SaveModelTraining env Faults.none qrr e).2.filter (fun x => decide (x.id = e.ID)) =
      [{ id := e.ID, spec := bs, status := bt, deletionmark := env.deletionMarkDefault,
         created := e.CreatedAt, updated := e.UpdatedAt }] := by
  have hsave : SaveModelTraining env Faults.none qrr e =
      (Option.none, qrr ++ [{ id := e.ID, spec := bs, status := bt,
                              deletionmark := env.deletionMarkDefault,
                              created := e.CreatedAt, updated := e.UpdatedAt }]) := by
    have hany := any_id_eq_false qrr e.ID hno
    simp [SaveModelTraining, Faults.none, ExecContext, Engine.exec, hs, ht, hany]
  rw [hsave]
  refine ⟨rfl, ?_⟩
  simp [List.filter_append, filter_id_eq_nil qrr e.ID hno, List.filter_cons]

/-- C2 as stated fails. An entity saved with the deletion mark set comes back without it
when the column defaults to `false`, and one saved without it comes back marked when the
column defaults to `true`. With `ModelPackagingSpec` as the payload type, an entity saved
with a node selector that has no entries comes back with the nil selector, and one saved
with a Go `int` among its arguments comes back with a `float64` in its place. -/
theorem Save_then_Get_counterexample :
    (∀ r ∈ sampleTable, r.id ≠ sampleMarked.ID) ∧
    (SaveModelTraining Env.plain Faults.none sampleTable sampleMarked).1 = Option.none ∧
    GetModelTraining Env.plain Faults.none
        (SaveModelTraining Env.plain Faults.none sampleTable sampleMarked).2 sampleMarked.ID
      = (some { sampleMarked with DeletionMark := false }, Option.none) ∧
    sampleMarked.DeletionMark ≠ false ∧
    GetModelTraining Env.plainMarked Faults.none
        (SaveModelTraining Env.plainMarked Faults.none sampleTable sampleNew).2 sampleNew.ID
      = (some { sampleNew with DeletionMark := true }, Option.none) ∧
    sampleNew.DeletionMark ≠ true ∧
    (SaveModelTraining Env.packaging Faults.none sampleTable sampleEmptySelector).1
      = Option.none ∧
    (GetModelTraining Env.packaging Faults.none
        (SaveModelTraining Env.packaging Faults.none sampleTable sampleEmptySelector).2
        sampleEmptySelector.ID).2 = Option.none ∧
    (GetModelTraining Env.packaging Faults.none
        (SaveModelTraining Env.packaging Faults.none sampleTable sampleEmptySelector).2
        sampleEmptySelector.ID).1.map (fun mt => mt.Spec.NodeSelector) = some Option.none ∧
    sampleEmptySelector.Spec.NodeSelector = some [] ∧
    (SaveModelTraining Env.packaging Faults.none sampleTable sampleIntArgument).1
      = Option.none ∧
    (GetModelTraining Env.packaging Faults.none
        (SaveModelTraining Env.packaging Faults.none sampleTable sampleIntArgument).2
        sampleIntArgument.ID).2 = Option.none ∧
    (GetModelTraining Env.packaging Faults.none
        (SaveModelTraining Env.packaging Faults.none sampleTable sampleIntArgument).2
        sampleIntArgument.ID).1.map (fun mt => mt.Spec.Arguments)
      = some (some [("replicas", GoValue.float64 1)]) ∧
    sampleIntArgument.Spec.Arguments = some [("replicas", GoValue.int 1)] :=
  ⟨by decide, by decide, by decide, by decide, by decide, by decide, rfl, by decide,
   by decide, rfl, rfl, by decide, rfl, rfl⟩

/-- C2, amended. With the storage layer working and the payloads serializable, saving an
entity whose `ID` is absent succeeds. When the bytes written for `Spec` and `Status`
deserialize, getting that `ID` afterwards succeeds and returns an entity with the same
`ID`, with the `Spec` and `Status` that `Scan` reads from the bytes that `Value` wrote,
and with the column default of `deletionmark` as its `DeletionMark`, whatever mark the
saved entity carried. So the entity returned has the `ID`, `Spec`, `Status` and
`DeletionMark` of the saved one when `Spec` and `Status` come back from their serialized
forms and the saved entity carried the column default as its mark. When the bytes written
for `Spec` do not deserialize, Get returns the error of the scan. -/
theorem SaveModelTraining_then_Get (env : Env σ τ φ) (qrr : Table) (e : ModelTraining σ τ)
    (bs bt : Blob)
    (hs : env.spec.Value e.Spec = .ok bs) (ht : env.status.Value e.Status = .ok bt)
    (hno : ∀ r ∈ qrr, r.id ≠ e.ID) :
    (SaveModelTraining env Faults.none qrr e).1 = Option.none ∧
    (∀ spec status, env.spec.Scan bs = .ok spec → env.status.Scan bt = .ok status →
      ∃ mt, GetModelTraining env Faults.none (SaveModelTraining env Faults.none qrr e).2 e.ID
          = (some mt, Option.none) ∧
        mt.ID = e.ID ∧ mt.Spec = spec ∧ mt.Status = status ∧
        mt.DeletionMark = env.deletionMarkDefault) ∧
    (env.spec.Scan bs = .ok e.Spec → env.status.Scan bt = .ok e.Status →
      e.DeletionMark = env.deletionMarkDefault →
      ∃ mt, GetModelTraining env Faults.none (SaveModelTraining env Faults.none qrr e).2 e.ID
          = (some mt, Option.none) ∧
        mt.ID = e.ID ∧ mt.Spec = e.Spec ∧ mt.Status = e.Status ∧
        mt.DeletionMark = e.DeletionMark) ∧
    (∀ c, env.spec.Scan bs = .error c →
      GetModelTraining env Faults.none (SaveModelTraining env Faults.none qrr e).2 e.ID
        = (Option.none, some (GoError.scanError 1 "spec" c))) := by
  obtain ⟨hsave, hrow⟩ := SaveModelTraining_row env qrr e bs bt hs ht hno
  have hget : ∀ spec status, env.spec.Scan bs = .ok spec → env.status.Scan bt = .ok status →
      ∃ mt, GetModelTraining env Faults.none (SaveModelTraining env Faults.none qrr e).2 e.ID
          = (some mt, Option.none) ∧
        mt.ID = e.ID ∧ mt.Spec = spec ∧ mt.Status = status ∧
        mt.DeletionMark = env.deletionMarkDefault := by
    intro spec status hs2 ht2
    exact ⟨_, GetModelTraining_first env _ e.ID _ [] _ hrow
      (scanRow_of_scans env _ spec status hs2 ht2), rfl, rfl, rfl, rfl⟩
  refine ⟨hsave, hget, ?_, ?_⟩
  · intro hs2 ht2 hd
    obtain ⟨mt, h1, h2, h3, h4, h5⟩ := hget e.Spec e.Status hs2 ht2
    exact ⟨mt, h1, h2, h3, h4, by rw [h5, hd]⟩
  · intro c hc
    apply GetModelTraining_first_error env _ e.ID _ [] _ hrow
    simp only [scanRow, hc]

/-- Witness for the amended C2: on the sample table, an entity with plain payloads comes
back with its `ID`, `Spec`, `Status` and `DeletionMark`, and an entity whose
`ModelPackagingSpec` carries a node selector without entries comes back with what `Scan`
reads from the bytes written, a spec with the nil selector. -/
theorem SaveModelTraining_then_Get_witness :
    (∃ mt, GetModelTraining Env.plain Faults.none
        (SaveModelTraining Env.plain Faults.none sampleTable sampleNew).2 "m4"
          = (some mt, Option.none) ∧
      mt.ID = "m4" ∧ mt.Spec = "mlflow" ∧ mt.Status = "scheduling" ∧
      mt.DeletionMark = false) ∧
    ∃ mt, GetModelTraining Env.packaging Faults.none
        (SaveModelTraining Env.packaging Faults.none sampleTable sampleEmptySelector).2 "m4"
          = (some mt, Option.none) ∧
      mt.ID = "m4" ∧
      mt.Spec = { sampleEmptySelectorSpec with NodeSelector := Option.none } ∧
      mt.Status = "scheduling" ∧ mt.DeletionMark = false :=
  ⟨(SaveModelTraining_then_Get Env.plain sampleTable sampleNew "mlflow" "scheduling"
      rfl rfl (by decide)).2.2.1 rfl rfl rfl,
   (SaveModelTraining_then_Get Env.packaging sampleTable sampleEmptySelector
      "\x7b\"artifactName\":\"model.zip\",\"integrationName\":\"docker-rest\",\"arguments\":null,\"targets\":null\x7d"
      "scheduling" rfl rfl (by decide)).2.1
      { sampleEmptySelectorSpec with NodeSelector := Option.none } "scheduling" rfl rfl⟩

/-- C5 as stated fails. With `ModelPackagingSpec` as the payload type, updating the stored
`m1` with a spec whose node selector has no entries succeeds, and getting `m1` afterwards
returns a spec with the nil selector; updating it with a Go `int` among the arguments
gives back a `float64` in its place. -/
theorem Update_then_Get_counterexample :
    (∃ r ∈ sampleTable, r.id = "m1") ∧
    (UpdateModelTraining Env.packaging Faults.none sampleTable
        { sampleEmptySelector with ID := "m1" }).1 = Option.none ∧
    (GetModelTraining Env.packaging Faults.none
        (UpdateModelTraining Env.packaging Faults.none sampleTable
          { sampleEmptySelector with ID := "m1" }).2 "m1").2 = Option.none ∧
    (GetModelTraining Env.packaging Faults.none
        (UpdateModelTraining Env.packaging Faults.none sampleTable
          { sampleEmptySelector with ID := "m1" }).2 "m1").1.map
        (fun mt => mt.Spec.NodeSelector) = some Option.none ∧
    sampleEmptySelector.Spec.NodeSelector = some [] ∧
    (UpdateModelTraining Env.packaging Faults.none sampleTable
        { sampleIntArgument with ID := "m1" }).1 = Option.none ∧
    (GetModelTraining Env.packaging Faults.none
        (UpdateModelTraining Env.packaging Faults.none sampleTable
          { sampleIntArgument with ID := "m1" }).2 "m1").1.map
        (fun mt => mt.Spec.Arguments) = some (some [("replicas", GoValue.float64 1)]) ∧
    sampleIntArgument.Spec.Arguments = some [("replicas", GoValue.int 1)] :=
  ⟨by decide, rfl, by decide, by decide, rfl, rfl, rfl, rfl⟩

/-- C5, amended. With the storage layer working and the payloads serializable, updating an
entity whose `ID` is stored succeeds. When the bytes written for `Spec` and `Status`
deserialize, getting that `ID` afterwards succeeds and returns the entity scanned from a
row that the update wrote: its `Spec` and `Status` are what `Scan` reads from the bytes
that `Value` wrote, so they are those of `e` when `Spec` and `Status` come back from their
serialized forms, and its `UpdatedAt` is the value that the column `updated` of that row
holds after the update. When the bytes written for `Spec` do not deserialize, Get returns
the error of the scan. -/
theorem UpdateModelTraining_then_Get (env : Env σ τ φ) (qrr : Table) (e : ModelTraining σ τ)
    (bs bt : Blob)
    (hs : env.spec.Value e.Spec = .ok bs) (ht : env.status.Value e.Status = .ok bt)
    (hex : ∃ r ∈ qrr, r.id = e.ID) :
    (UpdateModelTraining env Faults.none qrr e).1 = Option.none ∧
    (∀ spec status, env.spec.Scan bs = .ok spec → env.status.Scan bt = .ok status →
      ∃ mt, GetModelTraining env Faults.none (UpdateModelTraining env Faults.none qrr e).2 e.ID
          = (some mt, Option.none) ∧
        mt.ID = e.ID ∧ mt.Spec = spec ∧ mt.Status = status ∧
        ∃ r ∈ (UpdateModelTraining env Faults.none qrr e).2,
          r.id = e.ID ∧ r.spec = bs ∧ r.status = bt ∧ mt.UpdatedAt = r.updated) ∧
    (env.spec.Scan bs = .ok e.Spec → env.status.Scan bt = .ok e.Status →
      ∃ mt, GetModelTraining env Faults.none (UpdateModelTraining env Faults.none qrr e).2 e.ID
          = (some mt, Option.none) ∧
        mt.ID = e.ID ∧ mt.Spec = e.Spec ∧ mt.Status = e.Status) ∧
    (∀ c, env.spec.Scan bs = .error c →
      GetModelTraining env Faults.none (UpdateModelTraining env Faults.none qrr e).2 e.ID
        = (Option.none, some (GoError.scanError 1 "spec" c))) := by
  rw [UpdateModelTraining_stored env qrr e bs bt hs ht hex]
  obtain ⟨r, hr, hid⟩ := hex
  cases hsel : qrr.filter (fun x => decide (x.id = e.ID)) with
  | nil =>
    have hmem : r ∈ qrr.filter (fun x => decide (x.id = e.ID)) := by
      simp [List.mem_filter, hr, hid]
    rw [hsel] at hmem
    exact absurd hmem (List.not_mem_nil r)
  | cons a rest =>
    have ha : a ∈ qrr.filter (fun x => decide (x.id = e.ID)) := by
      rw [hsel]; exact List.mem_cons_self a rest
    rw [List.mem_filter] at ha
    have haid : a.id = e.ID := by simpa using ha.2
    have hfirst : (qrr.map (fun r => if r.id = e.ID then
          SetClauses.apply { spec := some bs, status := some bt, updated := some e.UpdatedAt,
                             deletionmark := Option.none } r else r)).filter
          (fun x => decide (x.id = e.ID)) =
        SetClauses.apply { spec := some bs, status := some bt, updated := some e.UpdatedAt,
                           deletionmark := Option.none } a ::
          rest.map (SetClauses.apply { spec := some bs, status := some bt,
                                       updated := some e.UpdatedAt,
                                       deletionmark := Option.none }) := by
      rw [filter_map_update qrr e.ID _ (fun x => SetClauses.apply_id _ x), hsel, List.map_cons]
    have hget : ∀ spec status, env.spec.Scan bs = .ok spec →
        env.status.Scan bt = .ok status →
        ∃ mt, GetModelTraining env Faults.none
            (qrr.map (fun r => if r.id = e.ID then
              SetClauses.apply { spec := some bs, status := some bt,
                                 updated := some e.UpdatedAt,
                                 deletionmark := Option.none } r else r)) e.ID
            = (some mt, Option.none) ∧
          mt.ID = e.ID ∧ mt.Spec = spec ∧ mt.Status = status ∧
          ∃ r ∈ qrr.map (fun r => if r.id = e.ID then
              SetClauses.apply { spec := some bs, status := some bt,
                                 updated := some e.UpdatedAt,
                                 deletionmark := Option.none } r else r),
            r.id = e.ID ∧ r.spec = bs ∧ r.status = bt ∧ mt.UpdatedAt = r.updated := by
      intro spec status hs2 ht2
      refine ⟨_, GetModelTraining_first env _ e.ID _ _ _ hfirst
        (scanRow_of_scans env _ spec status (by simpa [SetClauses.apply] using hs2)
          (by simpa [SetClauses.apply] using ht2)), haid, rfl, rfl, ?_⟩
      exact ⟨_, List.mem_map.mpr ⟨a, ha.1, if_pos haid⟩, haid, rfl, rfl, rfl⟩
    simp only
    refine ⟨trivial, hget, ?_, ?_⟩
    · intro hs2 ht2
      obtain ⟨mt, h1, h2, h3, h4, _⟩ := hget e.Spec e.Status hs2 ht2
      exact ⟨mt, h1, h2, h3, h4⟩
    · intro c hc
      apply GetModelTraining_first_error env _ e.ID _ _ _ hfirst
      simp only [scanRow, SetClauses.apply, Option.getD_some, hc]

/-- Witness for the amended C5: updating `m1` in the sample table, then getting it, with
plain payloads and with a `ModelPackagingSpec` whose node selector has no entries. -/
theorem UpdateModelTraining_then_Get_witness :
    (∃ mt, GetModelTraining Env.plain Faults.none
        (UpdateModelTraining Env.plain Faults.none sampleTable
          { sampleNew with ID := "m1" }).2 "m1" = (some mt, Option.none) ∧
      mt.ID = "m1" ∧ mt.Spec = "mlflow" ∧ mt.Status = "scheduling") ∧
    ∃ mt, GetModelTraining Env.packaging Faults.none
        (UpdateModelTraining Env.packaging Faults.none sampleTable
          { sampleEmptySelector with ID := "m1" }).2 "m1" = (some mt, Option.none) ∧
      mt.ID = "m1" ∧
      mt.Spec = { sampleEmptySelectorSpec with NodeSelector := Option.none } ∧
      mt.Status = "scheduling" ∧
      ∃ r ∈ (UpdateModelTraining Env.packaging Faults.none sampleTable
          { sampleEmptySelector with ID := "m1" }).2,
        r.id = "m1" ∧
        r.spec = "\x7b\"artifactName\":\"model.zip\",\"integrationName\":\"docker-rest\",\"arguments\":null,\"targets\":null\x7d" ∧
        r.status = "scheduling" ∧ mt.UpdatedAt = r.updated :=
  ⟨(UpdateModelTraining_then_Get Env.plain sampleTable { sampleNew with ID := "m1" }
      "mlflow" "scheduling" rfl rfl (by decide)).2.2.1 rfl rfl,
   (UpdateModelTraining_then_Get Env.packaging sampleTable
      { sampleEmptySelector with ID := "m1" }
      "\x7b\"artifactName\":\"model.zip\",\"integrationName\":\"docker-rest\",\"arguments\":null,\"targets\":null\x7d"
      "scheduling" rfl rfl (by decide)).2.1
      { sampleEmptySelectorSpec with NodeSelector := Option.none } "scheduling" rfl rfl⟩

/-! ## Outbox: publishing without a handle -/

theorem PublishEvent_ok {π : Type} (payload : Codec π) (seq : Nat) (qrr : List OutboxRow)
    (event : Event π) (blob : Blob) (h : payload.Value event.Payload = .ok blob) :
    PublishEvent payload Faults.none seq qrr event =
      (Option.none, seq + 1,
       qrr.filter (fun r => !event.supersedes r) ++
         [{ id := seq + 1, entity_id := event.EntityID, event_type := event.EventType,
            event_group := event.EventGroup, datetime := event.Datetime,
            payload := blob }]) := by
  simp [PublishEvent, Faults.none, h]

/-- A row that stores an event is superseded by a later event exactly when the event
is. -/
theorem Event.supersedes_storedAs {π : Type} (payload : Codec π) (later o : Event π)
    (r : OutboxRow) (h : o.storedAs payload r) :
    later.supersedes r = o.supersededBy later := by
  obtain ⟨h1, _, h3, _⟩ := h
  simp only [Event.supersedes, Event.supersededBy, h1, h3]

theorem forall₂_filter {α β : Type} (R : α → β → Prop) (p : α → Bool) (q : β → Bool)
    (l1 : List α) (l2 : List β) (h : List.Forall₂ R l1 l2)
    (hpq : ∀ a b, R a b → p a = q b) :
    List.Forall₂ R (l1.filter p) (l2.filter q) := by
  induction h with
  | nil => exact List.Forall₂.nil
  | @cons a b l1 l2 hab _ ih =>
    have hq := hpq a b hab
    cases hp : p a with
    | true =>
      have hqb : q b = true := by rw [← hq, hp]
      simp only [List.filter_cons, hp, hqb, if_true]
      exact List.Forall₂.cons hab ih
    | false =>
      have hqb : q b = false := by rw [← hq, hp]
      simp only [List.filter_cons, hp, hqb, Bool.false_eq_true, if_false]
      exact ih

/-- The events that stay of a list of events followed by one more. -/
theorem survivors_step {π : Type} (e : Event π) (es : List (Event π))
    (evs : List (Event π)) :
    (evs.filter (fun o => !o.supersededBy e) ++ [e]).filter
        (fun o => !es.any (fun later => o.supersededBy later)) ++ survivors es =
      evs.filter (fun o => !(e :: es).any (fun later => o.supersededBy later)) ++
        survivors (e :: es) := by
  rw [List.filter_append, List.filter_filter, List.append_assoc]
  congr 1
  · apply List.filter_congr
    intro o _
    simp only [List.any_cons, Bool.not_or]
    exact Bool.and_comm _ _
  · cases hany : es.any (fun later => e.supersededBy later) with
    | true => simp [survivors, hany, List.filter_cons]
    | false => simp [survivors, hany, List.filter_cons]

/-- The events that stay are among the events. -/
theorem survivors_subset {π : Type} (es : List (Event π)) : ∀ e ∈ survivors es, e ∈ es := by
  induction es with
  | nil => intro e he; cases he
  | cons a es ih =>
    intro e he
    simp only [survivors] at he
    split at he
    · exact List.mem_cons_of_mem a (ih e he)
    · rcases List.mem_cons.mp he with h | h
      · rw [h]; exact List.mem_cons_self a es
      · exact List.mem_cons_of_mem a (ih e h)

/-- Without a `Delete` event every event stays. -/
theorem survivors_of_no_Delete {π : Type} (es : List (Event π))
    (h : ∀ e ∈ es, e.EventType ≠ EventType.Delete) : survivors es = es := by
  induction es with
  | nil => rfl
  | cons a es ih =>
    have hrest : ∀ e ∈ es, e.EventType ≠ EventType.Delete :=
      fun e he => h e (List.mem_cons_of_mem a he)
    have hany : es.any (fun later => a.supersededBy later) = false := by
      rw [List.any_eq_false]
      intro later hl
      simp [Event.supersededBy, hrest later hl]
    simp only [survivors, hany, Bool.false_eq_true, if_false, ih hrest]

/-- One event published with a nil handle on a database whose outbox stores a list of
events, is in `id` order and got its ids from the sequence: the call succeeds, and the
outbox then stores the events that the new one does not supersede, followed by the new
one. -/
theorem PublishEvent_stored {π : Type} (payload : Codec π) (db : Database)
    (evs : List (Event π)) (e : Event π) (b : Blob)
    (hstored : List.Forall₂ (fun o r => o.storedAs payload r) evs db.outbox)
    (hwf : db.WellFormed) (hsorted : db.outbox.Sorted outboxLE)
    (hb : payload.Value e.Payload = .ok b) :
    (EventPublisher.PublishEvent payload Faults.none db Option.none e).err = Option.none ∧
    List.Forall₂ (fun o r => o.storedAs payload r)
      (evs.filter (fun o => !o.supersededBy e) ++ [e])
      (EventPublisher.PublishEvent payload Faults.none db Option.none e).db.outbox ∧
    (EventPublisher.PublishEvent payload Faults.none db Option.none e).db.WellFormed ∧
    (EventPublisher.PublishEvent payload Faults.none db Option.none e).db.outbox.Sorted
      outboxLE ∧
    (EventPublisher.PublishEvent payload Faults.none db Option.none e).db.training
      = db.training := by
  simp only [EventPublisher.PublishEvent, PublishEvent_ok payload _ _ e b hb]
  refine ⟨trivial, ?_, ?_, ?_, trivial⟩
  · apply List.rel_append
    · exact forall₂_filter _ _ _ _ _ hstored
        (fun o r hor => by rw [Event.supersedes_storedAs payload e o r hor])
    · exact List.Forall₂.cons ⟨rfl, rfl, rfl, hb⟩ List.Forall₂.nil
  · intro r hr
    simp only [List.mem_append, List.mem_singleton] at hr
    rcases hr with hr | hr
    · exact Nat.le_succ_of_le (hwf r (List.mem_of_mem_filter hr))
    · subst hr
      exact Nat.le_refl _
  · unfold List.Sorted
    rw [List.pairwise_append]
    refine ⟨List.Pairwise.filter _ hsorted, List.pairwise_singleton _ _, ?_⟩
    intro a ha c hc
    simp only [List.mem_singleton] at hc
    subst hc
    exact Nat.le_succ_of_le (hwf a (List.mem_of_mem_filter ha))

/-- Events published one after the other with a nil handle: every call succeeds, the
table of entities stays, and the outbox stores the events that stay. -/
theorem publishAll_stored {π : Type} (payload : Codec π) (es : List (Event π))
    (db : Database) (evs : List (Event π))
    (hstored : List.Forall₂ (fun o r => o.storedAs payload r) evs db.outbox)
    (hwf : db.WellFormed) (hsorted : db.outbox.Sorted outboxLE)
    (hval : ∀ e ∈ es, ∃ b, payload.Value e.Payload = .ok b) :
    (publishAll payload db es).1 = es.map (fun _ => Option.none) ∧
    List.Forall₂ (fun o r => o.storedAs payload r)
      (evs.filter (fun o => !es.any (fun later => o.supersededBy later)) ++ survivors es)
      (publishAll payload db es).2.outbox ∧
    (publishAll payload db es).2.WellFormed ∧
    (publishAll payload db es).2.outbox.Sorted outboxLE ∧
    (publishAll payload db es).2.training = db.training := by
  induction es generalizing db evs with
  | nil =>
    refine ⟨rfl, ?_, hwf, hsorted, rfl⟩
    simpa [publishAll, survivors] using hstored
  | cons e es ih =>
    obtain ⟨b, hb⟩ := hval e (List.mem_cons_self e es)
    obtain ⟨h1, h2, h3, h4, h5⟩ := PublishEvent_stored payload db evs e b hstored hwf hsorted hb
    obtain ⟨g1, g2, g3, g4, g5⟩ := ih _ _ h2 h3 h4
      (fun x hx => hval x (List.mem_cons_of_mem e hx))
    simp only [publishAll]
    refine ⟨by rw [g1, h1]; rfl, ?_, g3, g4, g5.trans h5⟩
    rw [← survivors_step]
    exact g2

/-- Reading rows that store events gives the events read back. -/
theorem scanEvents_stored {π : Type} (payload : Codec π) (evs : List (Event π))
    (rows : List OutboxRow)
    (hstored : List.Forall₂ (fun o r => o.storedAs payload r) evs rows)
    (hscan : ∀ e ∈ evs, ∀ b, payload.Value e.Payload = .ok b → ∃ p, payload.Scan b = .ok p) :
    ∃ out, scanEvents payload rows = .ok out ∧
      List.Forall₂ (fun e o => e.readAs payload o) evs out := by
  induction hstored with
  | nil => exact ⟨[], rfl, List.Forall₂.nil⟩
  | @cons e r evs rows hab _ ih =>
    obtain ⟨h1, h2, h3, h4⟩ := hab
    obtain ⟨p, hp⟩ := hscan e (List.mem_cons_self e evs) r.payload h4
    obtain ⟨out, hout, hrel⟩ := ih (fun x hx => hscan x (List.mem_cons_of_mem e hx))
    refine ⟨{ EntityID := r.entity_id, EventType := r.event_type,
              EventGroup := r.event_group, Datetime := r.datetime, Payload := p } :: out,
      ?_, List.Forall₂.cons ⟨h1, h2, h3, r.payload, h4, hp⟩ hrel⟩
    simp only [scanEvents, scanEvent, hp, hout]

/-- C18 as stated fails. The events `event1`, `event2` and `event1Delete` of
`TestRaiseEvent`, published one after the other with a nil handle on the empty outbox,
are read back as two events, not three: the row of `event1` is gone once `event1Delete`
is published. And an event whose payload is a `ModelPackagingSpec` with a node selector
without entries is read back with the nil selector as its payload. -/
theorem PublishEvent_nil_handle_counterexample :
    (publishAll CustomPayload.codec emptyDatabase [event1, event2, event1Delete]).1
      = [Option.none, Option.none, Option.none] ∧
    selectEvents CustomPayload.codec
        (publishAll CustomPayload.codec emptyDatabase
          [event1, event2, event1Delete]).2.outbox
      = .ok [event2, event1Delete] ∧
    [event2, event1Delete] ≠ [event1, event2, event1Delete] ∧
    (publishAll (ModelPackagingSpec.codec samplePackagingJSON) emptyDatabase
        [samplePackagingEvent]).1 = [Option.none] ∧
    selectEvents (ModelPackagingSpec.codec samplePackagingJSON)
        (publishAll (ModelPackagingSpec.codec samplePackagingJSON) emptyDatabase
          [samplePackagingEvent]).2.outbox
      = .ok [{ samplePackagingEvent with
               Payload := { sampleEmptySelectorSpec with NodeSelector := Option.none } }] ∧
    samplePackagingEvent.Payload.NodeSelector = some [] :=
  ⟨by decide, rfl, by decide, rfl, rfl, rfl⟩

/-- C18, amended. With the storage layer working: a call of `PublishEvent` with a nil
handle whose payload serializes returns no error, and the committed outbox has the new
row at once, without the rows that the event supersedes. For every sequence of events
with payloads that serialize and whose bytes deserialize, published one after the other
in this way on an empty outbox, every call returns no error, and reading the outbox
ordered by `id` returns, in publish order, one event for each published event that no
later `Delete` event of the same entity and group followed, with the `EntityID`,
`EventType` and `EventGroup` that was published and with the payload that `Scan` reads
from the bytes that `Value` wrote. The events read back are among the published ones,
and they are all of them when no `Delete` event is published. -/
theorem PublishEvent_nil_handle {π : Type} (payload : Codec π) (db : Database)
    (es : List (Event π)) (hempty : db.outbox = [])
    (hval : ∀ e ∈ es, ∃ b p, payload.Value e.Payload = .ok b ∧ payload.Scan b = .ok p) :
    (∀ (d : Database) (e : Event π) (b : Blob), payload.Value e.Payload = .ok b →
      EventPublisher.PublishEvent payload Faults.none d Option.none e =
        { err := Option.none
          db := { d with
            outboxSeq := d.outboxSeq + 1
            outbox := d.outbox.filter (fun r => !e.supersedes r) ++
              [{ id := d.outboxSeq + 1, entity_id := e.EntityID,
                 event_type := e.EventType, event_group := e.EventGroup,
                 datetime := e.Datetime, payload := b }] }
          tx := Option.none }) ∧
    (publishAll payload db es).1 = es.map (fun _ => Option.none) ∧
    (∃ out, selectEvents payload (publishAll payload db es).2.outbox = .ok out ∧
      List.Forall₂ (fun e o => e.readAs payload o) (survivors es) out) ∧
    (∀ e ∈ survivors es, e ∈ es) ∧
    ((∀ e ∈ es, e.EventType ≠ EventType.Delete) → survivors es = es) := by
  have hall := publishAll_stored payload es db [] (by rw [hempty]; exact List.Forall₂.nil)
    (by intro r hr; rw [hempty] at hr; cases hr)
    (by rw [hempty]; exact List.sorted_nil)
    (fun e he => by
      obtain ⟨b, _, hb, _⟩ := hval e he
      exact ⟨b, hb⟩)
  obtain ⟨herr, hstored, _, hsorted, _⟩ := hall
  refine ⟨?_, herr, ?_, survivors_subset es, survivors_of_no_Delete es⟩
  · intro d e b hb
    simp only [EventPublisher.PublishEvent, PublishEvent_ok payload _ _ e b hb]
  · unfold selectEvents
    rw [List.Sorted.insertionSort_eq hsorted]
    simp only [List.filter_nil, List.nil_append] at hstored
    apply scanEvents_stored payload _ _ hstored
    intro e he b hb
    obtain ⟨b2, p, hb2, hp⟩ := hval e (survivors_subset es e he)
    rw [hb] at hb2
    cases hb2
    exact ⟨p, hp⟩

/-- Witness for the amended C18: the three events of `TestRaiseEvent`. -/
theorem PublishEvent_nil_handle_witness :
    (publishAll CustomPayload.codec emptyDatabase [event1, event2, event1Delete]).1
      = [event1, event2, event1Delete].map (fun _ => Option.none) ∧
    ∃ out, selectEvents CustomPayload.codec
        (publishAll CustomPayload.codec emptyDatabase
          [event1, event2, event1Delete]).2.outbox = .ok out ∧
      List.Forall₂ (fun e o => e.readAs CustomPayload.codec o)
        (survivors [event1, event2, event1Delete]) out :=
  ⟨(PublishEvent_nil_handle CustomPayload.codec emptyDatabase [event1, event2, event1Delete]
      rfl (fun e he => by
        simp only [List.mem_cons, List.mem_singleton, List.not_mem_nil, or_false] at he
        rcases he with h | h | h <;> subst h <;> exact ⟨_, _, rfl, rfl⟩)).2.1,
   (PublishEvent_nil_handle CustomPayload.codec emptyDatabase [event1, event2, event1Delete]
      rfl (fun e he => by
        simp only [List.mem_cons, List.mem_singleton, List.not_mem_nil, or_false] at he
        rcases he with h | h | h <;> subst h <;> exact ⟨_, _, rfl, rfl⟩)).2.2.1⟩

/-- C19. After `event1` (`CustomID`, `Create`), `event2` (`CustomID-2`, `Create`) and
`event1Delete` (`CustomID`, `Delete`), all in the group `CustomEventGroup`, are published
one after the other with a nil handle on the empty outbox, each call returning no error,
the outbox holds exactly two rows, and the select of its rows ordered by `id` yields
first an event equal to `event2`, then one equal to `event1Delete`, and no further
row. -/
theorem PublishEvent_TestRaiseEvent :
    (publishAll CustomPayload.codec emptyDatabase [event1, event2, event1Delete]).1
      = [Option.none, Option.none, Option.none] ∧
    (publishAll CustomPayload.codec emptyDatabase
        [event1, event2, event1Delete]).2.outbox.length = 2 ∧
    selectEvents CustomPayload.codec
        (publishAll CustomPayload.codec emptyDatabase
          [event1, event2, event1Delete]).2.outbox
      = .ok [event2, event1Delete] :=
  ⟨by decide, by decide, rfl⟩

/-! ## Outbox: publishing in a transaction -/

theorem PublishEvent_of_no_error {π : Type} (payload : Codec π) (fl : Faults) (seq : Nat)
    (qrr : List OutboxRow) (event : Event π)
    (h : (PublishEvent payload fl seq qrr event).1 = Option.none) :
    ∃ blob, payload.Value event.Payload = .ok blob ∧
      PublishEvent payload fl seq qrr event =
        (Option.none, seq + 1,
         qrr.filter (fun r => !event.supersedes r) ++
           [{ id := seq + 1, entity_id := event.EntityID,
              event_type := event.EventType, event_group := event.EventGroup,
              datetime := event.Datetime, payload := blob }]) := by
  unfold PublishEvent at h ⊢
  cases h1 : fl.toSql with
  | some e1 => simp [h1] at h
  | none =>
    cases h2 : payload.Value event.Payload with
    | error e2 => simp [h1, h2] at h
    | ok blob =>
      cases h3 : fl.query with
      | some e3 => simp [h1, h2, h3] at h
      | none => exact ⟨blob, rfl, rfl⟩

/-- A call of `PublishEvent` may move the sequence on; the rows it leaves are rows that
were there or rows with an id handed out during the call; and it leaves every row that
the event does not supersede. -/
theorem PublishEvent_rows {π : Type} (payload : Codec π) (fl : Faults) (seq : Nat)
    (qrr : List OutboxRow) (event : Event π) :
    seq ≤ (PublishEvent payload fl seq qrr event).2.1 ∧
    (∀ r ∈ (PublishEvent payload fl seq qrr event).2.2,
      r ∈ qrr ∨ (seq < r.id ∧ r.id ≤ (PublishEvent payload fl seq qrr event).2.1)) ∧
    (∀ r ∈ qrr, event.supersedes r = false →
      r ∈ (PublishEvent payload fl seq qrr event).2.2) := by
  unfold PublishEvent
  cases h1 : fl.toSql with
  | some e1 => exact ⟨Nat.le_refl _, fun r hr => Or.inl hr, fun r hr _ => hr⟩
  | none =>
    cases h2 : payload.Value event.Payload with
    | error e2 => exact ⟨Nat.le_refl _, fun r hr => Or.inl hr, fun r hr _ => hr⟩
    | ok blob =>
      cases h3 : fl.query with
      | some e3 => exact ⟨Nat.le_refl _, fun r hr => Or.inl hr, fun r hr _ => hr⟩
      | none =>
        refine ⟨Nat.le_succ _, ?_, ?_⟩
        · intro r hr
          simp only [List.mem_append, List.mem_singleton] at hr
          rcases hr with hr | hr
          · exact Or.inl (List.mem_of_mem_filter hr)
          · subst hr
            exact Or.inr ⟨Nat.lt_succ_self _, Nat.le_refl _⟩
        · intro r hr hs
          simp only [List.mem_append, List.mem_filter]
          left
          exact ⟨hr, by simp [hs]⟩

/-- A call made with a handle leaves the committed tables alone and may move the sequence
on; the outbox of the transaction then holds rows it held before and rows with ids handed
out during the call, and it still holds every row that the call does not supersede. -/
theorem Op.run_with_handle {π : Type} (env : Env σ τ φ) (payload : Codec π) (fl : Faults)
    (db : Database) (tx : Tx) (op : Op σ τ π) :
    ∃ tx', (op.run env payload fl db (some tx)).tx = some tx' ∧
      (op.run env payload fl db (some tx)).db.training = db.training ∧
      (op.run env payload fl db (some tx)).db.outbox = db.outbox ∧
      db.outboxSeq ≤ (op.run env payload fl db (some tx)).db.outboxSeq ∧
      (tx'.failed = false → tx.failed = false) ∧
      (∀ r ∈ tx'.outbox, r ∈ tx.outbox ∨
        (db.outboxSeq < r.id ∧ r.id ≤ (op.run env payload fl db (some tx)).db.outboxSeq)) ∧
      (∀ r ∈ tx.outbox, (∀ e, op = Op.publish e → e.supersedes r = false) →
        r ∈ tx'.outbox) := by
  cases op with
  | mutate m =>
    simp only [Op.run]
    rw [Mutation.run_eq]
    refine ⟨_, rfl, rfl, rfl, Nat.le_refl _, ?_, fun r hr => Or.inl hr, fun r hr _ => hr⟩
    intro h
    simp only [Bool.or_eq_false_iff] at h
    exact h.1
  | publish event =>
    simp only [Op.run]
    obtain ⟨hseq, hrows, hkeep⟩ :=
      PublishEvent_rows payload (tx.faults fl) db.outboxSeq tx.outbox event
    refine ⟨_, rfl, rfl, rfl, hseq, ?_, hrows, ?_⟩
    · intro h
      simp only [Bool.or_eq_false_iff] at h
      exact h.1
    · intro r hr hs
      exact hkeep r hr (hs event rfl)

theorem runOpsWithTx_spec {π : Type} (env : Env σ τ φ) (payload : Codec π)
    (ops : List (Faults × Op σ τ π)) (db : Database) (tx : Tx) :
    (runOpsWithTx env payload db tx ops).1.training = db.training ∧
    (runOpsWithTx env payload db tx ops).1.outbox = db.outbox ∧
    db.outboxSeq ≤ (runOpsWithTx env payload db tx ops).1.outboxSeq ∧
    ((runOpsWithTx env payload db tx ops).2.failed = false → tx.failed = false) ∧
    (∀ r ∈ (runOpsWithTx env payload db tx ops).2.outbox, r ∈ tx.outbox ∨
      (db.outboxSeq < r.id ∧ r.id ≤ (runOpsWithTx env payload db tx ops).1.outboxSeq)) ∧
    (∀ r ∈ tx.outbox,
      (∀ p ∈ ops, ∀ e, p.2 = Op.publish e → e.supersedes r = false) →
      r ∈ (runOpsWithTx env payload db tx ops).2.outbox) := by
  induction ops generalizing db tx with
  | nil =>
    exact ⟨rfl, rfl, Nat.le_refl _, fun h => h, fun r hr => Or.inl hr, fun r hr _ => hr⟩
  | cons a ops ih =>
    obtain ⟨fl, op⟩ := a
    obtain ⟨tx', htx, htr, hout, hseq, hfail, hrows, hkeep⟩ :=
      Op.run_with_handle env payload fl db tx op
    simp only [runOpsWithTx, htx, Option.getD_some]
    obtain ⟨htr2, hout2, hseq2, hfail2, hrows2, hkeep2⟩ :=
      ih (op.run env payload fl db (some tx)).db tx'
    refine ⟨htr2.trans htr, hout2.trans hout, Nat.le_trans hseq hseq2,
      fun h => hfail (hfail2 h), ?_, ?_⟩
    · intro r hr
      rcases hrows2 r hr with h | h
      · rcases hrows r h with g | g
        · exact Or.inl g
        · exact Or.inr ⟨g.1, Nat.le_trans g.2 hseq2⟩
      · exact Or.inr ⟨Nat.lt_of_le_of_lt hseq h.1, h.2⟩
    · intro r hr hs
      apply hkeep2 r
      · exact hkeep r hr (fun e he => hs (fl, op) (List.mem_cons_self _ _) e he)
      · intro p hp e he
        exact hs p (List.mem_cons_of_mem _ hp) e he

theorem runOpsWithTx_append {π : Type} (env : Env σ τ φ) (payload : Codec π)
    (ops1 ops2 : List (Faults × Op σ τ π)) (db : Database) (tx : Tx) :
    runOpsWithTx env payload db tx (ops1 ++ ops2) =
      runOpsWithTx env payload (runOpsWithTx env payload db tx ops1).1
        (runOpsWithTx env payload db tx ops1).2 ops2 := by
  induction ops1 generalizing db tx with
  | nil => rfl
  | cons a ops1 ih =>
    obtain ⟨fl, op⟩ := a
    simp only [List.cons_append, runOpsWithTx]
    exact ih _ _

/-- A call made with a nil handle keeps the ids of the outbox within the sequence. -/
theorem Op.call_wellFormed {π : Type} (env : Env σ τ φ) (payload : Codec π) (fl : Faults)
    (db : Database) (op : Op σ τ π) (hwf : db.WellFormed) :
    (op.run env payload fl db Option.none).db.WellFormed := by
  cases op with
  | mutate m =>
    simp only [Op.run]
    rw [Mutation.run_eq]
    exact hwf
  | publish event =>
    simp only [Op.run, EventPublisher.PublishEvent]
    obtain ⟨hseq, hrows, _⟩ := PublishEvent_rows payload fl db.outboxSeq db.outbox event
    intro r hr
    rcases hrows r hr with h | h
    · exact Nat.le_trans (hwf r h) hseq
    · exact h.2

/-- Every session keeps the ids of the outbox within the sequence. -/
theorem Session.session_wellFormed {π : Type} (env : Env σ τ φ) (payload : Codec π)
    (db : Database) (session : Session σ τ π) (hwf : db.WellFormed) :
    (session.run env payload db).WellFormed := by
  cases session with
  | call fl op => exact Op.call_wellFormed env payload fl db op hwf
  | transaction opts ops commit fault =>
    obtain ⟨_, hout, hseq, _, hrows, _⟩ := runOpsWithTx_spec env payload ops db
      { opts := opts, training := db.training, outbox := db.outbox, failed := false }
    have hsame : ∀ r ∈ (runOpsWithTx env payload db
          { opts := opts, training := db.training, outbox := db.outbox, failed := false }
          ops).1.outbox,
        r.id ≤ (runOpsWithTx env payload db
          { opts := opts, training := db.training, outbox := db.outbox, failed := false }
          ops).1.outboxSeq := by
      intro r hr
      rw [hout] at hr
      exact Nat.le_trans (hwf r hr) hseq
    simp only [Session.run]
    cases commit with
    | false =>
      simp only [Bool.false_eq_true, if_false, Tx.Rollback]
      exact hsame
    | true =>
      simp only [if_true, Tx.Commit]
      split
      · exact hsame
      · cases fault with
        | some e => exact hsame
        | none =>
          intro r hr
          rcases hrows r hr with h | h
          · exact Nat.le_trans (hwf r h) hseq
          · exact h.2
  | forward batch ack =>
    simp only [Session.run, Publisher.poll]
    intro r hr
    exact hwf r (List.mem_of_mem_filter hr)

/-- In every database that a course of sessions leaves, starting from a database whose
outbox got its ids from the sequence, the outbox got its ids from the sequence. -/
theorem runSessions_wellFormed {π : Type} (env : Env σ τ φ) (payload : Codec π)
    (sessions : List (Session σ τ π)) (db : Database) (hwf : db.WellFormed) :
    (runSessions env payload db sessions).WellFormed := by
  induction sessions generalizing db with
  | nil => exact hwf
  | cons a sessions ih =>
    exact ih (a.run env payload db) (Session.session_wellFormed env payload db a hwf)

/-- C17 as stated fails. On the outbox that holds the committed row of `event2`, a
transaction publishes `event1` and then `event1Delete`, both calls return no error, and
the transaction commits: the committed outbox then holds the rows of `event2` and of
`event1Delete` and no row of `event1`, although the transaction that published `event1`
committed. -/
theorem PublishEvent_in_transaction_counterexample :
    sampleOutboxDatabase =
      runSessions Env.plain CustomPayload.codec emptyDatabase
        [Session.call Faults.none (Op.publish event2)] ∧
    DB.BeginTx Option.none sampleOutboxDatabase { Err := Option.none } txOptions
      = (some sampleOutboxTx, Option.none) ∧
    (EventPublisher.PublishEvent CustomPayload.codec Faults.none sampleOutboxDatabase
        (some sampleOutboxTx) event1).err = Option.none ∧
    (Tx.Commit Option.none
        (runOpsWithTx Env.plain CustomPayload.codec sampleOutboxDatabase sampleOutboxTx
          sampleSupersedingOps).1
        (runOpsWithTx Env.plain CustomPayload.codec sampleOutboxDatabase sampleOutboxTx
          sampleSupersedingOps).2).1 = Option.none ∧
    (Tx.Commit Option.none
        (runOpsWithTx Env.plain CustomPayload.codec sampleOutboxDatabase sampleOutboxTx
          sampleSupersedingOps).1
        (runOpsWithTx Env.plain CustomPayload.codec sampleOutboxDatabase sampleOutboxTx
          sampleSupersedingOps).2).2.outbox
      = [event2.row 1 "\x7b\"name\":\"test\"\x7d",
         event1Delete.row 3 "\x7b\"name\":\"test\"\x7d"] ∧
    ∀ r ∈ (Tx.Commit Option.none
        (runOpsWithTx Env.plain CustomPayload.codec sampleOutboxDatabase sampleOutboxTx
          sampleSupersedingOps).1
        (runOpsWithTx Env.plain CustomPayload.codec sampleOutboxDatabase sampleOutboxTx
          sampleSupersedingOps).2).2.outbox,
      ¬ (r.entity_id = event1.EntityID ∧ r.event_type = event1.EventType) := by
  decide

/-- C17, amended. Take a database left by any course of sessions from the empty database,
a transaction begun on it, any sequence of calls made with its handle, and a call of
`PublishEvent` among them that returned no error. After a rollback, and after a commit
that fails, the committed outbox is the outbox before the transaction, and no row of it
has the id that the row of the event got. After a commit that succeeds, every row of the
committed outbox was there before the transaction or got its id during the transaction;
and when none of the later calls of the transaction publishes a `Delete` event of the
same entity and group, the committed outbox holds a row with the entity, type, group and
serialized payload of the event, whose id is greater than the last id handed out before
the transaction began, and so greater than the id of every row committed before. -/
theorem PublishEvent_in_transaction {π : Type} (env : Env σ τ φ) (payload : Codec π)
    (history : List (Session σ τ π)) (fault rf cf : Option GoError) (ctx : Context)
    (opts : TxOptions) (db : Database) (tx : Tx)
    (pre post : List (Faults × Op σ τ π)) (fl : Faults) (event : Event π)
    (hdb : db = runSessions env payload emptyDatabase history)
    (hbegin : DB.BeginTx fault db ctx opts = (some tx, Option.none))
    (hpub : (EventPublisher.PublishEvent payload fl (runOpsWithTx env payload db tx pre).1
        (some (runOpsWithTx env payload db tx pre).2) event).err = Option.none) :
    ((Tx.Rollback rf
        (runOpsWithTx env payload db tx (pre ++ (fl, Op.publish event) :: post)).1
        (runOpsWithTx env payload db tx (pre ++ (fl, Op.publish event) :: post)).2).2.outbox
      = db.outbox) ∧
    (∀ r ∈ db.outbox, r.id < (runOpsWithTx env payload db tx pre).1.outboxSeq + 1) ∧
    ((Tx.Commit cf
        (runOpsWithTx env payload db tx (pre ++ (fl, Op.publish event) :: post)).1
        (runOpsWithTx env payload db tx (pre ++ (fl, Op.publish event) :: post)).2).1
      ≠ Option.none →
      (Tx.Commit cf
        (runOpsWithTx env payload db tx (pre ++ (fl, Op.publish event) :: post)).1
        (runOpsWithTx env payload db tx (pre ++ (fl, Op.publish event) :: post)).2).2.outbox
      = db.outbox) ∧
    ((Tx.Commit cf
        (runOpsWithTx env payload db tx (pre ++ (fl, Op.publish event) :: post)).1
        (runOpsWithTx env payload db tx (pre ++ (fl, Op.publish event) :: post)).2).1
      = Option.none →
      (∀ r ∈ (Tx.Commit cf
          (runOpsWithTx env payload db tx (pre ++ (fl, Op.publish event) :: post)).1
          (runOpsWithTx env payload db tx
            (pre ++ (fl, Op.publish event) :: post)).2).2.outbox,
        r ∈ db.outbox ∨ db.outboxSeq < r.id) ∧
      ((∀ p ∈ post, ∀ e, p.2 = Op.publish e → event.supersededBy e = false) →
        ∃ r ∈ (Tx.Commit cf
            (runOpsWithTx env payload db tx (pre ++ (fl, Op.publish event) :: post)).1
            (runOpsWithTx env payload db tx
              (pre ++ (fl, Op.publish event) :: post)).2).2.outbox,
          r.id = (runOpsWithTx env payload db tx pre).1.outboxSeq + 1 ∧
          db.outboxSeq < r.id ∧ (∀ r0 ∈ db.outbox, r0.id < r.id) ∧
          r.entity_id = event.EntityID ∧ r.event_type = event.EventType ∧
          r.event_group = event.EventGroup ∧
          payload.Value event.Payload = .ok r.payload)) := by
  have hwf : db.WellFormed := by
    rw [hdb]
    exact runSessions_wellFormed env payload history emptyDatabase
      (by intro r hr; cases hr)
  have htx : tx.outbox = db.outbox := by
    unfold DB.BeginTx at hbegin
    cases hc : ctx.Err with
    | some e => simp [hc] at hbegin
    | none =>
      cases hf : fault with
      | some e => simp [hc, hf] at hbegin
      | none =>
        simp only [hc, hf, Prod.mk.injEq, Option.some.injEq, and_true] at hbegin
        rw [← hbegin]
  obtain ⟨_, hout, _, _, hrowsAll, _⟩ := runOpsWithTx_spec env payload
    (pre ++ (fl, Op.publish event) :: post) db tx
  obtain ⟨_, _, hseq1, _, _, _⟩ := runOpsWithTx_spec env payload pre db tx
  refine ⟨by simp only [Tx.Rollback, hout], ?_, ?_, ?_⟩
  · intro r hr
    exact Nat.lt_succ_of_le (Nat.le_trans (hwf r hr) hseq1)
  · intro hc
    unfold Tx.Commit at hc ⊢
    split
    · exact hout
    · rename_i hnf
      cases cf with
      | some e => exact hout
      | none => simp [hnf] at hc
  · intro hc
    have hfin : (runOpsWithTx env payload db tx
        (pre ++ (fl, Op.publish event) :: post)).2.failed = false := by
      cases hf : (runOpsWithTx env payload db tx
          (pre ++ (fl, Op.publish event) :: post)).2.failed with
      | false => rfl
      | true => simp [Tx.Commit, hf] at hc
    have hcf : cf = Option.none := by
      cases cf with
      | none => rfl
      | some e => simp [Tx.Commit, hfin] at hc
    subst hcf
    simp only [Tx.Commit, hfin, Bool.false_eq_true, if_false]
    constructor
    · intro r hr
      rcases hrowsAll r hr with h | h
      · left; rw [← htx]; exact h
      · right; exact h.1
    · intro hkeep
      -- the state when the event is published
      simp only [EventPublisher.PublishEvent] at hpub
      obtain ⟨blob, hblob, hres⟩ := PublishEvent_of_no_error payload _ _ _ event hpub
      -- the calls after it keep the row
      rw [runOpsWithTx_append]
      simp only [runOpsWithTx, Op.run, EventPublisher.PublishEvent, hres, Option.getD_some]
      obtain ⟨_, _, _, _, _, hk⟩ := runOpsWithTx_spec env payload post
        { (runOpsWithTx env payload db tx pre).1 with
          outboxSeq := (runOpsWithTx env payload db tx pre).1.outboxSeq + 1 }
        { (runOpsWithTx env payload db tx pre).2 with
          outbox := (runOpsWithTx env payload db tx pre).2.outbox.filter
              (fun r => !event.supersedes r) ++
            [{ id := (runOpsWithTx env payload db tx pre).1.outboxSeq + 1,
               entity_id := event.EntityID, event_type := event.EventType,
               event_group := event.EventGroup, datetime := event.Datetime,
               payload := blob }]
          failed := (runOpsWithTx env payload db tx pre).2.failed ||
            serverError Option.none }
      refine ⟨{ id := (runOpsWithTx env payload db tx pre).1.outboxSeq + 1,
                entity_id := event.EntityID, event_type := event.EventType,
                event_group := event.EventGroup, datetime := event.Datetime,
                payload := blob }, ?_, rfl, Nat.lt_succ_of_le hseq1, ?_, rfl, rfl, rfl,
              hblob⟩
      · apply hk
        · exact List.mem_append_right _ (List.mem_singleton_self _)
        · intro p hp e he
          have := hkeep p hp e he
          simpa [Event.supersedes, Event.supersededBy] using this
      · intro r0 hr0
        exact Nat.lt_succ_of_le (Nat.le_trans (hwf r0 hr0) hseq1)

/-- Witness for the amended C17: on the database that the publishing of `event2` leaves,
`event1` is published in a transaction; after the commit the outbox holds a row for it
with id 2. -/
theorem PublishEvent_in_transaction_witness :
    ∃ r ∈ (Tx.Commit Option.none
        (runOpsWithTx Env.plain CustomPayload.codec sampleOutboxDatabase sampleOutboxTx
          ([] ++ (Faults.none, Op.publish event1) :: [])).1
        (runOpsWithTx Env.plain CustomPayload.codec sampleOutboxDatabase sampleOutboxTx
          ([] ++ (Faults.none, Op.publish event1) :: [])).2).2.outbox,
      r.id = (runOpsWithTx Env.plain CustomPayload.codec sampleOutboxDatabase
        sampleOutboxTx []).1.outboxSeq + 1 ∧
      sampleOutboxDatabase.outboxSeq < r.id ∧
      (∀ r0 ∈ sampleOutboxDatabase.outbox, r0.id < r.id) ∧
      r.entity_id = event1.EntityID ∧ r.event_type = event1.EventType ∧
      r.event_group = event1.EventGroup ∧
      CustomPayload.codec.Value event1.Payload = .ok r.payload :=
  ((PublishEvent_in_transaction Env.plain CustomPayload.codec
    [Session.call Faults.none (Op.publish event2)] Option.none Option.none Option.none
    { Err := Option.none } txOptions sampleOutboxDatabase sampleOutboxTx [] []
    Faults.none event1 (by decide) (by decide) (by decide)).2.2.2 (by decide)).2
    (fun p hp => by cases hp)

/-! ## Publisher: order of forwarding -/

theorem outboxLE_total : IsTotal OutboxRow outboxLE :=
  ⟨fun a b => Nat.le_total a.id b.id⟩

theorem outboxLE_trans : IsTrans OutboxRow outboxLE :=
  ⟨fun _ _ _ hab hbc => Nat.le_trans hab hbc⟩

theorem sorted_outbox (l : List OutboxRow) : (l.insertionSort outboxLE).Sorted outboxLE := by
  haveI := outboxLE_total
  haveI := outboxLE_trans
  exact List.sorted_insertionSort outboxLE l

theorem mem_selected (batch : Nat) (l : List OutboxRow) (r : OutboxRow)
    (h : r ∈ (l.insertionSort outboxLE).take batch) : r ∈ l :=
  (List.perm_insertionSort outboxLE l).subset (List.mem_of_mem_take h)

theorem Step.run_publish_ok {π : Type} (payload : Codec π) (s : OutboxSystem)
    (event : Event π) (blob : Blob) (h : payload.Value event.Payload = .ok blob) :
    Step.run payload s (Step.publish event) =
      { s with
        seq := s.seq + 1
        outbox := s.outbox.filter (fun r => !event.supersedes r) ++
          [event.row (s.seq + 1) blob] } := by
  simp only [Step.run, PublishEvent_ok payload _ _ event blob h, Event.row]

theorem Step.run_seq {π : Type} (payload : Codec π) (s : OutboxSystem) (step : Step π) :
    s.seq ≤ (Step.run payload s step).seq := by
  cases step with
  | publish event => exact (PublishEvent_rows payload Faults.none s.seq s.outbox event).1
  | poll batch ack => exact Nat.le_refl _

theorem Step.run_wellFormed {π : Type} (payload : Codec π) (s : OutboxSystem)
    (step : Step π) (h : s.WellFormed) : (Step.run payload s step).WellFormed := by
  obtain ⟨h1, h2, h3, h4⟩ := h
  cases step with
  | publish event =>
    obtain ⟨hseq, hrows, _⟩ := PublishEvent_rows payload Faults.none s.seq s.outbox event
    simp only [Step.run]
    refine ⟨?_, fun r hr => Nat.le_trans (h2 r hr) hseq,
      fun r hr => Nat.le_trans (h3 r hr) hseq, ?_⟩
    · intro r hr
      rcases hrows r hr with hr | hr
      · exact Nat.le_trans (h1 r hr) hseq
      · exact hr.2
    · intro r hr hack
      rcases hrows r hr with hr | hr
      · exact h4 r hr hack
      · exact absurd (h3 r hack) (Nat.not_le_of_lt hr.1)
  | poll batch ack =>
    simp only [Step.run, Publisher.poll]
    refine ⟨fun r hr => h1 r (List.mem_of_mem_filter hr), ?_, ?_, ?_⟩
    · intro r hr
      rcases List.mem_append.mp hr with hr | hr
      · exact h2 r hr
      · exact h1 r (mem_selected batch s.outbox r hr)
    · intro r hr
      rcases List.mem_append.mp hr with hr | hr
      · exact h3 r hr
      · exact h1 r (mem_selected batch s.outbox r (List.mem_of_mem_filter hr))
    · intro r hr hack
      rw [List.mem_filter] at hr
      obtain ⟨hmem, hkeep⟩ := hr
      rcases List.mem_append.mp hack with hack | hack
      · exact h4 r hmem hack
      · rw [List.mem_filter] at hack
        simp only [decide_eq_true_eq] at hkeep
        exact hkeep hack

theorem OutboxSystem.empty_wellFormed : OutboxSystem.empty.WellFormed :=
  ⟨fun _ hr => (by cases hr), fun _ hr => (by cases hr), fun _ hr => (by cases hr),
   fun _ hr _ => (by cases hr)⟩

theorem runSteps_wellFormed {π : Type} (payload : Codec π) (steps : List (Step π))
    (s : OutboxSystem) (h : s.WellFormed) : (runSteps payload s steps).WellFormed := by
  induction steps generalizing s with
  | nil => exact h
  | cons step steps ih => exact ih _ (Step.run_wellFormed payload s step h)

theorem runSteps_seq {π : Type} (payload : Codec π) (steps : List (Step π))
    (s : OutboxSystem) : s.seq ≤ (runSteps payload s steps).seq := by
  induction steps generalizing s with
  | nil => exact Nat.le_refl _
  | cons step steps ih => exact Nat.le_trans (Step.run_seq payload s step) (ih _)

theorem runSteps_append {π : Type} (payload : Codec π) (s : OutboxSystem)
    (steps1 steps2 : List (Step π)) :
    runSteps payload s (steps1 ++ steps2) =
      runSteps payload (runSteps payload s steps1) steps2 := by
  simp only [runSteps, List.foldl_append]

theorem runSteps_cons {π : Type} (payload : Codec π) (s : OutboxSystem) (step : Step π)
    (steps : List (Step π)) :
    runSteps payload s (step :: steps) = runSteps payload (Step.run payload s step) steps :=
  rfl

/-- A row that is in the outbox or has been forwarded is so after a step that does not
supersede it. -/
theorem Step.run_pending {π : Type} (payload : Codec π) (s : OutboxSystem) (step : Step π)
    (a : OutboxRow) (h : a ∈ s.outbox ∨ a ∈ s.sink) (hs : step.supersedes a = false) :
    a ∈ (Step.run payload s step).outbox ∨ a ∈ (Step.run payload s step).sink := by
  cases step with
  | publish event =>
    obtain ⟨_, _, hkeep⟩ := PublishEvent_rows payload Faults.none s.seq s.outbox event
    simp only [Step.run]
    rcases h with h | h
    · exact Or.inl (hkeep a h hs)
    · exact Or.inr h
  | poll batch ack =>
    simp only [Step.run, Publisher.poll]
    rcases h with h | h
    · by_cases hsel : a ∈ (s.outbox.insertionSort outboxLE).take batch
      · exact Or.inr (List.mem_append_right _ hsel)
      · left
        rw [List.mem_filter]
        refine ⟨h, ?_⟩
        simp only [decide_eq_true_eq]
        exact fun hc => hsel hc.1
    · exact Or.inr (List.mem_append_left _ h)

/-- A row whose id was handed out and that is neither in the outbox nor among the
forwarded rows does not come back. -/
theorem Step.run_gone {π : Type} (payload : Codec π) (s : OutboxSystem) (step : Step π)
    (a : OutboxRow) (hid : a.id ≤ s.seq) (h1 : a ∉ s.outbox) (h2 : a ∉ s.sink) :
    a ∉ (Step.run payload s step).outbox ∧ a ∉ (Step.run payload s step).sink := by
  cases step with
  | publish event =>
    obtain ⟨_, hrows, _⟩ := PublishEvent_rows payload Faults.none s.seq s.outbox event
    simp only [Step.run]
    refine ⟨fun hm => ?_, h2⟩
    rcases hrows a hm with h | h
    · exact h1 h
    · exact absurd hid (Nat.not_le_of_lt h.1)
  | poll batch ack =>
    simp only [Step.run, Publisher.poll]
    refine ⟨fun hm => h1 (List.mem_of_mem_filter hm), fun hm => ?_⟩
    rcases List.mem_append.mp hm with h | h
    · exact h2 h
    · exact h1 (mem_selected batch s.outbox a h)

/-- In a pass of the Publisher an older row that is still pending is forwarded before a
younger one. -/
theorem Step.run_order {π : Type} (payload : Codec π) (s : OutboxSystem) (step : Step π)
    (a b : OutboxRow) (hlt : a.id < b.id) (hp : a ∈ s.outbox ∨ a ∈ s.sink)
    (hq : ∀ l1 l2, s.sink = l1 ++ b :: l2 → a ∈ l1) :
    ∀ l1 l2, (Step.run payload s step).sink = l1 ++ b :: l2 → a ∈ l1 := by
  cases step with
  | publish event => exact hq
  | poll batch ack =>
    intro l1 l2 hsink
    simp only [Step.run, Publisher.poll] at hsink
    rcases List.append_eq_append_iff.mp hsink with ⟨a', hl1, hsel⟩ | ⟨c', hs, hc⟩
    · -- the occurrence of `b` lies in the rows selected by this pass
      rw [hl1]
      rcases hp with hp | hp
      · have hmem : a ∈ s.outbox.insertionSort outboxLE :=
          (List.perm_insertionSort outboxLE s.outbox).symm.subset hp
        have hsplit : s.outbox.insertionSort outboxLE =
            a' ++ b :: (l2 ++ (s.outbox.insertionSort outboxLE).drop batch) := by
          conv_lhs => rw [← List.take_append_drop batch (s.outbox.insertionSort outboxLE)]
          rw [hsel, List.append_assoc, List.cons_append]
        have hsorted := sorted_outbox s.outbox
        rw [hsplit] at hmem hsorted
        unfold List.Sorted at hsorted
        rw [List.pairwise_append] at hsorted
        obtain ⟨_, hcons, _⟩ := hsorted
        rw [List.pairwise_cons] at hcons
        rcases List.mem_append.mp hmem with hm | hm
        · exact List.mem_append_right _ hm
        · rcases List.mem_cons.mp hm with hm | hm
          · rw [hm] at hlt
            exact absurd hlt (Nat.lt_irrefl _)
          · exact absurd (hcons.1 a hm) (Nat.not_le_of_lt hlt)
      · exact List.mem_append_left _ hp
    · -- the occurrence of `b` lies in what was forwarded before
      cases c' with
      | nil =>
        simp only [List.nil_append] at hc
        simp only [List.append_nil] at hs
        rw [← hs]
        rcases hp with hp | hp
        · have hmem : a ∈ s.outbox.insertionSort outboxLE :=
            (List.perm_insertionSort outboxLE s.outbox).symm.subset hp
          have hsplit : s.outbox.insertionSort outboxLE =
              b :: (l2 ++ (s.outbox.insertionSort outboxLE).drop batch) := by
            conv_lhs => rw [← List.take_append_drop batch (s.outbox.insertionSort outboxLE)]
            rw [← hc, List.cons_append]
          have hsorted := sorted_outbox s.outbox
          rw [hsplit] at hmem hsorted
          unfold List.Sorted at hsorted
          rw [List.pairwise_cons] at hsorted
          rcases List.mem_cons.mp hmem with hm | hm
          · rw [hm] at hlt
            exact absurd hlt (Nat.lt_irrefl _)
          · exact absurd (hsorted.1 a hm) (Nat.not_le_of_lt hlt)
        · exact hp
      | cons x c'' =>
        simp only [List.cons_append, List.cons.injEq] at hc
        obtain ⟨hx, _⟩ := hc
        subst hx
        exact hq l1 c'' hs

/-- After a step, an older row is gone for good, or it stands before every occurrence of
the younger row among the forwarded rows. -/
theorem Step.run_forwarded_first {π : Type} (payload : Codec π) (s : OutboxSystem)
    (step : Step π) (a b : OutboxRow) (hlt : a.id < b.id) (hid : a.id ≤ s.seq)
    (hq : (a ∉ s.outbox ∧ a ∉ s.sink) ∨ ∀ l1 l2, s.sink = l1 ++ b :: l2 → a ∈ l1) :
    (a ∉ (Step.run payload s step).outbox ∧ a ∉ (Step.run payload s step).sink) ∨
    ∀ l1 l2, (Step.run payload s step).sink = l1 ++ b :: l2 → a ∈ l1 := by
  by_cases hp : a ∈ s.outbox ∨ a ∈ s.sink
  · rcases hq with hq | hq
    · rcases hp with hp | hp
      · exact absurd hp hq.1
      · exact absurd hp hq.2
    · exact Or.inr (Step.run_order payload s step a b hlt hp hq)
  · have hn := not_or.mp hp
    exact Or.inl (Step.run_gone payload s step a hid hn.1 hn.2)

theorem runSteps_forwarded_first {π : Type} (payload : Codec π) (steps : List (Step π))
    (s : OutboxSystem) (a b : OutboxRow) (hlt : a.id < b.id) (hid : a.id ≤ s.seq)
    (hq : (a ∉ s.outbox ∧ a ∉ s.sink) ∨ ∀ l1 l2, s.sink = l1 ++ b :: l2 → a ∈ l1) :
    (a ∉ (runSteps payload s steps).outbox ∧ a ∉ (runSteps payload s steps).sink) ∨
    ∀ l1 l2, (runSteps payload s steps).sink = l1 ++ b :: l2 → a ∈ l1 := by
  induction steps generalizing s with
  | nil => exact hq
  | cons step steps ih =>
    exact ih _ (Nat.le_trans hid (Step.run_seq payload s step))
      (Step.run_forwarded_first payload s step a b hlt hid hq)

theorem runSteps_pending_order {π : Type} (payload : Codec π) (steps : List (Step π))
    (s : OutboxSystem) (a b : OutboxRow) (hlt : a.id < b.id)
    (hns : ∀ st ∈ steps, st.supersedes a = false)
    (hp : a ∈ s.outbox ∨ a ∈ s.sink)
    (hq : ∀ l1 l2, s.sink = l1 ++ b :: l2 → a ∈ l1) :
    (a ∈ (runSteps payload s steps).outbox ∨ a ∈ (runSteps payload s steps).sink) ∧
    ∀ l1 l2, (runSteps payload s steps).sink = l1 ++ b :: l2 → a ∈ l1 := by
  induction steps generalizing s with
  | nil => exact ⟨hp, hq⟩
  | cons step steps ih =>
    exact ih _ (fun st hst => hns st (List.mem_cons_of_mem _ hst))
      (Step.run_pending payload s step a hp (hns step (List.mem_cons_self _ _)))
      (Step.run_order payload s step a b hlt hp hq)

theorem runSteps_pending {π : Type} (payload : Codec π) (steps : List (Step π))
    (s : OutboxSystem) (a : OutboxRow) (hns : ∀ st ∈ steps, st.supersedes a = false)
    (hp : a ∈ s.outbox ∨ a ∈ s.sink) :
    a ∈ (runSteps payload s steps).outbox ∨ a ∈ (runSteps payload s steps).sink := by
  induction steps generalizing s with
  | nil => exact hp
  | cons step steps ih =>
    exact ih _ (fun st hst => hns st (List.mem_cons_of_mem _ hst))
      (Step.run_pending payload s step a hp (hns step (List.mem_cons_self _ _)))

/-- Passes of the Publisher add no row to the outbox. -/
theorem runSteps_polls_subset {π : Type} (payload : Codec π) (steps : List (Step π))
    (s : OutboxSystem) (hpolls : ∀ st ∈ steps, st.isPoll = true) :
    ∀ r ∈ (runSteps payload s steps).outbox, r ∈ s.outbox := by
  induction steps generalizing s with
  | nil => exact fun r hr => hr
  | cons step steps ih =>
    intro r hr
    have hrest := ih (Step.run payload s step)
      (fun st hst => hpolls st (List.mem_cons_of_mem step hst)) r hr
    cases step with
    | publish event =>
      have := hpolls (Step.publish event) (List.mem_cons_self _ _)
      simp [Step.isPoll] at this
    | poll batch ack =>
      simp only [Step.run, Publisher.poll] at hrest
      exact List.mem_of_mem_filter hrest

/-- C20 as stated fails. On the empty outbox `event1` (`CustomID`, `Create`) is published
and committed, then `event1Delete` (`CustomID`, `Delete`), then the Publisher makes a
pass in which the sink acknowledges every row. After the first publication the outbox
holds the row of `event1`; the pass forwards the row of `event1Delete` and nothing else:
the row of `event1` is never forwarded, so it is not forwarded before the row of
`event1Delete`. -/
theorem Publisher_forwards_in_order_counterexample :
    (runSteps CustomPayload.codec OutboxSystem.empty [Step.publish event1]).outbox
      = [event1.row 1 "\x7b\"name\":\"test\"\x7d"] ∧
    (runSteps CustomPayload.codec OutboxSystem.empty
        [Step.publish event1, Step.publish event1Delete]).outbox
      = [event1Delete.row 2 "\x7b\"name\":\"test\"\x7d"] ∧
    (runSteps CustomPayload.codec OutboxSystem.empty
        [Step.publish event1, Step.publish event1Delete, pollAll]).sink
      = [event1Delete.row 2 "\x7b\"name\":\"test\"\x7d"] ∧
    (runSteps CustomPayload.codec OutboxSystem.empty
        [Step.publish event1, Step.publish event1Delete, pollAll]).acked
      = [event1Delete.row 2 "\x7b\"name\":\"test\"\x7d"] ∧
    (runSteps CustomPayload.codec OutboxSystem.empty
        [Step.publish event1, Step.publish event1Delete, pollAll]).outbox = [] ∧
    event1.row 1 "\x7b\"name\":\"test\"\x7d" ∉
      (runSteps CustomPayload.codec OutboxSystem.empty
        [Step.publish event1, Step.publish event1Delete, pollAll]).sink := by
  decide

/-- C20, amended. With the storage layer working, take any course of steps from the empty
outbox in which event A is published and committed, later event B is, and passes of the
Publisher and further publications come before, between and after. The row of A has the
smaller id. If the row of A is forwarded to the sink at all, it stands before the row of B
wherever the row of B stands among the forwarded rows. If no event published after A is
a `Delete` event of the entity and group of A, the row of A stays in the outbox until it
is forwarded, and it stands before the row of B wherever the row of B stands among the
forwarded rows. If nothing but A and B is published, then once the sink has acknowledged
the row of B, and the row of A as well unless B is a `Delete` event of the entity and
group of A, which takes the row of A out when it is published, the outbox is empty. -/
theorem Publisher_forwards_in_order {π : Type} (payload : Codec π)
    (pre mid post : List (Step π)) (A B : Event π) (ba bb : Blob)
    (hA : payload.Value A.Payload = .ok ba) (hB : payload.Value B.Payload = .ok bb) :
    (A.row ((runSteps payload OutboxSystem.empty pre).seq + 1) ba).id <
      (B.row ((runSteps payload OutboxSystem.empty
        (pre ++ Step.publish A :: mid)).seq + 1) bb).id ∧
    (∀ l1 l2,
      (runSteps payload OutboxSystem.empty
          (pre ++ Step.publish A :: (mid ++ Step.publish B :: post))).sink =
        l1 ++ B.row ((runSteps payload OutboxSystem.empty
          (pre ++ Step.publish A :: mid)).seq + 1) bb :: l2 →
      A.row ((runSteps payload OutboxSystem.empty pre).seq + 1) ba ∈
        (runSteps payload OutboxSystem.empty
          (pre ++ Step.publish A :: (mid ++ Step.publish B :: post))).sink →
      A.row ((runSteps payload OutboxSystem.empty pre).seq + 1) ba ∈ l1) ∧
    ((∀ st ∈ mid ++ Step.publish B :: post,
        st.supersedes (A.row ((runSteps payload OutboxSystem.empty pre).seq + 1) ba)
          = false) →
      (A.row ((runSteps payload OutboxSystem.empty pre).seq + 1) ba ∈
          (runSteps payload OutboxSystem.empty
            (pre ++ Step.publish A :: (mid ++ Step.publish B :: post))).outbox ∨
        A.row ((runSteps payload OutboxSystem.empty pre).seq + 1) ba ∈
          (runSteps payload OutboxSystem.empty
            (pre ++ Step.publish A :: (mid ++ Step.publish B :: post))).sink) ∧
      ∀ l1 l2,
        (runSteps payload OutboxSystem.empty
            (pre ++ Step.publish A :: (mid ++ Step.publish B :: post))).sink =
          l1 ++ B.row ((runSteps payload OutboxSystem.empty
            (pre ++ Step.publish A :: mid)).seq + 1) bb :: l2 →
        A.row ((runSteps payload OutboxSystem.empty pre).seq + 1) ba ∈ l1) ∧
    ((∀ st ∈ pre ++ mid ++ post, st.isPoll = true) →
      (A.row ((runSteps payload OutboxSystem.empty pre).seq + 1) ba ∈
          (runSteps payload OutboxSystem.empty
            (pre ++ Step.publish A :: (mid ++ Step.publish B :: post))).acked ∨
        A.supersededBy B = true) →
      B.row ((runSteps payload OutboxSystem.empty
          (pre ++ Step.publish A :: mid)).seq + 1) bb ∈
        (runSteps payload OutboxSystem.empty
          (pre ++ Step.publish A :: (mid ++ Step.publish B :: post))).acked →
      (runSteps payload OutboxSystem.empty
          (pre ++ Step.publish A :: (mid ++ Step.publish B :: post))).outbox = []) := by
  -- the states along the way
  have hwf1 := runSteps_wellFormed payload pre OutboxSystem.empty
    OutboxSystem.empty_wellFormed
  have hs2 := Step.run_publish_ok payload (runSteps payload OutboxSystem.empty pre) A ba hA
  have hs3 : runSteps payload OutboxSystem.empty (pre ++ Step.publish A :: mid) =
      runSteps payload
        (Step.run payload (runSteps payload OutboxSystem.empty pre) (Step.publish A))
        mid := by
    rw [runSteps_append, runSteps_cons]
  have hwf3 : (runSteps payload OutboxSystem.empty
      (pre ++ Step.publish A :: mid)).WellFormed :=
    runSteps_wellFormed payload _ _ OutboxSystem.empty_wellFormed
  have hseq3 : (runSteps payload OutboxSystem.empty pre).seq + 1 ≤
      (runSteps payload OutboxSystem.empty (pre ++ Step.publish A :: mid)).seq := by
    rw [hs3]
    have h := runSteps_seq payload mid
      (Step.run payload (runSteps payload OutboxSystem.empty pre) (Step.publish A))
    rw [hs2] at h ⊢
    exact h
  have hlt : (A.row ((runSteps payload OutboxSystem.empty pre).seq + 1) ba).id <
      (B.row ((runSteps payload OutboxSystem.empty
        (pre ++ Step.publish A :: mid)).seq + 1) bb).id :=
    Nat.lt_succ_of_le hseq3
  have hs4 := Step.run_publish_ok payload
    (runSteps payload OutboxSystem.empty (pre ++ Step.publish A :: mid)) B bb hB
  have hfinal : runSteps payload OutboxSystem.empty
        (pre ++ Step.publish A :: (mid ++ Step.publish B :: post)) =
      runSteps payload (Step.run payload
        (runSteps payload OutboxSystem.empty (pre ++ Step.publish A :: mid))
        (Step.publish B)) post := by
    have happ : pre ++ Step.publish A :: (mid ++ Step.publish B :: post) =
        (pre ++ Step.publish A :: mid) ++ Step.publish B :: post := by
      simp
    rw [happ, runSteps_append, runSteps_cons]
  have hid4 : (A.row ((runSteps payload OutboxSystem.empty pre).seq + 1) ba).id ≤
      (Step.run payload (runSteps payload OutboxSystem.empty (pre ++ Step.publish A :: mid))
        (Step.publish B)).seq :=
    Nat.le_trans hseq3 (Step.run_seq payload _ _)
  have hq4 : ∀ l1 l2,
      (Step.run payload (runSteps payload OutboxSystem.empty (pre ++ Step.publish A :: mid))
          (Step.publish B)).sink =
        l1 ++ B.row ((runSteps payload OutboxSystem.empty
          (pre ++ Step.publish A :: mid)).seq + 1) bb :: l2 →
      A.row ((runSteps payload OutboxSystem.empty pre).seq + 1) ba ∈ l1 := by
    intro l1 l2 hsink
    rw [hs4] at hsink
    simp only at hsink
    have hmem : B.row ((runSteps payload OutboxSystem.empty
          (pre ++ Step.publish A :: mid)).seq + 1) bb ∈
        (runSteps payload OutboxSystem.empty (pre ++ Step.publish A :: mid)).sink := by
      rw [hsink]
      exact List.mem_append_right _ (List.mem_cons_self _ _)
    exact absurd (hwf3.2.1 _ hmem) (Nat.not_succ_le_self _)
  refine ⟨hlt, ?_, ?_, ?_⟩
  · intro l1 l2 hsink hmem
    rw [hfinal] at hsink hmem
    rcases runSteps_forwarded_first payload post _ _ _ hlt hid4 (Or.inr hq4) with h | h
    · exact absurd hmem h.2
    · exact h l1 l2 hsink
  · intro hns
    have hp3 : A.row ((runSteps payload OutboxSystem.empty pre).seq + 1) ba ∈
          (runSteps payload OutboxSystem.empty (pre ++ Step.publish A :: mid)).outbox ∨
        A.row ((runSteps payload OutboxSystem.empty pre).seq + 1) ba ∈
          (runSteps payload OutboxSystem.empty (pre ++ Step.publish A :: mid)).sink := by
      rw [hs3]
      apply runSteps_pending payload mid _ _
        (fun st hst => hns st (List.mem_append_left _ hst))
      rw [hs2]
      exact Or.inl (List.mem_append_right _ (List.mem_singleton_self _))
    have hp4 := Step.run_pending payload _ (Step.publish B) _ hp3
      (hns _ (List.mem_append_right _ (List.mem_cons_self _ _)))
    rw [hfinal]
    exact runSteps_pending_order payload post _ _ _ hlt
      (fun st hst => hns st (List.mem_append_right _ (List.mem_cons_of_mem _ hst)))
      hp4 hq4
  · intro hpolls hackA hackB
    have hwf5 : (runSteps payload OutboxSystem.empty
        (pre ++ Step.publish A :: (mid ++ Step.publish B :: post))).WellFormed :=
      runSteps_wellFormed payload _ _ OutboxSystem.empty_wellFormed
    have hsub : ∀ r ∈ (runSteps payload OutboxSystem.empty
          (pre ++ Step.publish A :: (mid ++ Step.publish B :: post))).outbox,
        (r = A.row ((runSteps payload OutboxSystem.empty pre).seq + 1) ba ∧
          A.supersededBy B = false) ∨
        r = B.row ((runSteps payload OutboxSystem.empty
          (pre ++ Step.publish A :: mid)).seq + 1) bb := by
      intro r hr
      rw [hfinal] at hr
      have h4 := runSteps_polls_subset payload post _
        (fun st hst => hpolls st (List.mem_append_right _ hst)) r hr
      rw [hs4] at h4
      simp only [List.mem_append, List.mem_singleton, List.mem_filter] at h4
      rcases h4 with ⟨h3, hkeep⟩ | h3
      · rw [hs3] at h3
        have h2 := runSteps_polls_subset payload mid _
          (fun st hst => hpolls st
            (List.mem_append_left _ (List.mem_append_right _ hst))) r h3
        rw [hs2] at h2
        simp only [List.mem_append, List.mem_singleton, List.mem_filter] at h2
        rcases h2 with ⟨h1, _⟩ | h1
        · have h0 := runSteps_polls_subset payload pre OutboxSystem.empty
            (fun st hst => hpolls st
              (List.mem_append_left _ (List.mem_append_left _ hst))) r h1
          cases h0
        · left
          refine ⟨h1, ?_⟩
          rw [h1] at hkeep
          have hsame : B.supersedes
              (A.row ((runSteps payload OutboxSystem.empty pre).seq + 1) ba) =
              A.supersededBy B := rfl
          rw [hsame] at hkeep
          simpa using hkeep
      · exact Or.inr h3
    apply List.eq_nil_iff_forall_not_mem.mpr
    intro r hr
    rcases hsub r hr with ⟨h, hns⟩ | h
    · rcases hackA with hackA | hsup
      · rw [h] at hr
        exact hwf5.2.2.2 _ hr hackA
      · rw [hns] at hsup
        cases hsup
    · rw [h] at hr
      exact hwf5.2.2.2 _ hr hackB

/-- Witness for the amended C20. `event1` (`CustomID`, `Create`) and later `event1Delete`
(`CustomID`, `Delete`) on the empty outbox, each followed by a pass of the Publisher that
the sink acknowledges: the row of `event1` stands before the row of `event1Delete` among
the forwarded rows, and the outbox is empty. And `event1`, then `event2`, then such a
pass: the row of `event1` is in the outbox or forwarded. -/
theorem Publisher_forwards_in_order_witness :
    event1.row ((runSteps CustomPayload.codec OutboxSystem.empty []).seq + 1)
        "\x7b\"name\":\"test\"\x7d" ∈
      [event1.row 1 "\x7b\"name\":\"test\"\x7d"] ∧
    (runSteps CustomPayload.codec OutboxSystem.empty
        ([] ++ Step.publish event1 ::
          ([pollAll] ++ Step.publish event1Delete :: [pollAll]))).outbox = [] ∧
    (event1.row ((runSteps CustomPayload.codec OutboxSystem.empty []).seq + 1)
        "\x7b\"name\":\"test\"\x7d" ∈
      (runSteps CustomPayload.codec OutboxSystem.empty
        ([] ++ Step.publish event1 :: ([] ++ Step.publish event2 :: [pollAll]))).outbox ∨
     event1.row ((runSteps CustomPayload.codec OutboxSystem.empty []).seq + 1)
        "\x7b\"name\":\"test\"\x7d" ∈
      (runSteps CustomPayload.codec OutboxSystem.empty
        ([] ++ Step.publish event1 :: ([] ++ Step.publish event2 :: [pollAll]))).sink) :=
  ⟨(Publisher_forwards_in_order CustomPayload.codec [] [pollAll] [pollAll]
      event1 event1Delete "\x7b\"name\":\"test\"\x7d" "\x7b\"name\":\"test\"\x7d"
      rfl rfl).2.1 [event1.row 1 "\x7b\"name\":\"test\"\x7d"] [] (by decide) (by decide),
   (Publisher_forwards_in_order CustomPayload.codec [] [pollAll] [pollAll]
      event1 event1Delete "\x7b\"name\":\"test\"\x7d" "\x7b\"name\":\"test\"\x7d"
      rfl rfl).2.2.2 (by decide) (Or.inl (by decide)) (by decide),
   ((Publisher_forwards_in_order CustomPayload.codec [] [] [pollAll]
      event1 event2 "\x7b\"name\":\"test\"\x7d" "\x7b\"name\":\"test\"\x7d"
      rfl rfl).2.2.1 (by decide)).1⟩

/-! ## Publisher: rows stay until acknowledged or superseded -/

/-- Sorted by `id` and without two rows of the same `id` means strictly ascending. -/
theorem strict_of_sorted_nodup (l : List OutboxRow) (hs : l.Sorted outboxLE)
    (hn : (l.map OutboxRow.id).Nodup) : l.Pairwise (fun a b => a.id < b.id) := by
  unfold List.Nodup at hn
  rw [List.pairwise_map] at hn
  exact (List.Pairwise.and hs hn).imp (fun h => Nat.lt_of_le_of_ne h.1 h.2)

/-- In a strictly ascending list a row is among the first `b` exactly when fewer than `b`
rows have a smaller `id`. -/
theorem mem_take_iff_older (s : List OutboxRow) (hs : s.Pairwise (fun a b => a.id < b.id))
    (r : OutboxRow) (hr : r ∈ s) (b : Nat) :
    r ∈ s.take b ↔ (s.filter (fun x => decide (x.id < r.id))).length < b := by
  induction s generalizing b with
  | nil => cases hr
  | cons a t ih =>
    rw [List.pairwise_cons] at hs
    obtain ⟨ha, ht⟩ := hs
    rcases List.mem_cons.mp hr with h | h
    · subst h
      have hnone : t.filter (fun x => decide (x.id < r.id)) = [] := by
        rw [List.filter_eq_nil_iff]
        intro x hx
        simp only [decide_eq_true_eq]
        exact Nat.lt_asymm (ha x hx)
      cases b with
      | zero => simp
      | succ b => simp [List.filter_cons, hnone]
    · have hlt : a.id < r.id := ha r h
      cases b with
      | zero => simp
      | succ b =>
        have hne : r ≠ a := by
          intro he
          rw [he] at hlt
          exact Nat.lt_irrefl _ hlt
        simp only [List.take_succ_cons, List.mem_cons, hne, false_or, List.filter_cons, hlt,
          decide_True, if_true, List.length_cons, Nat.succ_lt_succ_iff]
        exact ih ht h b

/-- Under the primary key of the outbox, a pass over `b` rows selects a row exactly when
fewer than `b` rows of the outbox are older. -/
theorem selected_iff_older (l : List OutboxRow) (hn : (l.map OutboxRow.id).Nodup)
    (r : OutboxRow) (hr : r ∈ l) (b : Nat) :
    r ∈ (l.insertionSort outboxLE).take b ↔
      (l.filter (fun x => decide (x.id < r.id))).length < b := by
  have hperm := List.perm_insertionSort outboxLE l
  have hstrict := strict_of_sorted_nodup _ (sorted_outbox l)
    ((hperm.map OutboxRow.id).nodup_iff.mpr hn)
  rw [mem_take_iff_older _ hstrict r (hperm.symm.subset hr) b,
    (hperm.filter (fun x => decide (x.id < r.id))).length_eq]

/-- A publication whose payload cannot be serialized leaves the outbox as it was. -/
theorem Step.run_publish_error {π : Type} (payload : Codec π) (s : OutboxSystem)
    (event : Event π) (e : GoError) (h : payload.Value event.Payload = .error e) :
    Step.run payload s (Step.publish event) = s := by
  simp [Step.run, PublishEvent, Faults.none, h]

/-- A step keeps the primary key of the outbox. -/
theorem Step.run_primaryKey {π : Type} (payload : Codec π) (s : OutboxSystem) (step : Step π)
    (hwf : s.WellFormed) (hn : (s.outbox.map OutboxRow.id).Nodup) :
    ((Step.run payload s step).outbox.map OutboxRow.id).Nodup := by
  cases step with
  | publish event =>
    cases hv : payload.Value event.Payload with
    | error e =>
      rw [Step.run_publish_error payload s event e hv]
      exact hn
    | ok blob =>
      rw [Step.run_publish_ok payload s event blob hv]
      simp only [List.map_append, List.map_cons, List.map_nil]
      rw [List.nodup_append]
      refine ⟨hn.sublist ((List.filter_sublist _).map OutboxRow.id),
        List.nodup_singleton _, ?_⟩
      intro x hx hx2
      rw [List.mem_singleton] at hx2
      obtain ⟨r, hr, hid⟩ := List.mem_map.mp hx
      have := hwf.1 r (List.mem_of_mem_filter hr)
      simp only [Event.row] at hx2
      omega
  | poll batch ack =>
    simp only [Step.run, Publisher.poll]
    exact hn.sublist ((List.filter_sublist _).map OutboxRow.id)

theorem runSteps_primaryKey {π : Type} (payload : Codec π) (steps : List (Step π))
    (s : OutboxSystem) (hwf : s.WellFormed) (hn : (s.outbox.map OutboxRow.id).Nodup) :
    ((runSteps payload s steps).outbox.map OutboxRow.id).Nodup := by
  induction steps generalizing s with
  | nil => exact hn
  | cons step steps ih =>
    exact ih _ (Step.run_wellFormed payload s step hwf)
      (Step.run_primaryKey payload s step hwf hn)

/-- A step adds no row that is older than a row published before. -/
theorem Step.run_older {π : Type} (payload : Codec π) (s : OutboxSystem) (step : Step π)
    (n : Nat) (hn : n ≤ s.seq) :
    ((Step.run payload s step).outbox.filter (fun x => decide (x.id < n))).length ≤
      (s.outbox.filter (fun x => decide (x.id < n))).length := by
  cases step with
  | publish event =>
    cases hv : payload.Value event.Payload with
    | error e =>
      rw [Step.run_publish_error payload s event e hv]
    | ok blob =>
      rw [Step.run_publish_ok payload s event blob hv]
      simp only [List.filter_append, List.length_append]
      have hnone : [event.row (s.seq + 1) blob].filter (fun x => decide (x.id < n)) = [] := by
        rw [List.filter_eq_nil_iff]
        intro x hx
        rw [List.mem_singleton] at hx
        subst hx
        simp only [decide_eq_true_eq, Event.row]
        omega
      rw [hnone]
      simp only [List.length_nil, Nat.add_zero]
      exact ((List.filter_sublist _).filter _).length_le
  | poll batch ack =>
    simp only [Step.run, Publisher.poll]
    exact ((List.filter_sublist _).filter _).length_le

/-- A row leaves the outbox only in a pass that selected it and in which the sink
acknowledged it, or when an event that supersedes it is published. -/
theorem Step.run_removed {π : Type} (payload : Codec π) (s : OutboxSystem) (step : Step π)
    (r : OutboxRow) (hr : r ∈ s.outbox) (hgone : r ∉ (Step.run payload s step).outbox) :
    (∃ batch ack, step = Step.poll batch ack ∧
      r ∈ (s.outbox.insertionSort outboxLE).take batch ∧ ack r = true ∧
      r ∈ (Step.run payload s step).acked) ∨
    (∃ event, step = Step.publish event ∧ event.supersedes r = true) := by
  cases step with
  | publish event =>
    right
    refine ⟨event, rfl, ?_⟩
    obtain ⟨_, _, hkeep⟩ := PublishEvent_rows payload Faults.none s.seq s.outbox event
    by_contra hns
    simp only [Step.run] at hgone
    exact hgone (hkeep r hr (Bool.eq_false_iff.mpr hns))
  | poll batch ack =>
    left
    simp only [Step.run, Publisher.poll, List.mem_filter, hr, true_and, decide_eq_true_eq,
      not_not] at hgone
    refine ⟨batch, ack, rfl, hgone.1, hgone.2, ?_⟩
    simp only [Step.run, Publisher.poll]
    exact List.mem_append_right _ (List.mem_filter.mpr ⟨hgone.1, hgone.2⟩)

/-- The rows of the outbox with an `id` handed out before a step are rows that were in
the outbox before the step. -/
theorem Step.run_old_rows {π : Type} (payload : Codec π) (s : OutboxSystem) (step : Step π)
    (r : OutboxRow) (hr : r ∈ (Step.run payload s step).outbox) (hid : r.id ≤ s.seq) :
    r ∈ s.outbox := by
  cases step with
  | publish event =>
    obtain ⟨_, hrows, _⟩ := PublishEvent_rows payload Faults.none s.seq s.outbox event
    simp only [Step.run] at hr
    rcases hrows r hr with h | h
    · exact h
    · exact absurd hid (Nat.not_le_of_lt h.1)
  | poll batch ack =>
    simp only [Step.run, Publisher.poll] at hr
    exact List.mem_of_mem_filter hr

theorem runSteps_old_rows {π : Type} (payload : Codec π) (steps : List (Step π))
    (s : OutboxSystem) (r : OutboxRow) (hr : r ∈ (runSteps payload s steps).outbox)
    (hid : r.id ≤ s.seq) : r ∈ s.outbox := by
  induction steps generalizing s with
  | nil => exact hr
  | cons step steps ih =>
    exact Step.run_old_rows payload s step r
      (ih _ hr (Nat.le_trans hid (Step.run_seq payload s step))) hid

/-- A row of the outbox is later in the outbox or among the acknowledged rows, or an
event that supersedes it was published. -/
theorem runSteps_kept_or_acked {π : Type} (payload : Codec π) (steps : List (Step π))
    (s : OutboxSystem) (r : OutboxRow) (hr : r ∈ s.outbox ∨ r ∈ s.acked) :
    r ∈ (runSteps payload s steps).outbox ∨ r ∈ (runSteps payload s steps).acked ∨
      ∃ st ∈ steps, st.supersedes r = true := by
  induction steps generalizing s with
  | nil =>
    rcases hr with h | h
    · exact Or.inl h
    · exact Or.inr (Or.inl h)
  | cons step steps ih =>
    have hstep : (r ∈ (Step.run payload s step).outbox ∨
        r ∈ (Step.run payload s step).acked) ∨ step.supersedes r = true := by
      rcases hr with hr | hr
      · by_cases hin : r ∈ (Step.run payload s step).outbox
        · exact Or.inl (Or.inl hin)
        · rcases Step.run_removed payload s step r hr hin with
            ⟨_, _, _, _, _, hack⟩ | ⟨event, hst, hsup⟩
          · exact Or.inl (Or.inr hack)
          · right
            rw [hst]
            exact hsup
      · left
        right
        cases step with
        | publish event => exact hr
        | poll batch ack =>
          simp only [Step.run, Publisher.poll]
          exact List.mem_append_left _ hr
    rcases hstep with h | h
    · rcases ih _ h with h1 | h1 | ⟨st, hst, hs⟩
      · exact Or.inl h1
      · exact Or.inr (Or.inl h1)
      · exact Or.inr (Or.inr ⟨st, List.mem_cons_of_mem _ hst, hs⟩)
    · exact Or.inr (Or.inr ⟨step, List.mem_cons_self _ _, h⟩)

/-- While the sink does not acknowledge a row and no event that supersedes it is
published, the row stays in the outbox, the primary key holds, and no older row is
added. -/
theorem runSteps_unacknowledged {π : Type} (payload : Codec π) (steps : List (Step π))
    (s : OutboxSystem) (r : OutboxRow) (hwf : s.WellFormed)
    (hn : (s.outbox.map OutboxRow.id).Nodup) (hr : r ∈ s.outbox)
    (hnack : ∀ st ∈ steps, st.acknowledges r = false ∧ st.supersedes r = false) :
    r ∈ (runSteps payload s steps).outbox ∧
    ((runSteps payload s steps).outbox.map OutboxRow.id).Nodup ∧
    ((runSteps payload s steps).outbox.filter (fun x => decide (x.id < r.id))).length ≤
      (s.outbox.filter (fun x => decide (x.id < r.id))).length := by
  induction steps generalizing s with
  | nil => exact ⟨hr, hn, Nat.le_refl _⟩
  | cons step steps ih =>
    have hkept : r ∈ (Step.run payload s step).outbox := by
      by_cases hin : r ∈ (Step.run payload s step).outbox
      · exact hin
      · have hthis := hnack step (List.mem_cons_self _ _)
        rcases Step.run_removed payload s step r hr hin with
          ⟨batch, ack, hstep, _, hack, _⟩ | ⟨event, hstep, hsup⟩
        · rw [hstep] at hthis
          have h1 : ack r = false := hthis.1
          rw [h1] at hack
          cases hack
        · rw [hstep] at hthis
          have h2 : event.supersedes r = false := hthis.2
          rw [h2] at hsup
          cases hsup
    obtain ⟨h1, h2, h3⟩ := ih (Step.run payload s step)
      (Step.run_wellFormed payload s step hwf) (Step.run_primaryKey payload s step hwf hn)
      hkept (fun st hmem => hnack st (List.mem_cons_of_mem _ hmem))
    exact ⟨h1, h2, Nat.le_trans h3 (Step.run_older payload s step r.id (hwf.1 r hr))⟩

/-- C21 as stated fails. After `event1` and `event2` were published on the empty outbox,
a pass over one row forwards the row of `event1` and the sink does not acknowledge it:
the row is in the outbox, and no row has been acknowledged. Then `event1Delete` is
published: the row of `event1` is no longer in the outbox, though the sink has
acknowledged nothing, and the next pass over one row forwards the row of `event2`
and not the row of `event1` again. -/
theorem Publisher_keeps_unacknowledged_counterexample :
    event1.row 1 "\x7b\"name\":\"test\"\x7d" ∈
      (runSteps CustomPayload.codec OutboxSystem.empty
        [Step.publish event1, Step.publish event2, pollUnacknowledged]).outbox ∧
    (runSteps CustomPayload.codec OutboxSystem.empty
        [Step.publish event1, Step.publish event2, pollUnacknowledged]).sink
      = [event1.row 1 "\x7b\"name\":\"test\"\x7d"] ∧
    event1.row 1 "\x7b\"name\":\"test\"\x7d" ∉
      (runSteps CustomPayload.codec OutboxSystem.empty
        [Step.publish event1, Step.publish event2, pollUnacknowledged,
         Step.publish event1Delete]).outbox ∧
    (runSteps CustomPayload.codec OutboxSystem.empty
        [Step.publish event1, Step.publish event2, pollUnacknowledged,
         Step.publish event1Delete]).acked = [] ∧
    (runSteps CustomPayload.codec OutboxSystem.empty
        [Step.publish event1, Step.publish event2, pollUnacknowledged,
         Step.publish event1Delete, pollUnacknowledged]).sink
      = [event1.row 1 "\x7b\"name\":\"test\"\x7d",
         event2.row 2 "\x7b\"name\":\"test\"\x7d"] := by
  decide

/-- C21, amended. In every state of the outbox reached from the empty outbox by committed
publications and passes of the Publisher, and for every step from it: a row leaves the
outbox only in a pass that selected it and in which the sink acknowledged it, or when a
`Delete` event of its entity and group is published; so over any course of steps a row of
the outbox is still there, or has been acknowledged, or such an event was published; a
row found later under the `id` of a row of the outbox is that row, unchanged; and a row
that a pass selected and the sink did not acknowledge is, for as long as the sink does
not acknowledge it and no such event is published, still in the outbox and selected,
hence forwarded again, by every later pass whose batch is not smaller. -/
theorem Publisher_keeps_unacknowledged {π : Type} (payload : Codec π)
    (history : List (Step π)) :
    (∀ (step : Step π) (r : OutboxRow),
      r ∈ (runSteps payload OutboxSystem.empty history).outbox →
      r ∉ (Step.run payload (runSteps payload OutboxSystem.empty history) step).outbox →
      (∃ batch ack, step = Step.poll batch ack ∧
        r ∈ ((runSteps payload OutboxSystem.empty history).outbox.insertionSort
          outboxLE).take batch ∧ ack r = true ∧
        r ∈ (Step.run payload (runSteps payload OutboxSystem.empty history) step).acked) ∨
      (∃ event, step = Step.publish event ∧ event.supersedes r = true)) ∧
    (∀ (steps : List (Step π)) (r : OutboxRow),
      r ∈ (runSteps payload OutboxSystem.empty history).outbox →
      r ∈ (runSteps payload (runSteps payload OutboxSystem.empty history) steps).outbox ∨
      r ∈ (runSteps payload (runSteps payload OutboxSystem.empty history) steps).acked ∨
      ∃ st ∈ steps, st.supersedes r = true) ∧
    (∀ (steps : List (Step π)) (r r2 : OutboxRow),
      r ∈ (runSteps payload OutboxSystem.empty history).outbox →
      r2 ∈ (runSteps payload (runSteps payload OutboxSystem.empty history) steps).outbox →
      r2.id = r.id → r2 = r) ∧
    (∀ (batch : Nat) (ack : OutboxRow → Bool) (r : OutboxRow),
      r ∈ ((runSteps payload OutboxSystem.empty history).outbox.insertionSort
        outboxLE).take batch →
      ack r = false →
      ∀ steps : List (Step π),
        (∀ st ∈ steps, st.acknowledges r = false ∧ st.supersedes r = false) →
        r ∈ (runSteps payload
          (Step.run payload (runSteps payload OutboxSystem.empty history)
            (Step.poll batch ack)) steps).outbox ∧
        ∀ (batch2 : Nat) (ack2 : OutboxRow → Bool), batch ≤ batch2 →
          r ∈ ((runSteps payload
            (Step.run payload (runSteps payload OutboxSystem.empty history)
              (Step.poll batch ack)) steps).outbox.insertionSort outboxLE).take batch2 ∧
          r ∈ (Step.run payload
                (runSteps payload
                  (Step.run payload (runSteps payload OutboxSystem.empty history)
                    (Step.poll batch ack)) steps)
                (Step.poll batch2 ack2)).sink) := by
  have hwf := runSteps_wellFormed payload history OutboxSystem.empty
    OutboxSystem.empty_wellFormed
  have hpk := runSteps_primaryKey payload history OutboxSystem.empty
    OutboxSystem.empty_wellFormed List.nodup_nil
  generalize runSteps payload OutboxSystem.empty history = s at hwf hpk ⊢
  refine ⟨fun step r hr hgone => Step.run_removed payload s step r hr hgone,
    fun steps r hr => runSteps_kept_or_acked payload steps s r (Or.inl hr), ?_, ?_⟩
  · intro steps r r2 hr hr2 hid
    have hold : r2 ∈ s.outbox :=
      runSteps_old_rows payload steps s r2 hr2 (by rw [hid]; exact hwf.1 r hr)
    unfold List.Nodup at hpk
    rw [List.pairwise_map] at hpk
    by_contra hne
    rcases List.mem_iff_append.mp hr with ⟨l1, l2, hsplit⟩
    rw [hsplit] at hold hpk
    rw [List.pairwise_append, List.pairwise_cons] at hpk
    obtain ⟨_, ⟨hafter, _⟩, hbefore⟩ := hpk
    rcases List.mem_append.mp hold with h | h
    · exact hbefore r2 h r (List.mem_cons_self _ _) hid
    · rcases List.mem_cons.mp h with h | h
      · exact hne h
      · exact hafter r2 h hid.symm
  · intro batch ack r hsel hack steps hnack
    have hr : r ∈ s.outbox := mem_selected batch s.outbox r hsel
    obtain ⟨h1, h2, h3⟩ := runSteps_unacknowledged payload (Step.poll batch ack :: steps) s r
      hwf hpk hr (by
        intro st hmem
        rcases List.mem_cons.mp hmem with h | h
        · rw [h]
          exact ⟨hack, rfl⟩
        · exact hnack st h)
    rw [runSteps_cons] at h1 h2 h3
    refine ⟨h1, fun batch2 ack2 hle => ?_⟩
    have hsel2 : r ∈ ((runSteps payload (Step.run payload s (Step.poll batch ack))
        steps).outbox.insertionSort outboxLE).take batch2 := by
      rw [selected_iff_older _ h2 r h1 batch2]
      have := (selected_iff_older _ hpk r hr batch).mp hsel
      omega
    refine ⟨hsel2, ?_⟩
    simp only [Step.run, Publisher.poll]
    exact List.mem_append_right _ hsel2

/-- Witness for the amended C21: after `event1` and `event2` were published, a pass over
one row forwards the row of `event1` and the sink does not acknowledge it; after a
further publication of `event2` and a further such pass the row is still in the outbox,
and the next pass over one row forwards it again. And after `event1Delete` is published
instead, the row is in the outbox, or acknowledged, or superseded by a published
event. -/
theorem Publisher_keeps_unacknowledged_witness :
    (event1.row 1 "\x7b\"name\":\"test\"\x7d" ∈
      (runSteps CustomPayload.codec
        (Step.run CustomPayload.codec
          (runSteps CustomPayload.codec OutboxSystem.empty
            [Step.publish event1, Step.publish event2])
          (Step.poll 1 (fun _ => false)))
        [Step.publish event2, pollUnacknowledged]).outbox ∧
     event1.row 1 "\x7b\"name\":\"test\"\x7d" ∈
      (Step.run CustomPayload.codec
        (runSteps CustomPayload.codec
          (Step.run CustomPayload.codec
            (runSteps CustomPayload.codec OutboxSystem.empty
              [Step.publish event1, Step.publish event2])
            (Step.poll 1 (fun _ => false)))
          [Step.publish event2, pollUnacknowledged])
        (Step.poll 1 (fun _ => true))).sink) ∧
    (event1.row 1 "\x7b\"name\":\"test\"\x7d" ∈
      (runSteps CustomPayload.codec
        (runSteps CustomPayload.codec OutboxSystem.empty
          [Step.publish event1, Step.publish event2])
        [Step.publish event1Delete]).outbox ∨
     event1.row 1 "\x7b\"name\":\"test\"\x7d" ∈
      (runSteps CustomPayload.codec
        (runSteps CustomPayload.codec OutboxSystem.empty
          [Step.publish event1, Step.publish event2])
        [Step.publish event1Delete]).acked ∨
     ∃ st ∈ [Step.publish event1Delete],
       st.supersedes (event1.row 1 "\x7b\"name\":\"test\"\x7d") = true) :=
  ⟨⟨((Publisher_keeps_unacknowledged CustomPayload.codec
        [Step.publish event1, Step.publish event2]).2.2.2 1 (fun _ => false)
        (event1.row 1 "\x7b\"name\":\"test\"\x7d") (by decide) rfl
        [Step.publish event2, pollUnacknowledged] (by decide)).1,
     (((Publisher_keeps_unacknowledged CustomPayload.codec
        [Step.publish event1, Step.publish event2]).2.2.2 1 (fun _ => false)
        (event1.row 1 "\x7b\"name\":\"test\"\x7d") (by decide) rfl
        [Step.publish event2, pollUnacknowledged] (by decide)).2 1 (fun _ => true)
        (Nat.le_refl 1)).2⟩,
   (Publisher_keeps_unacknowledged CustomPayload.codec
      [Step.publish event1, Step.publish event2]).2.1 [Step.publish event1Delete]
      (event1.row 1 "\x7b\"name\":\"test\"\x7d") (by decide)⟩

end Odahuflow
